import Mathlib

/-!
# UnorderedMap over a shared doubly-linked List

A shallow embedding of `src/unordered_map/unordered_map.h` (classes `List` and
`UnorderedMap`), and proofs about it.

* Node addresses are natural numbers.  The sentinel `endNode` of a `List` lives at
  address `0`; list nodes are allocated at the fresh addresses `1, 2, 3, ...` and an
  address is never handed out twice.
* The link fields `prev` / `next` of `BaseNode` are maps from addresses to addresses, the
  payload `value` of a `Node` is a partial map: `none` at an address means that no live node
  is stored there (never allocated, already destroyed, or the sentinel).
* Reading the payload of an address without a live node (the sentinel, a destroyed node) is
  undefined behaviour in the source; every operation that can do so returns an `Option`, and
  `none` stands for undefined behaviour.  The scan of `emplace` is embedded a second time
  (`emplace_layout`) with the read at the sentinel that the layout of the `List` object
  gives: the storage behind `endNode` holds `size_`.
* The loops that follow `next` until they meet the sentinel carry a round counter that
  starts at `alloc`, the number of addresses handed out so far plus one.  A loop that has
  not met the sentinel after that many rounds has met a node twice and never returns in the
  source; it is `none` here as well.  The theorems about reachable states prove that the
  loops return.
* `size_t` counters are natural numbers; `++` is `+ 1` and `--` wraps at zero as in the
  source.
* `max_load_factor_` and `load_factor()` are `float` in the source; the type `F32` below
  gives the values of that type, and the conversions, the division, the comparison and
  `std::ceil` round as the 32-bit binary format does.
* `Hash` is a function to `Nat`, `Equal` a function to `Bool`; an iterator is the address
  of its node.
* The copy and the move constructor of `List` build a second list in the memory of the
  first: the `endNode` of the constructed list is placed at a fresh address (`ListPair`).
  The copy constructor of the map builds its node list in an address space of its own.
* A constructor of a candidate entry that throws is an input of `emplace_args`.
* The copy assignment of `List` works on a pair of lists (`this` first, `other` second)
  and places the `endNode` of its local `tmp` at a fresh address.
* The class `CircularBuffer` of `src/circular_buffer/circular_buffer.h` is embedded in the
  second part of the definitions; its conventions are stated there.
* An allocator of the bucket array that throws is an input of `rehash_alloc`.
* The class `BigInteger` of `src/biginteger/biginteger.h` is embedded in the last part of
  the definitions; its conventions are stated there.
-/

set_option autoImplicit false

/-- Point update of a map from addresses (or bucket indices). -/
def upd {β : Type} (f : Nat → β) (a : Nat) (b : β) : Nat → β :=
  fun x => if x = a then b else f x

/-- The `--x` of a `size_t`: wraps to `2^64 - 1` at zero. -/
def dec64 (x : Nat) : Nat := if x = 0 then 2 ^ 64 - 1 else x - 1

/-- Address of the sentinel `endNode`; `end()` is an iterator to it. -/
def endNode : Nat := 0

/-- The class `List<T, Alloc>`: link fields and payloads by address, the element counter
`size_`, and the allocator, which is the next address to hand out. -/
structure LList (T : Type) where
  prev : Nat → Nat
  next : Nat → Nat
  value : Nat → Option T
  size_ : Nat
  alloc : Nat

namespace LList

variable {T : Type}

/-- `List(const Alloc&)`: the sentinel links to itself, `size_` is zero. -/
def empty : LList T :=
  { prev := fun a => a, next := fun a => a, value := fun _ => none, size_ := 0, alloc := 1 }

/-- `create(args...)`: allocate a node and construct its payload; the `BaseNode` constructor
links the node to itself. -/
def create (l : LList T) (v : T) : LList T × Nat :=
  let new_node := l.alloc
  ({ l with prev := upd l.prev new_node new_node,
            next := upd l.next new_node new_node,
            value := upd l.value new_node (some v),
            alloc := l.alloc + 1 }, new_node)

/-- `insertNextTo(new_node, pos)`. -/
def insertNextTo (l : LList T) (new_node pos : Nat) : LList T :=
  let prev1 := upd l.prev new_node pos
  let next1 := upd l.next new_node (l.next pos)
  let prev2 := upd prev1 (next1 pos) new_node
  let next2 := upd next1 pos new_node
  { l with prev := prev2, next := next2, size_ := l.size_ + 1 }

/-- `deleteNode(node)`. -/
def deleteNode (l : LList T) (node : Nat) : LList T :=
  let next1 := upd l.next (l.prev node) (l.next node)
  let prev1 := upd l.prev (next1 node) (l.prev node)
  { l with prev := prev1, next := next1, size_ := dec64 l.size_,
           value := upd l.value node none }

/-- `size()`. -/
def size (l : LList T) : Nat := l.size_

/-- `begin()`. -/
def begin_ (l : LList T) : Nat := l.next endNode

/-- `end()`. -/
def end_ (_l : LList T) : Nat := endNode

/-- `push_back(T&&)`. -/
def push_back (l : LList T) (val : T) : LList T :=
  let c := l.create val
  c.1.insertNextTo c.2 (c.1.prev endNode)

/-- `insert(iter, T&&)`: returns the new list and an iterator to the new node. -/
def insert (l : LList T) (iter : Nat) (val : T) : LList T × Nat :=
  let c := l.create val
  (c.1.insertNextTo c.2 (c.1.prev iter), c.2)

/-- `erase(iter)`: returns the new list and an iterator to the successor. -/
def erase (l : LList T) (iter : Nat) : LList T × Nat :=
  let current_node := iter
  if current_node = endNode then (l, l.end_)
  else
    let next_node := l.next current_node
    (l.deleteNode current_node, next_node)

/-- The `while (it != &endNode)` loop of `clear()`: destroys the nodes met on the way.
`none` when a destroyed node is met or the fuel runs out. -/
def clearLoop (next : Nat → Nat) : Nat → Nat → (Nat → Option T) → Option (Nat → Option T)
  | _, 0, value => some value
  | 0, _ + 1, _ => none
  | fuel + 1, it + 1, value =>
    match value (it + 1) with
    | none => none
    | some _ => clearLoop next fuel (next (it + 1)) (upd value (it + 1) none)

/-- `clear()`: destroys every node and relinks the sentinel; `size_` is not written.  The
loop visits pairwise different live nodes, so it takes fewer than `alloc` rounds. -/
def clear (l : LList T) : Option (LList T) :=
  match clearLoop l.next l.alloc (l.next endNode) l.value with
  | none => none
  | some value =>
    some { l with value := value, prev := upd l.prev endNode endNode,
                  next := upd l.next endNode endNode }

/-- Forward traversal `for (it = begin(); it != end(); ++it)` collecting each node visited
with its payload.  `none` when a node without payload is met or the fuel runs out. -/
def walk (l : LList T) : Nat → Nat → Option (List (Nat × T))
  | _, 0 => some []
  | 0, _ + 1 => none
  | fuel + 1, it + 1 =>
    match l.value (it + 1) with
    | none => none
    | some v => (walk l fuel (l.next (it + 1))).map (fun r => (it + 1, v) :: r)

/-- The nodes from `begin()` to `end()` in sequence order, each with its payload.  The
traversal visits pairwise different live nodes, so it takes fewer than `alloc` rounds. -/
def items (l : LList T) : Option (List (Nat × T)) := l.walk l.alloc l.begin_

end LList

/-! ## The type `float`

`max_load_factor_`, the result of `load_factor()` and the quotient that `reserve` computes
are values of the type `float`, the 32-bit binary format of IEEE 754: 24 significant bits,
exponents between `-126` and `127`, rounding to nearest with ties to the even significand.
-/

/-- Values of the type `float`.  A finite value is given by the rational number it denotes,
`finite 0` being the positive zero; the negative zero, the two infinities and not-a-number
are values of their own. -/
inductive F32 where
  | finite (q : ℚ)
  | negzero
  | inf (negative : Bool)
  | nan
deriving DecidableEq

namespace F32

/-- Rounding of a non-negative rational to the nearest integer, a tie to the even one. -/
def roundHalfEven (y : ℚ) : Nat :=
  let n := ⌊y⌋₊
  if y - n < 1 / 2 then n
  else if 1 / 2 < y - n then n + 1
  else if n % 2 = 0 then n else n + 1

/-- Bisection for the exponent of the unit in the last place of a positive rational `x`:
the largest `e` with `lo < e ≤ hi` and `2 ^ (e + 23) ≤ x`, and `lo` when there is none.  The
interval halves in every round. -/
def ulpSearch (x : ℚ) : Nat → Int → Int → Int
  | 0, lo, _ => lo
  | fuel + 1, lo, hi =>
    if hi ≤ lo then lo
    else if (2 : ℚ) ^ ((lo + hi + 1) / 2 + 23) ≤ x then ulpSearch x fuel ((lo + hi + 1) / 2) hi
    else ulpSearch x fuel lo ((lo + hi + 1) / 2 - 1)

/-- Exponent of the unit in the last place of a positive rational: `e` with
`2 ^ (e + 23) ≤ x < 2 ^ (e + 24)` for the normal numbers, `-149` for the smaller ones and
`104` for the larger ones.  The interval from `-149` to `104` has fewer than `2 ^ 8`
exponents. -/
def ulpExp (x : ℚ) : Int := ulpSearch x 8 (-149) 104

/-- The multiple of the unit in the last place that is nearest to a positive rational. -/
def nearest (x : ℚ) : ℚ := (roundHalfEven (x / 2 ^ ulpExp x) : ℚ) * 2 ^ ulpExp x

/-- Rounding of a rational to `float`: to nearest, ties to even; `2 ^ 128` and more is
infinity, a negative number that rounds to zero gives the negative zero. -/
def round (x : ℚ) : F32 :=
  if x = 0 then finite 0
  else if 0 < x then
    (if (2 : ℚ) ^ 128 ≤ nearest x then inf false else finite (nearest x))
  else if (2 : ℚ) ^ 128 ≤ nearest (-x) then inf true
  else if nearest (-x) = 0 then negzero
  else finite (-nearest (-x))

/-- Conversion of an unsigned integer to `float`. -/
def ofNat (n : Nat) : F32 := round n

/-- The sign bit. -/
def isNeg : F32 → Bool
  | finite q => decide (q < 0)
  | negzero => true
  | inf negative => negative
  | nan => false

/-- The number a finite value denotes (`0` for the other values). -/
def value : F32 → ℚ
  | finite q => q
  | _ => 0

/-- The zero with the given sign. -/
def zero (negative : Bool) : F32 := if negative then negzero else finite 0

/-- The operator `/` on `float`. -/
def div (a b : F32) : F32 :=
  match a, b with
  | nan, _ => nan
  | _, nan => nan
  | inf _, inf _ => nan
  | inf n, _ => inf (xor n b.isNeg)
  | _, inf n => zero (xor a.isNeg n)
  | _, _ =>
    if b.value = 0 then (if a.value = 0 then nan else inf (xor a.isNeg b.isNeg))
    else if a.value = 0 then zero (xor a.isNeg b.isNeg)
    else round (a.value / b.value)

/-- The operator `>` on `float`: false when an operand is not a number. -/
def gt (a b : F32) : Bool :=
  match a, b with
  | nan, _ => false
  | _, nan => false
  | inf n1, inf n2 => !n1 && n2
  | inf n, _ => !n
  | _, inf n => n
  | _, _ => decide (a.value > b.value)

/-- The operator `<=` on `float`: false when an operand is not a number. -/
def le (a b : F32) : Bool :=
  match a, b with
  | nan, _ => false
  | _, nan => false
  | inf n1, inf n2 => n1 || !n2
  | inf n, _ => n
  | _, inf n => !n
  | _, _ => decide (a.value ≤ b.value)

/-- The function `std::ceil` on `float`. -/
def ceil : F32 → F32
  | finite q => if q < 0 ∧ ⌈q⌉ = 0 then negzero else finite ⌈q⌉
  | x => x

/-- Conversion of a `float` to `size_t`: the value truncated toward zero; undefined
behaviour (`none`) when that is not a value of `size_t`. -/
def toSize : F32 → Option Nat
  | finite q =>
    let t : Int := if 0 ≤ q then ⌊q⌋ else ⌈q⌉
    if 0 ≤ t ∧ t < 2 ^ 64 then some t.toNat else none
  | negzero => some 0
  | _ => none

end F32

/-- The struct `Bucket`: iterator to the first node of the run and the run length. -/
structure Bucket where
  it_ : Nat
  size_ : Nat
deriving DecidableEq

/-- The class `UnorderedMap`.  `buckets_` is the bucket array seen as a map from index to
`Bucket`; `bucket_count_` is its length. -/
structure UnorderedMap (Key Value : Type) where
  nodes_ : LList (Key × Value)
  buckets_ : Nat → Bucket
  bucket_count_ : Nat
  max_load_factor_ : F32

namespace UnorderedMap

variable {Key Value : Type}

/-- `allocate_buckets(bucket_to_init)`: every bucket is `(nodes_.end(), 0)`. -/
def allocate_buckets (m : UnorderedMap Key Value) (bucket_to_init : Nat) :
    UnorderedMap Key Value :=
  { m with bucket_count_ := bucket_to_init, buckets_ := fun _ => ⟨m.nodes_.end_, 0⟩ }

/-- The constructor `UnorderedMap(bucket_to_init, equal, hash, alloc)`. -/
def mk_empty (bucket_to_init : Nat) : UnorderedMap Key Value :=
  allocate_buckets
    { nodes_ := LList.empty, buckets_ := fun _ => ⟨endNode, 0⟩, bucket_count_ := 0,
      max_load_factor_ := F32.finite 1 } bucket_to_init

/-- `size()`. -/
def size (m : UnorderedMap Key Value) : Nat := m.nodes_.size

/-- `bucket_count_`. -/
def bucket_count (m : UnorderedMap Key Value) : Nat := m.bucket_count_

/-- `load_factor()`: `static_cast<float>(nodes_.size()) / bucket_count_`, both operands
converted to `float`. -/
def load_factor (m : UnorderedMap Key Value) : F32 :=
  F32.div (F32.ofNat m.nodes_.size) (F32.ofNat m.bucket_count_)

/-- `max_load_factor()` (getter). -/
def max_load_factor (m : UnorderedMap Key Value) : F32 := m.max_load_factor_

/-- `begin()`. -/
def begin_ (m : UnorderedMap Key Value) : Nat := m.nodes_.begin_

/-- `end()`. -/
def end_ (m : UnorderedMap Key Value) : Nat := m.nodes_.end_

/-- The `for (node = nodes_.begin(); node != nodes_.end(); ++node)` loop of `rehash`. -/
def rehashLoop (hash : Key → Nat) (l : LList (Key × Value)) (bucket_count_ : Nat) :
    Nat → Nat → (Nat → Bucket) → Option (Nat → Bucket)
  | _, 0, buckets_ => some buckets_
  | 0, _ + 1, _ => none
  | fuel + 1, node + 1, buckets_ =>
    match l.value (node + 1) with
    | none => none
    | some data_ =>
      let ind := hash data_.1 % bucket_count_
      let b := buckets_ ind
      let b1 : Bucket := ⟨if b.size_ = 0 then node + 1 else b.it_, b.size_ + 1⟩
      rehashLoop hash l bucket_count_ fuel (l.next (node + 1)) (upd buckets_ ind b1)

/-- `rehash(new_bucket_count)`. -/
def rehash (hash : Key → Nat) (m : UnorderedMap Key Value) (new_bucket_count : Nat) :
    Option (UnorderedMap Key Value) :=
  if new_bucket_count ≤ m.bucket_count_ then some m
  else
    let m1 := m.allocate_buckets new_bucket_count
    match rehashLoop hash m1.nodes_ m1.bucket_count_ m1.nodes_.alloc m1.nodes_.begin_
        m1.buckets_ with
    | none => none
    | some buckets_ => some { m1 with buckets_ := buckets_ }

/-- The scan `for (i = 0; i < bucket.size_; ++i, ++it_list)` of `emplace`: `some (some it)`
when the node at `it` has an equal key, `some none` when the run holds none. -/
def scanRun (equal : Key → Key → Bool) (l : LList (Key × Value)) (key : Key) :
    Nat → Nat → Option (Option Nat)
  | 0, _ => some none
  | n + 1, it_list =>
    match l.value it_list with
    | none => none
    | some data_ =>
      if equal data_.1 key then some (some it_list)
      else scanRun equal l key n (l.next it_list)

/-- The part of `emplace` that links the new node (lines 783-789): `push_back` and
`bucket.it_ = --nodes_.end()` for an empty bucket, `nodes_.insert(bucket.it_, ...)`
otherwise, then `++bucket.size_`. -/
def emplace_link (m : UnorderedMap Key Value) (ind : Nat) (key : Key) (val : Value) :
    UnorderedMap Key Value :=
  let bucket := m.buckets_ ind
  let m1 : UnorderedMap Key Value :=
    if bucket.size_ = 0 then
      let nodes1 := m.nodes_.push_back (key, val)
      { m with nodes_ := nodes1,
               buckets_ := upd m.buckets_ ind ⟨nodes1.prev endNode, bucket.size_⟩ }
    else
      { m with nodes_ := (m.nodes_.insert bucket.it_ (key, val)).1 }
  let b1 := m1.buckets_ ind
  { m1 with buckets_ := upd m1.buckets_ ind ⟨b1.it_, b1.size_ + 1⟩ }

/-- `emplace(key, value)`: the new map and the returned pair `(iterator, inserted)`. -/
def emplace (hash : Key → Nat) (equal : Key → Key → Bool) (m : UnorderedMap Key Value)
    (key : Key) (val : Value) : Option (UnorderedMap Key Value × (Nat × Bool)) :=
  if m.bucket_count_ = 0 then none
  else
    let ind := hash key % m.bucket_count_
    let bucket := m.buckets_ ind
    match scanRun equal m.nodes_ key bucket.size_ bucket.it_ with
    | none => none
    | some (some it_list) => some (m, (it_list, false))
    | some none =>
      let m2 := emplace_link m ind key val
      let m3 := if F32.gt m2.load_factor m2.max_load_factor_
                then rehash hash m2 (m2.bucket_count_ * 2) else some m2
      m3.map (fun m4 => (m4, (m4.nodes_.prev endNode, true)))

/-- `insert(const NodeType&)`: delegates to `emplace(value.first, value.second)`. -/
def insert (hash : Key → Nat) (equal : Key → Key → Bool) (m : UnorderedMap Key Value)
    (value : Key × Value) : Option (UnorderedMap Key Value × (Nat × Bool)) :=
  emplace hash equal m value.1 value.2

/-- `remove_node(node)`. -/
def remove_node (hash : Key → Nat) (m : UnorderedMap Key Value) (node : Nat) :
    Option (UnorderedMap Key Value × Nat) :=
  match m.nodes_.value node with
  | none => none
  | some data_ =>
    if m.bucket_count_ = 0 then none
    else
      let ind := hash data_.1 % m.bucket_count_
      let b := m.buckets_ ind
      let b1 : Bucket :=
        if node = b.it_ then ⟨if b.size_ > 1 then m.nodes_.next node else m.nodes_.end_, b.size_⟩
        else b
      let b2 : Bucket := ⟨b1.it_, dec64 b1.size_⟩
      let r := m.nodes_.erase node
      some ({ m with buckets_ := upd m.buckets_ ind b2, nodes_ := r.1 }, r.2)

/-- `erase(pos)`. -/
def erase (hash : Key → Nat) (m : UnorderedMap Key Value) (pos : Nat) :
    Option (UnorderedMap Key Value × Nat) :=
  remove_node hash m pos

/-- The loop `while (first != last) first = erase(first)` of `erase(first, last)`. -/
def eraseLoop (hash : Key → Nat) :
    Nat → UnorderedMap Key Value → Nat → Nat → Option (UnorderedMap Key Value)
  | 0, m, first, last => if first = last then some m else none
  | fuel + 1, m, first, last =>
    if first = last then some m
    else
      match erase hash m first with
      | none => none
      | some r => eraseLoop hash fuel r.1 r.2 last

/-- `erase(first, last)`: returns the new map and `last`.  Every round destroys a live node,
so the loop takes fewer than `alloc` rounds. -/
def erase_range (hash : Key → Nat) (m : UnorderedMap Key Value) (first last : Nat) :
    Option (UnorderedMap Key Value × Nat) :=
  (eraseLoop hash m.nodes_.alloc m first last).map (fun m1 => (m1, last))

/-- The loop of `find`: it tests the key at `buckets_[ind].it_` in each of its `size_`
rounds. -/
def findLoop (equal : Key → Key → Bool) (l : LList (Key × Value)) (key : Key) (it_ : Nat)
    (end_ : Nat) : Nat → Option Nat
  | 0 => some end_
  | n + 1 =>
    match l.value it_ with
    | none => none
    | some data_ => if equal data_.1 key then some it_ else findLoop equal l key it_ end_ n

/-- `find(key)`. -/
def find (hash : Key → Nat) (equal : Key → Key → Bool) (m : UnorderedMap Key Value)
    (key : Key) : Option Nat :=
  if m.bucket_count_ = 0 then none
  else
    let ind := hash key % m.bucket_count_
    findLoop equal m.nodes_ key (m.buckets_ ind).it_ m.end_ (m.buckets_ ind).size_

/-- Outcome of `at`: a reference to a stored value (the address of its node and the value
read through it), or the exception `std::out_of_range`. -/
inductive AtResult (Value : Type) where
  | ref (node : Nat) (value : Value)
  | out_of_range
deriving DecidableEq

/-- `at(key)`. -/
def at_ (hash : Key → Nat) (equal : Key → Key → Bool) (m : UnorderedMap Key Value)
    (key : Key) : Option (AtResult Value) :=
  match find hash equal m key with
  | none => none
  | some it =>
    if it ≠ m.end_ then
      match m.nodes_.value it with
      | none => none
      | some data_ => some (AtResult.ref it data_.2)
    else some AtResult.out_of_range

/-- `operator[](key)`: the new map and the node whose `second` the returned reference
designates.  `dflt` is `Value()`. -/
def index (hash : Key → Nat) (equal : Key → Key → Bool) (dflt : Value)
    (m : UnorderedMap Key Value) (key : Key) : Option (UnorderedMap Key Value × Nat) :=
  match find hash equal m key with
  | none => none
  | some it =>
    if it = m.end_ then
      match insert hash equal m (key, dflt) with
      | none => none
      | some pr =>
        match pr.1.nodes_.value pr.2.1 with
        | none => none
        | some _ => some (pr.1, pr.2.1)
    else
      match m.nodes_.value it with
      | none => none
      | some _ => some (m, it)

/-- `max_load_factor(mf)` (setter). -/
def set_max_load_factor (hash : Key → Nat) (m : UnorderedMap Key Value) (mf : F32) :
    Option (UnorderedMap Key Value) :=
  let m1 := { m with max_load_factor_ := mf }
  if F32.gt m1.load_factor m1.max_load_factor_ then rehash hash m1 (m1.bucket_count_ * 2)
  else some m1

/-- `reserve(n)`: `rehash(std::ceil(n / max_load_factor_))`.  `n` is converted to `float`,
the quotient and its ceiling are values of `float`, and the ceiling is converted to the
`size_t` parameter of `rehash`, which is undefined behaviour when it has no such value. -/
def reserve (hash : Key → Nat) (m : UnorderedMap Key Value) (n : Nat) :
    Option (UnorderedMap Key Value) :=
  match F32.toSize (F32.ceil (F32.div (F32.ofNat n) m.max_load_factor_)) with
  | none => none
  | some c => rehash hash m c

/-- `clear()`. -/
def clear (m : UnorderedMap Key Value) : Option (UnorderedMap Key Value) :=
  match m.nodes_.clear with
  | none => none
  | some nodes1 =>
    some { m with nodes_ := nodes1,
                  buckets_ := fun i =>
                    if i < m.bucket_count_ then ⟨nodes1.end_, 0⟩ else m.buckets_ i }

/-- The nodes of the map from `begin()` to `end()`, each with its entry. -/
def items (m : UnorderedMap Key Value) : Option (List (Nat × (Key × Value))) :=
  m.nodes_.items

/-- The entries `(key, value)` from `begin()` to `end()`, in sequence order. -/
def entries (m : UnorderedMap Key Value) : Option (List (Key × Value)) :=
  m.items.map (fun es => es.map Prod.snd)

end UnorderedMap

/-- The public mutating calls on a map. -/
inductive Op (Key Value : Type) where
  | emplace (key : Key) (val : Value)
  | insert (value : Key × Value)
  | index (key : Key)
  | erase (pos : Nat)
  | clear
  | reserve (n : Nat)
  | max_load_factor (mf : F32)

namespace UnorderedMap

variable {Key Value : Type}

/-- One completed mutating call: the map it leaves (`none` when the call does not
complete). -/
def step (hash : Key → Nat) (equal : Key → Key → Bool) (dflt : Value)
    (m : UnorderedMap Key Value) : Op Key Value → Option (UnorderedMap Key Value)
  | Op.emplace key val => (emplace hash equal m key val).map Prod.fst
  | Op.insert value => (insert hash equal m value).map Prod.fst
  | Op.index key => (index hash equal dflt m key).map Prod.fst
  | Op.erase pos => (erase hash m pos).map Prod.fst
  | Op.clear => clear m
  | Op.reserve n => reserve hash m n
  | Op.max_load_factor mf => set_max_load_factor hash m mf

/-- The map states reached from the freshly constructed map with `b0` buckets by completed
calls; `allowed m op` says which calls may be made in state `m`. -/
inductive Reachable (hash : Key → Nat) (equal : Key → Key → Bool) (dflt : Value)
    (allowed : UnorderedMap Key Value → Op Key Value → Prop) (b0 : Nat) :
    UnorderedMap Key Value → Prop where
  | init : Reachable hash equal dflt allowed b0 (mk_empty b0)
  | step (m : UnorderedMap Key Value) (op : Op Key Value) (m1 : UnorderedMap Key Value) :
      Reachable hash equal dflt allowed b0 m → allowed m op →
      step hash equal dflt m op = some m1 → Reachable hash equal dflt allowed b0 m1

/-- Every call, in every state. -/
def anyOp (_m : UnorderedMap Key Value) (_op : Op Key Value) : Prop := True

/-- The calls `emplace`, `insert`, `erase` and `reserve`. -/
def growEraseOp (_m : UnorderedMap Key Value) : Op Key Value → Prop
  | Op.emplace _ _ => True
  | Op.insert _ => True
  | Op.erase _ => True
  | Op.reserve _ => True
  | _ => False

/-- The quotient `static_cast<float>(s) / b` of two `size_t` values, as `load_factor()`
computes it from `size()` and `bucket_count_`. -/
def loadOf (s b : Nat) : F32 := F32.div (F32.ofNat s) (F32.ofNat b)

/-- Every call made while `size() + 1` and `2 * bucket_count()` are values of `size_t`, the
threshold setter only with a threshold `mf` for which a single doubling is enough: the
load factor of one entry in `bucket_count()` buckets and the load factor of `size()`
entries in `2 * bucket_count()` buckets are `<= mf`. -/
def oneDoublingOp (m : UnorderedMap Key Value) (op : Op Key Value) : Prop :=
  m.size + 1 < 2 ^ 64 ∧ m.bucket_count * 2 < 2 ^ 64 ∧
    match op with
    | Op.max_load_factor mf =>
      F32.le (loadOf 1 m.bucket_count) mf = true ∧
        F32.le (loadOf m.size (m.bucket_count * 2)) mf = true
    | _ => True

/-- Erasing the handles of a list one after the other. -/
def erase_each (hash : Key → Nat) :
    UnorderedMap Key Value → List Nat → Option (UnorderedMap Key Value)
  | m, [] => some m
  | m, h :: hs =>
    match erase hash m h with
    | none => none
    | some r => erase_each hash r.1 hs

end UnorderedMap

namespace UnorderedMap

variable {Key Value : Type}

/-- A sequence of calls, each one made on the map the previous one left. -/
def runOps (hash : Key → Nat) (equal : Key → Key → Bool) (dflt : Value) :
    UnorderedMap Key Value → List (Op Key Value) → Option (UnorderedMap Key Value)
  | m, [] => some m
  | m, op :: ops =>
    match step hash equal dflt m op with
    | none => none
    | some m1 => runOps hash equal dflt m1 ops

/-- The hash `hash(k) = k` on keys of type `Nat`. -/
def hashId : Nat → Nat := fun k => k

/-- `std::equal_to` on keys of type `Nat`. -/
def equalNat : Nat → Nat → Bool := fun a b => a == b

/-- The map with 4 buckets after `emplace(1, 10)` and `emplace(2, 20)`: the nodes `1` and
`2` sit in the buckets `1` and `2`. -/
def map12 : UnorderedMap Nat Nat :=
  (runOps hashId equalNat 0 (mk_empty 4) [Op.emplace 1 10, Op.emplace 2 20]).getD (mk_empty 4)

/-- The map with 4 buckets after `emplace(1, 10)` and `emplace(5, 50)`: both keys have the
bucket index `1`. -/
def map15 : UnorderedMap Nat Nat :=
  (runOps hashId equalNat 0 (mk_empty 4) [Op.emplace 1 10, Op.emplace 5 50]).getD (mk_empty 4)

end UnorderedMap

/-- Links of a stretch of the list: `a`, then the nodes `ps` in order, then `b`. -/
def Seg (nx pv : Nat → Nat) : Nat → List Nat → Nat → Prop
  | a, [], b => nx a = b ∧ pv b = a
  | a, p :: ps, b => nx a = p ∧ pv p = a ∧ Seg nx pv p ps b

namespace LList

variable {T : Type}

/-- Well-formedness of a list against its abstract content `es`: the nodes with payloads, in
sequence order. -/
structure Repr (l : LList T) (es : List (Nat × T)) : Prop where
  nodup : (es.map Prod.fst).Nodup
  nz : endNode ∉ es.map Prod.fst
  len_lt : es.length < l.alloc
  lt_alloc : ∀ a ∈ es.map Prod.fst, a < l.alloc
  live : ∀ a v, l.value a = some v ↔ (a, v) ∈ es
  seg : Seg l.next l.prev endNode (es.map Prod.fst) endNode

end LList

namespace UnorderedMap

variable {Key Value : Type}

/-- Bucket index of an entry under `bc` buckets. -/
def idxOf (hash : Key → Nat) (bc : Nat) (e : Nat × (Key × Value)) : Nat := hash e.2.1 % bc

/-- Invariant of the map against the abstract content `es` of its node list: the list is
well formed, `size_` is at least the number of nodes, there is a bucket, and every bucket
counter is the number of entries with that bucket index. -/
structure Inv (hash : Key → Nat) (m : UnorderedMap Key Value)
    (es : List (Nat × (Key × Value))) : Prop where
  repr : m.nodes_.Repr es
  size_ge : es.length ≤ m.nodes_.size_
  bc_pos : 0 < m.bucket_count_
  counts : ∀ i, i < m.bucket_count_ →
    (m.buckets_ i).size_ = (es.map (idxOf hash m.bucket_count_)).count i

/-- What one completed call does to the counters, seen against the abstract content before
(`es`) and after (`es1`). -/
def StepFacts (m : UnorderedMap Key Value) (es : List (Nat × (Key × Value)))
    (m1 : UnorderedMap Key Value) (es1 : List (Nat × (Key × Value))) :
    Op Key Value → Prop
  | Op.erase _ =>
    es1.length + 1 = es.length ∧ m1.nodes_.size_ + 1 = m.nodes_.size_ ∧
      m1.bucket_count_ = m.bucket_count_ ∧ m1.max_load_factor_ = m.max_load_factor_
  | Op.clear =>
    es1 = [] ∧ m1.nodes_.size_ = m.nodes_.size_ ∧
      m1.bucket_count_ = m.bucket_count_ ∧ m1.max_load_factor_ = m.max_load_factor_
  | Op.reserve _ =>
    es1 = es ∧ m1.nodes_ = m.nodes_ ∧ m1.max_load_factor_ = m.max_load_factor_ ∧
      m.bucket_count_ ≤ m1.bucket_count_ ∧
      (m1.bucket_count_ = m.bucket_count_ ∨ m1.bucket_count_ < 2 ^ 64)
  | Op.max_load_factor mf =>
    es1 = es ∧ m1.nodes_ = m.nodes_ ∧ m1.max_load_factor_ = mf ∧
      m1.bucket_count_ =
        (if F32.gt (loadOf m.nodes_.size_ m.bucket_count_) mf then m.bucket_count_ * 2
         else m.bucket_count_)
  | _ =>
    (m1 = m ∧ es1 = es) ∨
    (es1.length = es.length + 1 ∧ m1.nodes_.size_ = m.nodes_.size_ + 1 ∧
      m1.max_load_factor_ = m.max_load_factor_ ∧
      m1.bucket_count_ =
        (if F32.gt (loadOf (m.nodes_.size_ + 1) m.bucket_count_) m.max_load_factor_
         then m.bucket_count_ * 2 else m.bucket_count_))

end UnorderedMap

namespace UnorderedMap

variable {Key Value : Type}

/-- How a call of `emplace(args...)` ends: the constructor of the candidate pair threw and
the exception leaves `emplace`, or `emplace` returns `(it, inserted)`.  In both cases `m` is
the map the call leaves. -/
inductive EmplaceOutcome (Key Value : Type) where
  | threw (m : UnorderedMap Key Value)
  | returned (m : UnorderedMap Key Value) (it : Nat) (inserted : Bool)

/-- `emplace(args...)` with the construction of the candidate pair made explicit (lines
757-767): `construct args` is the pair that `AllocNodeTraitsType::construct` builds in the
scratch storage `new_val`, or `none` when the constructor throws; then the `catch` block
releases the scratch storage and throws again.  The scratch storage is no node of the
list. -/
def emplace_args {Args : Type} (hash : Key → Nat) (equal : Key → Key → Bool)
    (construct : Args → Option (Key × Value)) (m : UnorderedMap Key Value) (args : Args) :
    Option (EmplaceOutcome Key Value) :=
  match construct args with
  | none => some (EmplaceOutcome.threw m)
  | some new_val =>
    (emplace hash equal m new_val.1 new_val.2).map
      (fun r => EmplaceOutcome.returned r.1 r.2.1 r.2.2)

/-- The loop `for (auto& p : other) emplace(p.first, p.second)` of the copy constructor:
`other` is the node list of the map copied from, `m` the map under construction. -/
def copyLoop (hash : Key → Nat) (equal : Key → Key → Bool) (other : LList (Key × Value)) :
    Nat → Nat → UnorderedMap Key Value → Option (UnorderedMap Key Value)
  | _, 0, m => some m
  | 0, _ + 1, _ => none
  | fuel + 1, node + 1, m =>
    match other.value (node + 1) with
    | none => none
    | some p =>
      match emplace hash equal m p.1 p.2 with
      | none => none
      | some r => copyLoop hash equal other fuel (other.next (node + 1)) r.1

/-- The copy constructor `UnorderedMap(const UnorderedMap& other)`: the constructed map,
with its node list in its own address space; `other` is not written. -/
def copy_construct (hash : Key → Nat) (equal : Key → Key → Bool)
    (other : UnorderedMap Key Value) : Option (UnorderedMap Key Value) :=
  let m0 : UnorderedMap Key Value :=
    { nodes_ := LList.empty, buckets_ := fun _ => ⟨endNode, 0⟩, bucket_count_ := 0,
      max_load_factor_ := other.max_load_factor_ }
  if other.bucket_count_ > 0 then
    copyLoop hash equal other.nodes_ other.nodes_.alloc other.nodes_.begin_
      (m0.allocate_buckets other.bucket_count_)
  else some m0

/-- The map with 4 buckets after `emplace` of `(1, 10)`, `(2, 20)`, `(5, 50)`, `(5, 51)`. -/
def map1255 : UnorderedMap Nat Nat :=
  (runOps hashId equalNat 0 (mk_empty 4)
    [Op.emplace 1 10, Op.emplace 2 20, Op.emplace 5 50, Op.emplace 5 51]).getD (mk_empty 4)

/-- The map with 4 buckets after `emplace` of `(1, 10)`, `(2, 20)`, `(5, 50)`, `(9, 90)`. -/
def map1259 : UnorderedMap Nat Nat :=
  (runOps hashId equalNat 0 (mk_empty 4)
    [Op.emplace 1 10, Op.emplace 2 20, Op.emplace 5 50, Op.emplace 9 90]).getD (mk_empty 4)

end UnorderedMap

/-- The public mutating calls on a `List`. -/
inductive LOp (T : Type) where
  | push_back (val : T)
  | push_front (val : T)
  | pop_back
  | pop_front
  | insert (iter : Nat) (val : T)
  | erase (iter : Nat)
  | clear

namespace LList

variable {T : Type}

/-- `erase(iter)` called on the List object whose `endNode` is at address `e`. -/
def erase_at (e : Nat) (l : LList T) (iter : Nat) : LList T × Nat :=
  let current_node := iter
  if current_node = e then (l, e)
  else
    let next_node := l.next current_node
    (l.deleteNode current_node, next_node)

/-- The loop of `clear()` for the List object whose `endNode` is at address `e`. -/
def clearLoopTo (next : Nat → Nat) (e : Nat) :
    Nat → Nat → (Nat → Option T) → Option (Nat → Option T)
  | 0, it, value => if it = e then some value else none
  | fuel + 1, it, value =>
    if it = e then some value
    else
      match value it with
      | none => none
      | some _ => clearLoopTo next e fuel (next it) (upd value it none)

/-- `clear()` called on the List object whose `endNode` is at address `e`. -/
def clear_at (e : Nat) (l : LList T) : Option (LList T) :=
  match clearLoopTo l.next e l.alloc (l.next e) l.value with
  | none => none
  | some value => some { l with value := value, prev := upd l.prev e e, next := upd l.next e e }

/-- Forward traversal of the List object whose `endNode` is at address `e`. -/
def walkTo (l : LList T) (e : Nat) : Nat → Nat → Option (List (Nat × T))
  | 0, it => if it = e then some [] else none
  | fuel + 1, it =>
    if it = e then some []
    else
      match l.value it with
      | none => none
      | some v => (walkTo l e fuel (l.next it)).map (fun r => (it, v) :: r)

/-- The nodes from `begin()` to `end()` of the List object whose `endNode` is at address
`e`, each with its payload. -/
def items_at (e : Nat) (l : LList T) : Option (List (Nat × T)) :=
  l.walkTo e l.alloc (l.next e)

/-- One call on the List object whose `endNode` is at address `e` and whose counter is
`l.size_`: `push_back` links behind `endNode.prev`, `push_front` behind `endNode`,
`pop_back` is `erase(endNode.prev)`, `pop_front` is `erase(cbegin())`. -/
def stepAt (e : Nat) (l : LList T) : LOp T → Option (LList T)
  | LOp.push_back val => some (l.insert e val).1
  | LOp.push_front val => some ((l.create val).1.insertNextTo (l.create val).2 e)
  | LOp.pop_back => some (erase_at e l (l.prev e)).1
  | LOp.pop_front => some (erase_at e l (l.next e)).1
  | LOp.insert iter val => some (l.insert iter val).1
  | LOp.erase iter => some (erase_at e l iter).1
  | LOp.clear => clear_at e l

/-- The iterator `iter` is `end()` of the List object at `e` or points to one of its
nodes. -/
def ownsIter (e : Nat) (l : LList T) (iter : Nat) : Prop :=
  iter = e ∨ ∃ es, l.items_at e = some es ∧ iter ∈ es.map Prod.fst

/-- The iterator handed to `insert` or `erase` belongs to the List object at `e`. -/
def validAt (e : Nat) (l : LList T) : LOp T → Prop
  | LOp.insert iter _ => ownsIter e l iter
  | LOp.erase iter => ownsIter e l iter
  | _ => True

/-- The states of a `List` reached from the empty list by calls with valid iterators. -/
inductive Reachable : LList T → Prop where
  | init : Reachable LList.empty
  | step (l : LList T) (op : LOp T) (l1 : LList T) :
      Reachable l → validAt endNode l op → stepAt endNode l op = some l1 → Reachable l1

end LList

/-- Two `List` objects in one address space.  The first has its `endNode` at address `0`
and its counter in `mem.size_`; the second has its `endNode` at `endNode2` and its counter
in `size2`. -/
structure ListPair (T : Type) where
  mem : LList T
  endNode2 : Nat
  size2 : Nat

namespace ListPair

variable {T : Type}

/-- A call on the first list. -/
def step1 (p : ListPair T) (op : LOp T) : Option (ListPair T) :=
  (LList.stepAt endNode p.mem op).map (fun r => { p with mem := r })

/-- A call on the second list: the same code, run with `endNode2` and `size2`. -/
def step2 (p : ListPair T) (op : LOp T) : Option (ListPair T) :=
  (LList.stepAt p.endNode2 { p.mem with size_ := p.size2 } op).map
    (fun r => { mem := { r with size_ := p.mem.size_ }, endNode2 := p.endNode2,
                size2 := r.size_ })

/-- The nodes of the first list with their payloads. -/
def items1 (p : ListPair T) : Option (List (Nat × T)) := p.mem.items

/-- The nodes of the second list with their payloads. -/
def items2 (p : ListPair T) : Option (List (Nat × T)) := p.mem.items_at p.endNode2

/-- The states reached from `p0` by calls on either list, each with iterators of the list
it is called on. -/
inductive Reachable (p0 : ListPair T) : ListPair T → Prop where
  | init : Reachable p0 p0
  | step1 (p : ListPair T) (op : LOp T) (p1 : ListPair T) :
      Reachable p0 p → LList.validAt endNode p.mem op → p.step1 op = some p1 →
      Reachable p0 p1
  | step2 (p : ListPair T) (op : LOp T) (p1 : ListPair T) :
      Reachable p0 p → LList.validAt p.endNode2 p.mem op → p.step2 op = some p1 →
      Reachable p0 p1

end ListPair

namespace LList

variable {T : Type}

/-- The loop of the copy constructor `List(const List& other)`: `other` is the first list
of `p`, the list under construction the second. -/
def copyLoop : Nat → Nat → ListPair T → Option (ListPair T)
  | 0, node, p => if node = endNode then some p else none
  | fuel + 1, node, p =>
    if node = endNode then some p
    else
      match p.mem.value node with
      | none => none
      | some v =>
        match p.step2 (LOp.push_back v) with
        | none => none
        | some p1 => copyLoop fuel (p1.mem.next node) p1

/-- The copy constructor `List(const List& other)`: the `endNode` of the constructed list
is placed at a fresh address and links to itself, `size_` starts at 0, then every payload
of `other` is pushed to the back. -/
def copy_construct (other : LList T) : Option (ListPair T) :=
  let e := other.alloc
  let p0 : ListPair T :=
    { mem := { other with prev := upd other.prev e e, next := upd other.next e e,
                          alloc := e + 1 },
      endNode2 := e, size2 := 0 }
  copyLoop other.alloc (p0.mem.next endNode) p0

/-- The move constructor `List(List&& other)`: the `endNode` of the constructed list is
placed at a fresh address; `other` stays the first list of the pair. -/
def move_construct (other : LList T) : ListPair T :=
  let e := other.alloc
  let prev0 := upd other.prev e e
  let next0 := upd other.next e e
  if other.size_ = 0 then
    { mem := { other with prev := prev0, next := next0, alloc := e + 1 },
      endNode2 := e, size2 := other.size_ }
  else
    let next1 := upd next0 e (next0 endNode)
    let prev1 := upd prev0 e (prev0 endNode)
    let prev2 := upd prev1 (next1 e) e
    let next2 := upd next1 (prev2 e) e
    let prev3 := upd prev2 endNode endNode
    let next3 := upd next2 endNode endNode
    { mem := { other with prev := prev3, next := next3, size_ := 0, alloc := e + 1 },
      endNode2 := e, size2 := other.size_ }

/-- Well-formedness of the List object at `e` with content `es`, inside a memory that also
holds the sentinels `sent` and the live nodes `rest` of other lists. -/
structure ReprIn (l : LList T) (e : Nat) (es : List (Nat × T)) (sent : List Nat)
    (rest : List (Nat × T)) : Prop where
  nodup : (es.map Prod.fst).Nodup
  e_not : e ∉ es.map Prod.fst
  disj : ∀ a, a ∈ e :: es.map Prod.fst → a ∉ sent ∧ a ∉ rest.map Prod.fst
  lt_alloc : ∀ a, a ∈ e :: es.map Prod.fst ∨ a ∈ sent ∨ a ∈ rest.map Prod.fst → a < l.alloc
  len_lt : es.length < l.alloc
  live : ∀ a v, l.value a = some v ↔ (a, v) ∈ es ∨ (a, v) ∈ rest
  seg : Seg l.next l.prev e (es.map Prod.fst) e

/-- The fields at the addresses handed out before and outside `fp` are the same in
`l1` as in `l`. -/
def Frame (l l1 : LList T) (fp : List Nat) : Prop :=
  l.alloc ≤ l1.alloc ∧
    ∀ a, a ∉ fp → a < l.alloc →
      l1.next a = l.next a ∧ l1.prev a = l.prev a ∧ l1.value a = l.value a

end LList

/-- The two maps after the move constructor `UnorderedMap(UnorderedMap&& other)`:
`lists` holds `other.nodes_` (first) and the node list of the constructed map (second);
`other` is left with `buckets_ = nullptr`, no bucket and the threshold 1. -/
structure MapPair (Key Value : Type) where
  lists : ListPair (Key × Value)
  other_bucket_count_ : Nat
  other_max_load_factor_ : F32
  buckets_ : Nat → Bucket
  bucket_count_ : Nat
  max_load_factor_ : F32

namespace UnorderedMap

variable {Key Value : Type}

/-- The move constructor `UnorderedMap(UnorderedMap&& other)`. -/
def move_construct (other : UnorderedMap Key Value) : MapPair Key Value :=
  { lists := other.nodes_.move_construct,
    buckets_ := other.buckets_,
    bucket_count_ := other.bucket_count_,
    max_load_factor_ := other.max_load_factor_,
    other_bucket_count_ := 0,
    other_max_load_factor_ := F32.finite 1 }

end UnorderedMap

namespace LList

variable {T : Type}

/-- `empty()`: `size_ == 0`. -/
def empty_ (l : LList T) : Bool := l.size_ == 0

/-- Two List objects at `e1` and `e2` in one memory, each well formed beside the other. -/
def PairInv (l : LList T) (e1 : Nat) (es1 : List (Nat × T)) (e2 : Nat)
    (es2 : List (Nat × T)) : Prop :=
  l.ReprIn e1 es1 [e2] es2 ∧ l.ReprIn e2 es2 [e1] es1

end LList

namespace LList

/-- The list after `push_back(7)` on the empty list: the node `1` holds `7`. -/
def list7 : LList Nat := (LList.empty : LList Nat).push_back 7

end LList

namespace UnorderedMap

variable {Key Value : Type}

/-- The calls `emplace`, `insert`, `erase`, `reserve` and `clear`. -/
def countOp (_m : UnorderedMap Key Value) : Op Key Value → Prop
  | Op.emplace _ _ => True
  | Op.insert _ => True
  | Op.erase _ => True
  | Op.reserve _ => True
  | Op.clear => True
  | _ => False

/-- A well-formed bucket index over the node sequence `es`: for every bucket with
`size_ > 0`, the sequence splits as `pre ++ run ++ post` where `run` has `size_` nodes, its
first node is the bucket's `it_`, every entry of `run` has this bucket index and no entry of
`pre` or `post` has it. -/
def WellFormedIndex (hash : Key → Nat) (m : UnorderedMap Key Value)
    (es : List (Nat × (Key × Value))) : Prop :=
  ∀ i, i < m.bucket_count_ → 0 < (m.buckets_ i).size_ →
    ∃ pre run post, es = pre ++ run ++ post ∧ run.length = (m.buckets_ i).size_ ∧
      (run.map Prod.fst).head? = some (m.buckets_ i).it_ ∧
      (∀ e ∈ run, idxOf hash m.bucket_count_ e = i) ∧
      (∀ e ∈ pre ++ post, idxOf hash m.bucket_count_ e ≠ i)

/-- The map with 4 buckets after `emplace(1, 10)`: node `1` is the run of bucket `1`. -/
def map1 : UnorderedMap Nat Nat :=
  (runOps hashId equalNat 0 (mk_empty 4) [Op.emplace 1 10]).getD (mk_empty 4)

/-- The map constructed with 1 bucket after `emplace(0, 0)` and `emplace(2, 20)`: the second
call doubles the bucket count to 2, and the rehash puts both nodes in bucket `0`. -/
def map02 : UnorderedMap Nat Nat :=
  (runOps hashId equalNat 0 (mk_empty 1) [Op.emplace 0 0, Op.emplace 2 20]).getD (mk_empty 1)

end UnorderedMap

namespace LList

variable {T : Type}

/-- `swap(other)` called on the List object whose `endNode` is at `e` (counter `sz`), with
`other` the List object at `o` (counter `osz`): the memory and the two counters
afterwards.  The tests `endNode.next != &endNode` are made after the links of the two
sentinels have been exchanged. -/
def swap_at (e o : Nat) (l : LList T) (sz osz : Nat) : LList T × (Nat × Nat) :=
  if e = o then (l, (sz, osz))
  else
    let next1 := upd (upd l.next e (l.next o)) o (l.next e)
    let prev1 := upd (upd l.prev e (l.prev o)) o (l.prev e)
    let prev2 := if next1 e ≠ e then upd prev1 (next1 e) e else upd prev1 e e
    let next2 := if next1 e ≠ e then upd next1 (prev2 e) e else upd next1 e e
    let prev3 := if next2 o ≠ o then upd prev2 (next2 o) o else upd prev2 o o
    let next3 := if next2 o ≠ o then upd next2 (prev3 o) o else upd next2 o o
    ({ l with prev := prev3, next := next3 }, (osz, sz))

/-- The loop `for (elem : other) tmp.push_back(elem)` of the copy assignment: `other` is
the List object at `o`, `tmp` the one at `t`, whose counter is `l.size_`. -/
def assignLoop (o t : Nat) : Nat → Nat → LList T → Option (LList T)
  | 0, node, l => if node = o then some l else none
  | fuel + 1, node, l =>
    if node = o then some l
    else
      match l.value node with
      | none => none
      | some v =>
        match stepAt t l (LOp.push_back v) with
        | none => none
        | some l1 => assignLoop o t fuel (l1.next node) l1

/-- The copy assignment `*this = other` up to and including `this->swap(tmp)`, with `this`
the first list of `p` and `other` the second: the `endNode` of `tmp` is placed at a fresh
address `t`.  Returns the memory, `t`, and the counters of `this` and of `tmp`. -/
def copy_assign_swapped (p : ListPair T) : Option (LList T × (Nat × (Nat × Nat))) :=
  let t := p.mem.alloc
  let m0 : LList T :=
    { p.mem with prev := upd p.mem.prev t t, next := upd p.mem.next t t, alloc := t + 1,
                 size_ := 0 }
  match assignLoop p.endNode2 t p.mem.alloc (m0.next p.endNode2) m0 with
  | none => none
  | some m1 => some ((swap_at endNode t m1 p.mem.size_ m1.size_).1,
      (t, (swap_at endNode t m1 p.mem.size_ m1.size_).2))

/-- The copy assignment `List& operator=(const List& other)`, with `this` the first list
of `p` and `other` the second; it ends with the destructor of `tmp`, which is `clear()`. -/
def copy_assign (p : ListPair T) : Option (ListPair T) :=
  if endNode = p.endNode2 then some p
  else
    match copy_assign_swapped p with
    | none => none
    | some r =>
      match clear_at r.2.1 r.1 with
      | none => none
      | some m3 =>
        some { mem := { m3 with size_ := r.2.2.1 }, endNode2 := p.endNode2,
               size2 := p.size2 }

/-- Two lists: the first is empty (moved from), the second holds `7`. -/
def pairE7 : ListPair Nat := list7.move_construct

/-- Two empty lists. -/
def pairEE : ListPair Nat :=
  (copy_construct (LList.empty : LList Nat)).getD ⟨LList.empty, 1, 0⟩

/-- Two lists: the first holds `7`, the second is empty. -/
def pair7E : ListPair Nat := (pairEE.step1 (LOp.push_back 7)).getD pairEE

/-- Two lists: the first holds `7, 8`, the second holds `9`. -/
def pair78_9 : ListPair Nat :=
  (((pairEE.step1 (LOp.push_back 7)).bind (fun p => p.step1 (LOp.push_back 8))).bind
    (fun p => p.step2 (LOp.push_back 9))).getD pairEE

end LList

/-! ## The class `CircularBuffer` (`src/circular_buffer/circular_buffer.h`)

The storage is a row of cells by index: `some v` is a cell that holds a live object with
value `v`, `none` is raw storage.  A placement `new` writes a cell whatever it held; an
assignment `*cell = value`, a read `*cell` and a destructor call need a live object, else the
call is undefined behaviour (`none`).  `size_t` arithmetic is taken modulo `2^64`; taking
`% capacity()` with capacity `0` is undefined behaviour.  An iterator is its field `ind`. -/

/-- The class `CircularBuffer<T, Capacity>`: the cells of `storage`, `capacity()`, `head_`
and `size_`. -/
structure CircularBuffer (T : Type) where
  data : Nat → Option T
  capacity_ : Nat
  head_ : Nat
  size_ : Nat

namespace CircularBuffer

variable {T : Type}

/-- The constructor `CircularBuffer(capacity)`: raw storage, `head_ = 0`, `size_ = 0`. -/
def mk_empty (capacity : Nat) : CircularBuffer T :=
  { data := fun _ => none, capacity_ := capacity, head_ := 0, size_ := 0 }

/-- `size()`. -/
def size (b : CircularBuffer T) : Nat := b.size_

/-- `capacity()`. -/
def capacity (b : CircularBuffer T) : Nat := b.capacity_

/-- `empty()`. -/
def empty (b : CircularBuffer T) : Bool := b.size == 0

/-- `full()`. -/
def full (b : CircularBuffer T) : Bool := b.size == b.capacity

/-- The `size_t` value of the argument `-1`. -/
def neg1 : Nat := 2 ^ 64 - 1

/-- `getIndex(i)`: `(head_ + i + capacity()) % capacity()` in `size_t` arithmetic. -/
def getIndex (b : CircularBuffer T) (i : Nat) : Option Nat :=
  if b.capacity = 0 then none
  else some ((b.head_ + i + b.capacity) % 2 ^ 64 % b.capacity)

/-- `get_ptr(i)`: the cell `storage.get_ptr_storage(getIndex(i))`. -/
def get_ptr (b : CircularBuffer T) (i : Nat) : Option Nat := b.getIndex i

/-- A placement `new (cell) T(value)`. -/
def construct (b : CircularBuffer T) (cell : Nat) (value : T) : CircularBuffer T :=
  { b with data := upd b.data cell (some value) }

/-- An assignment `*cell = value`. -/
def assign (b : CircularBuffer T) (cell : Nat) (value : T) : Option (CircularBuffer T) :=
  match b.data cell with
  | none => none
  | some _ => some { b with data := upd b.data cell (some value) }

/-- A destructor call `cell->~T()`. -/
def destroy (b : CircularBuffer T) (cell : Nat) : Option (CircularBuffer T) :=
  match b.data cell with
  | none => none
  | some _ => some { b with data := upd b.data cell none }

/-- `push_back(value)`. -/
def push_back (b : CircularBuffer T) (value : T) : Option (CircularBuffer T) :=
  if b.full then
    (b.get_ptr b.size_).bind fun cell =>
      (b.assign cell value).bind fun b1 =>
        (b1.getIndex 1).map fun h => { b1 with head_ := h }
  else
    (b.get_ptr b.size_).map fun cell =>
      let b1 := b.construct cell value
      { b1 with size_ := (b1.size_ + 1) % 2 ^ 64 }

/-- `push_front(value)`. -/
def push_front (b : CircularBuffer T) (value : T) : Option (CircularBuffer T) :=
  if b.full then
    (b.get_ptr neg1).bind fun cell =>
      (b.assign cell value).bind fun b1 =>
        (b1.getIndex neg1).map fun h => { b1 with head_ := h }
  else
    (b.get_ptr neg1).bind fun cell =>
      let b1 := b.construct cell value
      (b1.getIndex neg1).map fun h =>
        { b1 with head_ := h, size_ := (b1.size_ + 1) % 2 ^ 64 }

/-- `pop_back()`. -/
def pop_back (b : CircularBuffer T) : Option (CircularBuffer T) :=
  if b.empty then some b
  else
    let b1 := { b with size_ := dec64 b.size_ }
    (b1.get_ptr b1.size_).bind fun cell => b1.destroy cell

/-- `pop_front()`. -/
def pop_front (b : CircularBuffer T) : Option (CircularBuffer T) :=
  if b.empty then some b
  else
    (b.get_ptr 0).bind fun cell =>
      (b.destroy cell).bind fun b1 =>
        (b1.getIndex 1).map fun h => { b1 with head_ := h, size_ := dec64 b1.size_ }

/-- `operator[](i)`: the cell the returned reference designates. -/
def index (b : CircularBuffer T) (i : Nat) : Option Nat := b.get_ptr i

/-- The value read through `operator[](i)`. -/
def read (b : CircularBuffer T) (i : Nat) : Option T := (b.index i).bind b.data

/-- Outcome of `at`: a reference to a cell, or the exception `std::out_of_range`. -/
inductive At where
  | ref (cell : Nat)
  | out_of_range
deriving DecidableEq

/-- `at(i)` (lines 316-321): the buffer it leaves and the outcome. -/
def at_ (b : CircularBuffer T) (i : Nat) : Option (CircularBuffer T × At) :=
  if i ≥ b.size_ then some (b, At.out_of_range)
  else (b.index i).map fun cell => (b, At.ref cell)

/-- The iterator `begin()`: its field `ind`. -/
def begin_ (_b : CircularBuffer T) : Nat := 0

/-- The iterator `end()`: its field `ind`. -/
def end_ (b : CircularBuffer T) : Nat := b.size_

/-- The iterator `iter + n`: `ind += n` in `size_t` arithmetic. -/
def iter_add (ind n : Nat) : Nat := (ind + n) % 2 ^ 64

/-- A statement `new (get_ptr(dst)) T(*get_ptr(src))`. -/
def copy_cell (b : CircularBuffer T) (dst src : Nat) : Option (CircularBuffer T) :=
  (b.get_ptr src).bind fun s =>
    match b.data s with
    | none => none
    | some v => (b.get_ptr dst).map fun d => b.construct d v

/-- The loop `for (i = size_ - 1; i > ind; --i) new (get_ptr(i)) T(*get_ptr(i - 1))` of
`insert`, from the value `i` of the loop variable. -/
def insertLoop (ind : Nat) : Nat → CircularBuffer T → Option (CircularBuffer T)
  | 0, b => some b
  | i + 1, b =>
    if i + 1 > ind then (b.copy_cell (i + 1) i).bind fun b1 => insertLoop ind i b1
    else some b

/-- The lines 359-364 of `insert`: open a gap at `ind` and construct `value` there. -/
def insert_shift (b : CircularBuffer T) (ind : Nat) (value : T) :
    Option (CircularBuffer T) :=
  (b.copy_cell b.size_ (dec64 b.size_)).bind fun b1 =>
    (insertLoop ind (dec64 b1.size_) b1).bind fun b2 =>
      (b2.get_ptr ind).map fun cell =>
        let b3 := b2.construct cell value
        { b3 with size_ := (b3.size_ + 1) % 2 ^ 64 }

/-- `insert(iter, value)`, with `iter.ind` for the iterator. -/
def insert (b : CircularBuffer T) (iter : Nat) (value : T) : Option (CircularBuffer T) :=
  if b.empty then
    let b1 := { b with size_ := 1 }
    (b1.get_ptr 0).map fun cell => b1.construct cell value
  else if b.full then
    if iter = 0 then some b
    else (b.pop_front).bind fun b1 => b1.insert_shift (dec64 iter) value
  else b.insert_shift iter value

/-- The loop `for (i = ind + 1; i < size_; ++i) new (get_ptr(i - 1)) T(*get_ptr(i))` of
`erase`, from the value `i` of the loop variable; every round raises `i`, so the loop takes
at most `size_` rounds. -/
def eraseLoop : Nat → Nat → CircularBuffer T → Option (CircularBuffer T)
  | 0, i, b => if i < b.size_ then none else some b
  | fuel + 1, i, b =>
    if i < b.size_ then
      (b.copy_cell (dec64 i) i).bind fun b1 => eraseLoop fuel ((i + 1) % 2 ^ 64) b1
    else some b

/-- `erase(iter)`, with `iter.ind` for the iterator. -/
def erase (b : CircularBuffer T) (iter : Nat) : Option (CircularBuffer T) :=
  if iter ≥ b.size_ then some b
  else
    (eraseLoop b.size_ ((iter + 1) % 2 ^ 64) b).bind fun b1 =>
      let b2 := { b1 with size_ := dec64 b1.size_ }
      (b2.get_ptr b2.size_).bind fun cell => b2.destroy cell

/-- The values `buffer[i]`, `buffer[i + 1]`, ... of `n` positions. -/
def contentsFrom (b : CircularBuffer T) : Nat → Nat → Option (List T)
  | _, 0 => some []
  | i, n + 1 =>
    match b.read i, contentsFrom b (i + 1) n with
    | some v, some vs => some (v :: vs)
    | _, _ => none

/-- The logical contents: `buffer[0]`, ..., `buffer[size() - 1]`. -/
def contents (b : CircularBuffer T) : Option (List T) := b.contentsFrom 0 b.size_

/-- Class invariant of a buffer with capacity at least 1: `head_ < capacity()`,
`size() ≤ capacity()`, and the capacity is small enough for `head_ + i + capacity()` not to
wrap (`3 * capacity() ≤ 2^64`). -/
structure Wf (b : CircularBuffer T) : Prop where
  cap_pos : 0 < b.capacity_
  head_lt : b.head_ < b.capacity_
  size_le : b.size_ ≤ b.capacity_
  cap_le : 3 * b.capacity_ ≤ 2 ^ 64

/-- A sequence of `push_back` calls. -/
def push_all : CircularBuffer T → List T → Option (CircularBuffer T)
  | b, [] => some b
  | b, v :: vs => (b.push_back v).bind fun b1 => push_all b1 vs

/-- The buffer of capacity 1 after `push_back(7)`. -/
def buf7 : CircularBuffer Nat := ((mk_empty 1 : CircularBuffer Nat).push_back 7).getD (mk_empty 1)

/-- The buffer of capacity 4 after `push_back` of `1`, `2`, `3`, `4`, `5`: it is full, its
contents are `2, 3, 4, 5` and `head_ = 1`. -/
def buf2345 : CircularBuffer Nat :=
  (push_all (mk_empty 4 : CircularBuffer Nat) [1, 2, 3, 4, 5]).getD (mk_empty 4)

/-- The buffer of capacity 4 after `push_back` of `1`, `2`: contents `1, 2`. -/
def buf12 : CircularBuffer Nat :=
  (push_all (mk_empty 4 : CircularBuffer Nat) [1, 2]).getD (mk_empty 4)

end CircularBuffer

namespace CircularBuffer

variable {T : Type}

/-- The cells of the positions `0 .. size() - 1`, counted from `head_` around the storage,
hold the values `xs`. -/
def Holds (b : CircularBuffer T) (xs : List T) : Prop :=
  xs.length = b.size_ ∧ ∀ j, j < b.size_ → b.data ((b.head_ + j) % b.capacity_) = xs[j]?

end CircularBuffer

namespace UnorderedMap

variable {Key Value : Type}

/-- The map with 4 buckets after `emplace` of the keys `1`, `2`, `7` (`hash(k) = k`): the
nodes `1`, `2`, `3` sit in the buckets `1`, `2`, `3`. -/
def map127 : UnorderedMap Nat Nat :=
  (runOps hashId equalNat 0 (mk_empty 4)
    [Op.emplace 1 10, Op.emplace 2 20, Op.emplace 7 70]).getD (mk_empty 4)

/-- The map constructed with 1 bucket after `emplace(0, 0)`. -/
def map0 : UnorderedMap Nat Nat :=
  (runOps hashId equalNat 0 (mk_empty 1) [Op.emplace 0 0]).getD (mk_empty 1)

/-- The map with 4 buckets after `emplace(1, 10)`, `emplace(5, 50)`, `emplace(2, 20)`
(nodes `1`, `2`, `3`), `erase` of node `1` and `erase` of node `3`. -/
def map5 : UnorderedMap Nat Nat :=
  (runOps hashId equalNat 0 (mk_empty 4)
    [Op.emplace 1 10, Op.emplace 5 50, Op.emplace 2 20, Op.erase 1, Op.erase 3]).getD
    (mk_empty 4)

/-- The calls `emplace`, `insert` and `erase`. -/
def emplaceEraseOp (_m : UnorderedMap Key Value) : Op Key Value → Prop
  | Op.emplace _ _ => True
  | Op.insert _ => True
  | Op.erase _ => True
  | _ => False

end UnorderedMap

/-- How a call that may allocate a bucket array ends: it returns `a`; or
`BucketAllocTraits::allocate` throws and the exception leaves the call, with the map in the
state `m`; or the exception meets a `noexcept` boundary and `std::terminate` is called. -/
inductive Signalled (Key Value α : Type) where
  | returned (a : α)
  | bad_alloc (m : UnorderedMap Key Value)
  | terminate

namespace Signalled

variable {Key Value α : Type}

/-- The map a call leaves when it ends with the exception of the allocator. -/
def thrown : Signalled Key Value α → Option (UnorderedMap Key Value)
  | bad_alloc m => some m
  | _ => none

/-- The call ended in `std::terminate`. -/
def terminated : Signalled Key Value α → Bool
  | terminate => true
  | _ => false

end Signalled

namespace UnorderedMap

variable {Key Value : Type}

/-- `rehash(new_bucket_count)` with the outcome of `BucketAllocTraits::allocate` made
explicit (`alloc_ok = false`: it throws).  `allocate_buckets` writes `bucket_count_` (line
480) before it calls `allocate` (line 481), and `rehash` has no handler: the exception
leaves with the new `bucket_count_` and the old `buckets_`. -/
def rehash_alloc (alloc_ok : Bool) (hash : Key → Nat) (m : UnorderedMap Key Value)
    (new_bucket_count : Nat) :
    Option (Signalled Key Value (UnorderedMap Key Value)) :=
  if new_bucket_count ≤ m.bucket_count_ then some (Signalled.returned m)
  else if alloc_ok then (rehash hash m new_bucket_count).map Signalled.returned
  else some (Signalled.bad_alloc { m with bucket_count_ := new_bucket_count })

/-- `reserve(n)` with the outcome of the allocation of the bucket array made explicit. -/
def reserve_alloc (alloc_ok : Bool) (hash : Key → Nat) (m : UnorderedMap Key Value)
    (n : Nat) : Option (Signalled Key Value (UnorderedMap Key Value)) :=
  match F32.toSize (F32.ceil (F32.div (F32.ofNat n) m.max_load_factor_)) with
  | none => none
  | some c => rehash_alloc alloc_ok hash m c

/-- `max_load_factor(mf)` (setter, declared `noexcept`) with the outcome of the allocation
of the bucket array made explicit: an exception that leaves `rehash` ends the program. -/
def set_max_load_factor_alloc (alloc_ok : Bool) (hash : Key → Nat)
    (m : UnorderedMap Key Value) (mf : F32) :
    Option (Signalled Key Value (UnorderedMap Key Value)) :=
  let m1 := { m with max_load_factor_ := mf }
  if F32.gt m1.load_factor m1.max_load_factor_ then
    (rehash_alloc alloc_ok hash m1 (m1.bucket_count_ * 2)).map fun o =>
      match o with
      | Signalled.bad_alloc _ => Signalled.terminate
      | o1 => o1
  else some (Signalled.returned m1)

/-- `emplace(key, value)` with the outcome of the allocation of the bucket array made
explicit: the node is linked and the bucket counter raised (lines 783-789) before `rehash`
is called (line 791). -/
def emplace_alloc (alloc_ok : Bool) (hash : Key → Nat) (equal : Key → Key → Bool)
    (m : UnorderedMap Key Value) (key : Key) (val : Value) :
    Option (Signalled Key Value (UnorderedMap Key Value × (Nat × Bool))) :=
  if m.bucket_count_ = 0 then none
  else
    let ind := hash key % m.bucket_count_
    let bucket := m.buckets_ ind
    match scanRun equal m.nodes_ key bucket.size_ bucket.it_ with
    | none => none
    | some (some it_list) => some (Signalled.returned (m, (it_list, false)))
    | some none =>
      let m2 := emplace_link m ind key val
      if F32.gt m2.load_factor m2.max_load_factor_ then
        (rehash_alloc alloc_ok hash m2 (m2.bucket_count_ * 2)).map fun o =>
          match o with
          | Signalled.returned m4 => Signalled.returned (m4, (m4.nodes_.prev endNode, true))
          | Signalled.bad_alloc m4 => Signalled.bad_alloc m4
          | Signalled.terminate => Signalled.terminate
      else some (Signalled.returned (m2, (m2.nodes_.prev endNode, true)))

end UnorderedMap

namespace MapPair

variable {Key Value : Type}

/-- The map moved from, after the move constructor: its node list is the first list of the
pair, `bucket_count_` is `0` and `buckets_` is `nullptr` (there is no bucket array; every
access to it is preceded by `% bucket_count_`). -/
def moved_from (p : MapPair Key Value) : UnorderedMap Key Value :=
  { nodes_ := p.lists.mem, buckets_ := fun _ => ⟨endNode, 0⟩,
    bucket_count_ := p.other_bucket_count_, max_load_factor_ := p.other_max_load_factor_ }

end MapPair

namespace LList

variable {T : Type}

/-- The calls `push_back`, `push_front`, `pop_back`, `pop_front`, `insert`, `erase`. -/
def linkOp : LOp T → Prop
  | LOp.clear => False
  | _ => True

/-- The states of a `List` reached from the empty list by `push_back`, `push_front`,
`pop_back`, `pop_front`, `insert` and `erase` with valid iterators. -/
inductive ReachableLinks : LList T → Prop where
  | init : ReachableLinks LList.empty
  | step (l : LList T) (op : LOp T) (l1 : LList T) :
      ReachableLinks l → linkOp op → validAt endNode l op → stepAt endNode l op = some l1 →
      ReachableLinks l1

/-- Backward traversal: from `it`, following `prev` until the sentinel, collecting each
node visited with its payload.  `none` when a node without payload is met or the fuel runs
out. -/
def walkBack (l : LList T) : Nat → Nat → Option (List (Nat × T))
  | _, 0 => some []
  | 0, _ + 1 => none
  | fuel + 1, it + 1 =>
    match l.value (it + 1) with
    | none => none
    | some v => (walkBack l fuel (l.prev (it + 1))).map (fun r => (it + 1, v) :: r)

/-- The nodes met following `prev` from the sentinel until the sentinel is met again. -/
def items_back (l : LList T) : Option (List (Nat × T)) := l.walkBack l.alloc (l.prev endNode)

/-- The list after `push_back(7)`, `push_front(5)`, `push_back(9)`. -/
def list579 : LList Nat :=
  ((((LList.empty : LList Nat).stepAt endNode (LOp.push_back 7)).bind
    (fun l => l.stepAt endNode (LOp.push_front 5))).bind
    (fun l => l.stepAt endNode (LOp.push_back 9))).getD LList.empty

end LList

/-! ## The class `BigInteger` (`src/biginteger/biginteger.h`)

`digits_` is the vector of limbs, least significant first; the limbs are `int64_t` values,
here integers.  `/` and `%` on `int64_t` truncate toward zero (`Int.tdiv`, `Int.tmod`).
A `std::string` is its list of characters; `s[i] - '0'` is the character code minus 48.
`std::abs` of the least `int64_t` value is undefined behaviour (`none`).  The stream
output `oss << x` of an `int64_t` is its decimal numeral (`show64`), and
`std::setw(8)` with `std::setfill('0')` pads it on the left with `'0'` to 8 characters
(`setw8`). -/

/-- The class `BigInteger`: the limbs `digits_` and the sign flag `is_negative_`. -/
structure BigInteger where
  digits_ : List Int
  is_negative_ : Bool
deriving DecidableEq

namespace BigInteger

/-- The constant `n_digits_`. -/
def n_digits_ : Nat := 8

/-- The constant `base_`. -/
def base_ : Int := 100000000

/-- `CheckForZero()`. -/
def CheckForZero (b : BigInteger) : BigInteger :=
  if b.digits_ = [] ∨ b.digits_ = [0] then { b with is_negative_ := false } else b

/-- The loop `while (digits_.size() > 1 && digits_.back() == 0) digits_.pop_back()`, on the
limbs listed from the most significant one. -/
def popZeros : List Int → List Int
  | [] => []
  | [d] => [d]
  | d :: d2 :: ds => if d = 0 then popZeros (d2 :: ds) else d :: d2 :: ds

/-- `removeLeadingZeros()`. -/
def removeLeadingZeros (b : BigInteger) : BigInteger :=
  CheckForZero { b with digits_ := (popZeros b.digits_.reverse).reverse }

/-- The loop `while (x > 0) { digits_.push_back(x % base_); x /= base_; }` of the
constructor from `int64_t`; a 64-bit value has at most 3 limbs. -/
def limbLoop : Nat → Int → List Int
  | 0, _ => []
  | fuel + 1, x => if x > 0 then Int.tmod x base_ :: limbLoop fuel (Int.tdiv x base_) else []

/-- The constructor `BigInteger(int64_t x)` for `x` other than the least `int64_t`. -/
def ofInt64_defined (x : Int) : BigInteger :=
  { digits_ := (if x = 0 then [0] else []) ++ limbLoop 4 (if x < 0 then -x else x),
    is_negative_ := decide (x < 0) }

/-- The constructor `BigInteger(int64_t x)`: for the least `int64_t` value the call
`std::abs(x)` has no defined result. -/
def ofInt64 (x : Int) : Option BigInteger :=
  if x = -(2 ^ 63) then none else some (ofInt64_defined x)

/-- The value `0` converted to `BigInteger`. -/
def zero : BigInteger := ofInt64_defined 0

/-- `s[i] - '0'`. -/
def charVal (c : Char) : Int := (c.toNat : Int) - 48

/-- The loop `for (i = size - 1; i >= start; --i)` of the constructor from a string, over
the characters in the order the loop reads them, with the variables `len` and `temp` and the
limbs pushed so far. -/
def parseLoop : List Char → Int → Int → List Int → List Int × Int
  | [], _, temp, ds => (ds, temp)
  | c :: cs, len, temp, ds =>
    if len = base_ then parseLoop cs (1 * 10) (0 + charVal c * 1) (ds ++ [temp])
    else parseLoop cs (len * 10) (temp + charVal c * len) ds

/-- The constructor `BigInteger(const std::string s)`. -/
def ofString (s : List Char) : BigInteger :=
  if s.length = 0 then { digits_ := [], is_negative_ := false }
  else
    let minus := decide (s.head? = some '-')
    let start := if minus then 1 else 0
    let is_negative_ :=
      if minus then
        (if s.getD start (Char.ofNat 0) = '0' ∧ s.length - start = 1 then false else true)
      else false
    let r := parseLoop (s.drop start).reverse 1 0 []
    removeLeadingZeros { digits_ := r.1 ++ [r.2], is_negative_ := is_negative_ }

/-- The character of a decimal digit. -/
def digitChar (n : Nat) : Char := Char.ofNat (48 + n)

/-- The decimal numeral of a natural number, most significant digit first; `fuel` bounds
the number of digits. -/
def showFuel : Nat → Nat → List Char
  | 0, _ => []
  | fuel + 1, n =>
    if n < 10 then [digitChar n] else showFuel fuel (n / 10) ++ [digitChar (n % 10)]

/-- The output of `oss << x` for an `int64_t` value `x` (at most 19 digits). -/
def show64 (x : Int) : List Char :=
  if x < 0 then '-' :: showFuel 20 (-x).toNat else showFuel 20 x.toNat

/-- The output under `std::setw(8)` and `std::setfill('0')`. -/
def setw8 (cs : List Char) : List Char := List.replicate (n_digits_ - cs.length) '0' ++ cs

/-- `toString()`. -/
def toString (b : BigInteger) : List Char :=
  if b.digits_ = [] then ['0']
  else
    (if b.is_negative_ then ['-'] else []) ++ show64 (b.digits_.getLastD 0) ++
      (b.digits_.dropLast.reverse.flatMap fun d => setw8 (show64 d))

/-- `CompareByModul`'s loop over the limbs from the most significant one. -/
def compareLoop : List Int → List Int → Bool
  | x :: xs, y :: ys => if x < y then true else if x > y then false else compareLoop xs ys
  | _, _ => false

/-- `CompareByModul(first, second)`. -/
def CompareByModul (first second : BigInteger) : Bool :=
  if first.digits_.length < second.digits_.length then true
  else if first.digits_.length > second.digits_.length then false
  else compareLoop first.digits_.reverse second.digits_.reverse

/-- `x == 0`, that is `!(0 < x) && !(x < 0)` with the non-negative `BigInteger(0)`: both
calls of `operator<` take a branch without the unary minus. -/
def eq_zero (x : BigInteger) : Bool :=
  (!(if zero.is_negative_ = x.is_negative_ then CompareByModul zero x
      else zero.is_negative_)) &&
  (!(if x.is_negative_ = zero.is_negative_ then CompareByModul x zero
      else x.is_negative_))

/-- The unary `operator-()`. -/
def neg (x : BigInteger) : BigInteger :=
  if eq_zero x then x else { x with is_negative_ := !x.is_negative_ }

/-- `operator<(first, second)`.  For two negative operands the source evaluates
`-(second) < -(first)`; the unary minus of a negative value clears its sign flag, so that
call compares by `CompareByModul`. -/
def lt (first second : BigInteger) : Bool :=
  if first.is_negative_ = second.is_negative_ then
    if !first.is_negative_ then CompareByModul first second
    else
      if (neg second).is_negative_ = (neg first).is_negative_ ∧ !(neg second).is_negative_
      then CompareByModul (neg second) (neg first)
      else (neg second).is_negative_
  else first.is_negative_

/-- `operator==(first, second)`: `(first <= second) && (first >= second)`. -/
def eq (first second : BigInteger) : Bool := (!(lt second first)) && (!(lt first second))

/-- `abs()`. -/
def abs (x : BigInteger) : BigInteger :=
  if !x.is_negative_ then x else { x with is_negative_ := false }

/-- The loop of `Add` from the index `i` with the carry `temp`. -/
def addLoop (num2 : List Int) (max_size : Nat) : Nat → Nat → Int → List Int → List Int
  | 0, _, _, r => r
  | fuel + 1, i, temp, r =>
    if i < max_size ∨ temp ≠ 0 then
      let x := r.getD i 0 + temp
      let y := if i < num2.length then x + num2.getD i 0 else x
      addLoop num2 max_size fuel (i + 1) (Int.tdiv y base_) (r.set i (Int.tmod y base_))
    else r

/-- `Add(first, second)`. -/
def Add (first second : BigInteger) : BigInteger :=
  let max_size := max first.digits_.length second.digits_.length + 1
  let r0 :=
    if max_size > first.digits_.length then
      first.digits_ ++ List.replicate (max_size + 1 - first.digits_.length) 0
    else first.digits_
  removeLeadingZeros
    { first with digits_ := addLoop second.digits_ max_size (r0.length + 1) 0 0 r0 }

/-- The loop of `Difference` from the index `i` with the borrow `temp`. -/
def diffLoop (num2 : List Int) (min_size : Nat) : Nat → Nat → Int → List Int → List Int
  | 0, _, _, r => r
  | fuel + 1, i, temp, r =>
    if i < min_size ∨ temp ≠ 0 then
      let x := if i ≥ num2.length then r.getD i 0 - temp else r.getD i 0 - (temp + num2.getD i 0)
      if x < 0 then diffLoop num2 min_size fuel (i + 1) 1 (r.set i (x + base_))
      else diffLoop num2 min_size fuel (i + 1) 0 (r.set i x)
    else r

/-- `Difference(first, second)`. -/
def Difference (first second : BigInteger) : BigInteger :=
  removeLeadingZeros
    { first with
      digits_ := diffLoop second.digits_ (min first.digits_.length second.digits_.length)
        (first.digits_.length + 1) 0 0 first.digits_ }

/-- `operator+=(other)`: the value assigned to `*this`. -/
def add_assign (a other : BigInteger) : BigInteger :=
  removeLeadingZeros
    (if a.is_negative_ = other.is_negative_ then
      { Add a other with is_negative_ := a.is_negative_ }
    else if CompareByModul a other then
      { Difference other a with is_negative_ := other.is_negative_ }
    else { Difference a other with is_negative_ := a.is_negative_ })

/-- `operator-=(other)`: `(*this) += (-other)`. -/
def sub_assign (a other : BigInteger) : BigInteger := add_assign a (neg other)

/-- The inner loop `for (j = 0; j < num2.size(); ++j)` of `Multiply` for the limb `x` of
`num1` at index `i`: the array and the carry `temp` afterwards. -/
def mulInner (x : Int) (i : Nat) : List Int → Nat → Int → List Int → List Int × Int
  | [], _, temp, r => (r, temp)
  | y :: ys, j, temp, r =>
    let v := r.getD (i + j) 0 + (x * y + temp)
    mulInner x i ys (j + 1) (Int.tdiv v base_) (r.set (i + j) (Int.tmod v base_))

/-- The outer loop `for (i = 0; i < num1.size(); ++i)` of `Multiply`. -/
def mulOuter (num2 : List Int) : List Int → Nat → List Int → List Int
  | [], _, r => r
  | x :: xs, i, r =>
    let p := mulInner x i num2 0 0 r
    mulOuter num2 xs (i + 1) (p.1.set (i + num2.length) (p.1.getD (i + num2.length) 0 + p.2))

/-- `Multiply(first, second)`. -/
def Multiply (first second : BigInteger) : BigInteger :=
  if eq second zero ∨ eq first zero then zero
  else
    removeLeadingZeros
      { digits_ := mulOuter second.digits_ first.digits_ 0
          (List.replicate (first.digits_.length + second.digits_.length + 1) 0),
        is_negative_ := if first.is_negative_ = second.is_negative_ then false else true }

/-- The binary search `while (l <= r)` of `Divide` for the greatest `m` with
`divisior * m <= temp`; it halves `r - l`, so it takes fewer than 64 rounds. -/
def searchLoop (divisior temp : BigInteger) : Nat → Int → Int → Int → Int
  | 0, _, _, x => x
  | fuel + 1, l, r, x =>
    if l ≤ r then
      let m := Int.tdiv (l + r) 2
      let t := Multiply divisior (ofInt64_defined m)
      if lt t temp ∨ eq t temp then searchLoop divisior temp fuel (m + 1) r m
      else searchLoop divisior temp fuel l (m - 1) x
    else x

/-- The loop `for (i = divised.digits_.size() - 1; i >= 0; --i)` of `Divide`, over the
limbs of `divised` from the most significant one: the running remainder `temp` and the
limbs of `ans` pushed so far. -/
def divLoop (divisior : BigInteger) : List Int → BigInteger → List Int → List Int
  | [], _, ans => ans
  | d :: ds, temp, ans =>
    let temp1 := removeLeadingZeros { temp with digits_ := d :: temp.digits_ }
    let x := searchLoop divisior temp1 64 0 base_ 0
    divLoop divisior ds (sub_assign temp1 (Multiply divisior (ofInt64_defined x))) (ans ++ [x])

/-- `Divide(first, second)`: `none` is the exception `std::runtime_error`. -/
def Divide (first second : BigInteger) : Option BigInteger :=
  if eq second zero then none
  else if eq first zero then some zero
  else if lt (abs first) (abs second) then some zero
  else
    some (removeLeadingZeros
      { digits_ := (divLoop (abs second) (abs first).digits_.reverse
          { digits_ := [], is_negative_ := false } []).reverse,
        is_negative_ := if first.is_negative_ = second.is_negative_ then false else true })

/-- `a / b` (`operator/=`): `none` is the exception. -/
def div (a b : BigInteger) : Option BigInteger := Divide a b

/-- `a % b` (`operator%=`): `*this -= Multiply(Divide(*this, other), other)`. -/
def mod (a b : BigInteger) : Option BigInteger :=
  (Divide a b).map fun q => sub_assign a (Multiply q b)

/-- `a * b` (`operator*=`). -/
def mul (a b : BigInteger) : BigInteger := Multiply a b

/-- `a + b` (`operator+`). -/
def add (a b : BigInteger) : BigInteger := add_assign a b

/-- The integer a `BigInteger` stands for. -/
def toInt (b : BigInteger) : Int :=
  let v := b.digits_.foldr (fun d acc => d + base_ * acc) 0
  if b.is_negative_ then -v else v

end BigInteger

namespace BigInteger

/-- The least `int64_t` value handled by a `std::abs` that returns its argument unchanged
when the negation overflows: the value of `wrap64 (-x)`. -/
def wrap64 (v : Int) : Int := (v + 2 ^ 63) % 2 ^ 64 - 2 ^ 63

/-- The object the constructor `BigInteger(int64_t x)` leaves on an implementation whose
`std::abs` wraps: for the least `int64_t` value `x` stays negative and the loop pushes no
limb. -/
def ofInt64_wrapping (x : Int) : BigInteger :=
  { digits_ := (if x = 0 then [0] else []) ++ limbLoop 4 (wrap64 (if x < 0 then -x else x)),
    is_negative_ := decide (x < 0) }

/-- A canonical decimal string: `"0"`, or an optional `'-'` followed by a non-empty string
of digits that does not start with `'0'`. -/
def Canonical (s : List Char) : Prop :=
  s = ['0'] ∨
  ∃ body, (s = body ∨ s = '-' :: body) ∧ body ≠ [] ∧ (∀ c ∈ body, c.isDigit = true) ∧
    body.head? ≠ some '0'

/-- The decimal numeral of `n` in exactly `k` digits, with leading zeros. -/
def padded : Nat → Nat → List Char
  | 0, _ => []
  | k + 1, n => padded k (n / 10) ++ [digitChar (n % 10)]

/-- The limbs `ds` printed from the most significant one, each in 8 digits. -/
def render (ds : List Int) : List Char := ds.reverse.flatMap fun d => setw8 (show64 d)

end BigInteger
namespace UnorderedMap

/-- The value of the literal `0.7f`, the `float` nearest to `0.7`: `11744051 / 2 ^ 24`. -/
def f07 : F32 := F32.finite (11744051 / 16777216)

/-- A sequence of calls like `runOps`, each call made only when the test `ok` holds in the
state the call is made in. -/
def runChecked {Key Value : Type} (hash : Key → Nat) (equal : Key → Key → Bool)
    (dflt : Value) (ok : UnorderedMap Key Value → Op Key Value → Bool) :
    UnorderedMap Key Value → List (Op Key Value) → Option (UnorderedMap Key Value)
  | m, [] => some m
  | m, op :: ops =>
    if ok m op then
      match step hash equal dflt m op with
      | none => none
      | some m1 => runChecked hash equal dflt ok m1 ops
    else none

/-- The condition `oneDoublingOp` as a test. -/
def oneDoublingOk {Key Value : Type} (m : UnorderedMap Key Value) (op : Op Key Value) :
    Bool :=
  decide (m.size + 1 < 2 ^ 64) && decide (m.bucket_count * 2 < 2 ^ 64) &&
    match op with
    | Op.max_load_factor mf =>
      F32.le (loadOf 1 m.bucket_count) mf && F32.le (loadOf m.size (m.bucket_count * 2)) mf
    | _ => true

/-- The map with 4 buckets after `emplace(1, 10)`, `emplace(2, 20)` and
`max_load_factor(0.25f)`: the setter doubles the bucket count to 8. -/
def map12q : UnorderedMap Nat Nat :=
  (runChecked hashId equalNat 0 oneDoublingOk (mk_empty 4)
    [Op.emplace 1 10, Op.emplace 2 20, Op.max_load_factor (F32.finite (1 / 4))]).getD
    (mk_empty 4)

/-- The map constructed with 10 buckets after the `emplace` of the keys `0` to `6`: 7 entries
in 10 buckets, threshold `1.0f`. -/
def map7of10 : UnorderedMap Nat Nat :=
  (runOps hashId equalNat 0 (mk_empty 10)
    [Op.emplace 0 0, Op.emplace 1 10, Op.emplace 2 20, Op.emplace 3 30, Op.emplace 4 40,
      Op.emplace 5 50, Op.emplace 6 60]).getD (mk_empty 10)

/-- The key that `it_list->data_.first` reads: the key of the live node at `it_list`, and
at the sentinel the key that the bytes of `size_` denote. -/
def key_at {Key Value : Type} (as_key : Nat → Key) (l : LList (Key × Value))
    (it_list : Nat) : Option Key :=
  if it_list = endNode then some (as_key l.size_) else (l.value it_list).map Prod.fst

/-- The scan `for (i = 0; i < bucket.size_; ++i, ++it_list)` of `emplace`, with the reads
of `key_at`. -/
def scanRun_layout {Key Value : Type} (as_key : Nat → Key) (equal : Key → Key → Bool)
    (l : LList (Key × Value)) (key : Key) : Nat → Nat → Option (Option Nat)
  | 0, _ => some none
  | n + 1, it_list =>
    match key_at as_key l it_list with
    | none => none
    | some k =>
      if equal k key then some (some it_list)
      else scanRun_layout as_key equal l key n (l.next it_list)

/-- `emplace(key, value)` with the scan of `scanRun_layout`. -/
def emplace_layout {Key Value : Type} (as_key : Nat → Key) (hash : Key → Nat)
    (equal : Key → Key → Bool) (m : UnorderedMap Key Value) (key : Key) (val : Value) :
    Option (UnorderedMap Key Value × (Nat × Bool)) :=
  if m.bucket_count_ = 0 then none
  else
    let ind := hash key % m.bucket_count_
    let bucket := m.buckets_ ind
    match scanRun_layout as_key equal m.nodes_ key bucket.size_ bucket.it_ with
    | none => none
    | some (some it_list) => some (m, (it_list, false))
    | some none =>
      let m2 := emplace_link m ind key val
      let m3 := if F32.gt m2.load_factor m2.max_load_factor_
                then rehash hash m2 (m2.bucket_count_ * 2) else some m2
      m3.map (fun m4 => (m4, (m4.nodes_.prev endNode, true)))

/-- The key that the bytes of a `size_t` value denote when the key type is `size_t`. -/
def sizeAsKey : Nat → Nat := fun s => s

/-- The map constructed with 2 buckets after `insert({0, 0})` and `insert({4, 40})`: both
keys have the bucket index `0`, the second node is linked in front of the first, and `it_`
of bucket `0` stays at the first node, whose successor is the sentinel. -/
def map04 : UnorderedMap Nat Nat :=
  (runOps hashId equalNat 0 (mk_empty 2) [Op.insert (0, 0), Op.insert (4, 40)]).getD
    (mk_empty 2)

/-- The map constructed with 2 buckets after `insert({1, 10})` and `insert({3, 30})`. -/
def map13 : UnorderedMap Nat Nat :=
  (runOps hashId equalNat 0 (mk_empty 2) [Op.insert (1, 10), Op.insert (3, 30)]).getD
    (mk_empty 2)

end UnorderedMap

/-! ## Rounding to `float` -/

namespace F32

/-- A natural number rounds to itself. -/
theorem roundHalfEven_natCast (n : Nat) : roundHalfEven (n : ℚ) = n := by
  unfold roundHalfEven
  simp

/-- Rounding to the nearest integer is monotone. -/
theorem roundHalfEven_mono {y z : ℚ} (h : y ≤ z) : roundHalfEven y ≤ roundHalfEven z := by
  have hf : ⌊y⌋₊ ≤ ⌊z⌋₊ := Nat.floor_mono h
  unfold roundHalfEven
  simp only
  rcases Nat.lt_or_eq_of_le hf with hlt | heq
  · split_ifs <;> omega
  · rw [← heq]
    split_ifs <;> first | omega | (exfalso; linarith)

/-- The nearest integer of a non-negative rational is at most one half away. -/
theorem roundHalfEven_sub_abs_le (y : ℚ) (hy : 0 ≤ y) :
    |(roundHalfEven y : ℚ) - y| ≤ 1 / 2 := by
  have h1 : (⌊y⌋₊ : ℚ) ≤ y := Nat.floor_le hy
  have h2 : y < (⌊y⌋₊ : ℚ) + 1 := Nat.lt_floor_add_one y
  unfold roundHalfEven
  simp only
  rw [abs_le]
  split_ifs <;> push_cast <;> constructor <;> linarith

/-- What the bisection for the exponent returns. -/
theorem ulpSearch_spec (x : ℚ) :
    ∀ (fuel : Nat) (lo hi : Int), lo ≤ hi → hi - lo < 2 ^ fuel →
      lo ≤ ulpSearch x fuel lo hi ∧ ulpSearch x fuel lo hi ≤ hi ∧
      (lo < ulpSearch x fuel lo hi → (2 : ℚ) ^ (ulpSearch x fuel lo hi + 23) ≤ x) ∧
      (ulpSearch x fuel lo hi < hi → x < (2 : ℚ) ^ (ulpSearch x fuel lo hi + 24))
  | 0, lo, hi, hle, hsz => by
    simp only [ulpSearch]
    have : hi = lo := by
      simp only [pow_zero] at hsz
      omega
    subst this
    exact ⟨le_refl _, le_refl _, fun h => absurd h (lt_irrefl _),
      fun h => absurd h (lt_irrefl _)⟩
  | fuel + 1, lo, hi, hle, hsz => by
    by_cases h1 : hi ≤ lo
    · have he : ulpSearch x (fuel + 1) lo hi = lo := by simp only [ulpSearch, if_pos h1]
      rw [he]
      have : hi = lo := by omega
      subst this
      exact ⟨le_refl _, le_refl _, fun h => absurd h (lt_irrefl _),
        fun h => absurd h (lt_irrefl _)⟩
    · have hpow : (2 : Int) ^ (fuel + 1) = 2 * 2 ^ fuel := by rw [pow_succ]; ring
      rw [hpow] at hsz
      obtain ⟨mid, hmid⟩ : ∃ mid, mid = (lo + hi + 1) / 2 := ⟨_, rfl⟩
      have hm1 : lo < mid := by omega
      have hm2 : mid ≤ hi := by omega
      by_cases h2 : (2 : ℚ) ^ (mid + 23) ≤ x
      · have he : ulpSearch x (fuel + 1) lo hi = ulpSearch x fuel mid hi := by
          have h2c : (2 : ℚ) ^ ((lo + hi + 1) / 2 + 23) ≤ x := by rw [← hmid]; exact h2
          simp only [ulpSearch, if_neg h1, if_pos h2c, hmid]
        rw [he]
        obtain ⟨i1, i2, i3, i4⟩ := ulpSearch_spec x fuel mid hi hm2 (by omega)
        refine ⟨by omega, i2, fun _ => ?_, i4⟩
        by_cases hlt : mid < ulpSearch x fuel mid hi
        · exact i3 hlt
        · have heq : ulpSearch x fuel mid hi = mid := by omega
          rw [heq]; exact h2
      · have he : ulpSearch x (fuel + 1) lo hi = ulpSearch x fuel lo (mid - 1) := by
          have h2c : ¬ (2 : ℚ) ^ ((lo + hi + 1) / 2 + 23) ≤ x := by rw [← hmid]; exact h2
          simp only [ulpSearch, if_neg h1, if_neg h2c, hmid]
        rw [he]
        obtain ⟨i1, i2, i3, i4⟩ := ulpSearch_spec x fuel lo (mid - 1) (by omega) (by omega)
        refine ⟨i1, by omega, i3, fun _ => ?_⟩
        by_cases hlt : ulpSearch x fuel lo (mid - 1) < mid - 1
        · exact i4 hlt
        · have heq : ulpSearch x fuel lo (mid - 1) = mid - 1 := by omega
          have : mid - 1 + 24 = mid + 23 := by ring
          rw [heq, this]
          exact lt_of_not_le h2

/-- The exponent of the unit in the last place lies between `-149` and `104`; above
`-149` the number is at least `2 ^ (e + 23)`, below `104` it is less than
`2 ^ (e + 24)`. -/
theorem ulpExp_spec (x : ℚ) :
    -149 ≤ ulpExp x ∧ ulpExp x ≤ 104 ∧
      (-149 < ulpExp x → (2 : ℚ) ^ (ulpExp x + 23) ≤ x) ∧
      (ulpExp x < 104 → x < (2 : ℚ) ^ (ulpExp x + 24)) :=
  ulpSearch_spec x 8 (-149) 104 (by norm_num) (by norm_num)

/-- Powers of two grow with the exponent. -/
theorem two_zpow_le {a b : Int} (h : a ≤ b) : (2 : ℚ) ^ a ≤ (2 : ℚ) ^ b :=
  zpow_le_zpow_right₀ (by norm_num) h

/-- The exponent of the unit in the last place is determined by its bounds. -/
theorem ulpExp_eq (x : ℚ) (e : Int) (h1 : -149 ≤ e) (h2 : e ≤ 104)
    (h3 : -149 < e → (2 : ℚ) ^ (e + 23) ≤ x) (h4 : e < 104 → x < (2 : ℚ) ^ (e + 24)) :
    ulpExp x = e := by
  obtain ⟨s1, s2, s3, s4⟩ := ulpExp_spec x
  rcases lt_trichotomy (ulpExp x) e with hlt | heq | hgt
  · exfalso
    have a := s4 (by omega)
    have b := h3 (by omega)
    have c : (2 : ℚ) ^ (ulpExp x + 24) ≤ (2 : ℚ) ^ (e + 23) := two_zpow_le (by omega)
    linarith
  · exact heq
  · exfalso
    have a := h4 (by omega)
    have b := s3 (by omega)
    have c : (2 : ℚ) ^ (e + 24) ≤ (2 : ℚ) ^ (ulpExp x + 23) := two_zpow_le (by omega)
    linarith

/-- The exponent of the unit in the last place grows with the number. -/
theorem ulpExp_mono {x y : ℚ} (h : x ≤ y) : ulpExp x ≤ ulpExp y := by
  obtain ⟨s1, s2, s3, s4⟩ := ulpExp_spec x
  obtain ⟨t1, t2, t3, t4⟩ := ulpExp_spec y
  by_contra hc
  have hlt : ulpExp y < ulpExp x := not_le.mp hc
  have a := s3 (by omega)
  have b := t4 (by omega)
  have c : (2 : ℚ) ^ (ulpExp y + 24) ≤ (2 : ℚ) ^ (ulpExp x + 23) := two_zpow_le (by omega)
  linarith

/-- Powers of two are positive. -/
theorem two_zpow_pos (e : Int) : (0 : ℚ) < (2 : ℚ) ^ e := zpow_pos (by norm_num) e

/-- Powers of two grow strictly with the exponent. -/
theorem two_zpow_lt {a b : Int} (h : a < b) : (2 : ℚ) ^ a < (2 : ℚ) ^ b :=
  zpow_lt_zpow_right₀ (by norm_num) h

/-- A power of two is a natural multiple of every smaller power of two. -/
theorem two_zpow_grid (e j : Int) (h : e ≤ j) :
    (2 : ℚ) ^ j = ((2 ^ (j - e).toNat : Nat) : ℚ) * (2 : ℚ) ^ e := by
  have h1 : j = ((j - e).toNat : Int) + e := by
    rw [Int.toNat_of_nonneg (by omega)]; ring
  have h2 : (2 : ℚ) ^ j = (2 : ℚ) ^ (((j - e).toNat : Int) + e) := by rw [← h1]
  rw [h2, zpow_add₀ (by norm_num), zpow_natCast]
  push_cast
  rfl

/-- The nearest multiple of the unit in the last place is not negative. -/
theorem nearest_nonneg (x : ℚ) : 0 ≤ nearest x :=
  mul_nonneg (Nat.cast_nonneg _) (le_of_lt (two_zpow_pos _))

/-- Rounding does not cross a power of two from below. -/
theorem nearest_le_two_zpow (x : ℚ) (j : Int) (hj : -149 ≤ j) (hx : x ≤ (2 : ℚ) ^ j) :
    nearest x ≤ (2 : ℚ) ^ j := by
  obtain ⟨s1, s2, s3, s4⟩ := ulpExp_spec x
  have hpos := two_zpow_pos (ulpExp x)
  by_cases hle : ulpExp x ≤ j
  · have hg := two_zpow_grid (ulpExp x) j hle
    have hy : x / (2 : ℚ) ^ ulpExp x ≤ ((2 ^ (j - ulpExp x).toNat : Nat) : ℚ) := by
      rw [div_le_iff₀ hpos, ← hg]; exact hx
    have hm := roundHalfEven_mono hy
    rw [roundHalfEven_natCast] at hm
    have hm2 : (roundHalfEven (x / (2 : ℚ) ^ ulpExp x) : ℚ) ≤
        ((2 ^ (j - ulpExp x).toNat : Nat) : ℚ) := by exact_mod_cast hm
    unfold nearest
    rw [hg]
    exact mul_le_mul_of_nonneg_right hm2 (le_of_lt hpos)
  · exfalso
    have a := s3 (by omega)
    have b : (2 : ℚ) ^ j < (2 : ℚ) ^ (ulpExp x + 23) := two_zpow_lt (by omega)
    linarith

/-- Rounding does not cross a power of two from above. -/
theorem two_zpow_le_nearest (x : ℚ) (j : Int) (hj : -149 ≤ j) (hx : (2 : ℚ) ^ j ≤ x) :
    (2 : ℚ) ^ j ≤ nearest x := by
  obtain ⟨s1, s2, s3, s4⟩ := ulpExp_spec x
  have hpos := two_zpow_pos (ulpExp x)
  by_cases hle : ulpExp x ≤ j
  · have hg := two_zpow_grid (ulpExp x) j hle
    have hy : ((2 ^ (j - ulpExp x).toNat : Nat) : ℚ) ≤ x / (2 : ℚ) ^ ulpExp x := by
      rw [le_div_iff₀ hpos, ← hg]; exact hx
    have hm := roundHalfEven_mono hy
    rw [roundHalfEven_natCast] at hm
    have hm2 : ((2 ^ (j - ulpExp x).toNat : Nat) : ℚ) ≤
        (roundHalfEven (x / (2 : ℚ) ^ ulpExp x) : ℚ) := by exact_mod_cast hm
    unfold nearest
    rw [hg]
    exact mul_le_mul_of_nonneg_right hm2 (le_of_lt hpos)
  · have hlt : j < ulpExp x := not_le.mp hle
    have a := s3 (by omega)
    have hg := two_zpow_grid (ulpExp x) (ulpExp x + 23) (by omega)
    have hy : ((2 ^ (ulpExp x + 23 - ulpExp x).toNat : Nat) : ℚ) ≤
        x / (2 : ℚ) ^ ulpExp x := by
      rw [le_div_iff₀ hpos, ← hg]; exact a
    have hm := roundHalfEven_mono hy
    rw [roundHalfEven_natCast] at hm
    have hm2 : ((2 ^ (ulpExp x + 23 - ulpExp x).toNat : Nat) : ℚ) ≤
        (roundHalfEven (x / (2 : ℚ) ^ ulpExp x) : ℚ) := by exact_mod_cast hm
    have hn : (2 : ℚ) ^ (ulpExp x + 23) ≤ nearest x := by
      unfold nearest
      rw [hg]
      exact mul_le_mul_of_nonneg_right hm2 (le_of_lt hpos)
    have b : (2 : ℚ) ^ j ≤ (2 : ℚ) ^ (ulpExp x + 23) := two_zpow_le (by omega)
    linarith

/-- Rounding to `float` is monotone. -/
theorem nearest_mono {x y : ℚ} (h : x ≤ y) : nearest x ≤ nearest y := by
  obtain ⟨s1, s2, s3, s4⟩ := ulpExp_spec x
  obtain ⟨t1, t2, t3, t4⟩ := ulpExp_spec y
  rcases lt_or_eq_of_le (ulpExp_mono h) with hlt | heq
  · have a := s4 (by omega)
    have b := t3 (by omega)
    have c := nearest_le_two_zpow x (ulpExp x + 24) (by omega) (le_of_lt a)
    have d := two_zpow_le_nearest y (ulpExp y + 23) (by omega) b
    have e : (2 : ℚ) ^ (ulpExp x + 24) ≤ (2 : ℚ) ^ (ulpExp y + 23) := two_zpow_le (by omega)
    linarith
  · have hpos := two_zpow_pos (ulpExp y)
    have hy : x / (2 : ℚ) ^ ulpExp y ≤ y / (2 : ℚ) ^ ulpExp y :=
      div_le_div_of_nonneg_right h (le_of_lt hpos)
    have hm := roundHalfEven_mono hy
    have hm2 : (roundHalfEven (x / (2 : ℚ) ^ ulpExp y) : ℚ) ≤
        (roundHalfEven (y / (2 : ℚ) ^ ulpExp y) : ℚ) := by exact_mod_cast hm
    unfold nearest
    rw [heq]
    exact mul_le_mul_of_nonneg_right hm2 (le_of_lt hpos)

/-- The rounding error is at most half a unit in the last place. -/
theorem nearest_sub_abs_le (x : ℚ) (hx : 0 ≤ x) :
    |nearest x - x| ≤ (2 : ℚ) ^ ulpExp x / 2 := by
  have hpos := two_zpow_pos (ulpExp x)
  have hy : 0 ≤ x / (2 : ℚ) ^ ulpExp x := div_nonneg hx (le_of_lt hpos)
  have h := roundHalfEven_sub_abs_le (x / (2 : ℚ) ^ ulpExp x) hy
  have he : nearest x - x =
      ((roundHalfEven (x / (2 : ℚ) ^ ulpExp x) : ℚ) - x / (2 : ℚ) ^ ulpExp x) *
        (2 : ℚ) ^ ulpExp x := by
    unfold nearest
    field_simp
  rw [he, abs_mul, abs_of_pos hpos]
  calc |(roundHalfEven (x / (2 : ℚ) ^ ulpExp x) : ℚ) - x / (2 : ℚ) ^ ulpExp x| *
        (2 : ℚ) ^ ulpExp x ≤ 1 / 2 * (2 : ℚ) ^ ulpExp x :=
        mul_le_mul_of_nonneg_right h (le_of_lt hpos)
    _ = (2 : ℚ) ^ ulpExp x / 2 := by ring

/-- A number of the normal range is at least `2 ^ 23` units in the last place. -/
theorem two_zpow_ulpExp_le (x : ℚ) (hx : (2 : ℚ) ^ (-126 : Int) ≤ x) :
    (2 : ℚ) ^ (ulpExp x + 23) ≤ x := by
  obtain ⟨s1, s2, s3, s4⟩ := ulpExp_spec x
  by_cases h : -149 < ulpExp x
  · exact s3 h
  · have : ulpExp x = -149 := by omega
    rw [this]
    exact hx

/-- The relative rounding error in the normal range is at most `2 ^ (-24)`. -/
theorem nearest_rel_error (x : ℚ) (hx : (2 : ℚ) ^ (-126 : Int) ≤ x) :
    |nearest x - x| ≤ x * (2 : ℚ) ^ (-24 : Int) := by
  have hx0 : 0 ≤ x := le_trans (le_of_lt (two_zpow_pos _)) hx
  have h1 := nearest_sub_abs_le x hx0
  have h2 := two_zpow_ulpExp_le x hx
  have h3 : (2 : ℚ) ^ ulpExp x / 2 = (2 : ℚ) ^ (ulpExp x + 23) * (2 : ℚ) ^ (-24 : Int) := by
    rw [← zpow_add₀ (by norm_num : (2 : ℚ) ≠ 0)]
    have : ulpExp x + 23 + -24 = ulpExp x - 1 := by ring
    rw [this, zpow_sub_one₀ (by norm_num : (2 : ℚ) ≠ 0)]
    ring
  rw [h3] at h1
  have h4 : (2 : ℚ) ^ (ulpExp x + 23) * (2 : ℚ) ^ (-24 : Int) ≤ x * (2 : ℚ) ^ (-24 : Int) :=
    mul_le_mul_of_nonneg_right h2 (le_of_lt (two_zpow_pos _))
  linarith

/-- Doubling a number of the normal range doubles its rounding. -/
theorem nearest_two_mul (x : ℚ) (hx : (2 : ℚ) ^ (-126 : Int) ≤ x)
    (hx2 : x < (2 : ℚ) ^ (127 : Int)) : nearest (2 * x) = 2 * nearest x := by
  obtain ⟨s1, s2, s3, s4⟩ := ulpExp_spec x
  have hlow := two_zpow_ulpExp_le x hx
  have h104 : ulpExp x < 104 := by
    by_contra hc
    have : ulpExp x = 104 := by omega
    rw [this] at hlow
    have : (104 : Int) + 23 = 127 := by norm_num
    rw [this] at hlow
    linarith
  have hup := s4 h104
  have he : ulpExp (2 * x) = ulpExp x + 1 := by
    apply ulpExp_eq
    · omega
    · omega
    · intro _
      have : ulpExp x + 1 + 23 = (ulpExp x + 23) + 1 := by ring
      rw [this, zpow_add_one₀ (by norm_num : (2 : ℚ) ≠ 0)]
      linarith
    · intro _
      have : ulpExp x + 1 + 24 = (ulpExp x + 24) + 1 := by ring
      rw [this, zpow_add_one₀ (by norm_num : (2 : ℚ) ≠ 0)]
      linarith
  unfold nearest
  rw [he, zpow_add_one₀ (by norm_num : (2 : ℚ) ≠ 0)]
  have hq : 2 * x / ((2 : ℚ) ^ ulpExp x * 2) = x / (2 : ℚ) ^ ulpExp x := by
    have := two_zpow_pos (ulpExp x)
    field_simp
    ring
  rw [hq]
  ring

/-- The conversion of a positive `size_t` value to `float` is a finite value between `1`
and `2 ^ 64`. -/
theorem ofNat_pos (n : Nat) (h0 : 0 < n) (h : n < 2 ^ 64) :
    ofNat n = finite (nearest n) ∧ 1 ≤ nearest (n : ℚ) ∧ nearest (n : ℚ) ≤ 2 ^ 64 := by
  have hn1 : (1 : ℚ) ≤ (n : ℚ) := by exact_mod_cast h0
  have hn2 : (n : ℚ) ≤ (2 : ℚ) ^ (64 : Int) := by
    have h1 : (n : ℚ) ≤ 2 ^ 64 := by exact_mod_cast le_of_lt h
    have h2 : (2 : ℚ) ^ (64 : Int) = 2 ^ 64 := by norm_num
    rw [h2]; exact h1
  have a : (2 : ℚ) ^ (0 : Int) ≤ nearest (n : ℚ) :=
    two_zpow_le_nearest (n : ℚ) 0 (by norm_num) (by simpa using hn1)
  have b : nearest (n : ℚ) ≤ (2 : ℚ) ^ (64 : Int) :=
    nearest_le_two_zpow (n : ℚ) 64 (by norm_num) hn2
  have a1 : (1 : ℚ) ≤ nearest (n : ℚ) := by simpa using a
  have b1 : nearest (n : ℚ) ≤ 2 ^ 64 := by
    have : (2 : ℚ) ^ (64 : Int) = 2 ^ 64 := by norm_num
    rw [this] at b; exact b
  refine ⟨?_, a1, b1⟩
  have hne : (n : ℚ) ≠ 0 := by positivity
  have hpos : (0 : ℚ) < (n : ℚ) := by positivity
  have hlt : ¬ ((2 : ℚ) ^ 128 ≤ nearest (n : ℚ)) := by
    have : (2 : ℚ) ^ 64 < (2 : ℚ) ^ 128 := by norm_num
    intro hc; linarith
  simp only [ofNat, round, if_neg hne, if_pos hpos, if_neg hlt]

/-- The conversion of zero. -/
theorem ofNat_zero : ofNat 0 = finite 0 := by
  simp [ofNat, round]

end F32

namespace UnorderedMap

open F32

/-- The load factor of no entry is the positive zero. -/
theorem loadOf_zero (b : Nat) (hb : 0 < b) (hb2 : b < 2 ^ 64) : loadOf 0 b = finite 0 := by
  obtain ⟨e, h1, _⟩ := ofNat_pos b hb hb2
  have hne : nearest (b : ℚ) ≠ 0 := by linarith
  have hnn : ¬ nearest (b : ℚ) < 0 := by linarith
  simp only [loadOf, ofNat_zero, e, div, value, if_neg hne, isNeg, zero]
  simp [hnn]

/-- The load factor of `s ≥ 1` entries in `b ≥ 1` buckets is a finite value: the quotient of
the two conversions, rounded. -/
theorem loadOf_pos (s b : Nat) (hs : 0 < s) (hs2 : s < 2 ^ 64) (hb : 0 < b)
    (hb2 : b < 2 ^ 64) :
    loadOf s b = finite (nearest (nearest (s : ℚ) / nearest (b : ℚ))) := by
  obtain ⟨es, s1, s3⟩ := ofNat_pos s hs hs2
  obtain ⟨eb, b1, b3⟩ := ofNat_pos b hb hb2
  have hnb : nearest (b : ℚ) ≠ 0 := by linarith
  have hns : nearest (s : ℚ) ≠ 0 := by linarith
  have hbpos : (0 : ℚ) < nearest (b : ℚ) := by linarith
  have hq : nearest (s : ℚ) / nearest (b : ℚ) ≤ (2 : ℚ) ^ (64 : Int) := by
    rw [div_le_iff₀ hbpos]
    have : (2 : ℚ) ^ (64 : Int) = 2 ^ 64 := by norm_num
    rw [this]
    nlinarith
  have hqpos : 0 < nearest (s : ℚ) / nearest (b : ℚ) := div_pos (by linarith) hbpos
  have hqne : nearest (s : ℚ) / nearest (b : ℚ) ≠ 0 := ne_of_gt hqpos
  have hn := nearest_le_two_zpow _ 64 (by norm_num) hq
  have hlt : ¬ ((2 : ℚ) ^ 128 ≤ nearest (nearest (s : ℚ) / nearest (b : ℚ))) := by
    have h1 : (2 : ℚ) ^ (64 : Int) = 2 ^ 64 := by norm_num
    have h2 : (2 : ℚ) ^ 64 < (2 : ℚ) ^ 128 := by norm_num
    intro hc; rw [h1] at hn; linarith
  simp only [loadOf, es, eb, div, value, if_neg hnb, if_neg hns, F32.round, if_neg hqne,
    if_pos hqpos, if_neg hlt]

/-- The load factor of `size_t` values with at least one bucket is a finite value. -/
theorem loadOf_finite (s b : Nat) (hs2 : s < 2 ^ 64) (hb : 0 < b) (hb2 : b < 2 ^ 64) :
    loadOf s b = finite (loadOf s b).value ∧ 0 ≤ (loadOf s b).value := by
  rcases Nat.eq_zero_or_pos s with rfl | hs
  · rw [loadOf_zero b hb hb2]; exact ⟨rfl, le_refl _⟩
  · rw [loadOf_pos s b hs hs2 hb hb2]; exact ⟨rfl, nearest_nonneg _⟩

/-- More entries in the same buckets: the load factor does not fall. -/
theorem loadOf_mono_left (s s1 b : Nat) (h : s ≤ s1) (hs2 : s1 < 2 ^ 64) (hb : 0 < b)
    (hb2 : b < 2 ^ 64) : (loadOf s b).value ≤ (loadOf s1 b).value := by
  rcases Nat.eq_zero_or_pos s with rfl | hs
  · rw [loadOf_zero b hb hb2]
    exact (loadOf_finite s1 b hs2 hb hb2).2
  · rw [loadOf_pos s b hs (by omega) hb hb2, loadOf_pos s1 b (by omega) hs2 hb hb2]
    obtain ⟨_, b1, _⟩ := ofNat_pos b hb hb2
    apply nearest_mono
    apply div_le_div_of_nonneg_right _ (by linarith)
    apply nearest_mono
    exact_mod_cast h

/-- The same entries in more buckets: the load factor does not rise. -/
theorem loadOf_anti_right (s b b1 : Nat) (h : b ≤ b1) (hs2 : s < 2 ^ 64) (hb : 0 < b)
    (hb2 : b1 < 2 ^ 64) : (loadOf s b1).value ≤ (loadOf s b).value := by
  rcases Nat.eq_zero_or_pos s with rfl | hs
  · rw [loadOf_zero b hb (by omega), loadOf_zero b1 (by omega) hb2]
  · rw [loadOf_pos s b hs hs2 hb (by omega), loadOf_pos s b1 hs hs2 (by omega) hb2]
    obtain ⟨_, c1, _⟩ := ofNat_pos b hb (by omega)
    obtain ⟨_, d1, _⟩ := ofNat_pos s hs hs2
    apply nearest_mono
    apply div_le_div_of_nonneg_left (by linarith) (by linarith)
    apply nearest_mono
    exact_mod_cast h

/-- The conversion of twice a positive `size_t` value is twice its conversion. -/
theorem nearest_two_mul_nat (n : Nat) (h0 : 0 < n) (h : n < 2 ^ 64) :
    nearest ((2 * n : Nat) : ℚ) = 2 * nearest (n : ℚ) := by
  have hn1 : (1 : ℚ) ≤ (n : ℚ) := by exact_mod_cast h0
  have hn2 : (n : ℚ) < 2 ^ 64 := by exact_mod_cast h
  have a : (2 : ℚ) ^ (-126 : Int) ≤ (n : ℚ) := by
    have : (2 : ℚ) ^ (-126 : Int) ≤ (2 : ℚ) ^ (0 : Int) := two_zpow_le (by norm_num)
    have h1 : (2 : ℚ) ^ (0 : Int) = 1 := by norm_num
    linarith
  have b : (n : ℚ) < (2 : ℚ) ^ (127 : Int) := by
    have : (2 : ℚ) ^ (64 : Int) ≤ (2 : ℚ) ^ (127 : Int) := two_zpow_le (by norm_num)
    have h1 : (2 : ℚ) ^ (64 : Int) = 2 ^ 64 := by norm_num
    linarith
  have := nearest_two_mul (n : ℚ) a b
  push_cast
  exact this

/-- One entry more in twice the buckets: the load factor does not rise, when there was an
entry before. -/
theorem loadOf_double (s b : Nat) (hs : 0 < s) (hs2 : s + 1 < 2 ^ 64) (hb : 0 < b)
    (hb2 : b * 2 < 2 ^ 64) : (loadOf (s + 1) (b * 2)).value ≤ (loadOf s b).value := by
  rw [loadOf_pos (s + 1) (b * 2) (by omega) hs2 (by omega) hb2,
    loadOf_pos s b hs (by omega) hb (by omega)]
  obtain ⟨_, c1, _⟩ := ofNat_pos b hb (by omega)
  obtain ⟨_, d1, _⟩ := ofNat_pos s hs (by omega)
  have e1 : nearest ((s + 1 : Nat) : ℚ) ≤ 2 * nearest (s : ℚ) := by
    rw [← nearest_two_mul_nat s hs (by omega)]
    apply nearest_mono
    exact_mod_cast (by omega : s + 1 ≤ 2 * s)
  have e2 : nearest ((b * 2 : Nat) : ℚ) = 2 * nearest (b : ℚ) := by
    rw [Nat.mul_comm]
    exact nearest_two_mul_nat b hb (by omega)
  simp only [value]
  apply nearest_mono
  rw [e2, div_le_div_iff₀ (by linarith) (by linarith)]
  nlinarith

end UnorderedMap

namespace F32

/-- A finite value that is not above a number is at most that number. -/
theorem le_of_gt_false (v : ℚ) (t : F32) (ht : t ≠ nan) (h : gt (finite v) t = false) :
    le (finite v) t = true := by
  cases t with
  | finite q =>
    simp only [gt, value, decide_eq_false_iff_not, not_lt] at h
    simp only [le, value, decide_eq_true_eq]
    exact h
  | negzero =>
    simp only [gt, value, decide_eq_false_iff_not, not_lt] at h
    simp only [le, value, decide_eq_true_eq]
    exact h
  | inf n =>
    simp only [gt] at h
    simp only [le, h, Bool.not_false]
  | nan => exact absurd rfl ht

/-- The operator `<=` on two finite values. -/
theorem le_finite_iff (a t : ℚ) : le (finite a) (finite t) = true ↔ a ≤ t := by
  simp [le, value]

/-- A smaller finite value is within the same threshold. -/
theorem le_of_value_le (v v1 : ℚ) (t : F32) (hv : v1 ≤ v) (h : le (finite v) t = true) :
    le (finite v1) t = true := by
  cases t with
  | finite q =>
    simp only [le, value, decide_eq_true_eq] at h ⊢
    linarith
  | negzero =>
    simp only [le, value, decide_eq_true_eq] at h ⊢
    linarith
  | inf n => simpa [le] using h
  | nan => simp [le] at h

/-- Nothing is `<=` not-a-number. -/
theorem ne_nan_of_le (a t : F32) (h : le a t = true) : t ≠ nan := by
  intro hc
  subst hc
  cases a <;> simp [le] at h

end F32
namespace F32

/-- Lower and upper bound of the rounding in the normal range. -/
theorem nearest_bounds (x : ℚ) (hx : (2 : ℚ) ^ (-126 : Int) ≤ x) :
    x * (1 - 1 / 2 ^ 24) ≤ nearest x ∧ nearest x ≤ x * (1 + 1 / 2 ^ 24) := by
  have h := nearest_rel_error x hx
  have hu : (2 : ℚ) ^ (-24 : Int) = 1 / 2 ^ 24 := by norm_num
  rw [hu, abs_le] at h
  constructor <;> linarith

/-- Bounds of the conversion of a positive `size_t` value. -/
theorem nearest_nat_bounds (n : Nat) (h0 : 0 < n) :
    (n : ℚ) * (1 - 1 / 2 ^ 24) ≤ nearest (n : ℚ) ∧
      nearest (n : ℚ) ≤ (n : ℚ) * (1 + 1 / 2 ^ 24) := by
  have hn1 : (1 : ℚ) ≤ (n : ℚ) := by exact_mod_cast h0
  have a : (2 : ℚ) ^ (-126 : Int) ≤ (n : ℚ) := by
    have : (2 : ℚ) ^ (-126 : Int) ≤ (2 : ℚ) ^ (0 : Int) := two_zpow_le (by norm_num)
    have h1 : (2 : ℚ) ^ (0 : Int) = 1 := by norm_num
    linarith
  exact nearest_bounds (n : ℚ) a

/-- Three roundings with relative error `u` lose at most the factor `1 - 4 * u`. -/
theorem slack_lower (s b ns nb q v u : ℚ) (hu0 : 0 < u) (hu1 : u ≤ 1 / 16) (hb : 0 < b)
    (hs : 0 < s) (hq0 : 0 < q) (hqb : q * nb = ns) (sl : s * (1 - u) ≤ ns)
    (bu : nb ≤ b * (1 + u)) (ql : q * (1 - u) ≤ v) : s * (1 - 4 * u) ≤ v * b := by
  have h1u : 0 ≤ 1 - u := by linarith
  have hbu : 0 ≤ b * (1 + u) := by positivity
  have e0 : q * nb ≤ q * (b * (1 + u)) := mul_le_mul_of_nonneg_left bu (le_of_lt hq0)
  have e1 : s * (1 - u) ≤ q * (b * (1 + u)) := by linarith
  have e2 : s * (1 - u) * (1 - u) ≤ q * (b * (1 + u)) * (1 - u) :=
    mul_le_mul_of_nonneg_right e1 h1u
  have e3 : q * (1 - u) * (b * (1 + u)) ≤ v * (b * (1 + u)) :=
    mul_le_mul_of_nonneg_right ql hbu
  have r1 : q * (b * (1 + u)) * (1 - u) = q * (1 - u) * (b * (1 + u)) := by ring
  have k1 : s * (1 - u) * (1 - u) - s * (1 - 4 * u) * (1 + u) = s * (u + 5 * u ^ 2) := by
    ring
  have k2 : 0 ≤ s * (u + 5 * u ^ 2) := by positivity
  have r2 : v * (b * (1 + u)) = v * b * (1 + u) := by ring
  have e5 : s * (1 - 4 * u) * (1 + u) ≤ v * b * (1 + u) := by linarith
  exact le_of_mul_le_mul_right e5 (by linarith)

/-- Three roundings with relative error `u` gain at most the factor `1 + 4 * u`. -/
theorem slack_upper (s b ns nb q v u : ℚ) (hu0 : 0 < u) (hu1 : u ≤ 1 / 16) (hb : 0 < b)
    (hs : 0 < s) (hq0 : 0 < q) (hqb : q * nb = ns) (su : ns ≤ s * (1 + u))
    (bl : b * (1 - u) ≤ nb) (qu : v ≤ q * (1 + u)) : v * b ≤ s * (1 + 4 * u) := by
  have h1u : 0 ≤ 1 - u := by linarith
  have h1p : 0 ≤ 1 + u := by linarith
  have hbu : 0 ≤ b * (1 - u) := by positivity
  have e0 : q * (b * (1 - u)) ≤ q * nb := mul_le_mul_of_nonneg_left bl (le_of_lt hq0)
  have e1 : q * (b * (1 - u)) ≤ s * (1 + u) := by linarith
  have e2 : v * (b * (1 - u)) ≤ q * (1 + u) * (b * (1 - u)) :=
    mul_le_mul_of_nonneg_right qu hbu
  have e3 : q * (b * (1 - u)) * (1 + u) ≤ s * (1 + u) * (1 + u) :=
    mul_le_mul_of_nonneg_right e1 h1p
  have r1 : q * (1 + u) * (b * (1 - u)) = q * (b * (1 - u)) * (1 + u) := by ring
  have k1 : s * (1 + 4 * u) * (1 - u) - s * (1 + u) * (1 + u) = s * (u * (1 - 5 * u)) := by
    ring
  have k3 : 0 ≤ 1 - 5 * u := by linarith
  have k2 : 0 ≤ s * (u * (1 - 5 * u)) := by positivity
  have r2 : v * (b * (1 - u)) = v * b * (1 - u) := by ring
  have e5 : v * b * (1 - u) ≤ s * (1 + 4 * u) * (1 - u) := by linarith
  exact le_of_mul_le_mul_right e5 (by linarith)

end F32

namespace UnorderedMap

open F32

/-- The load factor the code computes is the exact quotient up to the relative error
`2 ^ (-22)`. -/
theorem loadOf_bounds (s b : Nat) (hs2 : s < 2 ^ 64) (hb : 0 < b) (hb2 : b < 2 ^ 64) :
    (s : ℚ) * (1 - 1 / 2 ^ 22) ≤ (loadOf s b).value * b ∧
      (loadOf s b).value * b ≤ (s : ℚ) * (1 + 1 / 2 ^ 22) := by
  rcases Nat.eq_zero_or_pos s with rfl | hs
  · rw [loadOf_zero b hb hb2]
    simp [value]
  · rw [loadOf_pos s b hs hs2 hb hb2]
    simp only [value]
    obtain ⟨_, s1, s3⟩ := ofNat_pos s hs hs2
    obtain ⟨_, b1, b3⟩ := ofNat_pos b hb hb2
    obtain ⟨sl, su⟩ := nearest_nat_bounds s hs
    obtain ⟨bl, bu⟩ := nearest_nat_bounds b hb
    have hbpos : (0 : ℚ) < nearest (b : ℚ) := by linarith
    have hspos : (0 : ℚ) < nearest (s : ℚ) := by linarith
    have hq1 : (2 : ℚ) ^ (-126 : Int) ≤ nearest (s : ℚ) / nearest (b : ℚ) := by
      rw [le_div_iff₀ hbpos]
      have h1 : (2 : ℚ) ^ (-126 : Int) * nearest (b : ℚ) ≤ (2 : ℚ) ^ (-126 : Int) * 2 ^ 64 :=
        mul_le_mul_of_nonneg_left b3 (le_of_lt (two_zpow_pos _))
      have h2 : (2 : ℚ) ^ (-126 : Int) * 2 ^ 64 ≤ 1 := by norm_num
      linarith
    obtain ⟨ql, qu⟩ := nearest_bounds _ hq1
    obtain ⟨q, hq⟩ : ∃ q, q = nearest (s : ℚ) / nearest (b : ℚ) := ⟨_, rfl⟩
    rw [← hq] at ql qu ⊢
    have hqb : q * nearest (b : ℚ) = nearest (s : ℚ) := by
      rw [hq]; field_simp
    have hq0 : 0 < q := by rw [hq]; exact div_pos hspos hbpos
    obtain ⟨v, hv⟩ : ∃ v, v = nearest q := ⟨_, rfl⟩
    rw [← hv] at ql qu ⊢
    obtain ⟨ns, hns⟩ : ∃ ns, ns = nearest (s : ℚ) := ⟨_, rfl⟩
    obtain ⟨nb, hnb⟩ : ∃ nb, nb = nearest (b : ℚ) := ⟨_, rfl⟩
    rw [← hns] at sl su hspos hqb
    rw [← hnb] at bl bu hbpos hqb
    have hsq : (0 : ℚ) < (s : ℚ) := by exact_mod_cast hs
    have hbq : (0 : ℚ) < (b : ℚ) := by exact_mod_cast hb
    obtain ⟨u, hu⟩ : ∃ u : ℚ, u = 1 / 2 ^ 24 := ⟨_, rfl⟩
    rw [← hu] at sl su bl bu ql qu
    have hu4 : (1 : ℚ) / 2 ^ 22 = 4 * u := by rw [hu]; norm_num
    rw [hu4]
    have hu0 : 0 < u := by rw [hu]; norm_num
    have hu1 : u ≤ 1 / 16 := by rw [hu]; norm_num
    have hv0 : 0 ≤ v := by rw [hv]; exact nearest_nonneg _
    exact ⟨slack_lower s b ns nb q v u hu0 hu1 hbq hsq hq0 hqb sl bu ql,
      slack_upper s b ns nb q v u hu0 hu1 hbq hsq hq0 hqb su bl qu⟩

/-- One entry in one bucket has the load factor `1`. -/
theorem loadOf_one_one : loadOf 1 1 = F32.finite 1 := by decide!

/-- One entry in any number of buckets has a load factor of at most `1`. -/
theorem loadOf_one_le (b : Nat) (hb : 0 < b) (hb2 : b < 2 ^ 64) :
    (loadOf 1 b).value ≤ 1 := by
  have h := loadOf_anti_right 1 1 b hb (by norm_num) (by norm_num) hb2
  rw [loadOf_one_one] at h
  exact h

end UnorderedMap

/-! ## Lemmas on the links of the list -/

section SegLemmas

theorem seg_frame {nx pv nx1 pv1 : Nat → Nat} :
    ∀ (ps : List Nat) (a b : Nat), Seg nx pv a ps b →
      (∀ x, x = a ∨ x ∈ ps → nx1 x = nx x) →
      (∀ y, y ∈ ps ∨ y = b → pv1 y = pv y) → Seg nx1 pv1 a ps b
  | [], a, b, h, hn, hp => by
    obtain ⟨h1, h2⟩ := h
    exact ⟨by rw [hn a (Or.inl rfl)]; exact h1, by rw [hp b (Or.inr rfl)]; exact h2⟩
  | p :: ps, a, b, h, hn, hp => by
    obtain ⟨h1, h2, h3⟩ := h
    refine ⟨by rw [hn a (Or.inl rfl)]; exact h1, ?_, ?_⟩
    · rw [hp p (Or.inl (List.mem_cons_self _ _))]; exact h2
    · exact seg_frame ps p b h3
        (fun x hx => hn x (Or.inr (by
          rcases hx with hx | hx
          · exact hx ▸ List.mem_cons_self _ _
          · exact List.mem_cons_of_mem _ hx)))
        (fun y hy => hp y (by
          rcases hy with hy | hy
          · exact Or.inl (List.mem_cons_of_mem _ hy)
          · exact Or.inr hy))

theorem seg_append {nx pv : Nat → Nat} :
    ∀ (xs : List Nat) (a p : Nat) (ys : List Nat) (b : Nat),
      Seg nx pv a (xs ++ p :: ys) b ↔ Seg nx pv a xs p ∧ Seg nx pv p ys b
  | [], a, p, ys, b => by
    simp only [List.nil_append, Seg]
    tauto
  | x :: xs, a, p, ys, b => by
    have ih := @seg_append nx pv xs x p ys b
    show (nx a = x ∧ pv x = a ∧ Seg nx pv x (xs ++ p :: ys) b) ↔
      (nx a = x ∧ pv x = a ∧ Seg nx pv x xs p) ∧ Seg nx pv p ys b
    rw [ih]
    tauto

/-- The predecessor of the closing node is the last node of the stretch. -/
theorem seg_prev_mem {nx pv : Nat → Nat} :
    ∀ (xs : List Nat) (a b : Nat), Seg nx pv a xs b → pv b ∈ a :: xs ∧ nx (pv b) = b
  | [], a, b, h => by
    obtain ⟨h1, h2⟩ := h
    simp [h2, h1]
  | x :: xs, a, b, h => by
    obtain ⟨_, _, h3⟩ := h
    have := seg_prev_mem xs x b h3
    exact ⟨List.mem_cons_of_mem _ this.1, this.2⟩

/-- The successor of the opening node is the first node of the stretch. -/
theorem seg_next_eq {nx pv : Nat → Nat} (ys : List Nat) (a b : Nat)
    (h : Seg nx pv a ys b) : nx a = (ys ++ [b]).headD b := by
  cases ys with
  | nil => exact h.1
  | cons y ys => exact h.1

theorem seg_prev_eq {nx pv : Nat → Nat} :
    ∀ (xs : List Nat) (a b : Nat), Seg nx pv a xs b → pv b = (a :: xs).getLastD a
  | [], a, b, h => by simpa using h.2
  | x :: xs, a, b, h => by
    obtain ⟨_, _, h3⟩ := h
    have := seg_prev_eq xs x b h3
    rw [this]
    simp [List.getLastD]

/-- Linking a new node `n` in front of `it` (that is, behind `pv it`). -/
theorem seg_insert_last {nx pv : Nat → Nat} (n it : Nat) (hn : n ≠ it) :
    ∀ (xs : List Nat) (a : Nat), Seg nx pv a xs it → (a :: xs).Nodup → it ∉ xs →
      n ∉ a :: xs →
      Seg (fun x => if x = pv it then n else if x = n then nx (pv it) else nx x)
          (fun y => if y = nx (pv it) then n else if y = n then pv it else pv y)
          a (xs ++ [n]) it
  | [], a, h, _, _, hna => by
    obtain ⟨h1, h2⟩ := h
    have hna1 : n ≠ a := fun e => hna (by simp [e])
    simp only [List.nil_append, Seg, h2, h1]
    refine ⟨by simp, ?_, ?_, by simp⟩
    · simp [hn]
    · simp [hna1]
  | x :: xs, a, h, hnd, hit, hna => by
    obtain ⟨h1, h2, h3⟩ := h
    have hnd1 : (x :: xs).Nodup := (List.nodup_cons.mp hnd).2
    have ha : a ∉ x :: xs := (List.nodup_cons.mp hnd).1
    have hpm := seg_prev_mem xs x it h3
    have ih := seg_insert_last n it hn xs x h3 hnd1
      (fun h => hit (List.mem_cons_of_mem _ h))
      (fun h => hna (List.mem_cons_of_mem _ h))
    have hna1 : a ≠ n := fun e => hna (by simp [e])
    have hxn : x ≠ n := fun e => hna (by simp [e])
    have hxit : x ≠ it := fun e => hit (by simp [e])
    have hapv : a ≠ pv it := fun e => ha (e ▸ hpm.1)
    refine ⟨?_, ?_, ih⟩
    · simp only [if_neg hapv, if_neg hna1]; exact h1
    · simp only [hpm.2, if_neg hxit, if_neg hxn]; exact h2

/-- Unlinking the node `h` between the stretches `xs` and `ys`. -/
theorem seg_delete {nx pv : Nat → Nat} (h : Nat) (ys : List Nat) (b : Nat)
    (hys : Seg nx pv h ys b) (hb : b ∉ ys) (hysnd : ys.Nodup) :
    ∀ (xs : List Nat) (a : Nat), Seg nx pv a xs h → (a :: xs).Nodup →
      (∀ x, x ∈ a :: xs → x ∉ ys ∧ x ≠ h) → (∀ x ∈ xs, x ≠ b) → h ∉ ys →
      Seg (upd nx (pv h) (nx h)) (upd pv (nx h) (pv h)) a (xs ++ ys) b
  | [], a, hs, _, hdis, _, hh => by
    obtain ⟨h1, h2⟩ := hs
    have ha := hdis a (List.mem_cons_self _ _)
    simp only [List.nil_append, h2]
    cases ys with
    | nil =>
      obtain ⟨h3, _⟩ := hys
      simp [Seg, upd, h3]
    | cons q ys =>
      obtain ⟨h3, h4, h5⟩ := hys
      have hq : q ∉ ys := (List.nodup_cons.mp hysnd).1
      have hqb : q ≠ b := fun e => hb (by simp [← e])
      refine ⟨by simp [upd, h3], by simp [upd, h3], ?_⟩
      refine seg_frame ys q b h5 ?_ ?_
      · intro x hx
        have : x ≠ a := by
          rintro rfl
          exact ha.1 (by rcases hx with hx | hx <;> simp [hx])
        simp [upd, this]
      · intro y hy
        have : y ≠ q := by
          rintro rfl
          rcases hy with hy | hy
          · exact hq hy
          · exact hqb hy
        simp [upd, h3, this]
  | x :: xs, a, hs, hnd, hdis, hxb, hh => by
    obtain ⟨h1, h2, h3⟩ := hs
    have hnd1 : (x :: xs).Nodup := (List.nodup_cons.mp hnd).2
    have ha : a ∉ x :: xs := (List.nodup_cons.mp hnd).1
    have hpm := seg_prev_mem xs x h h3
    have ih := seg_delete h ys b hys hb hysnd xs x h3 hnd1
      (fun y hy => hdis y (List.mem_cons_of_mem _ hy))
      (fun y hy => hxb y (List.mem_cons_of_mem _ hy)) hh
    have hapv : a ≠ pv h := fun e => ha (e ▸ hpm.1)
    have hx := hdis x (by simp)
    have hxnx : x ≠ nx h := by
      rw [seg_next_eq ys h b hys]
      intro e
      cases ys with
      | nil => exact hxb x (by simp) (by simpa using e)
      | cons q ys => exact hx.1 (by simp at e; simp [e])
    refine ⟨?_, ?_, ih⟩
    · simp [upd, hapv, h1]
    · simp [upd, hxnx, h2]

end SegLemmas

/-! ## The List operations on well-formed lists -/

namespace LList

variable {T : Type}

theorem repr_empty : (LList.empty : LList T).Repr [] := by
  refine ⟨by simp, by simp, by simp [empty], by simp, by simp [empty], ?_⟩
  simp [Seg, empty]

theorem push_back_eq (l : LList T) (v : T) : l.push_back v = (l.insert endNode v).1 := rfl

theorem insert_fields (l : LList T) (it : Nat) (v : T) (h1 : it ≠ l.alloc)
    (h2 : l.prev it ≠ l.alloc) :
    (l.insert it v).1.next =
        (fun x => if x = l.prev it then l.alloc else if x = l.alloc then l.next (l.prev it)
          else l.next x) ∧
    (l.insert it v).1.prev =
        (fun y => if y = l.next (l.prev it) then l.alloc else if y = l.alloc then l.prev it
          else l.prev y) ∧
    (l.insert it v).1.value = upd l.value l.alloc (some v) ∧
    (l.insert it v).1.size_ = l.size_ + 1 ∧
    (l.insert it v).1.alloc = l.alloc + 1 ∧
    (l.insert it v).2 = l.alloc := by
  refine ⟨?_, ?_, rfl, rfl, rfl, rfl⟩
  · funext x
    simp only [insert, insertNextTo, create, upd, if_neg h1, if_neg h2]
    by_cases hx : x = l.prev it
    · simp [hx]
    · by_cases hx2 : x = l.alloc <;> simp [hx, hx2]
  · funext y
    simp only [insert, insertNextTo, create, upd, if_neg h1, if_neg h2]
    by_cases hy : y = l.next (l.prev it)
    · simp [hy]
    · by_cases hy2 : y = l.alloc <;> simp [hy, hy2]

theorem mem_fst {es : List (Nat × T)} {a : Nat} {v : T} (h : (a, v) ∈ es) :
    a ∈ es.map Prod.fst := List.mem_map.mpr ⟨(a, v), h, rfl⟩

theorem repr_insert_value (l : LList T) (es : List (Nat × T)) (v : T) (hr : l.Repr es)
    (xs ys : List (Nat × T)) (hes : es = xs ++ ys) :
    ∀ a w, upd l.value l.alloc (some v) a = some w ↔ (a, w) ∈ xs ++ (l.alloc, v) :: ys := by
  intro a w
  have hfresh : ∀ w, (l.alloc, w) ∉ es := fun w hw =>
    absurd (hr.lt_alloc _ (mem_fst hw)) (by omega)
  by_cases ha : a = l.alloc
  · subst ha
    have h1 := hfresh w
    rw [hes] at h1
    simp only [List.mem_append, not_or] at h1
    simp only [upd, if_true, Option.some.injEq, List.mem_append, List.mem_cons, Prod.mk.injEq,
      true_and, h1.1, h1.2, false_or, or_false]
    exact eq_comm
  · have h1 := hr.live a w
    rw [hes] at h1
    simp only [List.mem_append] at h1
    simp only [upd, if_neg ha, List.mem_append, List.mem_cons, Prod.mk.injEq, ha, false_and,
      false_or]
    exact h1

/-- Inserting in front of `it`, the head of `ys` (or `end()` when `ys` is empty). -/
theorem repr_insert (l : LList T) (xs ys : List (Nat × T)) (it : Nat) (v : T)
    (hr : l.Repr (xs ++ ys)) (hit : it = (ys.map Prod.fst).headD endNode) :
    (l.insert it v).1.Repr (xs ++ (l.alloc, v) :: ys) ∧
    (l.insert it v).1.value = upd l.value l.alloc (some v) ∧
    (l.insert it v).1.size_ = l.size_ + 1 ∧
    (l.insert it v).1.alloc = l.alloc + 1 ∧
    (l.insert it v).2 = l.alloc ∧
    (ys = [] → (l.insert it v).1.prev endNode = l.alloc) := by
  have hnd := hr.nodup
  have hnz := hr.nz
  have hlt := hr.lt_alloc
  have hseg := hr.seg
  have hlen := hr.len_lt
  have h0 : endNode ≠ l.alloc := by unfold endNode; omega
  have hfresh : ∀ a, a ∈ (xs ++ ys).map Prod.fst → a ≠ l.alloc :=
    fun a ha e => absurd (hlt a ha) (by omega)
  -- the links in front of `it` and the fields after the insertion
  have key : Seg l.next l.prev endNode (xs.map Prod.fst) it ∧ it ∉ xs.map Prod.fst ∧
      it ≠ l.alloc ∧
      (∀ nx1 pv1 : Nat → Nat,
        (∀ x, x ∉ endNode :: xs.map Prod.fst → x ≠ l.alloc → nx1 x = l.next x) →
        (∀ y, y ≠ it → y ≠ l.alloc → pv1 y = l.prev y) →
        Seg nx1 pv1 endNode (xs.map Prod.fst ++ [l.alloc]) it →
        Seg nx1 pv1 endNode ((xs ++ (l.alloc, v) :: ys).map Prod.fst) endNode) := by
    cases ys with
    | nil =>
      simp only [List.map_nil, List.headD_nil] at hit
      subst hit
      simp only [List.append_nil] at hseg hnz
      refine ⟨hseg, hnz, h0, ?_⟩
      intro nx1 pv1 _ _ h
      simpa using h
    | cons y ys =>
      simp only [List.map_cons, List.headD_cons] at hit
      simp only [List.map_append, List.map_cons, ← hit] at hseg hnd hnz
      rw [seg_append] at hseg
      have hnd1 := List.nodup_append.mp hnd
      have hnd2 := List.nodup_cons.mp hnd1.2.1
      have hitx : it ∉ xs.map Prod.fst := fun h => hnd1.2.2 h (List.mem_cons_self _ _)
      have hitf : it ≠ l.alloc := hfresh it (by simp [← hit])
      refine ⟨hseg.1, hitx, hitf, ?_⟩
      intro nx1 pv1 hnx hpv h
      simp only [List.map_append, List.map_cons, ← hit]
      have : xs.map Prod.fst ++ l.alloc :: it :: ys.map Prod.fst =
          (xs.map Prod.fst ++ [l.alloc]) ++ it :: ys.map Prod.fst := by simp
      rw [this, seg_append]
      refine ⟨h, seg_frame _ _ _ hseg.2 ?_ ?_⟩
      · intro x hx
        have hxm : x ∈ it :: ys.map Prod.fst := by
          rcases hx with hx | hx
          · exact hx ▸ List.mem_cons_self _ _
          · exact List.mem_cons_of_mem _ hx
        apply hnx
        · intro hx0
          rcases List.mem_cons.mp hx0 with hx0 | hx0
          · exact hnz (by rw [← hx0]; exact List.mem_append_right _ hxm)
          · exact hnd1.2.2 hx0 hxm
        · exact hfresh x (by simp only [List.map_append, List.map_cons, ← hit]
                             exact List.mem_append_right _ hxm)
      · intro y1 hy
        apply hpv
        · rintro rfl
          rcases hy with hy | hy
          · exact hnd2.1 hy
          · exact hnz (by rw [← hy]; simp)
        · rcases hy with hy | hy
          · exact hfresh y1 (by simp only [List.map_append, List.map_cons]
                                exact List.mem_append_right _ (List.mem_cons_of_mem _ hy))
          · rw [hy]; exact h0
  obtain ⟨hsegX, hitx, hitf, hglue⟩ := key
  have hndX : (endNode :: xs.map Prod.fst).Nodup := by
    simp only [List.map_append] at hnd hnz
    refine List.nodup_cons.mpr ⟨fun h => hnz (List.mem_append_left _ h), ?_⟩
    exact (List.nodup_append.mp hnd).1
  have hfreshX : l.alloc ∉ endNode :: xs.map Prod.fst := by
    intro h
    rcases List.mem_cons.mp h with h | h
    · exact h0 h.symm
    · exact hfresh _ (by simp only [List.map_append]; exact List.mem_append_left _ h) rfl
  have hpm := seg_prev_mem _ _ _ hsegX
  have hpf : l.prev it ≠ l.alloc := fun e => hfreshX (e ▸ hpm.1)
  obtain ⟨f1, f2, f3, f4, f5, f6⟩ := insert_fields l it v hitf hpf
  have hins := @seg_insert_last l.next l.prev l.alloc it (Ne.symm hitf)
    (xs.map Prod.fst) endNode hsegX hndX hitx hfreshX
  rw [← f1, ← f2] at hins
  refine ⟨⟨?_, ?_, ?_, ?_, ?_, ?_⟩, f3, f4, f5, f6, ?_⟩
  · -- nodup
    simp only [List.map_append, List.map_cons] at hnd ⊢
    have hnd1 := List.nodup_append.mp hnd
    refine List.nodup_append.mpr ⟨hnd1.1, ?_, ?_⟩
    · refine List.nodup_cons.mpr ⟨?_, hnd1.2.1⟩
      intro h
      exact hfresh _ (by simp only [List.map_append]; exact List.mem_append_right _ h) rfl
    · intro a ha hb
      rcases List.mem_cons.mp hb with hb | hb
      · exact hfreshX (hb ▸ List.mem_cons_of_mem _ ha)
      · exact hnd1.2.2 ha hb
  · -- nz
    simp only [List.map_append, List.map_cons] at hnz ⊢
    intro h
    rcases List.mem_append.mp h with h | h
    · exact hnz (List.mem_append_left _ h)
    · rcases List.mem_cons.mp h with h | h
      · exact h0 h
      · exact hnz (List.mem_append_right _ h)
  · rw [f5]; simp only [List.length_append, List.length_cons] at hlen ⊢; omega
  · rw [f5]
    intro a ha
    simp only [List.map_append, List.map_cons] at ha hlt
    rcases List.mem_append.mp ha with h | h
    · exact Nat.lt_succ_of_lt (hlt a (List.mem_append_left _ h))
    · rcases List.mem_cons.mp h with h | h
      · omega
      · exact Nat.lt_succ_of_lt (hlt a (List.mem_append_right _ h))
  · rw [f3]; exact repr_insert_value l _ v hr xs ys rfl
  · apply hglue _ _ _ _ hins
    · intro x hx hxa
      rw [f1]
      have : x ≠ l.prev it := fun e => hx (e ▸ hpm.1)
      simp [this, hxa]
    · intro y hy hya
      rw [f2]
      simp [hpm.2, hy, hya]
  · intro hys
    subst hys
    simp only [List.map_nil, List.headD_nil] at hit
    subst hit
    rw [f2]
    simp [hpm.2]

end LList

namespace LList

variable {T : Type}

/-- Erasing the node `h` that sits between `xs` and `ys`. -/
theorem repr_erase (l : LList T) (xs ys : List (Nat × T)) (h : Nat) (d : T)
    (hr : l.Repr (xs ++ (h, d) :: ys)) :
    (l.erase h).1.Repr (xs ++ ys) ∧
    (l.erase h).2 = (ys.map Prod.fst).headD endNode ∧
    (l.erase h).1.value = upd l.value h none ∧
    (l.erase h).1.size_ = dec64 l.size_ ∧
    (l.erase h).1.alloc = l.alloc := by
  have hnd := hr.nodup
  have hnz := hr.nz
  have hlt := hr.lt_alloc
  have hseg := hr.seg
  have hlen := hr.len_lt
  simp only [List.map_append, List.map_cons] at hnd hnz hlt hseg
  rw [seg_append] at hseg
  have hnd1 := List.nodup_append.mp hnd
  have hnd2 := List.nodup_cons.mp hnd1.2.1
  have hh0 : h ≠ endNode := fun e => hnz (by rw [← e]; simp)
  have hpm := seg_prev_mem _ _ _ hseg.1
  have hhx : h ∉ endNode :: xs.map Prod.fst := by
    intro hm
    rcases List.mem_cons.mp hm with hm | hm
    · exact hh0 hm
    · exact hnd1.2.2 hm (List.mem_cons_self _ _)
  have hph : h ≠ l.prev h := fun e => hhx (e ▸ hpm.1)
  have hndX : (endNode :: xs.map Prod.fst).Nodup :=
    List.nodup_cons.mpr ⟨fun hm => hnz (List.mem_append_left _ hm), hnd1.1⟩
  have hdel := @seg_delete l.next l.prev h (ys.map Prod.fst) endNode hseg.2
    (fun hm => hnz (List.mem_append_right _ (List.mem_cons_of_mem _ hm))) hnd2.2
    (xs.map Prod.fst) endNode hseg.1 hndX
    (by
      intro x hx
      rcases List.mem_cons.mp hx with hx | hx
      · subst hx
        exact ⟨fun hm => hnz (List.mem_append_right _ (List.mem_cons_of_mem _ hm)),
          Ne.symm hh0⟩
      · exact ⟨fun hm => hnd1.2.2 hx (List.mem_cons_of_mem _ hm),
          fun e => hnd1.2.2 hx (e ▸ List.mem_cons_self _ _)⟩)
    (fun x hx e => hnz (List.mem_append_left _ (e ▸ hx))) hnd2.1
  have e1 : (l.erase h).1.next = upd l.next (l.prev h) (l.next h) := by
    simp [erase, hh0, deleteNode]
  have e2 : (l.erase h).1.prev = upd l.prev (l.next h) (l.prev h) := by
    simp [erase, hh0, deleteNode, upd, hph]
  have e3 : (l.erase h).1.value = upd l.value h none := by simp [erase, hh0, deleteNode]
  have e4 : (l.erase h).1.size_ = dec64 l.size_ := by simp [erase, hh0, deleteNode]
  have e5 : (l.erase h).1.alloc = l.alloc := by simp [erase, hh0, deleteNode]
  have e6 : (l.erase h).2 = l.next h := by simp [erase, hh0]
  refine ⟨⟨?_, ?_, ?_, ?_, ?_, ?_⟩, ?_, e3, e4, e5⟩
  · simp only [List.map_append]
    exact List.nodup_append.mpr ⟨hnd1.1, hnd2.2,
      fun a ha hb => hnd1.2.2 ha (List.mem_cons_of_mem _ hb)⟩
  · simp only [List.map_append]
    intro hm
    rcases List.mem_append.mp hm with hm | hm
    · exact hnz (List.mem_append_left _ hm)
    · exact hnz (List.mem_append_right _ (List.mem_cons_of_mem _ hm))
  · rw [e5]; simp only [List.length_append, List.length_cons] at hlen ⊢; omega
  · rw [e5]
    intro a ha
    simp only [List.map_append] at ha
    rcases List.mem_append.mp ha with hm | hm
    · exact hlt a (List.mem_append_left _ hm)
    · exact hlt a (List.mem_append_right _ (List.mem_cons_of_mem _ hm))
  · intro a w
    rw [e3]
    have hl := hr.live a w
    by_cases ha : a = h
    · subst ha
      have hx : (a, w) ∉ xs := fun hm => hnd1.2.2 (mem_fst hm) (List.mem_cons_self _ _)
      have hy : (a, w) ∉ ys := fun hm => hnd2.1 (mem_fst hm)
      simp [upd, hx, hy]
    · rw [show upd l.value h none a = l.value a from if_neg ha, hl]
      simp [ha]
  · rw [e1, e2]; simpa only [List.map_append] using hdel
  · rw [e6, seg_next_eq _ _ _ hseg.2]
    cases ys <;> simp

theorem walk_zero (l : LList T) (fuel : Nat) : l.walk fuel 0 = some [] := by
  cases fuel <;> rfl

theorem walk_seg (l : LList T) :
    ∀ (ys : List (Nat × T)) (a fuel : Nat),
      Seg l.next l.prev a (ys.map Prod.fst) endNode →
      (∀ e ∈ ys, e.1 ≠ endNode ∧ l.value e.1 = some e.2) → ys.length ≤ fuel →
      l.walk fuel (l.next a) = some ys
  | [], a, fuel, hs, _, _ => by
    have : l.next a = 0 := hs.1
    rw [this, walk_zero]
  | (q, d) :: ys, a, fuel, hs, hv, hf => by
    obtain ⟨h1, _, h3⟩ := hs
    have hq := hv (q, d) (List.mem_cons_self _ _)
    have ih := walk_seg l ys q (fuel - 1) h3
      (fun e he => hv e (List.mem_cons_of_mem _ he))
      (by simp only [List.length_cons] at hf; omega)
    obtain ⟨f, rfl⟩ : ∃ f, fuel = f + 1 := ⟨fuel - 1, by
      simp only [List.length_cons] at hf; omega⟩
    obtain ⟨q1, rfl⟩ : ∃ q1, q = q1 + 1 := ⟨q - 1, by
      have := hq.1; unfold endNode at this; simp only at this; omega⟩
    have h1a : l.next a = q1 + 1 := h1
    rw [h1a]
    simp only [walk]
    have hq2 : l.value (q1 + 1) = some d := hq.2
    rw [hq2]
    simp only [Nat.add_sub_cancel] at ih
    simp [ih]

/-- On a well-formed list the traversal returns the abstract content. -/
theorem repr_items (l : LList T) (es : List (Nat × T)) (hr : l.Repr es) :
    l.items = some es := by
  unfold items begin_
  refine walk_seg l es endNode l.alloc hr.seg ?_ (Nat.le_of_lt hr.len_lt)
  intro e he
  refine ⟨fun h => hr.nz (h ▸ List.mem_map_of_mem _ he), ?_⟩
  exact (hr.live e.1 e.2).mpr he

theorem clearLoop_zero (next : Nat → Nat) (fuel : Nat) (value : Nat → Option T) :
    clearLoop next fuel 0 value = some value := by
  cases fuel <;> rfl

theorem clearLoop_seg (nx pv : Nat → Nat) :
    ∀ (ys : List Nat) (a fuel : Nat) (value : Nat → Option T),
      Seg nx pv a ys endNode → ys.Nodup →
      (∀ y ∈ ys, y ≠ endNode ∧ value y ≠ none) → ys.length ≤ fuel →
      clearLoop nx fuel (nx a) value = some (fun x => if x ∈ ys then none else value x)
  | [], a, fuel, value, hs, _, _, _ => by
    have : nx a = 0 := hs.1
    rw [this, clearLoop_zero]
    simp
  | q :: ys, a, fuel, value, hs, hnd, hv, hf => by
    obtain ⟨h1, _, h3⟩ := hs
    have hq := hv q (List.mem_cons_self _ _)
    have hnd1 := List.nodup_cons.mp hnd
    have ih := clearLoop_seg nx pv ys q (fuel - 1) (upd value q none) h3 hnd1.2
      (by
        intro y hy
        refine ⟨(hv y (List.mem_cons_of_mem _ hy)).1, ?_⟩
        have : y ≠ q := fun e => hnd1.1 (e ▸ hy)
        simp only [upd, if_neg this]
        exact (hv y (List.mem_cons_of_mem _ hy)).2)
      (by simp only [List.length_cons] at hf; omega)
    obtain ⟨f, rfl⟩ : ∃ f, fuel = f + 1 := ⟨fuel - 1, by
      simp only [List.length_cons] at hf; omega⟩
    obtain ⟨q1, rfl⟩ : ∃ q1, q = q1 + 1 := ⟨q - 1, by
      have := hq.1; unfold endNode at this; omega⟩
    rw [h1]
    simp only [clearLoop]
    obtain ⟨w, hw⟩ := Option.ne_none_iff_exists'.mp hq.2
    rw [hw]
    simp only [Nat.add_sub_cancel] at ih
    simp only [ih]
    congr 1
    funext x
    by_cases hx : x = q1 + 1
    · simp [hx, upd]
    · simp [upd, hx]

/-- `clear()` on a well-formed list destroys every node; `size_` keeps its value. -/
theorem repr_clear (l : LList T) (es : List (Nat × T)) (hr : l.Repr es) :
    ∃ l1, l.clear = some l1 ∧ l1.Repr [] ∧ l1.size_ = l.size_ ∧ l1.alloc = l.alloc := by
  have hloop := clearLoop_seg l.next l.prev (es.map Prod.fst) endNode l.alloc l.value hr.seg
    hr.nodup
    (by
      intro y hy
      refine ⟨fun e => hr.nz (e ▸ hy), ?_⟩
      obtain ⟨e, he, rfl⟩ := List.mem_map.mp hy
      rw [(hr.live e.1 e.2).mpr he]
      simp)
    (by simpa using Nat.le_of_lt hr.len_lt)
  refine ⟨{ l with value := fun x => if x ∈ es.map Prod.fst then none else l.value x,
                   prev := upd l.prev endNode endNode, next := upd l.next endNode endNode },
    by simp only [clear, hloop], ⟨by simp, by simp, ?_, by simp, ?_, ?_⟩, rfl, rfl⟩
  · have := hr.len_lt
    simp only [List.length_nil]
    omega
  · intro a w
    simp only [List.not_mem_nil, iff_false]
    by_cases ha : a ∈ es.map Prod.fst
    · simp [ha]
    · simp only [if_neg ha]
      intro hv
      exact ha (mem_fst ((hr.live a w).mp hv))
  · simp [Seg, upd]

end LList

/-! ## The map operations keep the invariant -/

namespace UnorderedMap

variable {Key Value : Type}

theorem inv_mk_empty (hash : Key → Nat) (b : Nat) (hb : 0 < b) :
    Inv hash (mk_empty b : UnorderedMap Key Value) [] := by
  refine ⟨LList.repr_empty, by simp, hb, ?_⟩
  intro i _
  simp [mk_empty, allocate_buckets]

theorem rehashLoop_zero (hash : Key → Nat) (l : LList (Key × Value)) (bc fuel : Nat)
    (B : Nat → Bucket) : rehashLoop hash l bc fuel 0 B = some B := by
  cases fuel <;> rfl

theorem rehashLoop_seg (hash : Key → Nat) (l : LList (Key × Value)) (bc : Nat) :
    ∀ (ys : List (Nat × (Key × Value))) (a fuel : Nat) (B : Nat → Bucket),
      Seg l.next l.prev a (ys.map Prod.fst) endNode →
      (∀ e ∈ ys, e.1 ≠ endNode ∧ l.value e.1 = some e.2) → ys.length ≤ fuel →
      ∃ B1, rehashLoop hash l bc fuel (l.next a) B = some B1 ∧
        ∀ i, (B1 i).size_ = (B i).size_ + (ys.map (idxOf hash bc)).count i
  | [], a, fuel, B, hs, _, _ => by
    have : l.next a = 0 := hs.1
    rw [this, rehashLoop_zero]
    exact ⟨B, rfl, by simp⟩
  | (q, d) :: ys, a, fuel, B, hs, hv, hf => by
    obtain ⟨h1, _, h3⟩ := hs
    have hq := hv (q, d) (List.mem_cons_self _ _)
    obtain ⟨f, rfl⟩ : ∃ f, fuel = f + 1 := ⟨fuel - 1, by
      simp only [List.length_cons] at hf; omega⟩
    obtain ⟨q1, rfl⟩ : ∃ q1, q = q1 + 1 := ⟨q - 1, by
      have := hq.1; unfold endNode at this; simp only at this; omega⟩
    have hq2 : l.value (q1 + 1) = some d := hq.2
    have h1a : l.next a = q1 + 1 := h1
    rw [h1a]
    simp only [rehashLoop, hq2]
    obtain ⟨B1, hB1, hc⟩ := rehashLoop_seg hash l bc ys (q1 + 1) f
      (upd B (hash d.1 % bc)
        ⟨if (B (hash d.1 % bc)).size_ = 0 then q1 + 1 else (B (hash d.1 % bc)).it_,
          (B (hash d.1 % bc)).size_ + 1⟩) h3
      (fun e he => hv e (List.mem_cons_of_mem _ he))
      (by simp only [List.length_cons] at hf; omega)
    refine ⟨B1, hB1, ?_⟩
    intro i
    rw [hc i]
    simp only [List.map_cons, List.count_cons, idxOf, upd]
    by_cases hi : i = hash d.1 % bc
    · subst hi; simp; omega
    · have hi2 : ¬ (hash d.1 % bc = i) := fun e => hi e.symm
      simp [hi, hi2]

/-- `rehash` on a map that satisfies the invariant returns, keeps the node list and the
threshold, and re-establishes the invariant for the new bucket count. -/
theorem rehash_spec (hash : Key → Nat) (m : UnorderedMap Key Value)
    (es : List (Nat × (Key × Value))) (n : Nat) (hI : Inv hash m es) :
    ∃ m1, rehash hash m n = some m1 ∧ Inv hash m1 es ∧ m1.nodes_ = m.nodes_ ∧
      m1.max_load_factor_ = m.max_load_factor_ ∧
      m1.bucket_count_ = (if n ≤ m.bucket_count_ then m.bucket_count_ else n) := by
  unfold rehash
  by_cases hn : n ≤ m.bucket_count_
  · exact ⟨m, by simp [hn], hI, rfl, rfl, by simp [hn]⟩
  · simp only [if_neg hn]
    obtain ⟨B1, hB1, hc⟩ := rehashLoop_seg hash m.nodes_ n es endNode m.nodes_.alloc
      (fun _ => ⟨m.nodes_.end_, 0⟩) hI.repr.seg
      (fun e he => ⟨fun h => hI.repr.nz (h ▸ List.mem_map_of_mem _ he),
        (hI.repr.live e.1 e.2).mpr he⟩)
      (Nat.le_of_lt hI.repr.len_lt)
    refine ⟨{ m.allocate_buckets n with buckets_ := B1 }, ?_, ⟨hI.repr, hI.size_ge, ?_, ?_⟩,
      rfl, rfl, rfl⟩
    · simp only [allocate_buckets, LList.begin_]
      rw [hB1]
    · show 0 < n
      omega
    · intro i _
      rw [hc i]
      simp [allocate_buckets]

end UnorderedMap

namespace UnorderedMap

variable {Key Value : Type}

theorem scanRun_live (equal : Key → Key → Bool) (l : LList (Key × Value)) (key : Key)
    (n it : Nat) (r : Option Nat) (hn : n ≠ 0) (h : scanRun equal l key n it = some r) :
    ∃ d, l.value it = some d := by
  cases n with
  | zero => exact absurd rfl hn
  | succ n =>
    simp only [scanRun] at h
    cases hv : l.value it with
    | none => rw [hv] at h; simp at h
    | some d => exact ⟨d, rfl⟩

theorem count_idx_insert (hash : Key → Nat) (bc : Nat) (xs ys : List (Nat × (Key × Value)))
    (e : Nat × (Key × Value)) (i : Nat) :
    ((xs ++ e :: ys).map (idxOf hash bc)).count i =
      ((xs ++ ys).map (idxOf hash bc)).count i + (if idxOf hash bc e = i then 1 else 0) := by
  simp only [List.map_append, List.map_cons, List.count_append, List.count_cons]
  by_cases h : idxOf hash bc e = i
  · simp [h]; omega
  · simp [h]

/-- Linking a new node keeps the invariant: the node is put in front of the live node
`bucket.it_`, or at the back when the bucket counter is zero. -/
theorem emplace_link_spec (hash : Key → Nat) (m : UnorderedMap Key Value)
    (es : List (Nat × (Key × Value))) (key : Key) (val : Value) (hI : Inv hash m es)
    (hlive : (m.buckets_ (hash key % m.bucket_count_)).size_ ≠ 0 →
      ∃ d, m.nodes_.value (m.buckets_ (hash key % m.bucket_count_)).it_ = some d) :
    ∃ xs ys, es = xs ++ ys ∧
      Inv hash (emplace_link m (hash key % m.bucket_count_) key val)
        (xs ++ (m.nodes_.alloc, (key, val)) :: ys) ∧
      (emplace_link m (hash key % m.bucket_count_) key val).nodes_.size_ =
        m.nodes_.size_ + 1 ∧
      (emplace_link m (hash key % m.bucket_count_) key val).bucket_count_ =
        m.bucket_count_ ∧
      (emplace_link m (hash key % m.bucket_count_) key val).max_load_factor_ =
        m.max_load_factor_ ∧
      ((m.buckets_ (hash key % m.bucket_count_)).size_ = 0 → ys = []) ∧
      ((m.buckets_ (hash key % m.bucket_count_)).size_ ≠ 0 →
        (ys.map Prod.fst).head? = some (m.buckets_ (hash key % m.bucket_count_)).it_) := by
  set ind := hash key % m.bucket_count_ with hind
  have hcount : ∀ (xs ys : List (Nat × (Key × Value))) (B : Nat → Bucket), es = xs ++ ys →
      (∀ i, (B i).size_ = (upd m.buckets_ ind
          ⟨(B ind).it_, (m.buckets_ ind).size_ + 1⟩ i).size_) →
      ∀ i, i < m.bucket_count_ → (B i).size_ =
        ((xs ++ (m.nodes_.alloc, (key, val)) :: ys).map (idxOf hash m.bucket_count_)).count i := by
    intro xs ys B hes hB i hi
    rw [count_idx_insert, ← hes, ← hI.counts i hi, hB i]
    simp only [idxOf, upd, ← hind]
    by_cases h : i = ind
    · subst h; simp
    · have h2 : ¬ (ind = i) := fun e => h e.symm
      simp [h, h2]
  by_cases hz : (m.buckets_ ind).size_ = 0
  · have hr := LList.repr_insert m.nodes_ es [] endNode (key, val)
      (by simpa using hI.repr) (by simp)
    obtain ⟨r1, _, r3, _, _, _⟩ := hr
    refine ⟨es, [], by simp, ⟨?_, ?_, ?_, ?_⟩, ?_, ?_, ?_, fun _ => rfl,
      fun h => absurd hz h⟩
    · simpa [emplace_link, hz, LList.push_back_eq] using r1
    · simp only [emplace_link, hz, if_true, LList.push_back_eq, r3, List.length_append,
        List.length_cons, List.length_nil]
      have := hI.size_ge
      omega
    · simpa [emplace_link, hz] using hI.bc_pos
    · have hbc : (emplace_link m ind key val).bucket_count_ = m.bucket_count_ := by
        simp [emplace_link, hz]
      rw [hbc]
      apply hcount es [] _ (by simp)
      intro i
      simp only [emplace_link, hz, if_true, upd]
      by_cases h : i = ind <;> simp [h, hz]
    · simp [emplace_link, hz, LList.push_back_eq, r3]
    · simp [emplace_link, hz]
    · simp [emplace_link, hz]
  · obtain ⟨d, hd⟩ := hlive hz
    have hmem := (hI.repr.live _ _).mp hd
    obtain ⟨xs, ys, hes⟩ := List.append_of_mem hmem
    have hr := LList.repr_insert m.nodes_ xs (((m.buckets_ ind).it_, d) :: ys)
      (m.buckets_ ind).it_ (key, val) (hes ▸ hI.repr) (by simp)
    obtain ⟨r1, _, r3, _, _, _⟩ := hr
    refine ⟨xs, ((m.buckets_ ind).it_, d) :: ys, hes, ⟨?_, ?_, ?_, ?_⟩, ?_, ?_, ?_,
      fun h => absurd h hz, fun _ => by simp⟩
    · simpa [emplace_link, hz] using r1
    · simp only [emplace_link, hz, if_false, r3, List.length_append, List.length_cons]
      have := hI.size_ge
      rw [hes] at this
      simp only [List.length_append, List.length_cons] at this
      omega
    · simpa [emplace_link, hz] using hI.bc_pos
    · have hbc : (emplace_link m ind key val).bucket_count_ = m.bucket_count_ := by
        simp [emplace_link, hz]
      rw [hbc]
      apply hcount xs _ _ hes
      intro i
      simp only [emplace_link, hz, if_false, upd]
      by_cases h : i = ind <;> simp [h]
    · simp [emplace_link, hz, r3]
    · simp [emplace_link, hz]
    · simp [emplace_link, hz]

/-- What a completed `emplace` does to a map that satisfies the invariant: either an equal
key was met and nothing changes, or one node is linked, `size_` grows by one and the
bucket count doubles exactly when the load factor exceeds the threshold. -/
theorem emplace_spec (hash : Key → Nat) (equal : Key → Key → Bool)
    (m m1 : UnorderedMap Key Value) (es : List (Nat × (Key × Value))) (key : Key)
    (val : Value) (r : Nat × Bool) (hI : Inv hash m es)
    (h : emplace hash equal m key val = some (m1, r)) :
    (m1 = m ∧ r.2 = false) ∨
    (∃ xs ys, es = xs ++ ys ∧ Inv hash m1 (xs ++ (m.nodes_.alloc, (key, val)) :: ys) ∧
      m1.nodes_.size_ = m.nodes_.size_ + 1 ∧
      m1.max_load_factor_ = m.max_load_factor_ ∧ r = (m1.nodes_.prev endNode, true) ∧
      m1.bucket_count_ =
        (if F32.gt (loadOf (m.nodes_.size_ + 1) m.bucket_count_) m.max_load_factor_
         then m.bucket_count_ * 2 else m.bucket_count_)) := by
  unfold emplace at h
  have hbc : m.bucket_count_ ≠ 0 := Nat.pos_iff_ne_zero.mp hI.bc_pos
  simp only [if_neg hbc] at h
  cases hscan : scanRun equal m.nodes_ key (m.buckets_ (hash key % m.bucket_count_)).size_
      (m.buckets_ (hash key % m.bucket_count_)).it_ with
  | none => rw [hscan] at h; simp at h
  | some found =>
    rw [hscan] at h
    cases found with
    | some it =>
      simp only [Option.some.injEq, Prod.mk.injEq] at h
      exact Or.inl ⟨h.1.symm, by rw [← h.2]⟩
    | none =>
      right
      simp only at h
      obtain ⟨xs, ys, hes, hI2, hs, hb, hm, _, _⟩ := emplace_link_spec hash m es key val hI
        (fun hz => scanRun_live equal m.nodes_ key _ _ _ hz hscan)
      set m2 := emplace_link m (hash key % m.bucket_count_) key val with hm2
      refine ⟨xs, ys, hes, ?_⟩
      have hlf : m2.load_factor = loadOf (m.nodes_.size_ + 1) m.bucket_count_ := by
        simp only [load_factor, loadOf, LList.size, hs, hb]
      by_cases hgt : F32.gt m2.load_factor m2.max_load_factor_ = true
      · simp only [if_pos hgt] at h
        obtain ⟨m3, hm3, hI3, hn3, hl3, hb3⟩ := rehash_spec hash m2 _ (m2.bucket_count_ * 2) hI2
        rw [hm3] at h
        simp only [Option.map_some', Option.some.injEq, Prod.mk.injEq] at h
        obtain ⟨rfl, rfl⟩ := h
        have hpos := hI2.bc_pos
        have hnle : ¬ (m2.bucket_count_ * 2 ≤ m2.bucket_count_) := by omega
        rw [hlf, hm] at hgt
        refine ⟨hI3, by rw [hn3, hs], by rw [hl3, hm], rfl, ?_⟩
        rw [hb3, if_neg hnle, if_pos hgt, hb]
      · simp only [if_neg hgt, Option.map_some', Option.some.injEq, Prod.mk.injEq] at h
        obtain ⟨rfl, rfl⟩ := h
        rw [hlf, hm] at hgt
        exact ⟨hI2, hs, hm, rfl, by rw [if_neg hgt, hb]⟩

end UnorderedMap

namespace UnorderedMap

variable {Key Value : Type}

theorem dec64_pos (x : Nat) (h : 0 < x) : dec64 x = x - 1 := by
  unfold dec64
  rw [if_neg (by omega)]

/-- The fields after `erase(pos)` of a live node. -/
theorem erase_fields (hash : Key → Nat) (m : UnorderedMap Key Value) (h : Nat)
    (d : Key × Value) (hd : m.nodes_.value h = some d) (hbc : m.bucket_count_ ≠ 0) :
    ∃ m1, erase hash m h = some (m1, (m.nodes_.erase h).2) ∧
      m1.nodes_ = (m.nodes_.erase h).1 ∧ m1.bucket_count_ = m.bucket_count_ ∧
      m1.max_load_factor_ = m.max_load_factor_ ∧
      ∀ i, (m1.buckets_ i).size_ =
        if i = hash d.1 % m.bucket_count_ then dec64 (m.buckets_ i).size_
        else (m.buckets_ i).size_ := by
  simp only [erase, remove_node, hd, if_neg hbc]
  refine ⟨_, rfl, rfl, rfl, rfl, ?_⟩
  intro i
  by_cases hi : i = hash d.1 % m.bucket_count_
  · subst hi
    simp only [upd, if_true]
    split <;> rfl
  · simp only [upd, if_neg hi]

/-- `erase` of the node `h` that sits between `xs` and `ys`: it returns, unlinks exactly
that node, hands back its successor and keeps the invariant. -/
theorem erase_spec (hash : Key → Nat) (m : UnorderedMap Key Value)
    (xs ys : List (Nat × (Key × Value))) (h : Nat) (d : Key × Value)
    (hI : Inv hash m (xs ++ (h, d) :: ys)) :
    ∃ m1, erase hash m h = some (m1, (ys.map Prod.fst).headD endNode) ∧
      Inv hash m1 (xs ++ ys) ∧ m1.nodes_.size_ + 1 = m.nodes_.size_ ∧
      m1.bucket_count_ = m.bucket_count_ ∧ m1.max_load_factor_ = m.max_load_factor_ ∧
      m1.nodes_.alloc = m.nodes_.alloc := by
  have hd : m.nodes_.value h = some d := (hI.repr.live h d).mpr (by simp)
  have hbc : m.bucket_count_ ≠ 0 := Nat.pos_iff_ne_zero.mp hI.bc_pos
  obtain ⟨r1, r2, _, r4, r5⟩ := LList.repr_erase m.nodes_ xs ys h d hI.repr
  have hsz2 := hI.size_ge
  simp only [List.length_append, List.length_cons] at hsz2
  have hsz : 0 < m.nodes_.size_ := by omega
  obtain ⟨m1, he, hn, hb, hl, hbk⟩ := erase_fields hash m h d hd hbc
  rw [r2] at he
  refine ⟨m1, he, ⟨hn ▸ r1, ?_, hb ▸ hI.bc_pos, ?_⟩, ?_, hb, hl, by rw [hn, r5]⟩
  · rw [hn, r4, dec64_pos _ hsz]
    simp only [List.length_append]
    omega
  · intro i hi
    rw [hb] at hi ⊢
    have hc := hI.counts i hi
    rw [count_idx_insert] at hc
    rw [hbk i]
    by_cases hi2 : i = hash d.1 % m.bucket_count_
    · have hidx : idxOf hash m.bucket_count_ (h, d) = i := hi2.symm
      rw [if_pos hidx] at hc
      rw [if_pos hi2, dec64_pos _ (by omega), hc]
      omega
    · have hidx : ¬ (idxOf hash m.bucket_count_ (h, d) = i) := fun e => hi2 e.symm
      rw [if_neg hidx] at hc
      rw [if_neg hi2, hc]
      omega
  · rw [hn, r4, dec64_pos _ hsz]
    omega

/-- `clear()` on a map that satisfies the invariant returns and leaves no node; the
counter `size_` of the node list keeps its value. -/
theorem clear_spec (hash : Key → Nat) (m : UnorderedMap Key Value)
    (es : List (Nat × (Key × Value))) (hI : Inv hash m es) :
    ∃ m1, clear m = some m1 ∧ Inv hash m1 [] ∧ m1.nodes_.size_ = m.nodes_.size_ ∧
      m1.bucket_count_ = m.bucket_count_ ∧ m1.max_load_factor_ = m.max_load_factor_ := by
  obtain ⟨l1, hl1, hr1, hs1, _⟩ := LList.repr_clear m.nodes_ es hI.repr
  simp only [clear, hl1]
  refine ⟨_, rfl, ⟨hr1, by simp, hI.bc_pos, ?_⟩, hs1, rfl, rfl⟩
  intro i hi
  have hi2 : i < m.bucket_count_ := hi
  simp [hi2]

/-- A value of `size_t` that a `float` converts to is below `2 ^ 64`. -/
theorem toSize_lt (x : F32) (c : Nat) (h : F32.toSize x = some c) : c < 2 ^ 64 := by
  cases x with
  | finite q =>
    obtain ⟨t, ht⟩ : ∃ t : Int, t = (if 0 ≤ q then ⌊q⌋ else ⌈q⌉) := ⟨_, rfl⟩
    have h2 : (if 0 ≤ t ∧ t < 2 ^ 64 then some t.toNat else none) = some c := by
      rw [ht]; exact h
    by_cases hc : 0 ≤ t ∧ t < 2 ^ 64
    · rw [if_pos hc] at h2
      simp only [Option.some.injEq] at h2
      omega
    · rw [if_neg hc] at h2
      cases h2
  | negzero =>
    simp only [F32.toSize, Option.some.injEq] at h
    omega
  | inf n => simp [F32.toSize] at h
  | nan => simp [F32.toSize] at h

/-- A completed `reserve` keeps the node list, the threshold and the invariant, and never
lowers the bucket count: the new bucket count is the larger one of the old bucket count
and the value of `size_t` that the ceiling of the `float` quotient converts to. -/
theorem reserve_spec (hash : Key → Nat) (m m1 : UnorderedMap Key Value)
    (es : List (Nat × (Key × Value))) (n : Nat) (hI : Inv hash m es)
    (h : reserve hash m n = some m1) :
    Inv hash m1 es ∧ m1.nodes_ = m.nodes_ ∧ m1.max_load_factor_ = m.max_load_factor_ ∧
      m.bucket_count_ ≤ m1.bucket_count_ ∧
      ∃ c, F32.toSize (F32.ceil (F32.div (F32.ofNat n) m.max_load_factor_)) = some c ∧
        c < 2 ^ 64 ∧ m1.bucket_count_ = (if c ≤ m.bucket_count_ then m.bucket_count_ else c) := by
  unfold reserve at h
  cases hc : F32.toSize (F32.ceil (F32.div (F32.ofNat n) m.max_load_factor_)) with
  | none => rw [hc] at h; simp at h
  | some c =>
    rw [hc] at h
    simp only at h
    obtain ⟨m2, h2, hI2, hn, hl, hb⟩ := rehash_spec hash m es c hI
    rw [h2] at h
    simp only [Option.some.injEq] at h
    subst h
    refine ⟨hI2, hn, hl, ?_, c, rfl, toSize_lt _ c hc, hb⟩
    rw [hb]
    split <;> omega

/-- The setter `max_load_factor(mf)` on a map that satisfies the invariant returns, keeps
the node list, and doubles the bucket count exactly when the load factor exceeds `mf`. -/
theorem set_max_load_factor_spec (hash : Key → Nat) (m : UnorderedMap Key Value)
    (es : List (Nat × (Key × Value))) (mf : F32) (hI : Inv hash m es) :
    ∃ m1, set_max_load_factor hash m mf = some m1 ∧ Inv hash m1 es ∧
      m1.nodes_ = m.nodes_ ∧ m1.max_load_factor_ = mf ∧
      m1.bucket_count_ =
        (if F32.gt (loadOf m.nodes_.size_ m.bucket_count_) mf then m.bucket_count_ * 2
         else m.bucket_count_) := by
  unfold set_max_load_factor
  have hI1 : Inv hash { m with max_load_factor_ := mf } es :=
    ⟨hI.repr, hI.size_ge, hI.bc_pos, hI.counts⟩
  by_cases hgt : F32.gt (loadOf m.nodes_.size_ m.bucket_count_) mf = true
  · obtain ⟨m2, h2, hI2, hn, hl, hb⟩ := rehash_spec hash { m with max_load_factor_ := mf } es
      (m.bucket_count_ * 2) hI1
    have hpos := hI.bc_pos
    have hnle : ¬ (m.bucket_count_ * 2 ≤ m.bucket_count_) := by omega
    have hgt2 : F32.gt (F32.div (F32.ofNat m.nodes_.size_) (F32.ofNat m.bucket_count_)) mf
        = true := hgt
    refine ⟨m2, ?_, hI2, hn, hl, ?_⟩
    · simp only [load_factor, LList.size, if_pos hgt2]
      exact h2
    · rw [hb, if_pos hgt]
      simp only [if_neg hnle]
  · have hgt2 : ¬ F32.gt (F32.div (F32.ofNat m.nodes_.size_) (F32.ofNat m.bucket_count_)) mf
        = true := hgt
    refine ⟨{ m with max_load_factor_ := mf }, ?_, hI1, rfl, rfl, ?_⟩
    · simp only [load_factor, LList.size, if_neg hgt2]
    · rw [if_neg hgt]

/-- A completed `operator[]` either leaves the map as it is or acts as the `emplace` of
`(key, Value())`. -/
theorem index_spec (hash : Key → Nat) (equal : Key → Key → Bool) (dflt : Value)
    (m m1 : UnorderedMap Key Value) (key : Key) (r : Nat)
    (h : index hash equal dflt m key = some (m1, r)) :
    m1 = m ∨ ∃ r1, emplace hash equal m key dflt = some (m1, r1) := by
  unfold index at h
  cases hf : find hash equal m key with
  | none => rw [hf] at h; simp at h
  | some it =>
    rw [hf] at h
    simp only at h
    split at h
    · cases hi : insert hash equal m (key, dflt) with
      | none => rw [hi] at h; simp at h
      | some pr =>
        rw [hi] at h
        simp only at h
        split at h
        · simp at h
        · simp only [Option.some.injEq, Prod.mk.injEq] at h
          right
          refine ⟨pr.2, ?_⟩
          have : insert hash equal m (key, dflt) = emplace hash equal m key dflt := rfl
          rw [← this, hi, ← h.1]
    · split at h
      · simp at h
      · simp only [Option.some.injEq, Prod.mk.injEq] at h
        exact Or.inl h.1.symm

end UnorderedMap

namespace UnorderedMap

variable {Key Value : Type}

theorem emplace_facts (hash : Key → Nat) (equal : Key → Key → Bool)
    (m m1 : UnorderedMap Key Value) (es : List (Nat × (Key × Value))) (key : Key)
    (val : Value) (r : Nat × Bool) (hI : Inv hash m es)
    (h : emplace hash equal m key val = some (m1, r)) :
    ∃ es1, Inv hash m1 es1 ∧
      ((m1 = m ∧ es1 = es) ∨
       (es1.length = es.length + 1 ∧ m1.nodes_.size_ = m.nodes_.size_ + 1 ∧
        m1.max_load_factor_ = m.max_load_factor_ ∧
        m1.bucket_count_ =
          (if F32.gt (loadOf (m.nodes_.size_ + 1) m.bucket_count_) m.max_load_factor_
           then m.bucket_count_ * 2 else m.bucket_count_))) := by
  rcases emplace_spec hash equal m m1 es key val r hI h with ⟨rfl, _⟩ |
    ⟨xs, ys, hes, hI1, hs, hl, _, hb⟩
  · exact ⟨es, hI, Or.inl ⟨rfl, rfl⟩⟩
  · refine ⟨_, hI1, Or.inr ⟨?_, hs, hl, hb⟩⟩
    rw [hes]
    simp only [List.length_append, List.length_cons]
    omega

/-- One completed call keeps the invariant. -/
theorem step_inv (hash : Key → Nat) (equal : Key → Key → Bool) (dflt : Value)
    (m m1 : UnorderedMap Key Value) (es : List (Nat × (Key × Value))) (op : Op Key Value)
    (hI : Inv hash m es) (h : step hash equal dflt m op = some m1) :
    ∃ es1, Inv hash m1 es1 ∧ StepFacts m es m1 es1 op := by
  cases op with
  | emplace key val =>
    simp only [step, Option.map_eq_some'] at h
    obtain ⟨⟨m2, r⟩, h2, rfl⟩ := h
    exact emplace_facts hash equal m m2 es key val r hI h2
  | insert value =>
    simp only [step, Option.map_eq_some'] at h
    obtain ⟨⟨m2, r⟩, h2, rfl⟩ := h
    exact emplace_facts hash equal m m2 es value.1 value.2 r hI h2
  | index key =>
    simp only [step, Option.map_eq_some'] at h
    obtain ⟨⟨m2, r⟩, h2, rfl⟩ := h
    rcases index_spec hash equal dflt m m2 key r h2 with rfl | ⟨r1, h3⟩
    · exact ⟨es, hI, Or.inl ⟨rfl, rfl⟩⟩
    · exact emplace_facts hash equal m m2 es key dflt r1 hI h3
  | erase pos =>
    simp only [step, Option.map_eq_some'] at h
    obtain ⟨⟨m2, r⟩, h2, rfl⟩ := h
    cases hv : m.nodes_.value pos with
    | none => simp [erase, remove_node, hv] at h2
    | some d =>
      obtain ⟨xs, ys, hes⟩ := List.append_of_mem ((hI.repr.live pos d).mp hv)
      subst hes
      obtain ⟨m3, h3, hI3, hs, hb, hl, _⟩ := erase_spec hash m xs ys pos d hI
      rw [h3] at h2
      simp only [Option.some.injEq, Prod.mk.injEq] at h2
      obtain ⟨rfl, _⟩ := h2
      refine ⟨xs ++ ys, hI3, ?_, hs, hb, hl⟩
      simp only [List.length_append, List.length_cons]
      omega
  | clear =>
    obtain ⟨m2, h2, hI2, hs, hb, hl⟩ := clear_spec hash m es hI
    simp only [step] at h
    rw [h2] at h
    simp only [Option.some.injEq] at h
    subst h
    exact ⟨[], hI2, rfl, hs, hb, hl⟩
  | reserve n =>
    obtain ⟨hI2, hn, hl, hb, c, _, hc, hbc⟩ := reserve_spec hash m m1 es n hI h
    refine ⟨es, hI2, rfl, hn, hl, hb, ?_⟩
    rw [hbc]
    split
    · exact Or.inl rfl
    · exact Or.inr hc
  | max_load_factor mf =>
    obtain ⟨m2, h2, hI2, hn, hl, hb⟩ := set_max_load_factor_spec hash m es mf hI
    simp only [step] at h
    rw [h2] at h
    simp only [Option.some.injEq] at h
    subst h
    exact ⟨es, hI2, rfl, hn, hl, hb⟩

/-- Every reachable state satisfies the invariant. -/
theorem reachable_inv (hash : Key → Nat) (equal : Key → Key → Bool) (dflt : Value)
    (allowed : UnorderedMap Key Value → Op Key Value → Prop) (b0 : Nat) (hb : 1 ≤ b0)
    (m : UnorderedMap Key Value) (hm : Reachable hash equal dflt allowed b0 m) :
    ∃ es, Inv hash m es := by
  induction hm with
  | init => exact ⟨[], inv_mk_empty hash b0 hb⟩
  | step m op m1 _ _ hs ih =>
    obtain ⟨es, hI⟩ := ih
    obtain ⟨es1, hI1, _⟩ := step_inv hash equal dflt m m1 es op hI hs
    exact ⟨es1, hI1⟩

/-- Without `clear()`, `size_` is exactly the number of nodes. -/
theorem reachable_inv_size (hash : Key → Nat) (equal : Key → Key → Bool) (dflt : Value)
    (b0 : Nat) (hb : 1 ≤ b0) (m : UnorderedMap Key Value)
    (hm : Reachable hash equal dflt growEraseOp b0 m) :
    ∃ es, Inv hash m es ∧ m.nodes_.size_ = es.length := by
  induction hm with
  | init => exact ⟨[], inv_mk_empty hash b0 hb, rfl⟩
  | step m op m1 _ ha hs ih =>
    obtain ⟨es, hI, hsz⟩ := ih
    obtain ⟨es1, hI1, hf⟩ := step_inv hash equal dflt m m1 es op hI hs
    refine ⟨es1, hI1, ?_⟩
    cases op with
    | emplace key val =>
      rcases hf with ⟨rfl, rfl⟩ | ⟨h1, h2, _⟩
      · exact hsz
      · omega
    | insert value =>
      rcases hf with ⟨rfl, rfl⟩ | ⟨h1, h2, _⟩
      · exact hsz
      · omega
    | index key => exact absurd ha (by simp [growEraseOp])
    | erase pos =>
      obtain ⟨h1, h2, _⟩ := hf
      omega
    | clear => exact absurd ha (by simp [growEraseOp])
    | reserve n =>
      obtain ⟨h1, h2, _⟩ := hf
      rw [h1, h2]; exact hsz
    | max_load_factor mf => exact absurd ha (by simp [growEraseOp])

theorem inv_items (hash : Key → Nat) (m : UnorderedMap Key Value)
    (es : List (Nat × (Key × Value))) (hI : Inv hash m es) : m.items = some es :=
  LList.repr_items m.nodes_ es hI.repr

theorem inv_begin (hash : Key → Nat) (m : UnorderedMap Key Value)
    (es : List (Nat × (Key × Value))) (hI : Inv hash m es) :
    m.begin_ = (es.map Prod.fst).headD endNode := by
  have := seg_next_eq _ _ _ hI.repr.seg
  unfold begin_ LList.begin_
  rw [this]
  cases es <;> simp

end UnorderedMap

namespace UnorderedMap

variable {Key Value : Type}

theorem eq_some_getD {α : Type} {o : Option α} (d : α) (h : o.isSome = true) :
    o = some (o.getD d) := by
  cases o with
  | none => simp at h
  | some a => rfl

/-- A run of allowed calls that completes ends in a reachable state. -/
theorem reachable_runOps (hash : Key → Nat) (equal : Key → Key → Bool) (dflt : Value)
    (allowed : UnorderedMap Key Value → Op Key Value → Prop) (b0 : Nat) :
    ∀ (ops : List (Op Key Value)) (m m1 : UnorderedMap Key Value),
      (∀ op ∈ ops, ∀ s, allowed s op) → Reachable hash equal dflt allowed b0 m →
      runOps hash equal dflt m ops = some m1 → Reachable hash equal dflt allowed b0 m1
  | [], m, m1, _, hm, h => by
    simp only [runOps, Option.some.injEq] at h
    exact h ▸ hm
  | op :: ops, m, m1, ha, hm, h => by
    simp only [runOps] at h
    cases hs : step hash equal dflt m op with
    | none => rw [hs] at h; simp at h
    | some m2 =>
      rw [hs] at h
      exact reachable_runOps hash equal dflt allowed b0 ops m2 m1
        (fun o ho => ha o (List.mem_cons_of_mem _ ho))
        (Reachable.step m op m2 hm (ha op (List.mem_cons_self _ _) m) hs) h

/-- A run of calls that passes a test which implies `allowed` ends in a reachable
state. -/
theorem reachable_runChecked (hash : Key → Nat) (equal : Key → Key → Bool) (dflt : Value)
    (allowed : UnorderedMap Key Value → Op Key Value → Prop)
    (ok : UnorderedMap Key Value → Op Key Value → Bool)
    (hok : ∀ s op, ok s op = true → allowed s op) (b0 : Nat) :
    ∀ (ops : List (Op Key Value)) (m m1 : UnorderedMap Key Value),
      Reachable hash equal dflt allowed b0 m →
      runChecked hash equal dflt ok m ops = some m1 → Reachable hash equal dflt allowed b0 m1
  | [], m, m1, hm, h => by
    simp only [runChecked, Option.some.injEq] at h
    exact h ▸ hm
  | op :: ops, m, m1, hm, h => by
    simp only [runChecked] at h
    by_cases hc : ok m op = true
    · rw [if_pos hc] at h
      cases hs : step hash equal dflt m op with
      | none => rw [hs] at h; simp at h
      | some m2 =>
        rw [hs] at h
        exact reachable_runChecked hash equal dflt allowed ok hok b0 ops m2 m1
          (Reachable.step m op m2 hm (hok m op hc) hs) h
    · rw [if_neg hc] at h
      cases h

/-- The test `oneDoublingOk` implies `oneDoublingOp`. -/
theorem oneDoublingOk_sound (s : UnorderedMap Key Value) (op : Op Key Value)
    (h : oneDoublingOk s op = true) : oneDoublingOp s op := by
  unfold oneDoublingOk at h
  simp only [Bool.and_eq_true, decide_eq_true_eq] at h
  obtain ⟨⟨h1, h2⟩, h3⟩ := h
  refine ⟨h1, h2, ?_⟩
  cases op <;> first | trivial | (simp only [Bool.and_eq_true] at h3; exact h3)

theorem map12_run :
    runOps hashId equalNat 0 (mk_empty 4) [Op.emplace 1 10, Op.emplace 2 20] = some map12 :=
  eq_some_getD _ (by decide!)

theorem map12_reachable (allowed : UnorderedMap Nat Nat → Op Nat Nat → Prop)
    (h : ∀ k v s, allowed s (Op.emplace k v)) :
    Reachable hashId equalNat 0 allowed 4 map12 :=
  reachable_runOps hashId equalNat 0 allowed 4 _ _ _
    (by
      intro op hop s
      simp only [List.mem_cons, List.mem_singleton, List.not_mem_nil, or_false] at hop
      rcases hop with rfl | rfl <;> exact h _ _ _)
    Reachable.init map12_run

theorem eraseLoop_all (hash : Key → Nat) :
    ∀ (es : List (Nat × (Key × Value))) (m : UnorderedMap Key Value) (fuel : Nat),
      Inv hash m es → es.length ≤ fuel →
      ∃ m1, eraseLoop hash fuel m ((es.map Prod.fst).headD endNode) endNode = some m1 ∧
        erase_each hash m (es.map Prod.fst) = some m1 ∧ Inv hash m1 [] ∧
        m1.nodes_.size_ + es.length = m.nodes_.size_ ∧
        m1.bucket_count_ = m.bucket_count_
  | [], m, fuel, hI, _ => by
    refine ⟨m, ?_, rfl, hI, rfl, rfl⟩
    cases fuel <;> simp [eraseLoop]
  | (h, d) :: ys, m, fuel, hI, hf => by
    obtain ⟨f, rfl⟩ : ∃ f, fuel = f + 1 := ⟨fuel - 1, by
      simp only [List.length_cons] at hf; omega⟩
    have hh0 : h ≠ endNode := fun e => hI.repr.nz (by simp [e])
    obtain ⟨m2, h2, hI2, hs2, hb2, _, _⟩ := erase_spec hash m [] ys h d hI
    simp only [List.nil_append] at hI2
    obtain ⟨m1, h1, he1, hI1, hs1, hb1⟩ := eraseLoop_all hash ys m2 f hI2
      (by simp only [List.length_cons] at hf; omega)
    refine ⟨m1, ?_, ?_, hI1, ?_, hb1.trans hb2⟩
    · simp only [List.map_cons, List.headD_cons, eraseLoop, if_neg hh0, h2]
      exact h1
    · simp only [List.map_cons, erase_each, h2]
      exact he1
    · simp only [List.length_cons]
      omega

end UnorderedMap

/-! ## The claims C1 to C10 -/

namespace UnorderedMap

variable {Key Value : Type}

/-- Claim C1 (uniqueness), evaluated on the code: with 4 buckets, `hash(k) = k` and
`std::equal_to`, the calls `emplace(1, 10)`, `emplace(2, 20)`, `emplace(5, 50)`,
`emplace(5, 51)` all complete and report `inserted = true` for the last one, and the entry
sequence then holds the key `5` twice. -/
theorem emplace_stores_equal_key_twice :
    ((runOps hashId equalNat 0 (mk_empty 4)
        [Op.emplace 1 10, Op.emplace 2 20, Op.emplace 5 50]).bind
      (fun m => (emplace hashId equalNat m 5 51).map (fun r => (r.2.2, r.1.entries)))) =
      some (true, some [(5, 50), (5, 51), (1, 10), (2, 20)]) := by
  decide!

/-- Claim C2 (round trip insert, find), evaluated on the code: with 4 buckets and
`hash(k) = k`, after `emplace(1, 10)` the key `5` is absent, `insert({5, 50})` reports
`inserted = true` and stores the entry, and `find(5)` then returns `end()`. -/
theorem find_misses_inserted_key :
    ((runOps hashId equalNat 0 (mk_empty 4) [Op.emplace 1 10]).bind
      (fun m => (insert hashId equalNat m (5, 50)).map
        (fun r => (m.entries, r.2.2)))) = some (some [(1, 10)], true) ∧
    ((runOps hashId equalNat 0 (mk_empty 4) [Op.emplace 1 10]).bind
      (fun m => (insert hashId equalNat m (5, 50)).map
        (fun r => (r.1.entries, find hashId equalNat r.1 5)))) =
      some (some [(5, 50), (1, 10)], some endNode) := by
  decide!

/-- Claim C3 (round trip erase, find), evaluated on the code: with 4 buckets and
`hash(k) = k`, after `emplace` of `(1, 10)`, `(2, 20)`, `(5, 50)`, `(5, 51)`, `(3, 30)` the
call `find(5)` returns the node `3`; after `erase` of that node `find(5)` returns the node
`4`, not `end()`.  In the map after `emplace(1, 10)`, `emplace(5, 50)`, `find(1)` returns
the node `1`, and after `erase` of it `find(1)` reads the payload of the sentinel. -/
theorem find_after_erase_not_end :
    ((runOps hashId equalNat 0 (mk_empty 4)
        [Op.emplace 1 10, Op.emplace 2 20, Op.emplace 5 50, Op.emplace 5 51,
          Op.emplace 3 30]).bind
      (fun m => (erase hashId m 3).map
        (fun r => (find hashId equalNat m 5, find hashId equalNat r.1 5)))) =
      some (some 3, some 4) ∧
    find hashId equalNat map15 1 = some 1 ∧
    (erase hashId map15 1).map (fun r => find hashId equalNat r.1 1) = some none := by
  decide!

/-- Claim C4 (contiguity), evaluated on the code: with 4 buckets and `hash(k) = k`, after
`emplace(1, 10)` and `emplace(5, 50)` bucket `1` has `it_` at node `1` and `size_ = 2`, the
successor of node `1` is the sentinel, and the entry with key `5` (node `2`) lies in front
of node `1`, outside the run.  After `emplace` of the keys `1`, `2`, `7` and `reserve(6)`
there are 6 buckets, bucket `1` has `it_` at node `1` and `size_ = 2`, the successor of
node `1` is node `2` with key `2` (index `2`), and the entry with key `7` (index `1`) lies
behind it. -/
theorem bucket_run_not_contiguous :
    map15.buckets_ 1 = ⟨1, 2⟩ ∧ map15.nodes_.next 1 = endNode ∧
      map15.items = some [(2, (5, 50)), (1, (1, 10))] ∧ map15.bucket_count = 4 ∧
    (runOps hashId equalNat 0 (mk_empty 4)
        [Op.emplace 1 10, Op.emplace 2 20, Op.emplace 7 70, Op.reserve 6]).map
      (fun m => (m.buckets_ 1, m.nodes_.next 1, m.bucket_count)) = some (⟨1, 2⟩, 2, 6) ∧
    (runOps hashId equalNat 0 (mk_empty 4)
        [Op.emplace 1 10, Op.emplace 2 20, Op.emplace 7 70, Op.reserve 6]).bind
      (fun m => m.items) = some [(1, (1, 10)), (2, (2, 20)), (3, (7, 70))] := by
  decide!

/-- Claim C5 as stated fails on the code.  With 4 buckets, three entries and the setter
`max_load_factor(0.25f)` the bucket count doubles once, to 8, and `3 ≤ (1/4) * 8` is false.
With 1 bucket, `max_load_factor(0.25f)` on the empty map followed by `emplace(1, 10)` gives
size 1 and 2 buckets, and `1 ≤ (1/4) * 2` is false.  With 10 buckets, seven entries and
`max_load_factor(0.7f)` the quotient `7.0f / 10` rounds to `0.7f`, the bucket count stays
10, and `7 ≤ 0.7f * 10` is false in exact arithmetic, `0.7f` being less than `7/10`. -/
theorem load_factor_bound_fails :
    ((runOps hashId equalNat 0 (mk_empty 4)
        [Op.emplace 0 0, Op.emplace 1 10, Op.emplace 2 20,
          Op.max_load_factor (F32.finite (1 / 4))]).map
      (fun m => (m.size, m.bucket_count, m.max_load_factor,
        decide ((m.size : ℚ) ≤ m.max_load_factor.value * m.bucket_count)))) =
      some (3, 8, F32.finite (1 / 4), false) ∧
    ((runOps hashId equalNat 0 (mk_empty 1)
        [Op.max_load_factor (F32.finite (1 / 4)), Op.emplace 1 10]).map
      (fun m => (m.size, m.bucket_count, m.max_load_factor,
        decide ((m.size : ℚ) ≤ m.max_load_factor.value * m.bucket_count)))) =
      some (1, 2, F32.finite (1 / 4), false) ∧
    (map7of10.size, map7of10.bucket_count, map7of10.max_load_factor) =
      (7, 10, F32.finite 1) ∧
    map7of10.load_factor = f07 ∧
    ((set_max_load_factor hashId map7of10 f07).map
      (fun m => (m.size, m.bucket_count, m.max_load_factor,
        decide ((m.size : ℚ) ≤ m.max_load_factor.value * m.bucket_count)))) =
      some (7, 10, f07, false) := by
  refine ⟨by decide!, by decide!, by decide!, by decide!, by decide!⟩

/-- Claim C5, amended: for a map constructed with `b0 ≥ 1` buckets, after every completed
`emplace`, `insert`, `operator[]`, `erase`, `clear` and `reserve` call, and every call
`max_load_factor(mf)` for which one doubling is enough (`oneDoublingOp`), all made while
the counters are values of `size_t`, the load factor that the code computes is within the
threshold, `load_factor() <= max_load_factor()` in `float`, and in exact arithmetic
`size() * (1 - 2 ^ (-22)) ≤ max_load_factor() * bucket_count()`. -/
theorem load_factor_bound (hash : Key → Nat) (equal : Key → Key → Bool) (dflt : Value)
    (b0 : Nat) (hb : 1 ≤ b0) (hb2 : b0 < 2 ^ 64) (m : UnorderedMap Key Value)
    (hm : Reachable hash equal dflt oneDoublingOp b0 m) :
    F32.le m.load_factor m.max_load_factor = true ∧
      ∀ t : ℚ, m.max_load_factor = F32.finite t →
        (m.size : ℚ) * (1 - 1 / 2 ^ 22) ≤ t * m.bucket_count := by
  have key : ∃ es, Inv hash m es ∧ m.nodes_.size_ < 2 ^ 64 ∧ m.bucket_count_ < 2 ^ 64 ∧
      F32.le (loadOf m.nodes_.size_ m.bucket_count_) m.max_load_factor_ = true ∧
      F32.le (loadOf 1 m.bucket_count_) m.max_load_factor_ = true := by
    induction hm with
    | init =>
      refine ⟨[], inv_mk_empty hash b0 hb, by simp [mk_empty, allocate_buckets, LList.empty],
        hb2, ?_, ?_⟩
      · show F32.le (loadOf 0 b0) (F32.finite 1) = true
        rw [loadOf_zero b0 hb hb2]
        decide!
      · show F32.le (loadOf 1 b0) (F32.finite 1) = true
        have h1 := loadOf_one_le b0 hb hb2
        rw [(loadOf_finite 1 b0 (by norm_num) hb hb2).1]
        simp only [F32.le, F32.value, decide_eq_true_eq]
        exact h1
    | step m op m1 _ ha hs ih =>
      obtain ⟨es, hI, hs64, hb64, hle, hone⟩ := ih
      obtain ⟨es1, hI1, hf⟩ := step_inv hash equal dflt m m1 es op hI hs
      refine ⟨es1, hI1, ?_⟩
      obtain ⟨ha1, ha2, ha3⟩ := ha
      simp only [size, bucket_count, LList.size] at ha1 ha2
      have hbp := hI.bc_pos
      have hfin := fun s (h : s < 2 ^ 64) => (loadOf_finite s m.bucket_count_ h hbp hb64).1
      have hfin2 := fun s (h : s < 2 ^ 64) =>
        (loadOf_finite s (m.bucket_count_ * 2) h (by omega) ha2).1
      have hnan := F32.ne_nan_of_le _ _ hle
      have hone2 : F32.le (loadOf 1 (m.bucket_count_ * 2)) m.max_load_factor_ = true := by
        rw [hfin2 1 (by norm_num)]
        rw [hfin 1 (by norm_num)] at hone
        exact F32.le_of_value_le _ _ _
          (loadOf_anti_right 1 _ _ (by omega) (by norm_num) hbp ha2) hone
      have hgrow : ((m1 = m ∧ es1 = es) ∨
          (es1.length = es.length + 1 ∧ m1.nodes_.size_ = m.nodes_.size_ + 1 ∧
            m1.max_load_factor_ = m.max_load_factor_ ∧
            m1.bucket_count_ =
              (if F32.gt (loadOf (m.nodes_.size_ + 1) m.bucket_count_) m.max_load_factor_
               then m.bucket_count_ * 2 else m.bucket_count_))) →
          m1.nodes_.size_ < 2 ^ 64 ∧ m1.bucket_count_ < 2 ^ 64 ∧
          F32.le (loadOf m1.nodes_.size_ m1.bucket_count_) m1.max_load_factor_ = true ∧
            F32.le (loadOf 1 m1.bucket_count_) m1.max_load_factor_ = true := by
        rintro (⟨rfl, _⟩ | ⟨_, h2, h3, h4⟩)
        · exact ⟨hs64, hb64, hle, hone⟩
        · rw [h2, h3, h4]
          by_cases hgt : F32.gt (loadOf (m.nodes_.size_ + 1) m.bucket_count_)
              m.max_load_factor_ = true
          · rw [if_pos hgt]
            refine ⟨ha1, ha2, ?_, hone2⟩
            rcases Nat.eq_zero_or_pos m.nodes_.size_ with h0 | hpos
            · rw [h0]; exact hone2
            · rw [hfin2 _ ha1]
              rw [hfin _ hs64] at hle
              exact F32.le_of_value_le _ _ _ (loadOf_double _ _ hpos ha1 hbp ha2) hle
          · rw [if_neg hgt]
            refine ⟨ha1, hb64, ?_, hone⟩
            rw [hfin _ ha1] at hgt ⊢
            exact F32.le_of_gt_false _ _ hnan (by simpa using hgt)
      cases op with
      | emplace key val => exact hgrow hf
      | insert value => exact hgrow hf
      | index key => exact hgrow hf
      | erase pos =>
        obtain ⟨_, h2, h3, h4⟩ := hf
        have hlt : m1.nodes_.size_ ≤ m.nodes_.size_ := by omega
        rw [h3, h4]
        refine ⟨by omega, hb64, ?_, hone⟩
        rw [hfin _ (by omega)]
        rw [hfin _ hs64] at hle
        exact F32.le_of_value_le _ _ _
          (loadOf_mono_left _ _ _ hlt hs64 hbp hb64) hle
      | clear =>
        obtain ⟨_, h2, h3, h4⟩ := hf
        rw [h2, h3, h4]
        exact ⟨hs64, hb64, hle, hone⟩
      | reserve n =>
        obtain ⟨_, h2, h3, h4, h5⟩ := hf
        have hb1 : m1.bucket_count_ < 2 ^ 64 := by
          rcases h5 with h5 | h5
          · rw [h5]; exact hb64
          · exact h5
        rw [h2, h3]
        refine ⟨hs64, hb1, ?_, ?_⟩
        · rw [(loadOf_finite _ _ hs64 (by omega) hb1).1]
          rw [hfin _ hs64] at hle
          exact F32.le_of_value_le _ _ _ (loadOf_anti_right _ _ _ h4 hs64 hbp hb1) hle
        · rw [(loadOf_finite 1 _ (by norm_num) (by omega) hb1).1]
          rw [hfin 1 (by norm_num)] at hone
          exact F32.le_of_value_le _ _ _
            (loadOf_anti_right 1 _ _ h4 (by norm_num) hbp hb1) hone
      | max_load_factor mf =>
        obtain ⟨_, h2, h3, h4⟩ := hf
        obtain ⟨hc1, hc2⟩ := ha3
        simp only [size, bucket_count, LList.size] at hc1 hc2
        rw [h2, h3, h4]
        by_cases hgt : F32.gt (loadOf m.nodes_.size_ m.bucket_count_) mf = true
        · rw [if_pos hgt]
          refine ⟨hs64, ha2, hc2, ?_⟩
          rw [hfin2 1 (by norm_num)]
          rw [hfin 1 (by norm_num)] at hc1
          exact F32.le_of_value_le _ _ _
            (loadOf_anti_right 1 _ _ (by omega) (by norm_num) hbp ha2) hc1
        · rw [if_neg hgt]
          refine ⟨hs64, hb64, ?_, hc1⟩
          rw [hfin _ hs64] at hgt ⊢
          exact F32.le_of_gt_false _ _ (F32.ne_nan_of_le _ _ hc1) (by simpa using hgt)
  obtain ⟨es, hI, hs64, hb64, hle, _⟩ := key
  refine ⟨hle, fun t ht => ?_⟩
  have ht2 : m.max_load_factor_ = F32.finite t := ht
  obtain ⟨hfin, _⟩ := loadOf_finite m.nodes_.size_ m.bucket_count_ hs64 hI.bc_pos hb64
  rw [hfin, ht2] at hle
  have hle2 := (F32.le_finite_iff _ _).mp hle
  obtain ⟨hlow, _⟩ := loadOf_bounds m.nodes_.size_ m.bucket_count_ hs64 hI.bc_pos hb64
  have hbq : (0 : ℚ) ≤ (m.bucket_count_ : ℚ) := Nat.cast_nonneg _
  have := mul_le_mul_of_nonneg_right hle2 hbq
  show (m.nodes_.size_ : ℚ) * (1 - 1 / 2 ^ 22) ≤ t * m.bucket_count_
  linarith

/-- Claim C5, amended, at the map with 4 buckets after `emplace(1, 10)`, `emplace(2, 20)`
and `max_load_factor(0.25f)`, which doubles the bucket count to 8: the load factor is
`0.25f` and `2 * (1 - 2 ^ (-22)) ≤ (1/4) * 8`. -/
theorem load_factor_bound_witness :
    Reachable hashId equalNat 0 oneDoublingOp 4 map12q ∧
      (map12q.size, map12q.bucket_count, map12q.load_factor, map12q.max_load_factor) =
        (2, 8, F32.finite (1 / 4), F32.finite (1 / 4)) ∧
      F32.le map12q.load_factor map12q.max_load_factor = true ∧
      ∀ t : ℚ, map12q.max_load_factor = F32.finite t →
        (map12q.size : ℚ) * (1 - 1 / 2 ^ 22) ≤ t * map12q.bucket_count :=
  have h3 : Reachable hashId equalNat 0 oneDoublingOp 4 map12q :=
    reachable_runChecked hashId equalNat 0 oneDoublingOp oneDoublingOk oneDoublingOk_sound 4
      _ _ _ Reachable.init (eq_some_getD _ (by decide!))
  ⟨h3, by decide!, load_factor_bound hashId equalNat 0 4 (by decide) (by decide) map12q h3⟩

/-- Claim C6 (`at` raises exactly for absent keys), evaluated on the code: with 4 buckets
and `hash(k) = k`, after `emplace(1, 10)` and `emplace(5, 50)` the map holds the entry
`(5, 50)` and `at(5)` raises `std::out_of_range`. -/
theorem at_throws_for_present_key :
    map15.entries = some [(5, 50), (1, 10)] ∧
      at_ hashId equalNat map15 5 = some AtResult.out_of_range := by
  decide!

/-- Claim C7 (`operator[]` on a missing key), evaluated on the code: with 4 buckets and
`hash(k) = k`, after `emplace(1, 10)` and `emplace(2, 20)` the call `m[5]` links the entry
`(5, 0)` but returns a reference into node `2`, whose entry is `(2, 20)`, and `find(5)`
then returns `end()`. -/
theorem index_returns_other_entry :
    (index hashId equalNat 0 map12 5).map (fun r => (r.2, r.1.nodes_.value r.2)) =
      some (2, some (2, 20)) ∧
    (index hashId equalNat 0 map12 5).map
        (fun r => (r.1.items, find hashId equalNat r.1 5)) =
      some (some [(3, (5, 0)), (1, (1, 10)), (2, (2, 20))], some endNode) := by
  decide!

/-- Claim C8 (`emplace` of a new key), evaluated on the code: with 4 buckets and
`hash(k) = k`, after `emplace(1, 10)` and `emplace(2, 20)` the call `emplace(5, 50)` returns
`(h, true)` with `h` the node `2`, whose entry is `(2, 20)`; the new entry `(5, 50)` is node
`3`. -/
theorem emplace_returns_last_node :
    (emplace hashId equalNat map12 5 50).map (fun r => (r.2, r.1.nodes_.value r.2.1)) =
      some ((2, true), some (2, 20)) ∧
    (emplace hashId equalNat map12 5 50).map (fun r => (r.1.items, r.1.size)) =
      some (some [(3, (5, 50)), (1, (1, 10)), (2, (2, 20))], 3) ∧
    map12.items = some [(1, (1, 10)), (2, (2, 20))] ∧ map12.size = 2 := by
  decide!

/-- Claim C9: in every state reached from a map constructed with `b0 ≥ 1` buckets by
completed calls, for every node `h` of the sequence (entry `d`, nodes `xs` in front, nodes
`ys` behind), `erase(h)` completes, leaves exactly the nodes `xs ++ ys` with their entries,
lowers `size()` by 1 and returns the first node of `ys`, or `end()` when `h` was last. -/
theorem erase_removes_exactly_the_node (hash : Key → Nat) (equal : Key → Key → Bool)
    (dflt : Value) (b0 : Nat) (hb : 1 ≤ b0) (m : UnorderedMap Key Value)
    (hm : Reachable hash equal dflt anyOp b0 m) (xs ys : List (Nat × (Key × Value)))
    (h : Nat) (d : Key × Value) (hitems : m.items = some (xs ++ (h, d) :: ys)) :
    ∃ m1, erase hash m h = some (m1, (ys.map Prod.fst).headD m.end_) ∧
      m1.items = some (xs ++ ys) ∧ m1.size + 1 = m.size := by
  obtain ⟨es, hI⟩ := reachable_inv hash equal dflt anyOp b0 hb m hm
  have hes : es = xs ++ (h, d) :: ys := by
    have := inv_items hash m es hI
    rw [hitems] at this
    exact (Option.some.inj this).symm
  subst hes
  obtain ⟨m1, h1, hI1, hs, _⟩ := erase_spec hash m xs ys h d hI
  exact ⟨m1, h1, inv_items hash m1 _ hI1, hs⟩

/-- Claim C9 at the map with 4 buckets after `emplace(1, 10)` and `emplace(2, 20)`:
`erase` of node `1` leaves node `2` and returns it. -/
theorem erase_removes_exactly_the_node_witness :
    Reachable hashId equalNat 0 anyOp 4 map12 ∧
      map12.items = some ([] ++ (1, (1, 10)) :: [(2, (2, 20))]) ∧
      ∃ m1, erase hashId map12 1 =
          some (m1, (([(2, (2, 20))] : List (Nat × (Nat × Nat))).map Prod.fst).headD
            map12.end_) ∧
        m1.items = some ([] ++ [(2, (2, 20))]) ∧ m1.size + 1 = map12.size :=
  ⟨map12_reachable anyOp (fun _ _ _ => trivial), by decide!,
    erase_removes_exactly_the_node hashId equalNat 0 4 (by decide) map12
      (map12_reachable anyOp (fun _ _ _ => trivial)) [] [(2, (2, 20))] 1 (1, 10)
      (by decide!)⟩

/-- Claim C10: in every state reached from a map constructed with `b0 ≥ 1` buckets by
completed `emplace`, `insert`, `erase` and `reserve` calls, `erase(begin(), end())`
completes, its loop erases the nodes of the sequence one after the other, each once, and it
leaves `size() == 0`, `begin() == end()`, no node, and every bucket counter `0`. -/
theorem erase_range_empties_map (hash : Key → Nat) (equal : Key → Key → Bool)
    (dflt : Value) (b0 : Nat) (hb : 1 ≤ b0) (m : UnorderedMap Key Value)
    (hm : Reachable hash equal dflt growEraseOp b0 m) :
    ∃ m1 es, m.items = some es ∧ (es.map Prod.fst).Nodup ∧
      erase_range hash m m.begin_ m.end_ = some (m1, m.end_) ∧
      erase_each hash m (es.map Prod.fst) = some m1 ∧
      m1.size = 0 ∧ m1.begin_ = m1.end_ ∧ m1.items = some [] ∧
      ∀ i, i < m1.bucket_count → (m1.buckets_ i).size_ = 0 := by
  obtain ⟨es, hI, hsz⟩ := reachable_inv_size hash equal dflt b0 hb m hm
  obtain ⟨m1, h1, he1, hI1, hs1, _⟩ := eraseLoop_all hash es m m.nodes_.alloc hI
    (Nat.le_of_lt hI.repr.len_lt)
  refine ⟨m1, es, inv_items hash m es hI, hI.repr.nodup, ?_, he1, ?_, ?_,
    inv_items hash m1 [] hI1, ?_⟩
  · rw [← inv_begin hash m es hI] at h1
    simp only [erase_range, end_, LList.end_, h1, Option.map_some']
  · show m1.nodes_.size_ = 0
    omega
  · rw [inv_begin hash m1 [] hI1]
    rfl
  · intro i hi
    have := hI1.counts i hi
    simpa using this

/-- Claim C10 at the map with 4 buckets after `emplace(1, 10)` and `emplace(2, 20)`. -/
theorem erase_range_empties_map_witness :
    Reachable hashId equalNat 0 growEraseOp 4 map12 ∧
      ∃ m1 es, map12.items = some es ∧ (es.map Prod.fst).Nodup ∧
        erase_range hashId map12 map12.begin_ map12.end_ = some (m1, map12.end_) ∧
        erase_each hashId map12 (es.map Prod.fst) = some m1 ∧
        m1.size = 0 ∧ m1.begin_ = m1.end_ ∧ m1.items = some [] ∧
        ∀ i, i < m1.bucket_count → (m1.buckets_ i).size_ = 0 :=
  ⟨map12_reachable growEraseOp (fun _ _ _ => trivial),
    erase_range_empties_map hashId equalNat 0 4 (by decide) map12
      (map12_reachable growEraseOp (fun _ _ _ => trivial))⟩

end UnorderedMap

/-! ## Several lists in one memory -/

namespace LList

variable {T : Type}

theorem walkTo_end (l : LList T) (e fuel : Nat) : l.walkTo e fuel e = some [] := by
  cases fuel <;> simp [walkTo]

theorem walkTo_seg (l : LList T) (e : Nat) :
    ∀ (ys : List (Nat × T)) (a fuel : Nat),
      Seg l.next l.prev a (ys.map Prod.fst) e →
      (∀ x ∈ ys, x.1 ≠ e ∧ l.value x.1 = some x.2) → ys.length ≤ fuel →
      l.walkTo e fuel (l.next a) = some ys
  | [], a, fuel, hs, _, _ => by
    have : l.next a = e := hs.1
    rw [this, walkTo_end]
  | (q, d) :: ys, a, fuel, hs, hv, hf => by
    obtain ⟨h1, _, h3⟩ := hs
    have hq := hv (q, d) (List.mem_cons_self _ _)
    obtain ⟨f, rfl⟩ : ∃ f, fuel = f + 1 := ⟨fuel - 1, by
      simp only [List.length_cons] at hf; omega⟩
    have ih := walkTo_seg l e ys q f h3
      (fun x hx => hv x (List.mem_cons_of_mem _ hx))
      (by simp only [List.length_cons] at hf; omega)
    have h1a : l.next a = q := h1
    have hq1 : q ≠ e := hq.1
    have hq2 : l.value q = some d := hq.2
    rw [h1a]
    simp only [walkTo, if_neg hq1, hq2, ih, Option.map_some']

/-- The traversal of a well-formed list returns its abstract content. -/
theorem reprIn_items (l : LList T) (e : Nat) (es : List (Nat × T)) (sent : List Nat)
    (rest : List (Nat × T)) (hr : l.ReprIn e es sent rest) : l.items_at e = some es := by
  unfold items_at
  refine walkTo_seg l e es e l.alloc hr.seg ?_ (Nat.le_of_lt hr.len_lt)
  intro x hx
  refine ⟨fun h => hr.e_not (h ▸ List.mem_map_of_mem _ hx), ?_⟩
  exact (hr.live x.1 x.2).mpr (Or.inl hx)

theorem reprIn_insert_value (l : LList T) (e : Nat) (es : List (Nat × T)) (sent : List Nat)
    (rest : List (Nat × T)) (v : T) (hr : l.ReprIn e es sent rest)
    (xs ys : List (Nat × T)) (hes : es = xs ++ ys) :
    ∀ a w, upd l.value l.alloc (some v) a = some w ↔
      (a, w) ∈ xs ++ (l.alloc, v) :: ys ∨ (a, w) ∈ rest := by
  intro a w
  have hfresh : ∀ w, (l.alloc, w) ∉ es := fun w hw =>
    absurd (hr.lt_alloc _ (Or.inl (List.mem_cons_of_mem _ (mem_fst hw)))) (by omega)
  have hfresh2 : ∀ w, (l.alloc, w) ∉ rest := fun w hw =>
    absurd (hr.lt_alloc _ (Or.inr (Or.inr (mem_fst hw)))) (by omega)
  by_cases ha : a = l.alloc
  · subst ha
    have h1 := hfresh w
    rw [hes] at h1
    simp only [List.mem_append, not_or] at h1
    simp only [upd, if_true, Option.some.injEq, List.mem_append, List.mem_cons, Prod.mk.injEq,
      true_and, h1.1, h1.2, false_or, or_false, hfresh2 w]
    exact eq_comm
  · have h1 := hr.live a w
    rw [hes] at h1
    simp only [List.mem_append] at h1
    simp only [upd, if_neg ha, List.mem_append, List.mem_cons, Prod.mk.injEq, ha, false_and,
      false_or]
    exact h1

/-- Inserting in front of `it`, the head of `ys` (or `end()` when `ys` is empty), in the
List object at `e`: the other lists are not touched. -/
theorem reprIn_insert (l : LList T) (e : Nat) (xs ys : List (Nat × T)) (sent : List Nat)
    (rest : List (Nat × T)) (it : Nat) (v : T)
    (hr : l.ReprIn e (xs ++ ys) sent rest) (hit : it = (ys.map Prod.fst).headD e) :
    (l.insert it v).1.ReprIn e (xs ++ (l.alloc, v) :: ys) sent rest ∧
    Frame l (l.insert it v).1 (e :: (xs ++ ys).map Prod.fst) ∧
    (l.insert it v).1.size_ = l.size_ + 1 ∧
    (l.insert it v).1.alloc = l.alloc + 1 ∧
    (l.insert it v).2 = l.alloc ∧
    (l.insert it v).1.value = upd l.value l.alloc (some v) := by
  have hnd := hr.nodup
  have hnz := hr.e_not
  have hseg := hr.seg
  have hlen := hr.len_lt
  have hlt : ∀ a, a ∈ e :: (xs ++ ys).map Prod.fst → a < l.alloc :=
    fun a ha => hr.lt_alloc a (Or.inl ha)
  have h0 : e ≠ l.alloc := fun h => absurd (hlt e (List.mem_cons_self _ _)) (by omega)
  have hfresh : ∀ a, a ∈ (xs ++ ys).map Prod.fst → a ≠ l.alloc :=
    fun a ha h => absurd (hlt a (List.mem_cons_of_mem _ ha)) (by omega)
  have key : Seg l.next l.prev e (xs.map Prod.fst) it ∧ it ∉ xs.map Prod.fst ∧
      it ≠ l.alloc ∧ it ∈ e :: (xs ++ ys).map Prod.fst ∧
      (∀ nx1 pv1 : Nat → Nat,
        (∀ x, x ∉ e :: xs.map Prod.fst → x ≠ l.alloc → nx1 x = l.next x) →
        (∀ y, y ≠ it → y ≠ l.alloc → pv1 y = l.prev y) →
        Seg nx1 pv1 e (xs.map Prod.fst ++ [l.alloc]) it →
        Seg nx1 pv1 e ((xs ++ (l.alloc, v) :: ys).map Prod.fst) e) := by
    cases ys with
    | nil =>
      simp only [List.map_nil, List.headD_nil] at hit
      subst hit
      simp only [List.append_nil] at hseg hnz
      refine ⟨hseg, hnz, h0, List.mem_cons_self _ _, ?_⟩
      intro nx1 pv1 _ _ h
      simpa using h
    | cons y ys =>
      simp only [List.map_cons, List.headD_cons] at hit
      simp only [List.map_append, List.map_cons, ← hit] at hseg hnd hnz
      rw [seg_append] at hseg
      have hnd1 := List.nodup_append.mp hnd
      have hnd2 := List.nodup_cons.mp hnd1.2.1
      have hitx : it ∉ xs.map Prod.fst := fun h => hnd1.2.2 h (List.mem_cons_self _ _)
      have hitf : it ≠ l.alloc := hfresh it (by simp [← hit])
      refine ⟨hseg.1, hitx, hitf, by simp [← hit], ?_⟩
      intro nx1 pv1 hnx hpv h
      simp only [List.map_append, List.map_cons, ← hit]
      have : xs.map Prod.fst ++ l.alloc :: it :: ys.map Prod.fst =
          (xs.map Prod.fst ++ [l.alloc]) ++ it :: ys.map Prod.fst := by simp
      rw [this, seg_append]
      refine ⟨h, seg_frame _ _ _ hseg.2 ?_ ?_⟩
      · intro x hx
        have hxm : x ∈ it :: ys.map Prod.fst := by
          rcases hx with hx | hx
          · exact hx ▸ List.mem_cons_self _ _
          · exact List.mem_cons_of_mem _ hx
        apply hnx
        · intro hx0
          rcases List.mem_cons.mp hx0 with hx0 | hx0
          · exact hnz (by rw [← hx0]; exact List.mem_append_right _ hxm)
          · exact hnd1.2.2 hx0 hxm
        · exact hfresh x (by simp only [List.map_append, List.map_cons, ← hit]
                             exact List.mem_append_right _ hxm)
      · intro y1 hy
        apply hpv
        · rintro rfl
          rcases hy with hy | hy
          · exact hnd2.1 hy
          · exact hnz (by rw [← hy]; simp)
        · rcases hy with hy | hy
          · exact hfresh y1 (by simp only [List.map_append, List.map_cons]
                                exact List.mem_append_right _ (List.mem_cons_of_mem _ hy))
          · rw [hy]; exact h0
  obtain ⟨hsegX, hitx, hitf, hitm, hglue⟩ := key
  have hndX : (e :: xs.map Prod.fst).Nodup := by
    simp only [List.map_append] at hnd hnz
    refine List.nodup_cons.mpr ⟨fun h => hnz (List.mem_append_left _ h), ?_⟩
    exact (List.nodup_append.mp hnd).1
  have hfreshX : l.alloc ∉ e :: xs.map Prod.fst := by
    intro h
    rcases List.mem_cons.mp h with h | h
    · exact h0 h.symm
    · exact hfresh _ (by simp only [List.map_append]; exact List.mem_append_left _ h) rfl
  have hpm := seg_prev_mem _ _ _ hsegX
  have hpf : l.prev it ≠ l.alloc := fun h => hfreshX (h ▸ hpm.1)
  have hpmem : l.prev it ∈ e :: (xs ++ ys).map Prod.fst := by
    rcases List.mem_cons.mp hpm.1 with h | h
    · rw [h]; exact List.mem_cons_self _ _
    · exact List.mem_cons_of_mem _ (by
        simp only [List.map_append]; exact List.mem_append_left _ h)
  obtain ⟨f1, f2, f3, f4, f5, f6⟩ := insert_fields l it v hitf hpf
  have hins := @seg_insert_last l.next l.prev l.alloc it (Ne.symm hitf)
    (xs.map Prod.fst) e hsegX hndX hitx hfreshX
  rw [← f1, ← f2] at hins
  refine ⟨⟨?_, ?_, ?_, ?_, ?_, ?_, ?_⟩, ⟨?_, ?_⟩, f4, f5, f6, f3⟩
  · -- nodup
    simp only [List.map_append, List.map_cons] at hnd ⊢
    have hnd1 := List.nodup_append.mp hnd
    refine List.nodup_append.mpr ⟨hnd1.1, ?_, ?_⟩
    · refine List.nodup_cons.mpr ⟨?_, hnd1.2.1⟩
      intro h
      exact hfresh _ (by simp only [List.map_append]; exact List.mem_append_right _ h) rfl
    · intro a ha hb
      rcases List.mem_cons.mp hb with hb | hb
      · exact hfreshX (hb ▸ List.mem_cons_of_mem _ ha)
      · exact hnd1.2.2 ha hb
  · -- e_not
    simp only [List.map_append, List.map_cons] at hnz ⊢
    intro h
    rcases List.mem_append.mp h with h | h
    · exact hnz (List.mem_append_left _ h)
    · rcases List.mem_cons.mp h with h | h
      · exact h0 h
      · exact hnz (List.mem_append_right _ h)
  · -- disj
    intro a ha
    have hcase : a = l.alloc ∨ a ∈ e :: (xs ++ ys).map Prod.fst := by
      simp only [List.map_append, List.map_cons, List.mem_cons, List.mem_append] at ha ⊢
      tauto
    rcases hcase with h | h
    · subst h
      exact ⟨fun hs => absurd (hr.lt_alloc _ (Or.inr (Or.inl hs))) (by omega),
        fun hs => absurd (hr.lt_alloc _ (Or.inr (Or.inr hs))) (by omega)⟩
    · exact hr.disj a h
  · -- lt_alloc
    rw [f5]
    intro a ha
    rcases ha with ha | ha
    · have hcase : a = l.alloc ∨ a ∈ e :: (xs ++ ys).map Prod.fst := by
        simp only [List.map_append, List.map_cons, List.mem_cons, List.mem_append] at ha ⊢
        tauto
      rcases hcase with h | h
      · omega
      · exact Nat.lt_succ_of_lt (hlt a h)
    · exact Nat.lt_succ_of_lt (hr.lt_alloc a (Or.inr ha))
  · rw [f5]; simp only [List.length_append, List.length_cons] at hlen ⊢; omega
  · rw [f3]; exact reprIn_insert_value l e _ sent rest v hr xs ys rfl
  · apply hglue _ _ _ _ hins
    · intro x hx hxa
      rw [f1]
      have : x ≠ l.prev it := fun h => hx (h ▸ hpm.1)
      simp [this, hxa]
    · intro y hy hya
      rw [f2]
      simp [hpm.2, hy, hya]
  · rw [f5]; omega
  · intro a ha hal
    have han : a ≠ l.alloc := by omega
    have hap : a ≠ l.prev it := fun h => ha (h ▸ hpmem)
    have hait : a ≠ it := fun h => ha (h ▸ hitm)
    refine ⟨?_, ?_, ?_⟩
    · rw [f1]; simp [hap, han]
    · rw [f2]; simp [hpm.2, hait, han]
    · rw [f3]; simp [upd, han]

end LList

namespace LList

variable {T : Type}

theorem frame_refl (l : LList T) (fp : List Nat) : Frame l l fp :=
  ⟨Nat.le_refl _, fun _ _ _ => ⟨rfl, rfl, rfl⟩⟩

/-- Erasing the node `h` that sits between `xs` and `ys` in the List object at `e`: the
other lists are not touched. -/
theorem reprIn_erase (l : LList T) (e : Nat) (xs ys : List (Nat × T)) (sent : List Nat)
    (rest : List (Nat × T)) (h : Nat) (d : T)
    (hr : l.ReprIn e (xs ++ (h, d) :: ys) sent rest) :
    (erase_at e l h).1.ReprIn e (xs ++ ys) sent rest ∧
    (erase_at e l h).2 = (ys.map Prod.fst).headD e ∧
    Frame l (erase_at e l h).1 (e :: (xs ++ (h, d) :: ys).map Prod.fst) ∧
    (erase_at e l h).1.size_ = dec64 l.size_ ∧
    (erase_at e l h).1.alloc = l.alloc := by
  have hnd := hr.nodup
  have hnz := hr.e_not
  have hseg := hr.seg
  have hlen := hr.len_lt
  simp only [List.map_append, List.map_cons] at hnd hnz hseg
  rw [seg_append] at hseg
  have hnd1 := List.nodup_append.mp hnd
  have hnd2 := List.nodup_cons.mp hnd1.2.1
  have hh0 : h ≠ e := fun h1 => hnz (by rw [← h1]; simp)
  have hpm := seg_prev_mem _ _ _ hseg.1
  have hhx : h ∉ e :: xs.map Prod.fst := by
    intro hm
    rcases List.mem_cons.mp hm with hm | hm
    · exact hh0 hm
    · exact hnd1.2.2 hm (List.mem_cons_self _ _)
  have hph : h ≠ l.prev h := fun h1 => hhx (h1 ▸ hpm.1)
  have hndX : (e :: xs.map Prod.fst).Nodup :=
    List.nodup_cons.mpr ⟨fun hm => hnz (List.mem_append_left _ hm), hnd1.1⟩
  have hdel := @seg_delete l.next l.prev h (ys.map Prod.fst) e hseg.2
    (fun hm => hnz (List.mem_append_right _ (List.mem_cons_of_mem _ hm))) hnd2.2
    (xs.map Prod.fst) e hseg.1 hndX
    (by
      intro x hx
      rcases List.mem_cons.mp hx with hx | hx
      · subst hx
        exact ⟨fun hm => hnz (List.mem_append_right _ (List.mem_cons_of_mem _ hm)),
          Ne.symm hh0⟩
      · exact ⟨fun hm => hnd1.2.2 hx (List.mem_cons_of_mem _ hm),
          fun h1 => hnd1.2.2 hx (h1 ▸ List.mem_cons_self _ _)⟩)
    (fun x hx h1 => hnz (List.mem_append_left _ (h1 ▸ hx))) hnd2.1
  have e1 : (erase_at e l h).1.next = upd l.next (l.prev h) (l.next h) := by
    simp [erase_at, hh0, deleteNode]
  have e2 : (erase_at e l h).1.prev = upd l.prev (l.next h) (l.prev h) := by
    simp [erase_at, hh0, deleteNode, upd, hph]
  have e3 : (erase_at e l h).1.value = upd l.value h none := by
    simp [erase_at, hh0, deleteNode]
  have e4 : (erase_at e l h).1.size_ = dec64 l.size_ := by simp [erase_at, hh0, deleteNode]
  have e5 : (erase_at e l h).1.alloc = l.alloc := by simp [erase_at, hh0, deleteNode]
  have e6 : (erase_at e l h).2 = l.next h := by simp [erase_at, hh0]
  have hsub : ∀ a, a ∈ e :: (xs ++ ys).map Prod.fst →
      a ∈ e :: (xs ++ (h, d) :: ys).map Prod.fst := by
    intro a ha
    simp only [List.map_append, List.map_cons, List.mem_cons, List.mem_append] at ha ⊢
    tauto
  have hnxm : l.next h ∈ e :: (xs ++ (h, d) :: ys).map Prod.fst := by
    rw [seg_next_eq _ _ _ hseg.2]
    cases ys <;> simp
  have hpvm : l.prev h ∈ e :: (xs ++ (h, d) :: ys).map Prod.fst := by
    rcases List.mem_cons.mp hpm.1 with h1 | h1
    · rw [h1]; exact List.mem_cons_self _ _
    · exact List.mem_cons_of_mem _ (by
        simp only [List.map_append]; exact List.mem_append_left _ h1)
  refine ⟨⟨?_, ?_, ?_, ?_, ?_, ?_, ?_⟩, ?_, ⟨?_, ?_⟩, e4, e5⟩
  · simp only [List.map_append]
    exact List.nodup_append.mpr ⟨hnd1.1, hnd2.2,
      fun a ha hb => hnd1.2.2 ha (List.mem_cons_of_mem _ hb)⟩
  · simp only [List.map_append]
    intro hm
    rcases List.mem_append.mp hm with hm | hm
    · exact hnz (List.mem_append_left _ hm)
    · exact hnz (List.mem_append_right _ (List.mem_cons_of_mem _ hm))
  · intro a ha
    exact hr.disj a (hsub a ha)
  · rw [e5]
    intro a ha
    rcases ha with ha | ha
    · exact hr.lt_alloc a (Or.inl (hsub a ha))
    · exact hr.lt_alloc a (Or.inr ha)
  · rw [e5]; simp only [List.length_append, List.length_cons] at hlen ⊢; omega
  · intro a w
    rw [e3]
    have hl := hr.live a w
    by_cases ha : a = h
    · subst ha
      have hx : (a, w) ∉ xs := fun hm => hnd1.2.2 (mem_fst hm) (List.mem_cons_self _ _)
      have hy : (a, w) ∉ ys := fun hm => hnd2.1 (mem_fst hm)
      have hrs : (a, w) ∉ rest := fun hm =>
        (hr.disj a (by simp)).2 (mem_fst hm)
      simp [upd, hx, hy, hrs]
    · rw [show upd l.value h none a = l.value a from if_neg ha, hl]
      simp [ha]
  · rw [e1, e2]; simpa only [List.map_append] using hdel
  · rw [e6, seg_next_eq _ _ _ hseg.2]
    cases ys <;> simp
  · rw [e5]
  · intro a ha _
    have hah : a ≠ h := fun h1 => ha (by rw [h1]; simp)
    have hap : a ≠ l.prev h := fun h1 => ha (h1 ▸ hpvm)
    have han : a ≠ l.next h := fun h1 => ha (h1 ▸ hnxm)
    refine ⟨?_, ?_, ?_⟩
    · rw [e1]; simp [upd, hap]
    · rw [e2]; simp [upd, han]
    · rw [e3]; simp [upd, hah]

/-- `erase` with `end()` or an iterator to a node of the list. -/
theorem reprIn_erase_any (l : LList T) (e : Nat) (es : List (Nat × T)) (sent : List Nat)
    (rest : List (Nat × T)) (iter : Nat) (hr : l.ReprIn e es sent rest)
    (hi : iter ∈ e :: es.map Prod.fst) :
    ∃ es1, (erase_at e l iter).1.ReprIn e es1 sent rest ∧
      Frame l (erase_at e l iter).1 (e :: es.map Prod.fst) := by
  rcases List.mem_cons.mp hi with h | h
  · subst h
    have : erase_at iter l iter = (l, iter) := by simp [erase_at]
    rw [this]
    exact ⟨es, hr, frame_refl _ _⟩
  · obtain ⟨⟨h1, d⟩, hm, rfl⟩ := List.mem_map.mp h
    obtain ⟨xs, ys, rfl⟩ := List.append_of_mem hm
    obtain ⟨r1, _, r3, _⟩ := reprIn_erase l e xs ys sent rest h1 d hr
    exact ⟨xs ++ ys, r1, r3⟩

theorem clearLoopTo_end (next : Nat → Nat) (e fuel : Nat) (value : Nat → Option T) :
    clearLoopTo next e fuel e value = some value := by
  cases fuel <;> simp [clearLoopTo]

theorem clearLoopTo_seg (nx pv : Nat → Nat) (e : Nat) :
    ∀ (ys : List Nat) (a fuel : Nat) (value : Nat → Option T),
      Seg nx pv a ys e → ys.Nodup →
      (∀ y ∈ ys, y ≠ e ∧ value y ≠ none) → ys.length ≤ fuel →
      clearLoopTo nx e fuel (nx a) value = some (fun x => if x ∈ ys then none else value x)
  | [], a, fuel, value, hs, _, _, _ => by
    have : nx a = e := hs.1
    rw [this, clearLoopTo_end]
    simp
  | q :: ys, a, fuel, value, hs, hnd, hv, hf => by
    obtain ⟨h1, _, h3⟩ := hs
    have hq := hv q (List.mem_cons_self _ _)
    have hnd1 := List.nodup_cons.mp hnd
    obtain ⟨f, rfl⟩ : ∃ f, fuel = f + 1 := ⟨fuel - 1, by
      simp only [List.length_cons] at hf; omega⟩
    have ih := clearLoopTo_seg nx pv e ys q f (upd value q none) h3 hnd1.2
      (by
        intro y hy
        refine ⟨(hv y (List.mem_cons_of_mem _ hy)).1, ?_⟩
        have : y ≠ q := fun h => hnd1.1 (h ▸ hy)
        simp only [upd, if_neg this]
        exact (hv y (List.mem_cons_of_mem _ hy)).2)
      (by simp only [List.length_cons] at hf; omega)
    rw [h1]
    obtain ⟨w, hw⟩ := Option.ne_none_iff_exists'.mp hq.2
    simp only [clearLoopTo, if_neg hq.1, hw, ih]
    congr 1
    funext x
    by_cases hx : x = q
    · simp [hx, upd]
    · simp [upd, hx]

/-- `clear()` on the List object at `e`: the other lists are not touched. -/
theorem reprIn_clear (l : LList T) (e : Nat) (es : List (Nat × T)) (sent : List Nat)
    (rest : List (Nat × T)) (hr : l.ReprIn e es sent rest) :
    ∃ l1, clear_at e l = some l1 ∧ l1.ReprIn e [] sent rest ∧
      Frame l l1 (e :: es.map Prod.fst) ∧ l1.size_ = l.size_ ∧ l1.alloc = l.alloc := by
  have hloop := clearLoopTo_seg l.next l.prev e (es.map Prod.fst) e l.alloc l.value hr.seg
    hr.nodup
    (by
      intro y hy
      refine ⟨fun h => hr.e_not (h ▸ hy), ?_⟩
      obtain ⟨x, hx, rfl⟩ := List.mem_map.mp hy
      rw [(hr.live x.1 x.2).mpr (Or.inl hx)]
      simp)
    (by simpa using Nat.le_of_lt hr.len_lt)
  simp only [clear_at, hloop]
  refine ⟨_, rfl, ⟨by simp, by simp, ?_, ?_, ?_, ?_, ?_⟩, ⟨Nat.le_refl _, ?_⟩, rfl, rfl⟩
  · intro a ha
    exact hr.disj a (by
      simp only [List.map_nil, List.mem_cons, List.not_mem_nil, or_false] at ha
      rw [ha]; exact List.mem_cons_self _ _)
  · intro a ha
    rcases ha with ha | ha
    · simp only [List.map_nil, List.mem_cons, List.not_mem_nil, or_false] at ha
      rw [ha]
      exact hr.lt_alloc e (Or.inl (List.mem_cons_self _ _))
    · exact hr.lt_alloc a (Or.inr ha)
  · have := hr.lt_alloc e (Or.inl (List.mem_cons_self _ _))
    simp only [List.length_nil]
    omega
  · intro a w
    simp only [List.not_mem_nil, false_or]
    by_cases ha : a ∈ es.map Prod.fst
    · simp only [if_pos ha]
      constructor
      · intro h; cases h
      · intro h
        exact absurd (mem_fst h) (hr.disj a (List.mem_cons_of_mem _ ha)).2
    · simp only [if_neg ha]
      rw [hr.live a w]
      constructor
      · rintro (h | h)
        · exact absurd (mem_fst h) ha
        · exact h
      · exact Or.inr
  · simp [Seg, upd]
  · intro a ha _
    have hae : a ≠ e := fun h => ha (by rw [h]; simp)
    have ham : a ∉ es.map Prod.fst := fun h => ha (List.mem_cons_of_mem _ h)
    simp [upd, hae, ham]

theorem mem_of_valid (l : LList T) (e : Nat) (es : List (Nat × T)) (sent : List Nat)
    (rest : List (Nat × T)) (iter : Nat) (hr : l.ReprIn e es sent rest)
    (hv : ownsIter e l iter) : iter ∈ e :: es.map Prod.fst := by
  rcases hv with h | ⟨es1, h1, h2⟩
  · rw [h]; exact List.mem_cons_self _ _
  · rw [reprIn_items l e es sent rest hr] at h1
    cases h1
    exact List.mem_cons_of_mem _ h2

/-- Every call on the List object at `e` with valid iterators completes, keeps that list
well formed and does not touch the other lists. -/
theorem stepAt_spec (l : LList T) (e : Nat) (es : List (Nat × T)) (sent : List Nat)
    (rest : List (Nat × T)) (op : LOp T) (hr : l.ReprIn e es sent rest)
    (hv : validAt e l op) :
    ∃ l1 es1, stepAt e l op = some l1 ∧ l1.ReprIn e es1 sent rest ∧
      Frame l l1 (e :: es.map Prod.fst) := by
  have hnext : l.next e = (es.map Prod.fst).headD e := by
    rw [seg_next_eq _ _ _ hr.seg]
    cases es <;> simp
  cases op with
  | push_back val =>
    obtain ⟨r1, r2, _⟩ := reprIn_insert l e es [] sent rest e val (by simpa using hr)
      (by simp)
    exact ⟨_, _, rfl, r1, by simpa using r2⟩
  | push_front val =>
    have hpe : l.prev (l.next e) = e := by
      have hs := hr.seg
      cases es with
      | nil => exact hs.1.symm ▸ hs.2
      | cons x xs => exact hs.1.symm ▸ hs.2.1
    have hne : l.next e ≠ l.alloc := by
      have hm : l.next e ∈ e :: es.map Prod.fst := by
        rw [hnext]; cases es <;> simp
      exact fun h => absurd (hr.lt_alloc _ (Or.inl hm)) (by omega)
    have heq : (l.create val).1.insertNextTo (l.create val).2 e =
        (l.insert (l.next e) val).1 := by
      simp only [insert, create, upd, if_neg hne, hpe]
    obtain ⟨r1, r2, _⟩ := reprIn_insert l e [] es sent rest (l.next e) val
      (by simpa using hr) hnext
    refine ⟨_, _, rfl, heq ▸ r1, heq ▸ ?_⟩
    simpa using r2
  | pop_back =>
    have hm : l.prev e ∈ e :: es.map Prod.fst := (seg_prev_mem _ _ _ hr.seg).1
    obtain ⟨es1, r1, r2⟩ := reprIn_erase_any l e es sent rest _ hr hm
    exact ⟨_, es1, rfl, r1, r2⟩
  | pop_front =>
    have hm : l.next e ∈ e :: es.map Prod.fst := by
      rw [hnext]; cases es <;> simp
    obtain ⟨es1, r1, r2⟩ := reprIn_erase_any l e es sent rest _ hr hm
    exact ⟨_, es1, rfl, r1, r2⟩
  | insert iter val =>
    have hm := mem_of_valid l e es sent rest iter hr hv
    have hsplit : ∃ xs ys, es = xs ++ ys ∧ iter = (ys.map Prod.fst).headD e := by
      rcases List.mem_cons.mp hm with h | h
      · exact ⟨es, [], by simp, by simp [h]⟩
      · obtain ⟨⟨h1, d⟩, hmem, rfl⟩ := List.mem_map.mp h
        obtain ⟨xs, ys, rfl⟩ := List.append_of_mem hmem
        exact ⟨xs, (h1, d) :: ys, rfl, by simp⟩
    obtain ⟨xs, ys, rfl, hit⟩ := hsplit
    obtain ⟨r1, r2, _⟩ := reprIn_insert l e xs ys sent rest iter val hr hit
    exact ⟨_, _, rfl, r1, r2⟩
  | erase iter =>
    have hm := mem_of_valid l e es sent rest iter hr hv
    obtain ⟨es1, r1, r2⟩ := reprIn_erase_any l e es sent rest _ hr hm
    exact ⟨_, es1, rfl, r1, r2⟩
  | clear =>
    obtain ⟨l1, h1, r1, r2, _⟩ := reprIn_clear l e es sent rest hr
    exact ⟨l1, [], h1, r1, r2⟩

end LList

namespace LList

variable {T : Type}

theorem walk_eq_walkTo (l : LList T) :
    ∀ (fuel it : Nat), l.walk fuel it = l.walkTo endNode fuel it
  | 0, 0 => by simp [walk, walkTo, endNode]
  | 0, it + 1 => by simp [walk, walkTo, endNode]
  | fuel + 1, 0 => by simp [walk, walkTo, endNode]
  | fuel + 1, it + 1 => by
    simp only [walk, walkTo, endNode, Nat.succ_ne_zero, if_false]
    rw [walk_eq_walkTo l fuel (l.next (it + 1))]
    rfl

theorem items_eq_items_at (l : LList T) : l.items = l.items_at endNode := by
  unfold items items_at begin_
  exact walk_eq_walkTo l _ _

theorem reprIn_empty : (LList.empty : LList T).ReprIn endNode [] [] [] := by
  refine ⟨by simp, by simp, by simp, ?_, by simp [empty], by simp [empty], ?_⟩
  · intro a ha
    simp only [List.map_nil, List.mem_cons, List.not_mem_nil, or_false] at ha
    rw [ha]
    simp [empty, endNode]
  · simp [Seg, empty]

/-- Every reachable list is well formed. -/
theorem reachable_reprIn (l : LList T) (hl : Reachable l) :
    ∃ es, l.ReprIn endNode es [] [] := by
  induction hl with
  | init => exact ⟨[], reprIn_empty⟩
  | step l op l1 _ hv hs ih =>
    obtain ⟨es, hr⟩ := ih
    obtain ⟨l2, es1, h2, hr2, _⟩ := stepAt_spec l endNode es [] [] op hr hv
    rw [h2] at hs
    cases hs
    exact ⟨es1, hr2⟩

/-- Claim C18: for every reachable List with the nodes `xs ++ ys` (each with its element),
`insert(p, v)` with `p` at the first node of `ys`, or `end()` when `ys` is empty, yields the
nodes `xs`, then a new node with the element `v`, then `ys`; it returns the new node and
`size()` grows by 1.  The nodes of `xs` and `ys` keep their addresses and elements. -/
theorem list_insert_before (l : LList T) (hl : Reachable l) (xs ys : List (Nat × T))
    (hitems : l.items = some (xs ++ ys)) (p : Nat)
    (hp : p = (ys.map Prod.fst).headD l.end_) (v : T) :
    ∃ n, (l.insert p v).2 = n ∧ n ∉ (xs ++ ys).map Prod.fst ∧ n ≠ l.end_ ∧
      (l.insert p v).1.items = some (xs ++ (n, v) :: ys) ∧
      (l.insert p v).1.size = l.size + 1 := by
  obtain ⟨es, hr⟩ := reachable_reprIn l hl
  have hes : es = xs ++ ys := by
    have := reprIn_items l endNode es [] [] hr
    rw [← items_eq_items_at, hitems] at this
    exact (Option.some.inj this).symm
  subst hes
  obtain ⟨r1, _, r3, _, r5, _⟩ := reprIn_insert l endNode xs ys [] [] p v hr hp
  refine ⟨l.alloc, r5, ?_, ?_, ?_, r3⟩
  · intro h
    exact absurd (hr.lt_alloc _ (Or.inl (List.mem_cons_of_mem _ h))) (by omega)
  · intro h
    have := hr.lt_alloc endNode (Or.inl (List.mem_cons_self _ _))
    have h2 : l.alloc = endNode := h
    omega
  · rw [items_eq_items_at]
    exact reprIn_items _ _ _ _ _ r1

/-- Claim C19 (`clear()` restores the empty state), evaluated on the code: after
`push_back(7)` on an empty list, `clear()` leaves `begin() == end()` and no node, and
`size()` is still 1 and `empty()` is false. -/
theorem list_clear_keeps_size :
    (((LList.empty : LList Nat).push_back 7).clear).map
      (fun l => (l.begin_, l.end_, l.size, l.empty_)) = some (endNode, endNode, 1, false) ∧
    (((LList.empty : LList Nat).push_back 7).clear).bind (fun l => l.items) = some [] ∧
    ((LList.empty : LList Nat).size, (LList.empty : LList Nat).empty_) = (0, true) := by
  decide

theorem walkTo_congr (l l1 : LList T) (e : Nat) (hn : l1.next = l.next)
    (hv : l1.value = l.value) : ∀ (fuel it : Nat), l1.walkTo e fuel it = l.walkTo e fuel it
  | 0, it => by simp [walkTo]
  | fuel + 1, it => by
    simp only [walkTo, hn, hv]
    rw [walkTo_congr l l1 e hn hv fuel (l.next it)]

theorem items_at_congr (l l1 : LList T) (e : Nat) (hn : l1.next = l.next)
    (hv : l1.value = l.value) (ha : l1.alloc = l.alloc) : l1.items_at e = l.items_at e := by
  unfold items_at
  rw [ha, hn]
  exact walkTo_congr l l1 e hn hv _ _

theorem reprIn_congr (l l1 : LList T) (e : Nat) (es : List (Nat × T)) (sent : List Nat)
    (rest : List (Nat × T)) (hr : l.ReprIn e es sent rest) (hn : l1.next = l.next)
    (hp : l1.prev = l.prev) (hv : l1.value = l.value) (ha : l1.alloc = l.alloc) :
    l1.ReprIn e es sent rest :=
  ⟨hr.nodup, hr.e_not, hr.disj, ha ▸ hr.lt_alloc, ha ▸ hr.len_lt, hv ▸ hr.live,
    hn ▸ hp ▸ hr.seg⟩

theorem validAt_congr (l l1 : LList T) (e : Nat) (op : LOp T) (hn : l1.next = l.next)
    (hv : l1.value = l.value) (ha : l1.alloc = l.alloc) (h : validAt e l op) :
    validAt e l1 op := by
  cases op <;> simp only [validAt, ownsIter] at h ⊢
  · rw [items_at_congr l l1 e hn hv ha]; exact h
  · rw [items_at_congr l l1 e hn hv ha]; exact h

/-- A call on one list leaves the other list of the memory well formed, with the same
content. -/
theorem reprIn_other (l l1 : LList T) (e1 e2 : Nat) (es1 es2 es3 : List (Nat × T))
    (h1 : l.ReprIn e1 es1 [e2] es2) (h2 : l1.ReprIn e2 es3 [e1] es1)
    (hf : Frame l l1 (e2 :: es2.map Prod.fst))
    (hd : ∀ a, a ∈ e1 :: es1.map Prod.fst → a ∉ e2 :: es2.map Prod.fst) :
    l1.ReprIn e1 es1 [e2] es3 := by
  have hsame : ∀ a, a ∈ e1 :: es1.map Prod.fst →
      l1.next a = l.next a ∧ l1.prev a = l.prev a ∧ l1.value a = l.value a :=
    fun a ha => hf.2 a (hd a ha) (h1.lt_alloc a (Or.inl ha))
  refine ⟨h1.nodup, h1.e_not, ?_, ?_, ?_, ?_, ?_⟩
  · intro a ha
    constructor
    · intro h
      simp only [List.mem_singleton] at h
      subst h
      rcases List.mem_cons.mp ha with h | h
      · exact (h2.disj a (List.mem_cons_self _ _)).1 (by simp [h])
      · exact (h2.disj a (List.mem_cons_self _ _)).2 h
    · intro h
      rcases List.mem_cons.mp ha with h3 | h3
      · exact (h2.disj a (List.mem_cons_of_mem _ h)).1 (by simp [h3])
      · exact (h2.disj a (List.mem_cons_of_mem _ h)).2 h3
  · intro a ha
    rcases ha with ha | ha | ha
    · rcases List.mem_cons.mp ha with h | h
      · exact h2.lt_alloc a (Or.inr (Or.inl (by simp [h])))
      · exact h2.lt_alloc a (Or.inr (Or.inr h))
    · simp only [List.mem_singleton] at ha
      exact h2.lt_alloc a (Or.inl (by simp [ha]))
    · exact h2.lt_alloc a (Or.inl (List.mem_cons_of_mem _ ha))
  · exact Nat.lt_of_lt_of_le h1.len_lt hf.1
  · intro a v
    rw [h2.live a v]
    exact Or.comm
  · refine seg_frame _ _ _ h1.seg ?_ ?_
    · intro x hx
      exact (hsame x (by
        rcases hx with hx | hx
        · rw [hx]; exact List.mem_cons_self _ _
        · exact List.mem_cons_of_mem _ hx)).1
    · intro y hy
      exact (hsame y (by
        rcases hy with hy | hy
        · exact List.mem_cons_of_mem _ hy
        · rw [hy]; exact List.mem_cons_self _ _)).2.1

theorem pairInv_symm (l : LList T) (e1 e2 : Nat) (es1 es2 : List (Nat × T))
    (h : PairInv l e1 es1 e2 es2) : PairInv l e2 es2 e1 es1 := ⟨h.2, h.1⟩

theorem pairInv_disj (l : LList T) (e1 e2 : Nat) (es1 es2 : List (Nat × T))
    (h : PairInv l e1 es1 e2 es2) :
    ∀ a, a ∈ e1 :: es1.map Prod.fst → a ∉ e2 :: es2.map Prod.fst := by
  intro a ha hb
  have := h.1.disj a ha
  rcases List.mem_cons.mp hb with hb | hb
  · exact this.1 (by simp [hb])
  · exact this.2 hb

/-- A call on the List object at `e1` keeps both lists well formed and leaves the content
of the list at `e2` as it is. -/
theorem pairInv_step (l l1 : LList T) (e1 e2 : Nat) (es1 es2 : List (Nat × T)) (op : LOp T)
    (h : PairInv l e1 es1 e2 es2) (hv : validAt e1 l op) (hs : stepAt e1 l op = some l1) :
    ∃ es3, PairInv l1 e1 es3 e2 es2 := by
  obtain ⟨l2, es3, h2, hr2, hf⟩ := stepAt_spec l e1 es1 [e2] es2 op h.1 hv
  rw [h2] at hs
  have hl := Option.some.inj hs
  rw [← hl]
  exact ⟨es3, hr2, reprIn_other l l2 e2 e1 es2 es1 es3 h.2 hr2 hf
    (pairInv_disj l e2 e1 es2 es1 (pairInv_symm l e1 e2 es1 es2 h))⟩

end LList

namespace LList

variable {T : Type}

theorem pair_step1 (p p1 : ListPair T) (es1 es2 : List (Nat × T)) (op : LOp T)
    (h : PairInv p.mem endNode es1 p.endNode2 es2) (hv : validAt endNode p.mem op)
    (hs : p.step1 op = some p1) :
    ∃ es3, PairInv p1.mem endNode es3 p1.endNode2 es2 ∧ p1.endNode2 = p.endNode2 ∧
      p1.size2 = p.size2 := by
  simp only [ListPair.step1, Option.map_eq_some'] at hs
  obtain ⟨r, hr, rfl⟩ := hs
  obtain ⟨es3, h3⟩ := pairInv_step p.mem r endNode p.endNode2 es1 es2 op h hv hr
  exact ⟨es3, h3, rfl, rfl⟩

theorem pair_step2 (p p1 : ListPair T) (es1 es2 : List (Nat × T)) (op : LOp T)
    (h : PairInv p.mem endNode es1 p.endNode2 es2) (hv : validAt p.endNode2 p.mem op)
    (hs : p.step2 op = some p1) :
    ∃ es3, PairInv p1.mem endNode es1 p1.endNode2 es3 ∧ p1.endNode2 = p.endNode2 ∧
      p1.mem.size_ = p.mem.size_ := by
  simp only [ListPair.step2, Option.map_eq_some'] at hs
  obtain ⟨r, hr, rfl⟩ := hs
  have hc : PairInv { p.mem with size_ := p.size2 } p.endNode2 es2 endNode es1 :=
    ⟨reprIn_congr p.mem _ _ _ _ _ h.2 rfl rfl rfl rfl,
      reprIn_congr p.mem _ _ _ _ _ h.1 rfl rfl rfl rfl⟩
  obtain ⟨es3, h3⟩ := pairInv_step _ r p.endNode2 endNode es2 es1 op hc
    (validAt_congr p.mem _ _ op rfl rfl rfl hv) hr
  refine ⟨es3, ⟨?_, ?_⟩, rfl, rfl⟩
  · exact reprIn_congr r _ _ _ _ _ h3.2 rfl rfl rfl rfl
  · exact reprIn_congr r _ _ _ _ _ h3.1 rfl rfl rfl rfl

/-- Every state reached from a well-formed pair of lists is a well-formed pair. -/
theorem pair_reachable (p0 p : ListPair T) (hp : ListPair.Reachable p0 p)
    (h0 : ∃ es1 es2, PairInv p0.mem endNode es1 p0.endNode2 es2) :
    ∃ es1 es2, PairInv p.mem endNode es1 p.endNode2 es2 := by
  induction hp with
  | init => exact h0
  | step1 p op p1 _ hv hs ih =>
    obtain ⟨es1, es2, h⟩ := ih
    obtain ⟨es3, h3, _⟩ := pair_step1 p p1 es1 es2 op h hv hs
    exact ⟨es3, es2, h3⟩
  | step2 p op p1 _ hv hs ih =>
    obtain ⟨es1, es2, h⟩ := ih
    obtain ⟨es3, h3, _⟩ := pair_step2 p p1 es1 es2 op h hv hs
    exact ⟨es1, es3, h3⟩

theorem copyLoop_end (fuel : Nat) (p : ListPair T) : copyLoop fuel endNode p = some p := by
  cases fuel <;> simp [copyLoop]

theorem copyLoop_spec (es : List (Nat × T)) :
    ∀ (ys xs : List (Nat × T)) (p : ListPair T) (cs : List (Nat × T)) (fuel : Nat),
      es = xs ++ ys → PairInv p.mem endNode es p.endNode2 cs →
      cs.map Prod.snd = xs.map Prod.snd → p.size2 = cs.length → ys.length ≤ fuel →
      ∃ p1 cs1, copyLoop fuel ((ys.map Prod.fst).headD endNode) p = some p1 ∧
        PairInv p1.mem endNode es p1.endNode2 cs1 ∧
        cs1.map Prod.snd = es.map Prod.snd ∧ p1.size2 = es.length ∧
        p1.mem.size_ = p.mem.size_ ∧ p1.endNode2 = p.endNode2
  | [], xs, p, cs, fuel, hes, hI, hcs, hsz, _ => by
    simp only [List.append_nil] at hes
    subst hes
    refine ⟨p, cs, by simp [copyLoop_end], hI, hcs, ?_, rfl, rfl⟩
    rw [hsz, ← List.length_map cs Prod.snd, hcs, List.length_map]
  | (q, d) :: ys, xs, p, cs, fuel, hes, hI, hcs, hsz, hf => by
    obtain ⟨f, rfl⟩ : ∃ f, fuel = f + 1 := ⟨fuel - 1, by
      simp only [List.length_cons] at hf; omega⟩
    have hqm : (q, d) ∈ es := by rw [hes]; simp
    have hq0 : q ≠ endNode := fun h => hI.1.e_not (h ▸ mem_fst hqm)
    have hqv : p.mem.value q = some d := (hI.1.live q d).mpr (Or.inl hqm)
    -- the push_back on the list under construction
    have hc2 : ReprIn ({ p.mem with size_ := p.size2 } : LList T) p.endNode2 (cs ++ [])
        [endNode] es := by
      rw [List.append_nil]
      exact reprIn_congr p.mem { p.mem with size_ := p.size2 } _ _ _ _ hI.2 rfl rfl rfl rfl
    obtain ⟨r1, r2, r3, _, _, _⟩ := reprIn_insert { p.mem with size_ := p.size2 } p.endNode2
      cs [] [endNode] es p.endNode2 d hc2 (by simp)
    simp only [List.append_nil] at r2
    have hstep : p.step2 (LOp.push_back d) =
        some { mem := { ({ p.mem with size_ := p.size2 } : LList T).insert p.endNode2 d |>.1
                        with size_ := p.mem.size_ },
               endNode2 := p.endNode2,
               size2 := (({ p.mem with size_ := p.size2 } : LList T).insert
                 p.endNode2 d).1.size_ } := rfl
    have hI1 : PairInv (({ p.mem with size_ := p.size2 } : LList T).insert p.endNode2 d).1
        endNode es p.endNode2 (cs ++ [(p.mem.alloc, d)]) :=
      ⟨reprIn_other { p.mem with size_ := p.size2 } _ endNode p.endNode2 es cs _
          (reprIn_congr p.mem { p.mem with size_ := p.size2 } _ _ _ _ hI.1 rfl rfl rfl rfl)
          r1 r2
          (pairInv_disj p.mem endNode p.endNode2 es cs hI), r1⟩
    have hI2 : PairInv ({ (({ p.mem with size_ := p.size2 } : LList T).insert
        p.endNode2 d).1 with size_ := p.mem.size_ } : LList T)
        endNode es p.endNode2 (cs ++ [(p.mem.alloc, d)]) :=
      ⟨reprIn_congr _ _ _ _ _ _ hI1.1 rfl rfl rfl rfl,
        reprIn_congr _ _ _ _ _ _ hI1.2 rfl rfl rfl rfl⟩
    have hnext : (({ p.mem with size_ := p.size2 } : LList T).insert p.endNode2 d).1.next q =
        (ys.map Prod.fst).headD endNode := by
      have hs := hI1.1.seg
      rw [hes] at hs
      simp only [List.map_append, List.map_cons] at hs
      rw [seg_append] at hs
      rw [seg_next_eq _ _ _ hs.2]
      cases ys <;> simp
    obtain ⟨p1, cs1, h1, h2, h3, h4, h5, h6⟩ := copyLoop_spec es ys (xs ++ [(q, d)])
      { mem := { ({ p.mem with size_ := p.size2 } : LList T).insert p.endNode2 d |>.1
                 with size_ := p.mem.size_ },
        endNode2 := p.endNode2,
        size2 := (({ p.mem with size_ := p.size2 } : LList T).insert p.endNode2 d).1.size_ }
      (cs ++ [(p.mem.alloc, d)]) f (by rw [hes]; simp) hI2
      (by simp [hcs]) (by rw [r3]; simp [hsz])
      (by simp only [List.length_cons] at hf; omega)
    refine ⟨p1, cs1, ?_, h2, h3, h4, h5, h6⟩
    simp only [List.map_cons, List.headD_cons, copyLoop, if_neg hq0, hqv, hstep]
    rw [← hnext] at h1
    exact h1

/-- The pair of lists the copy constructor starts its loop with. -/
theorem copy_start (src : LList T) (es : List (Nat × T))
    (hr : src.ReprIn endNode es [] []) :
    PairInv { src with prev := upd src.prev src.alloc src.alloc,
                       next := upd src.next src.alloc src.alloc,
                       alloc := src.alloc + 1 } endNode es src.alloc [] := by
  have hlt : ∀ a, a ∈ endNode :: es.map Prod.fst → a < src.alloc :=
    fun a ha => hr.lt_alloc a (Or.inl ha)
  have h0 : endNode ≠ src.alloc :=
    fun h => absurd (hlt endNode (List.mem_cons_self _ _)) (by omega)
  constructor
  · refine ⟨hr.nodup, hr.e_not, ?_, ?_, ?_, ?_, ?_⟩
    · intro a ha
      refine ⟨?_, by simp⟩
      simp only [List.mem_singleton]
      intro h
      exact absurd (hlt a ha) (by omega)
    · intro a ha
      show a < src.alloc + 1
      rcases ha with ha | ha | ha
      · exact Nat.lt_succ_of_lt (hlt a ha)
      · simp only [List.mem_singleton] at ha; omega
      · simp at ha
    · exact Nat.lt_succ_of_lt hr.len_lt
    · intro a v
      exact hr.live a v
    · refine seg_frame _ _ _ hr.seg ?_ ?_
      · intro x hx
        have hxm : x ∈ endNode :: es.map Prod.fst := by
          rcases hx with hx | hx
          · rw [hx]; exact List.mem_cons_self _ _
          · exact List.mem_cons_of_mem _ hx
        have : x ≠ src.alloc := fun h => absurd (hlt x hxm) (by omega)
        simp [upd, this]
      · intro y hy
        have hym : y ∈ endNode :: es.map Prod.fst := by
          rcases hy with hy | hy
          · exact List.mem_cons_of_mem _ hy
          · rw [hy]; exact List.mem_cons_self _ _
        have : y ≠ src.alloc := fun h => absurd (hlt y hym) (by omega)
        simp [upd, this]
  · refine ⟨by simp, by simp, ?_, ?_, ?_, ?_, ?_⟩
    · intro a ha
      simp only [List.map_nil, List.mem_cons, List.not_mem_nil, or_false] at ha
      subst ha
      refine ⟨by simpa using Ne.symm h0, ?_⟩
      intro h
      exact absurd (hlt _ (List.mem_cons_of_mem _ h)) (by omega)
    · intro a ha
      show a < src.alloc + 1
      rcases ha with ha | ha | ha
      · simp only [List.map_nil, List.mem_cons, List.not_mem_nil, or_false] at ha; omega
      · simp only [List.mem_singleton] at ha
        exact Nat.lt_succ_of_lt (hlt a (by rw [ha]; exact List.mem_cons_self _ _))
      · exact Nat.lt_succ_of_lt (hlt a (List.mem_cons_of_mem _ ha))
    · show 0 < src.alloc + 1
      omega
    · intro a v
      rw [show ({ src with prev := upd src.prev src.alloc src.alloc,
                           next := upd src.next src.alloc src.alloc,
                           alloc := src.alloc + 1 } : LList T).value a = src.value a from rfl,
        hr.live a v]
      simp
    · simp [Seg, upd]

/-- Claim C20: for every reachable List `src` with the nodes `es`, the copy constructor
completes; the constructed list has the same elements in the same order (`cs`) in nodes of
its own and `size() == |es|`; `src` keeps its nodes, elements and `size()`; and from then
on no call on one of the two lists changes the nodes, the elements or `size()` of the
other. -/
theorem list_copy_construct (src : LList T) (hsrc : Reachable src) (es : List (Nat × T))
    (hitems : src.items = some es) :
    ∃ p cs, copy_construct src = some p ∧
      p.items2 = some cs ∧ cs.map Prod.snd = es.map Prod.snd ∧ p.size2 = es.length ∧
      (∀ a, a ∈ cs.map Prod.fst → a ∉ es.map Prod.fst) ∧
      p.items1 = some es ∧ p.mem.size_ = src.size_ ∧
      ∀ q, ListPair.Reachable p q →
        (∀ op q1, validAt q.endNode2 q.mem op → q.step2 op = some q1 →
          q1.items1 = q.items1 ∧ q1.mem.size_ = q.mem.size_) ∧
        (∀ op q1, validAt endNode q.mem op → q.step1 op = some q1 →
          q1.items2 = q.items2 ∧ q1.size2 = q.size2) := by
  obtain ⟨es0, hr⟩ := reachable_reprIn src hsrc
  have hes : es0 = es := by
    have := reprIn_items src endNode es0 [] [] hr
    rw [← items_eq_items_at, hitems] at this
    exact (Option.some.inj this).symm
  subst hes
  have hstart := copy_start src es0 hr
  have h0 : endNode ≠ src.alloc := by
    have := hr.lt_alloc endNode (Or.inl (List.mem_cons_self _ _))
    omega
  have hbegin : upd src.next src.alloc src.alloc endNode =
      (es0.map Prod.fst).headD endNode := by
    simp only [upd, if_neg h0]
    rw [seg_next_eq _ _ _ hr.seg]
    cases es0 <;> simp
  obtain ⟨p, cs, h1, h2, h3, h4, h5, _⟩ := copyLoop_spec es0 es0 []
    { mem := { src with prev := upd src.prev src.alloc src.alloc,
                        next := upd src.next src.alloc src.alloc,
                        alloc := src.alloc + 1 },
      endNode2 := src.alloc, size2 := 0 } [] src.alloc rfl hstart rfl rfl
    (Nat.le_of_lt hr.len_lt)
  have hitems1 : ∀ (q : ListPair T) (a b : List (Nat × T)),
      PairInv q.mem endNode a q.endNode2 b → q.items1 = some a ∧ q.items2 = some b := by
    intro q a b hq
    refine ⟨?_, reprIn_items _ _ _ _ _ hq.2⟩
    show q.mem.items = some a
    rw [items_eq_items_at]
    exact reprIn_items _ _ _ _ _ hq.1
  refine ⟨p, cs, ?_, (hitems1 p es0 cs h2).2, h3, h4, ?_, (hitems1 p es0 cs h2).1, h5, ?_⟩
  · unfold copy_construct
    simp only
    rw [hbegin]
    exact h1
  · intro a ha hb
    exact (h2.2.disj a (List.mem_cons_of_mem _ ha)).2 hb
  · intro q hq
    obtain ⟨a, b, hab⟩ := pair_reachable p q hq ⟨es0, cs, h2⟩
    constructor
    · intro op q1 hv hs
      obtain ⟨b1, hb1, _, hsz⟩ := pair_step2 q q1 a b op hab hv hs
      rw [(hitems1 q1 a b1 hb1).1, (hitems1 q a b hab).1]
      exact ⟨rfl, hsz⟩
    · intro op q1 hv hs
      obtain ⟨a1, ha1, _, hsz⟩ := pair_step1 q q1 a b op hab hv hs
      rw [(hitems1 q1 a1 b ha1).2, (hitems1 q a b hab).2]
      exact ⟨rfl, hsz⟩

end LList

/-- Closing a stretch at `e1` instead of `b`: the links inside the stretch stay, the last
node points to `e1` and `e1` points back to it. -/
theorem seg_retarget {nx pv nx1 pv1 : Nat → Nat} (e1 : Nat) :
    ∀ (xs : List Nat) (a b : Nat), Seg nx pv a xs b → (a :: xs).Nodup →
      (∀ x, x ∈ a :: xs → x ≠ pv b → nx1 x = nx x) → nx1 (pv b) = e1 →
      (∀ y, y ∈ xs → pv1 y = pv y) → pv1 e1 = pv b → Seg nx1 pv1 a xs e1
  | [], a, b, h, _, _, hl, _, hp => by
    obtain ⟨_, h2⟩ := h
    rw [h2] at hl hp
    exact ⟨hl, hp⟩
  | x :: xs, a, b, h, hnd, hn, hl, hpv, hp => by
    obtain ⟨h1, h2, h3⟩ := h
    have hnd1 := List.nodup_cons.mp hnd
    have hpm := seg_prev_mem xs x b h3
    have ha : a ≠ pv b := fun h => hnd1.1 (h ▸ hpm.1)
    refine ⟨?_, ?_, seg_retarget e1 xs x b h3 hnd1.2
      (fun y hy => hn y (List.mem_cons_of_mem _ hy)) hl
      (fun y hy => hpv y (List.mem_cons_of_mem _ hy)) hp⟩
    · rw [hn a (List.mem_cons_self _ _) ha]; exact h1
    · rw [hpv x (List.mem_cons_self _ _)]; exact h2

namespace LList

variable {T : Type}

theorem repr_to_reprIn (l : LList T) (es : List (Nat × T)) (hr : l.Repr es) :
    l.ReprIn endNode es [] [] := by
  refine ⟨hr.nodup, hr.nz, by simp, ?_, hr.len_lt, ?_, hr.seg⟩
  · intro a ha
    rcases ha with ha | ha | ha
    · rcases List.mem_cons.mp ha with h | h
      · rw [h]
        have := hr.len_lt
        unfold endNode
        omega
      · exact hr.lt_alloc a h
    · simp at ha
    · simp at ha
  · intro a v
    rw [hr.live a v]
    simp

/-- The move constructor on a well-formed list whose `size_` is its number of nodes: the
constructed list takes over the nodes, `other` is left empty, no payload is written. -/
theorem move_construct_spec (other : LList T) (es : List (Nat × T))
    (hr : other.ReprIn endNode es [] []) (hsz : other.size_ = es.length) :
    PairInv other.move_construct.mem endNode [] other.move_construct.endNode2 es ∧
      other.move_construct.size2 = es.length ∧ other.move_construct.mem.size_ = 0 ∧
      other.move_construct.mem.value = other.value := by
  have hlt : ∀ a, a ∈ endNode :: es.map Prod.fst → a < other.alloc :=
    fun a ha => hr.lt_alloc a (Or.inl ha)
  have h0 : endNode ≠ other.alloc :=
    fun h => absurd (hlt endNode (List.mem_cons_self _ _)) (by omega)
  cases es with
  | nil =>
    have hz : other.size_ = 0 := hsz
    have hs := copy_start other [] hr
    simp only [move_construct, if_pos hz]
    exact ⟨hs, hz, hz, trivial⟩
  | cons x rest =>
    have hz : other.size_ ≠ 0 := by rw [hsz]; simp
    obtain ⟨h1, h2, h3⟩ := hr.seg
    have hpm := seg_prev_mem _ _ _ h3
    have hnd := List.nodup_cons.mp hr.nodup
    have hx0 : x.1 ≠ endNode := fun h => hr.e_not (by simp [← h])
    have hxe : x.1 ≠ other.alloc :=
      fun h => absurd (hlt x.1 (by simp)) (by omega)
    have hq0 : other.prev endNode ≠ endNode := fun h => hr.e_not (by
      rw [← h]; simpa using hpm.1)
    have hqe : other.prev endNode ≠ other.alloc :=
      fun h => absurd (hlt (other.prev endNode) (List.mem_cons_of_mem _ (by
        simpa using hpm.1))) (by omega)
    have fn : other.move_construct.mem.next = fun a =>
        if a = endNode then endNode else if a = other.prev endNode then other.alloc
        else if a = other.alloc then x.1 else other.next a := by
      funext a
      have h1a : other.next endNode = x.1 := h1
      simp only [move_construct, if_neg hz, upd, if_neg h0, if_true, h1a, if_neg hxe]
      have hex : other.alloc ≠ x.1 := Ne.symm hxe
      have heq : other.alloc ≠ other.prev endNode := Ne.symm hqe
      have he0 : other.alloc ≠ endNode := Ne.symm h0
      by_cases ha0 : a = endNode
      · simp [ha0]
      · by_cases haq : a = other.prev endNode
        · simp [haq, hq0, hqe, hex]
        · by_cases hae : a = other.alloc
          · simp [hae, he0, heq, hex]
          · simp [ha0, haq, hae, hex]
    have fp : other.move_construct.mem.prev = fun a =>
        if a = endNode then endNode else if a = x.1 then other.alloc
        else if a = other.alloc then other.prev endNode else other.prev a := by
      funext a
      have h1a : other.next endNode = x.1 := h1
      simp only [move_construct, if_neg hz, upd, if_neg h0, if_true, h1a]
      have hex : other.alloc ≠ x.1 := Ne.symm hxe
      have he0 : other.alloc ≠ endNode := Ne.symm h0
      by_cases ha0 : a = endNode
      · simp [ha0]
      · by_cases hax : a = x.1
        · simp [hax, hx0]
        · by_cases hae : a = other.alloc
          · simp [hae, he0, hex]
          · simp [ha0, hax, hae]
    have fv : other.move_construct.mem.value = other.value := by
      simp only [move_construct, if_neg hz]
    have fa : other.move_construct.mem.alloc = other.alloc + 1 := by
      simp only [move_construct, if_neg hz]
    have fe : other.move_construct.endNode2 = other.alloc := by
      simp only [move_construct, if_neg hz]
    have fs : other.move_construct.size2 = other.size_ := by
      simp only [move_construct, if_neg hz]
    have fz : other.move_construct.mem.size_ = 0 := by
      simp only [move_construct, if_neg hz]
    have hsegN : Seg other.move_construct.mem.next other.move_construct.mem.prev other.alloc
        (x.1 :: rest.map Prod.fst) other.alloc := by
      refine ⟨?_, ?_, ?_⟩
      · rw [fn]; simp [Ne.symm h0, Ne.symm hqe]
      · rw [fp]; simp [hx0]
      · refine seg_retarget other.alloc _ _ _ h3 hr.nodup ?_ ?_ ?_ ?_
        · intro a ha haq
          have ha0 : a ≠ endNode := fun h => hr.e_not (h ▸ ha)
          have hae : a ≠ other.alloc :=
            fun h => absurd (hlt a (List.mem_cons_of_mem _ ha)) (by omega)
          rw [fn]; simp [ha0, haq, hae]
        · rw [fn]; simp [hq0]
        · intro y hy
          have hy0 : y ≠ endNode :=
            fun h => hr.e_not (h ▸ List.mem_cons_of_mem _ hy)
          have hyx : y ≠ x.1 := fun h => hnd.1 (h ▸ hy)
          have hye : y ≠ other.alloc :=
            fun h => absurd (hlt y (List.mem_cons_of_mem _ (List.mem_cons_of_mem _ hy)))
              (by omega)
          rw [fp]; simp [hy0, hyx, hye]
        · rw [fp]; simp [Ne.symm h0, Ne.symm hxe]
    refine ⟨⟨⟨by simp, by simp, ?_, ?_, ?_, ?_, ?_⟩, ⟨hr.nodup, ?_, ?_, ?_, ?_, ?_, ?_⟩⟩,
      by rw [fs, hsz], fz, fv⟩
    · intro a ha
      simp only [List.map_nil, List.mem_cons, List.not_mem_nil, or_false] at ha
      subst ha
      rw [fe]
      exact ⟨by simpa using h0, hr.e_not⟩
    · rw [fa, fe]
      intro a ha
      rcases ha with ha | ha | ha
      · simp only [List.map_nil, List.mem_cons, List.not_mem_nil, or_false] at ha
        rw [ha]
        exact Nat.lt_succ_of_lt (hlt endNode (List.mem_cons_self _ _))
      · simp only [List.mem_singleton] at ha; omega
      · exact Nat.lt_succ_of_lt (hlt a (List.mem_cons_of_mem _ ha))
    · rw [fa]; simp
    · intro a v
      rw [fv, hr.live a v]
      simp
    · rw [fn, fp]; simp [Seg]
    · rw [fe]
      intro h
      exact absurd (hlt _ (List.mem_cons_of_mem _ h)) (by omega)
    · rw [fe]
      intro a ha
      refine ⟨?_, by simp⟩
      simp only [List.mem_singleton]
      rcases List.mem_cons.mp ha with h | h
      · rw [h]; exact Ne.symm h0
      · exact fun h2 => hr.e_not (h2 ▸ h)
    · rw [fa, fe]
      intro a ha
      rcases ha with ha | ha | ha
      · rcases List.mem_cons.mp ha with h | h
        · omega
        · exact Nat.lt_succ_of_lt (hlt a (List.mem_cons_of_mem _ h))
      · simp only [List.mem_singleton] at ha
        rw [ha]
        exact Nat.lt_succ_of_lt (hlt endNode (List.mem_cons_self _ _))
      · simp at ha
    · rw [fa]
      exact Nat.lt_succ_of_lt hr.len_lt
    · intro a v
      rw [fv, hr.live a v]
    · rw [fe]
      exact hsegN

end LList

namespace UnorderedMap

variable {Key Value : Type}

/-- Claim C13: for every map `A` reached from a map constructed with `b0 ≥ 1` buckets by
completed `emplace`, `insert`, `erase` (and `reserve`) calls, with the nodes `es`, after
the move constructor `A` has `size() == 0`, `begin() == end()` and no node; the constructed
map has the former `size()` of `A`, the same nodes in the same order with the same entries,
and the former bucket count; every address holds the payload it held before. -/
theorem move_construct_takes_nodes (hash : Key → Nat) (equal : Key → Key → Bool)
    (dflt : Value) (b0 : Nat) (hb : 1 ≤ b0) (A : UnorderedMap Key Value)
    (hA : Reachable hash equal dflt growEraseOp b0 A)
    (es : List (Nat × (Key × Value))) (hitems : A.items = some es) :
    A.move_construct.lists.mem.size = 0 ∧
      A.move_construct.lists.mem.begin_ = A.move_construct.lists.mem.end_ ∧
      A.move_construct.lists.items1 = some [] ∧
      A.move_construct.lists.size2 = A.size ∧
      A.move_construct.lists.items2 = some es ∧
      (∀ h, A.move_construct.lists.mem.value h = A.nodes_.value h) ∧
      A.move_construct.bucket_count_ = A.bucket_count ∧
      A.move_construct.other_bucket_count_ = 0 := by
  obtain ⟨es0, hI, hsz⟩ := reachable_inv_size hash equal dflt b0 hb A hA
  have hes : es0 = es := by
    have := inv_items hash A es0 hI
    rw [hitems] at this
    exact (Option.some.inj this).symm
  subst hes
  obtain ⟨hp, h2, h3, h4⟩ := LList.move_construct_spec A.nodes_ es0
    (LList.repr_to_reprIn _ _ hI.repr) hsz
  have hi1 := LList.reprIn_items _ _ _ _ _ hp.1
  have hi2 := LList.reprIn_items _ _ _ _ _ hp.2
  refine ⟨h3, ?_, ?_, ?_, hi2, ?_, rfl, rfl⟩
  · exact hp.1.seg.1
  · show A.nodes_.move_construct.mem.items = some []
    rw [LList.items_eq_items_at]
    exact hi1
  · show A.nodes_.move_construct.size2 = A.nodes_.size_
    rw [h2, hsz]
  · intro h
    show A.nodes_.move_construct.mem.value h = A.nodes_.value h
    rw [h4]

end UnorderedMap
/-! ## The scan of `emplace` at the sentinel -/

namespace UnorderedMap

variable {Key Value : Type}

/-- Where the scan that treats the sentinel as undefined returns, the scan that follows the
object layout returns the same. -/
theorem scanRun_layout_of_scanRun (as_key : Nat → Key) (equal : Key → Key → Bool)
    (l : LList (Key × Value)) (key : Key) (hz : l.value endNode = none) :
    ∀ (n it : Nat) (o : Option Nat), scanRun equal l key n it = some o →
      scanRun_layout as_key equal l key n it = some o
  | 0, _, o, h => by
    simp only [scanRun] at h
    simp only [scanRun_layout]
    exact h
  | n + 1, it, o, h => by
    simp only [scanRun] at h
    cases hv : l.value it with
    | none => rw [hv] at h; simp at h
    | some d =>
      rw [hv] at h
      simp only at h
      have hne : it ≠ endNode := by
        intro he
        rw [he, hz] at hv
        cases hv
      have hk : key_at as_key l it = some d.1 := by
        simp only [key_at, if_neg hne, hv, Option.map_some']
      simp only [scanRun_layout, hk]
      by_cases he : equal d.1 key = true
      · rw [if_pos he] at h ⊢
        exact h
      · rw [if_neg he] at h ⊢
        exact scanRun_layout_of_scanRun as_key equal l key hz n (l.next it) o h

/-- Where `emplace` with the sentinel read as undefined returns, `emplace` with the object
layout returns the same. -/
theorem emplace_layout_of_emplace (as_key : Nat → Key) (hash : Key → Nat)
    (equal : Key → Key → Bool) (m : UnorderedMap Key Value) (key : Key) (val : Value)
    (r : UnorderedMap Key Value × (Nat × Bool)) (hz : m.nodes_.value endNode = none)
    (h : emplace hash equal m key val = some r) :
    emplace_layout as_key hash equal m key val = some r := by
  unfold emplace at h
  unfold emplace_layout
  by_cases hb : m.bucket_count_ = 0
  · rw [if_pos hb] at h
    cases h
  · rw [if_neg hb] at h ⊢
    simp only at h ⊢
    cases hs : scanRun equal m.nodes_ key (m.buckets_ (hash key % m.bucket_count_)).size_
        (m.buckets_ (hash key % m.bucket_count_)).it_ with
    | none => rw [hs] at h; simp at h
    | some o =>
      rw [hs] at h
      rw [scanRun_layout_of_scanRun as_key equal m.nodes_ key hz _ _ o hs]
      exact h

/-- A node that the scan reports has, under `key_at`, a key equal to the candidate. -/
theorem scanRun_layout_found (as_key : Nat → Key) (equal : Key → Key → Bool)
    (l : LList (Key × Value)) (key : Key) :
    ∀ (n it h : Nat), scanRun_layout as_key equal l key n it = some (some h) →
      ∃ k, key_at as_key l h = some k ∧ equal k key = true
  | 0, _, h, hs => by simp [scanRun_layout] at hs
  | n + 1, it, h, hs => by
    simp only [scanRun_layout] at hs
    cases hk : key_at as_key l it with
    | none => rw [hk] at hs; simp at hs
    | some k =>
      rw [hk] at hs
      simp only at hs
      by_cases he : equal k key = true
      · rw [if_pos he] at hs
        simp only [Option.some.injEq] at hs
        subst hs
        exact ⟨k, hk, he⟩
      · rw [if_neg he] at hs
        exact scanRun_layout_found as_key equal l key n (l.next it) h hs

/-- An `emplace` that returns `(h, false)` leaves the map as it was, and `h` is a live node
with a key equal to the candidate, or `h` is `end()` and the key read from `size_` equals
the candidate. -/
theorem emplace_layout_rejected (as_key : Nat → Key) (hash : Key → Nat)
    (equal : Key → Key → Bool) (m m1 : UnorderedMap Key Value) (key : Key) (val : Value)
    (h : Nat) (hr : emplace_layout as_key hash equal m key val = some (m1, (h, false))) :
    m1 = m ∧
      ((∃ kv, h ≠ endNode ∧ m.nodes_.value h = some kv ∧ equal kv.1 key = true) ∨
        (h = endNode ∧ equal (as_key m.nodes_.size_) key = true)) := by
  unfold emplace_layout at hr
  by_cases hz : m.bucket_count_ = 0
  · rw [if_pos hz] at hr
    simp at hr
  · rw [if_neg hz] at hr
    simp only at hr
    cases hs : scanRun_layout as_key equal m.nodes_ key
        (m.buckets_ (hash key % m.bucket_count_)).size_
        (m.buckets_ (hash key % m.bucket_count_)).it_ with
    | none => rw [hs] at hr; simp at hr
    | some o =>
      rw [hs] at hr
      cases o with
      | none =>
        simp only [Option.map_eq_some'] at hr
        obtain ⟨m4, _, h4⟩ := hr
        have := congrArg (fun r => r.2.2) h4
        simp at this
      | some it =>
        simp only [Option.some.injEq, Prod.mk.injEq] at hr
        obtain ⟨hm, hh, _⟩ := hr
        subst hm
        subst hh
        obtain ⟨k, hk, he⟩ := scanRun_layout_found as_key equal m.nodes_ key _ _ _ hs
        refine ⟨rfl, ?_⟩
        by_cases hend : it = endNode
        · right
          simp only [key_at, if_pos hend, Option.some.injEq] at hk
          rw [hk]
          exact ⟨hend, he⟩
        · left
          simp only [key_at, if_neg hend, Option.map_eq_some'] at hk
          obtain ⟨kv, hv, hk1⟩ := hk
          exact ⟨kv, hend, hv, by rw [hk1]; exact he⟩

end UnorderedMap

/-! ## The claims C11 to C20 on the map -/

namespace UnorderedMap

variable {Key Value : Type}

/-- Claim C11 (collision scenario), evaluated on the code: with 4 buckets and
`hash(k) = k`, after the inserts of the keys `1` and `5` the sequence is
`[(5, 50), (1, 10)]`, bucket `1` has `it_` at node `1` (key `1`) and `size_ = 2`, and the
successor of node `1` is the sentinel; the insert of the key `9` then reads the payload of
the sentinel and does not complete, and `find(5)` in the map with the keys `1` and `5`
returns `end()`. -/
theorem collision_scenario_third_insert :
    (runOps hashId equalNat 0 (mk_empty 4) [Op.insert (1, 10), Op.insert (5, 50)]).map
      (fun m => (m.items, m.buckets_ 1)) =
      some (some [(2, (5, 50)), (1, (1, 10))], ⟨1, 2⟩) ∧
    (runOps hashId equalNat 0 (mk_empty 4) [Op.insert (1, 10), Op.insert (5, 50)]).map
      (fun m => (m.nodes_.next 1, find hashId equalNat m 5, find hashId equalNat m 2)) =
      some (endNode, some endNode, some endNode) ∧
    (runOps hashId equalNat 0 (mk_empty 4)
      [Op.insert (1, 10), Op.insert (5, 50), Op.insert (9, 90)]).isNone = true := by
  decide!

/-- Claim C12 (growth on overflow), evaluated on the code with keys of type `size_t` and
`hash(k) = k`.  With `b = 2` buckets the inserts of the keys `0` and `4` leave 2 buckets,
size 2 and the sequence `4, 0`, with `it_` of bucket `0` at the node of key `0`, whose
successor is the sentinel.  The third insert, of the key `2`, scans two nodes from there:
the second read is at the sentinel, where `size_ = 2` is read as the key, and the call
returns `(end(), false)`: the size stays 2 and the bucket count stays 2.  With the keys
`1, 3, 5` the key read at the sentinel is `2`, no key is equal, and the third insert leaves
size 3 and 4 buckets.  With `b = 16` and the keys `0, ..., 16` the first 16 inserts leave
16 buckets and the 17th leaves size 17 and 32 buckets. -/
theorem growth_third_insert_rejected :
    (map04.size, map04.bucket_count, map04.entries, map04.buckets_ 0, map04.nodes_.next 1) =
      (2, 2, some [(4, 40), (0, 0)], ⟨1, 2⟩, endNode) ∧
    key_at sizeAsKey map04.nodes_ endNode = some 2 ∧
    (emplace_layout sizeAsKey hashId equalNat map04 2 20).map (fun r => r.2) =
      some (endNode, false) ∧
    (emplace_layout sizeAsKey hashId equalNat map04 2 20).map
      (fun r => (r.1.size, r.1.bucket_count)) = some (2, 2) ∧
    (emplace_layout sizeAsKey hashId equalNat map04 2 20).bind (fun r => r.1.entries) =
      some [(4, 40), (0, 0)] ∧
    (map13.size, map13.bucket_count, map13.entries) = (2, 2, some [(3, 30), (1, 10)]) ∧
    (emplace_layout sizeAsKey hashId equalNat map13 5 50).map
      (fun r => (r.1.size, r.1.bucket_count, r.2.2)) = some (3, 4, true) ∧
    (emplace_layout sizeAsKey hashId equalNat map13 5 50).bind (fun r => r.1.entries) =
      some [(3, 30), (5, 50), (1, 10)] ∧
    (runOps hashId equalNat 0 (mk_empty 16)
      ((List.range 16).map (fun k => Op.insert (k, k)))).map
      (fun m => (m.size, m.bucket_count)) = some (16, 16) ∧
    (runOps hashId equalNat 0 (mk_empty 16)
      ((List.range 17).map (fun k => Op.insert (k, k)))).map
      (fun m => (m.size, m.bucket_count)) = some (17, 32) := by
  refine ⟨by decide!, by decide!, by decide!, by decide!, by decide!, by decide!, by decide!,
    by decide!, by decide!, by decide!⟩

/-- Claim C14 (copy construction), evaluated on the code: the map with 4 buckets after
`emplace` of `(1, 10)`, `(2, 20)`, `(5, 50)`, `(5, 51)` has size 4 and the entries
`[(5, 50), (5, 51), (1, 10), (2, 20)]`; its copy has size 3 and the entries
`[(1, 10), (5, 50), (2, 20)]`.  The copy of the map after `emplace` of `(1, 10)`, `(2, 20)`,
`(5, 50)`, `(9, 90)`, whose entries are `[(5, 50), (9, 90), (1, 10), (2, 20)]`, reads the
payload of the sentinel and does not complete. -/
theorem copy_has_fewer_entries :
    map1255.size = 4 ∧ map1255.entries = some [(5, 50), (5, 51), (1, 10), (2, 20)] ∧
    (copy_construct hashId equalNat map1255).map (fun b => (b.size, b.bucket_count)) =
      some (3, 4) ∧
    (copy_construct hashId equalNat map1255).bind (fun b => b.entries) =
      some [(1, 10), (5, 50), (2, 20)] ∧
    map1259.entries = some [(5, 50), (9, 90), (1, 10), (2, 20)] ∧
    (copy_construct hashId equalNat map1259).isNone = true := by
  decide!

/-- Claim C15 (size equals sequence length), evaluated on the code: with 4 buckets, after
`emplace(1, 10)` and `clear()` the traversal from `begin()` to `end()` visits no entry and
`size()` is 1; after a further `emplace(2, 20)` it visits one entry and `size()` is 2. -/
theorem size_differs_after_clear :
    (runOps hashId equalNat 0 (mk_empty 4) [Op.emplace 1 10, Op.clear]).map
      (fun m => (m.size, m.begin_, m.end_)) = some (1, endNode, endNode) ∧
    (runOps hashId equalNat 0 (mk_empty 4) [Op.emplace 1 10, Op.clear]).bind
      (fun m => m.entries) = some [] ∧
    (runOps hashId equalNat 0 (mk_empty 4) [Op.emplace 1 10, Op.clear, Op.emplace 2 20]).map
      (fun m => (m.size, m.entries)) = some (2, some [(2, 20)]) := by
  decide!

/-- Claim C16: when the constructor of the candidate pair throws, `emplace` ends with that
exception and leaves the map as it was: same node list (sequence and `size_`), same bucket
array, same bucket count, same threshold. -/
theorem emplace_construction_failure_atomic {Args : Type} (hash : Key → Nat)
    (equal : Key → Key → Bool) (construct : Args → Option (Key × Value))
    (m : UnorderedMap Key Value) (args : Args) (hfail : construct args = none) :
    emplace_args hash equal construct m args = some (EmplaceOutcome.threw m) := by
  unfold emplace_args
  rw [hfail]

end UnorderedMap

namespace UnorderedMap

variable {Key Value : Type}

/-- Claim C16 with a constructor that throws for the argument `0`: `emplace(0)` on the map
with 4 buckets after `emplace(1, 10)` and `emplace(2, 20)` ends with the exception and
leaves that map. -/
theorem emplace_construction_failure_atomic_witness :
    (fun a : Nat => if a = 0 then none else some (a, a)) 0 = none ∧
      emplace_args hashId equalNat (fun a : Nat => if a = 0 then none else some (a, a))
        map12 0 = some (EmplaceOutcome.threw map12) :=
  ⟨rfl, emplace_construction_failure_atomic hashId equalNat
    (fun a : Nat => if a = 0 then none else some (a, a)) map12 0 rfl⟩

end UnorderedMap

namespace LList

theorem list7_reachable : Reachable list7 :=
  Reachable.step LList.empty (LOp.push_back 7) list7 Reachable.init trivial rfl

/-- Claim C18 at the list after `push_back(7)`: `insert` of `9` in front of node `1` yields
the new node `2` in front of node `1`. -/
theorem list_insert_before_witness :
    Reachable list7 ∧ list7.items = some ([] ++ [(1, 7)]) ∧
      (1 : Nat) = (([(1, 7)] : List (Nat × Nat)).map Prod.fst).headD list7.end_ ∧
      ∃ n, (list7.insert 1 9).2 = n ∧
        n ∉ (([] : List (Nat × Nat)) ++ [(1, 7)]).map Prod.fst ∧ n ≠ list7.end_ ∧
        (list7.insert 1 9).1.items = some ([] ++ (n, 9) :: [(1, 7)]) ∧
        (list7.insert 1 9).1.size = list7.size + 1 :=
  ⟨list7_reachable, by decide, by decide,
    list_insert_before list7 list7_reachable [] [(1, 7)] (by decide) 1 (by decide) 9⟩

/-- Claim C20 at the list after `push_back(7)`. -/
theorem list_copy_construct_witness :
    Reachable list7 ∧ list7.items = some [(1, 7)] ∧
      ∃ p cs, copy_construct list7 = some p ∧
        p.items2 = some cs ∧ cs.map Prod.snd = ([(1, 7)] : List (Nat × Nat)).map Prod.snd ∧
        p.size2 = ([(1, 7)] : List (Nat × Nat)).length ∧
        (∀ a, a ∈ cs.map Prod.fst → a ∉ ([(1, 7)] : List (Nat × Nat)).map Prod.fst) ∧
        p.items1 = some [(1, 7)] ∧ p.mem.size_ = list7.size_ ∧
        ∀ q, ListPair.Reachable p q →
          (∀ op q1, validAt q.endNode2 q.mem op → q.step2 op = some q1 →
            q1.items1 = q.items1 ∧ q1.mem.size_ = q.mem.size_) ∧
          (∀ op q1, validAt endNode q.mem op → q.step1 op = some q1 →
            q1.items2 = q.items2 ∧ q1.size2 = q.size2) :=
  ⟨list7_reachable, by decide,
    list_copy_construct list7 list7_reachable [(1, 7)] (by decide)⟩

end LList

namespace UnorderedMap

/-- Claim C13 at the map with 4 buckets after `emplace(1, 10)` and `emplace(2, 20)`. -/
theorem move_construct_takes_nodes_witness :
    Reachable hashId equalNat 0 growEraseOp 4 map12 ∧
      map12.items = some [(1, (1, 10)), (2, (2, 20))] ∧
      map12.move_construct.lists.mem.size = 0 ∧
      map12.move_construct.lists.mem.begin_ = map12.move_construct.lists.mem.end_ ∧
      map12.move_construct.lists.items1 = some [] ∧
      map12.move_construct.lists.size2 = map12.size ∧
      map12.move_construct.lists.items2 = some [(1, (1, 10)), (2, (2, 20))] ∧
      (∀ h, map12.move_construct.lists.mem.value h = map12.nodes_.value h) ∧
      map12.move_construct.bucket_count_ = map12.bucket_count ∧
      map12.move_construct.other_bucket_count_ = 0 :=
  ⟨map12_reachable growEraseOp (fun _ _ _ => trivial), by decide!,
    move_construct_takes_nodes hashId equalNat 0 4 (by decide) map12
      (map12_reachable growEraseOp (fun _ _ _ => trivial)) _ (by decide!)⟩

end UnorderedMap

/-! ## The claims C27 to C30 on the map -/

namespace UnorderedMap

variable {Key Value : Type}

theorem scanRun_found (equal : Key → Key → Bool) (l : LList (Key × Value)) (key : Key) :
    ∀ (n it x : Nat), scanRun equal l key n it = some (some x) →
      ∃ kv, l.value x = some kv ∧ equal kv.1 key = true
  | 0, it, x, h => by simp [scanRun] at h
  | n + 1, it, x, h => by
    simp only [scanRun] at h
    cases hv : l.value it with
    | none => rw [hv] at h; simp at h
    | some d =>
      rw [hv] at h
      simp only at h
      by_cases he : equal d.1 key = true
      · rw [if_pos he] at h
        have hx : it = x := Option.some.inj (Option.some.inj h)
        exact ⟨d, hx ▸ hv, he⟩
      · rw [if_neg he] at h
        exact scanRun_found equal l key n _ x h

theorem emplace_found (hash : Key → Nat) (equal : Key → Key → Bool)
    (m : UnorderedMap Key Value) (key : Key) (val : Value) (it : Nat)
    (hz : m.bucket_count_ ≠ 0)
    (hs : scanRun equal m.nodes_ key (m.buckets_ (hash key % m.bucket_count_)).size_
      (m.buckets_ (hash key % m.bucket_count_)).it_ = some (some it)) :
    emplace hash equal m key val = some (m, (it, false)) := by
  unfold emplace
  rw [if_neg hz]
  simp only [hs]

theorem sum_range_countP {α : Type} (f : α → Nat) (n : Nat) :
    ∀ es : List α, (∀ e ∈ es, f e < n) →
      ((List.range n).map (fun i => es.countP (fun e => f e == i))).sum = es.length
  | [], _ => by simp
  | e :: es, h => by
    have ih := sum_range_countP f n es (fun x hx => h x (List.mem_cons_of_mem _ hx))
    have he : f e < n := h e (List.mem_cons_self _ _)
    have key : ∀ m, ((List.range m).map (fun i => (e :: es).countP (fun e => f e == i))).sum =
        ((List.range m).map (fun i => es.countP (fun e => f e == i))).sum +
          (if f e < m then 1 else 0) := by
      intro m
      induction m with
      | zero => simp
      | succ m ihm =>
        rw [List.range_succ, List.map_append, List.map_append, List.sum_append,
          List.sum_append, ihm]
        simp only [List.map_cons, List.map_nil, List.sum_cons, List.sum_nil, Nat.add_zero,
          List.countP_cons, beq_iff_eq]
        by_cases h1 : f e < m
        · have h2 : f e ≠ m := Nat.ne_of_lt h1
          have h3 : f e < m + 1 := Nat.lt_succ_of_lt h1
          simp only [h1, h2, h3, if_true, if_false]
          omega
        · by_cases h2 : f e = m
          · have h3 : f e < m + 1 := by omega
            simp only [h1, h2, h3, if_true, if_false]
            simp
            omega
          · have h3 : ¬ f e < m + 1 := by omega
            simp only [h1, h2, h3, if_false]
            omega
    rw [key n, ih, if_pos he, List.length_cons]

/-- Claim C27, evaluated on the code: the map constructed with 1 bucket, `hash(k) = k`,
after `emplace(0, 0)` and `emplace(2, 20)` has 2 buckets, the node sequence `2, 1` with the
keys `2, 0`, and bucket `0` with `it_` at node `2` and `size_ = 2`; its index is well formed
and its keys are distinct.  The key `0` is stored (second node of the run of bucket `0`),
and `find(0)` returns `end()`. -/
theorem find_misses_second_of_run :
    map02.items = some [(2, (2, 20)), (1, (0, 0))] ∧ map02.bucket_count = 2 ∧
      map02.buckets_ 0 = ⟨2, 2⟩ ∧ map02.buckets_ 1 = ⟨endNode, 0⟩ ∧
      WellFormedIndex hashId map02 [(2, (2, 20)), (1, (0, 0))] ∧
      (([(2, (2, 20)), (1, (0, 0))] : List (Nat × (Nat × Nat))).map (fun e => e.2.1)).Nodup ∧
      find hashId equalNat map02 0 = some map02.end_ := by
  refine ⟨by decide!, by decide!, by decide!, by decide!, ?_, by decide, by decide!⟩
  intro i hi hpos
  have hbc : map02.bucket_count_ = 2 := by decide!
  rw [hbc] at hi
  have h1 : (map02.buckets_ 1).size_ = 0 := by decide!
  have hi0 : i = 0 := by
    rcases Nat.lt_or_ge i 1 with h | h
    · omega
    · have : i = 1 := by omega
      subst this
      omega
  subst hi0
  refine ⟨[], [(2, (2, 20)), (1, (0, 0))], [], rfl, by decide!, by decide!, ?_, ?_⟩
  · rw [hbc]
    decide
  · simp

/-- Claim C28, evaluated on the code: in the map with 4 buckets and `hash(k) = k` after
`emplace(1, 10)`, bucket `1` has `it_` at node `1` and `size_ = 1`.  The call
`emplace(5, 50)` (bucket `1`, no rehash: 4 buckets afterwards) creates node `2` and splices
it immediately before node `1`; afterwards bucket `1` has `size_ = 2` and its `it_` is still
node `1`, not the new node `2`. -/
theorem emplace_keeps_bucket_start :
    map1.items = some [(1, (1, 10))] ∧ map1.buckets_ 1 = ⟨1, 1⟩ ∧ map1.bucket_count = 4 ∧
    (emplace hashId equalNat map1 5 50).map
      (fun r => (r.1.items, r.1.nodes_.next 2, r.1.bucket_count, r.2.2)) =
      some (some [(2, (5, 50)), (1, (1, 10))], 1, 4, true) ∧
    (emplace hashId equalNat map1 5 50).map (fun r => r.1.buckets_ 1) = some ⟨1, 2⟩ := by
  decide!

/-- Claim C29, evaluated on the code with keys of type `size_t` and `hash(k) = k`.  The map
constructed with 2 buckets after `insert({0, 0})` and `insert({4, 40})` holds the entries
`(4, 40)` and `(0, 0)` and no entry with the key `2`.  `emplace(2, 20)` scans two nodes
from `it_` of bucket `0`, the node of key `0`; the second read is at the sentinel, where
`size_ = 2` is read as the key, and the call returns `(end(), false)`.  The map is left as
it was, but the returned handle is `end()`, which is no entry, and no entry has a key equal
to `2`. -/
theorem rejected_emplace_returns_end :
    map04.entries = some [(4, 40), (0, 0)] ∧
    map04.items.map (fun es => es.any (fun e => equalNat e.2.1 2)) = some false ∧
    (map04.buckets_ 0, map04.nodes_.next 1, map04.nodes_.size_) = (⟨1, 2⟩, endNode, 2) ∧
    (emplace_layout sizeAsKey hashId equalNat map04 2 20).map (fun r => r.2) =
      some (map04.end_, false) ∧
    map04.nodes_.value map04.end_ = none ∧
    (emplace_layout sizeAsKey hashId equalNat map04 2 20).map
      (fun r => (r.1.items, r.1.size, r.1.bucket_count, r.1.buckets_ 0, r.1.buckets_ 1)) =
      some (map04.items, map04.size, map04.bucket_count, map04.buckets_ 0,
        map04.buckets_ 1) := by
  refine ⟨by decide!, by decide!, by decide!, by decide!, by decide!, by decide!⟩

/-- Claim C30: in every state reached from a map constructed with `b0 ≥ 1` buckets by
completed `emplace`, `insert`, `erase`, `reserve` and `clear` calls, with `es` the node
sequence from `begin()` to `end()`: for every bucket index `i` the stored `size_` of bucket
`i` is the number of entries of `es` with `hash(key) % bucket_count() == i`, and the stored
counts of all buckets sum to the number of entries. -/
theorem bucket_counts_exact (hash : Key → Nat) (equal : Key → Key → Bool) (dflt : Value)
    (b0 : Nat) (hb : 1 ≤ b0) (m : UnorderedMap Key Value)
    (hm : Reachable hash equal dflt countOp b0 m) :
    ∃ es, m.items = some es ∧
      (∀ i, i < m.bucket_count →
        (m.buckets_ i).size_ = es.countP (fun e => hash e.2.1 % m.bucket_count == i)) ∧
      ((List.range m.bucket_count).map (fun i => (m.buckets_ i).size_)).sum = es.length := by
  obtain ⟨es, hI⟩ := reachable_inv hash equal dflt countOp b0 hb m hm
  have hc : ∀ i, i < m.bucket_count →
      (m.buckets_ i).size_ = es.countP (fun e => hash e.2.1 % m.bucket_count == i) := by
    intro i hi
    rw [hI.counts i hi, List.count_eq_countP, List.countP_map]
    rfl
  refine ⟨es, inv_items hash m es hI, hc, ?_⟩
  have hs := sum_range_countP (fun e : Nat × (Key × Value) => hash e.2.1 % m.bucket_count)
    m.bucket_count es (fun e _ => Nat.mod_lt _ hI.bc_pos)
  rw [← hs]
  congr 1
  apply List.map_congr_left
  intro i hi
  exact hc i (List.mem_range.mp hi)

/-- Claim C30 at the map with 4 buckets after `emplace(1, 10)` and `emplace(2, 20)`. -/
theorem bucket_counts_exact_witness :
    (1 ≤ 4) ∧ Reachable hashId equalNat 0 countOp 4 map12 ∧
    ∃ es, map12.items = some es ∧
      (∀ i, i < map12.bucket_count →
        (map12.buckets_ i).size_ = es.countP (fun e => hashId e.2.1 % map12.bucket_count == i)) ∧
      ((List.range map12.bucket_count).map (fun i => (map12.buckets_ i).size_)).sum =
        es.length :=
  ⟨by decide, map12_reachable countOp (fun _ _ _ => trivial),
    bucket_counts_exact hashId equalNat 0 4 (by decide) map12
      (map12_reachable countOp (fun _ _ _ => trivial))⟩

end UnorderedMap

/-! ## The claim C21 on the copy assignment of the list -/

namespace LList

/-- Claim C21, evaluated on the code: with `dst` an empty list and `src` the list holding
`7`, the copy assignment `dst = src` copies `7` into `tmp` (sentinel at address `3`), and
after `this->swap(tmp)` the sentinel of `dst` links to the sentinel of `tmp` and back:
`dst.begin()` is the address `3`, which holds no node.  The destructor of `tmp` then
destroys the sentinel of `dst` as a node, so the assignment does not complete.  The same
happens with `dst` holding `7` and `src` empty, and with both lists empty.  With `dst`
holding `7, 8` and `src` holding `9` the assignment completes and leaves `dst` with the
payload `9` in a fresh node, `dst.size() == 1`, and `src` as it was. -/
theorem list_copy_assign_with_empty_list :
    pairE7.items1 = some [] ∧ pairE7.items2 = some [(1, 7)] ∧
    (copy_assign_swapped pairE7).map
      (fun r => (r.2.1, r.1.next endNode, r.1.value (r.1.next endNode), r.1.next r.2.1)) =
      some (3, 3, none, endNode) ∧
    (copy_assign pairE7).isNone = true ∧
    pair7E.items1 = some [(2, 7)] ∧ pair7E.items2 = some [] ∧
    (copy_assign pair7E).isNone = true ∧
    pairEE.items1 = some [] ∧ pairEE.items2 = some [] ∧
    (copy_assign pairEE).isNone = true ∧
    pair78_9.items1 = some [(2, 7), (3, 8)] ∧ pair78_9.items2 = some [(4, 9)] ∧
    (copy_assign pair78_9).map (fun p => (p.items1, p.mem.size_, p.items2, p.size2)) =
      some (some [(6, 9)], 1, some [(4, 9)], 1) := by
  refine ⟨by decide, by decide, by decide, by decide, by decide, by decide, by decide,
    by decide, by decide, by decide, by decide, by decide, by decide⟩

end LList

/-! ## The circular buffer: cells and contents -/

namespace CircularBuffer

variable {T : Type}

theorem cell_inj (h c i j : Nat) (hi : i < c) (hj : j < c)
    (e : (h + i) % c = (h + j) % c) : i = j := by
  have h1 : (h + i) ≡ (h + j) [MOD c] := e
  have h2 : i ≡ j [MOD c] := Nat.ModEq.add_left_cancel' h h1
  exact Nat.ModEq.eq_of_lt_of_lt h2 hi hj

theorem cell_ne (h c i j : Nat) (hi : i < c) (hj : j < c) (hne : i ≠ j) :
    (h + i) % c ≠ (h + j) % c :=
  fun e => hne (cell_inj h c i j hi hj e)

theorem getIndex_eq (b : CircularBuffer T) (hw : b.Wf) (i : Nat) (hi : i ≤ b.capacity_) :
    b.getIndex i = some ((b.head_ + i) % b.capacity_) := by
  have h1 := hw.cap_pos
  have h2 := hw.head_lt
  have h3 := hw.cap_le
  unfold getIndex capacity
  rw [if_neg (by omega),
    Nat.mod_eq_of_lt (show b.head_ + i + b.capacity_ < 2 ^ 64 by omega), Nat.add_mod_right]

theorem getIndex_neg1 (b : CircularBuffer T) (hw : b.Wf) :
    b.getIndex neg1 = some ((b.head_ + (b.capacity_ - 1)) % b.capacity_) := by
  have h1 := hw.cap_pos
  have h2 := hw.head_lt
  have h3 := hw.cap_le
  unfold getIndex capacity neg1
  rw [if_neg (by omega)]
  have e : b.head_ + (2 ^ 64 - 1) + b.capacity_ = (b.head_ + (b.capacity_ - 1)) + 2 ^ 64 := by
    omega
  rw [e, Nat.add_mod_right,
    Nat.mod_eq_of_lt (show b.head_ + (b.capacity_ - 1) < 2 ^ 64 by omega)]

theorem read_eq (b : CircularBuffer T) (hw : b.Wf) (i : Nat) (hi : i ≤ b.capacity_) :
    b.read i = b.data ((b.head_ + i) % b.capacity_) := by
  unfold read index get_ptr
  rw [getIndex_eq b hw i hi]
  rfl

theorem contentsFrom_iff (b : CircularBuffer T) :
    ∀ (n i : Nat) (xs : List T), b.contentsFrom i n = some xs ↔
      (xs.length = n ∧ ∀ j, j < n → b.read (i + j) = xs[j]?)
  | 0, i, xs => by
    simp only [contentsFrom, Option.some.injEq]
    constructor
    · intro h
      subst h
      exact ⟨rfl, fun _ hj => absurd hj (Nat.not_lt_zero _)⟩
    · intro h
      exact (List.length_eq_zero.mp h.1).symm
  | n + 1, i, xs => by
    simp only [contentsFrom]
    constructor
    · intro h
      cases hr : b.read i with
      | none => rw [hr] at h; simp at h
      | some v =>
        cases hc : b.contentsFrom (i + 1) n with
        | none => rw [hr, hc] at h; simp at h
        | some vs =>
          rw [hr, hc] at h
          simp only [Option.some.injEq] at h
          subst h
          obtain ⟨hl, hj⟩ := (contentsFrom_iff b n (i + 1) vs).mp hc
          refine ⟨by simp [hl], ?_⟩
          intro j hjn
          cases j with
          | zero => simpa using hr
          | succ j =>
            have := hj j (by omega)
            rw [List.getElem?_cons_succ, ← this]
            congr 1
            omega
    · intro h
      obtain ⟨hl, hj⟩ := h
      cases xs with
      | nil => simp at hl
      | cons v vs =>
        have h0 := hj 0 (by omega)
        simp only [Nat.add_zero, List.getElem?_cons_zero] at h0
        have hc : b.contentsFrom (i + 1) n = some vs := by
          refine (contentsFrom_iff b n (i + 1) vs).mpr ⟨by simpa using hl, ?_⟩
          intro j hjn
          have := hj (j + 1) (by omega)
          rw [List.getElem?_cons_succ] at this
          rw [← this]
          congr 1
          omega
        rw [h0, hc]

theorem contents_iff (b : CircularBuffer T) (hw : b.Wf) (xs : List T) :
    b.contents = some xs ↔ b.Holds xs := by
  unfold contents Holds
  rw [contentsFrom_iff]
  have := hw.size_le
  constructor
  · intro h
    refine ⟨h.1, fun j hj => ?_⟩
    rw [← read_eq b hw j (by omega), ← h.2 j hj, Nat.zero_add]
  · intro h
    refine ⟨h.1, fun j hj => ?_⟩
    rw [Nat.zero_add, read_eq b hw j (by omega), h.2 j hj]

theorem wf_mk_empty (c : Nat) (h1 : 0 < c) (h2 : 3 * c ≤ 2 ^ 64) :
    (mk_empty c : CircularBuffer T).Wf :=
  ⟨h1, h1, Nat.zero_le _, h2⟩

theorem holds_mk_empty (c : Nat) : (mk_empty c : CircularBuffer T).Holds [] :=
  ⟨rfl, fun _ hj => absurd hj (Nat.not_lt_zero _)⟩

end CircularBuffer

/-! ## The circular buffer: `push_back`, `push_front`, `pop_front` -/

namespace CircularBuffer

variable {T : Type}

theorem upd_same {β : Type} (f : Nat → β) (a : Nat) (x : β) : upd f a x a = x := by
  simp [upd]

theorem upd_other {β : Type} (f : Nat → β) (a c : Nat) (x : β) (h : c ≠ a) :
    upd f a x c = f c := by
  simp [upd, h]

theorem push_back_holds (b : CircularBuffer T) (xs : List T) (v : T) (hw : b.Wf)
    (hh : b.Holds xs) :
    ∃ b1, b.push_back v = some b1 ∧ b1.Wf ∧ b1.capacity_ = b.capacity_ ∧
      b1.Holds (if xs.length < b.capacity_ then xs ++ [v] else xs.tail ++ [v]) := by
  obtain ⟨hl, hd⟩ := hh
  have hcp := hw.cap_pos
  have hhl := hw.head_lt
  have hsl := hw.size_le
  have hcl := hw.cap_le
  by_cases hf : b.size_ = b.capacity_
  · have hfull : b.full = true := by simp [full, size, capacity, hf]
    have hcell : b.get_ptr b.size_ = some b.head_ := by
      unfold get_ptr
      rw [getIndex_eq b hw _ (by omega), hf, Nat.add_mod_right, Nat.mod_eq_of_lt hhl]
    cases xs with
    | nil => simp at hl; omega
    | cons x xs =>
      have h0 := hd 0 (by omega)
      rw [Nat.add_zero, Nat.mod_eq_of_lt hhl, List.getElem?_cons_zero] at h0
      have ha : b.assign b.head_ v = some { b with data := upd b.data b.head_ (some v) } := by
        unfold assign
        rw [h0]
      have hw1 : Wf { b with data := upd b.data b.head_ (some v) } := ⟨hcp, hhl, hsl, hcl⟩
      have hg := getIndex_eq _ hw1 1 (by show 1 ≤ b.capacity_; omega)
      refine ⟨{ b with data := upd b.data b.head_ (some v),
                       head_ := (b.head_ + 1) % b.capacity_ }, ?_, ?_, rfl, ?_⟩
      · simp only [push_back, hfull, if_true, hcell, Option.some_bind, ha, hg,
          Option.map_some']
      · exact ⟨hcp, Nat.mod_lt _ hcp, hsl, hcl⟩
      · simp only [List.length_cons] at hl
        rw [if_neg (by simp only [List.length_cons]; omega)]
        refine ⟨by simp; omega, ?_⟩
        intro j hj
        show upd b.data b.head_ (some v) (((b.head_ + 1) % b.capacity_ + j) % b.capacity_) = _
        rw [Nat.mod_add_mod, List.tail_cons]
        have hj2 : j < b.capacity_ := by
          have : j < b.size_ := hj
          omega
        by_cases hjl : j + 1 = b.capacity_
        · have e : b.head_ + 1 + j = b.head_ + b.capacity_ := by omega
          rw [e, Nat.add_mod_right, Nat.mod_eq_of_lt hhl, upd_same,
            List.getElem?_append_right (by omega)]
          have : j - xs.length = 0 := by omega
          rw [this]
          rfl
        · have hne : (b.head_ + (j + 1)) % b.capacity_ ≠ b.head_ := by
            have := cell_ne b.head_ b.capacity_ (j + 1) 0 (by omega) hcp (by omega)
            simpa [Nat.mod_eq_of_lt hhl] using this
          have e : b.head_ + 1 + j = b.head_ + (j + 1) := by omega
          rw [e, upd_other _ _ _ _ hne, hd (j + 1) (by omega), List.getElem?_cons_succ,
            List.getElem?_append_left (by omega)]
  · have hfull : b.full = false := by simp [full, size, capacity, hf]
    have hcell : b.get_ptr b.size_ = some ((b.head_ + b.size_) % b.capacity_) := by
      unfold get_ptr
      rw [getIndex_eq b hw _ (by omega)]
    refine ⟨{ b with data := upd b.data ((b.head_ + b.size_) % b.capacity_) (some v),
                     size_ := b.size_ + 1 }, ?_, ?_, rfl, ?_⟩
    · have e : (b.size_ + 1) % 2 ^ 64 = b.size_ + 1 := Nat.mod_eq_of_lt (by omega)
      simp only [push_back, hfull, hcell, Option.map_some', construct]
      rw [e]
      rfl
    · exact ⟨hcp, hhl, by show b.size_ + 1 ≤ b.capacity_; omega, hcl⟩
    · rw [if_pos (by omega)]
      refine ⟨by simp; omega, ?_⟩
      intro j hj
      have hj1 : j < b.size_ + 1 := hj
      show upd b.data ((b.head_ + b.size_) % b.capacity_) (some v)
        ((b.head_ + j) % b.capacity_) = _
      by_cases hjs : j = b.size_
      · subst hjs
        rw [upd_same, List.getElem?_append_right (by omega)]
        have : b.size_ - xs.length = 0 := by omega
        rw [this]
        rfl
      · have hne := cell_ne b.head_ b.capacity_ j b.size_ (by omega) (by omega) hjs
        rw [upd_other _ _ _ _ hne, hd j (by omega), List.getElem?_append_left (by omega)]

theorem push_front_holds (b : CircularBuffer T) (xs : List T) (v : T) (hw : b.Wf)
    (hh : b.Holds xs) :
    ∃ b1, b.push_front v = some b1 ∧ b1.Wf ∧ b1.capacity_ = b.capacity_ ∧
      b1.Holds (if xs.length < b.capacity_ then v :: xs else v :: xs.dropLast) := by
  obtain ⟨hl, hd⟩ := hh
  have hcp := hw.cap_pos
  have hhl := hw.head_lt
  have hsl := hw.size_le
  have hcl := hw.cap_le
  obtain ⟨c, hc⟩ : ∃ c, c = (b.head_ + (b.capacity_ - 1)) % b.capacity_ := ⟨_, rfl⟩
  have hclt : c < b.capacity_ := hc ▸ Nat.mod_lt _ hcp
  have hcell : b.get_ptr neg1 = some c := hc ▸ getIndex_neg1 b hw
  have hw1 : Wf { b with data := upd b.data c (some v) } := ⟨hcp, hhl, hsl, hcl⟩
  have hg : getIndex { b with data := upd b.data c (some v) } neg1 = some c := by
    rw [getIndex_neg1 _ hw1, hc]
  have hshift : ∀ j, (c + (j + 1)) % b.capacity_ = (b.head_ + j) % b.capacity_ := by
    intro j
    rw [hc, Nat.mod_add_mod]
    have e : b.head_ + (b.capacity_ - 1) + (j + 1) = b.head_ + j + b.capacity_ := by omega
    rw [e, Nat.add_mod_right]
  have hcne : ∀ j, j < b.capacity_ - 1 → (b.head_ + j) % b.capacity_ ≠ c := by
    intro j hj
    rw [hc]
    exact cell_ne b.head_ b.capacity_ j (b.capacity_ - 1) (by omega) (by omega) (by omega)
  by_cases hf : b.size_ = b.capacity_
  · have hfull : b.full = true := by simp [full, size, capacity, hf]
    have hlast := hd (b.capacity_ - 1) (by omega)
    rw [← hc] at hlast
    obtain ⟨x, hx⟩ : ∃ x, xs[b.capacity_ - 1]? = some x :=
      ⟨xs[b.capacity_ - 1], List.getElem?_eq_getElem (by omega)⟩
    have ha : b.assign c v = some { b with data := upd b.data c (some v) } := by
      unfold assign
      rw [hlast, hx]
    refine ⟨{ b with data := upd b.data c (some v), head_ := c }, ?_, ?_, rfl, ?_⟩
    · simp only [push_front, hfull, if_true, hcell, Option.some_bind, ha, hg,
        Option.map_some']
    · exact ⟨hcp, hclt, hsl, hcl⟩
    · rw [if_neg (by omega)]
      refine ⟨by simp; omega, ?_⟩
      intro j hj
      have hj1 : j < b.size_ := hj
      show upd b.data c (some v) ((c + j) % b.capacity_) = _
      cases j with
      | zero =>
        rw [Nat.add_zero, Nat.mod_eq_of_lt hclt, upd_same, List.getElem?_cons_zero]
      | succ j =>
        rw [hshift, upd_other _ _ _ _ (hcne j (by omega)), hd j (by omega),
          List.getElem?_cons_succ, List.dropLast_eq_take,
          List.getElem?_take_of_lt (by omega)]
  · have hfull : b.full = false := by simp [full, size, capacity, hf]
    refine ⟨{ b with data := upd b.data c (some v), head_ := c, size_ := b.size_ + 1 },
      ?_, ?_, rfl, ?_⟩
    · have e : (b.size_ + 1) % 2 ^ 64 = b.size_ + 1 := Nat.mod_eq_of_lt (by omega)
      simp only [push_front, hfull, hcell, Option.some_bind, construct]
      rw [hg, e]
      rfl
    · exact ⟨hcp, hclt, by show b.size_ + 1 ≤ b.capacity_; omega, hcl⟩
    · rw [if_pos (by omega)]
      refine ⟨by simp; omega, ?_⟩
      intro j hj
      have hj1 : j < b.size_ + 1 := hj
      show upd b.data c (some v) ((c + j) % b.capacity_) = _
      cases j with
      | zero =>
        rw [Nat.add_zero, Nat.mod_eq_of_lt hclt, upd_same, List.getElem?_cons_zero]
      | succ j =>
        rw [hshift, upd_other _ _ _ _ (hcne j (by omega)), hd j (by omega),
          List.getElem?_cons_succ]

theorem pop_front_holds (b : CircularBuffer T) (xs : List T) (hw : b.Wf)
    (hh : b.Holds xs) (hne : 0 < b.size_) :
    ∃ b1, b.pop_front = some b1 ∧ b1.Wf ∧ b1.capacity_ = b.capacity_ ∧
      b1.size_ + 1 = b.size_ ∧ b1.Holds xs.tail := by
  obtain ⟨hl, hd⟩ := hh
  have hcp := hw.cap_pos
  have hhl := hw.head_lt
  have hsl := hw.size_le
  have hcl := hw.cap_le
  have hemp : b.empty = false := by simp [empty, size]; omega
  have hcell : b.get_ptr 0 = some b.head_ := by
    unfold get_ptr
    rw [getIndex_eq b hw _ (by omega), Nat.add_zero, Nat.mod_eq_of_lt hhl]
  cases xs with
  | nil => simp at hl; omega
  | cons x xs =>
    simp only [List.length_cons] at hl
    have h0 := hd 0 (by omega)
    rw [Nat.add_zero, Nat.mod_eq_of_lt hhl, List.getElem?_cons_zero] at h0
    have ha : b.destroy b.head_ = some { b with data := upd b.data b.head_ none } := by
      unfold destroy
      rw [h0]
    have hw1 : Wf { b with data := upd b.data b.head_ none } := ⟨hcp, hhl, hsl, hcl⟩
    have hg := getIndex_eq _ hw1 1 (by show 1 ≤ b.capacity_; omega)
    have hdec : dec64 b.size_ = b.size_ - 1 := by
      unfold dec64
      rw [if_neg (by omega)]
    refine ⟨{ b with data := upd b.data b.head_ none,
                     head_ := (b.head_ + 1) % b.capacity_, size_ := b.size_ - 1 },
      ?_, ?_, rfl, ?_, ?_⟩
    · simp only [pop_front, hemp, hcell, Option.some_bind, ha, hg, Option.map_some', hdec]
      simp
    · exact ⟨hcp, Nat.mod_lt _ hcp, by show b.size_ - 1 ≤ b.capacity_; omega, hcl⟩
    · show b.size_ - 1 + 1 = b.size_
      omega
    · refine ⟨by simp; omega, ?_⟩
      intro j hj
      have hj1 : j < b.size_ - 1 := hj
      show upd b.data b.head_ none (((b.head_ + 1) % b.capacity_ + j) % b.capacity_) = _
      have hne2 : (b.head_ + (j + 1)) % b.capacity_ ≠ b.head_ := by
        have := cell_ne b.head_ b.capacity_ (j + 1) 0 (by omega) hcp (by omega)
        simpa [Nat.mod_eq_of_lt hhl] using this
      have e : b.head_ + 1 + j = b.head_ + (j + 1) := by omega
      rw [Nat.mod_add_mod, e, upd_other _ _ _ _ hne2, hd (j + 1) (by omega),
        List.getElem?_cons_succ, List.tail_cons]

end CircularBuffer

/-! ## The circular buffer: `insert` and `erase` -/

namespace CircularBuffer

variable {T : Type}

theorem nth_take_drop_succ (xs : List T) (i j : Nat) (hi : i ≤ xs.length) :
    (xs.take i ++ xs.drop (i + 1))[j]? = if j < i then xs[j]? else xs[j + 1]? := by
  have hlen : (xs.take i).length = i := by simp [hi]
  by_cases h : j < i
  · rw [if_pos h, List.getElem?_append_left (by omega), List.getElem?_take_of_lt h]
  · rw [if_neg h, List.getElem?_append_right (by omega), hlen, List.getElem?_drop]
    congr 1
    omega

theorem nth_take_cons_drop (xs : List T) (v : T) (i j : Nat) (hi : i ≤ xs.length) :
    (xs.take i ++ v :: xs.drop i)[j]? =
      if j < i then xs[j]? else if j = i then some v else xs[j - 1]? := by
  have hlen : (xs.take i).length = i := by simp [hi]
  by_cases h : j < i
  · rw [if_pos h, List.getElem?_append_left (by omega), List.getElem?_take_of_lt h]
  · rw [if_neg h, List.getElem?_append_right (by omega), hlen]
    by_cases h2 : j = i
    · subst h2
      rw [if_pos rfl, Nat.sub_self, List.getElem?_cons_zero]
    · rw [if_neg h2]
      obtain ⟨k, hk⟩ : ∃ k, j - i = k + 1 := ⟨j - i - 1, by omega⟩
      rw [hk, List.getElem?_cons_succ, List.getElem?_drop]
      congr 1
      omega

theorem copy_cell_eq (b : CircularBuffer T) (hw : b.Wf) (dst src : Nat) (v : T)
    (hd : dst ≤ b.capacity_) (hs : src ≤ b.capacity_)
    (hv : b.data ((b.head_ + src) % b.capacity_) = some v) :
    b.copy_cell dst src = some (b.construct ((b.head_ + dst) % b.capacity_) v) := by
  unfold copy_cell get_ptr
  rw [getIndex_eq b hw src hs, getIndex_eq b hw dst hd]
  simp only [Option.some_bind, hv, Option.map_some']

theorem insertLoop_spec (ind : Nat) (xs : List T) :
    ∀ (i : Nat) (b : CircularBuffer T), b.Wf → xs.length = b.size_ → i < b.size_ →
      b.size_ < b.capacity_ →
      (∀ j, j ≤ b.size_ →
        b.data ((b.head_ + j) % b.capacity_) = if j ≤ i then xs[j]? else xs[j - 1]?) →
      ∃ b1, insertLoop ind i b = some b1 ∧ b1.head_ = b.head_ ∧ b1.size_ = b.size_ ∧
        b1.capacity_ = b.capacity_ ∧
        ∀ j, j ≤ b.size_ →
          b1.data ((b.head_ + j) % b.capacity_) =
            if j ≤ min i ind then xs[j]? else xs[j - 1]?
  | 0, b, _, _, _, _, hd => by
    refine ⟨b, rfl, rfl, rfl, rfl, ?_⟩
    intro j hj
    rw [Nat.zero_min]
    exact hd j hj
  | i + 1, b, hw, hl, hi, hlt, hd => by
    by_cases h : i + 1 > ind
    · have hsrc := hd i (by omega)
      rw [if_pos (by omega), List.getElem?_eq_getElem (by omega)] at hsrc
      have hcopy := copy_cell_eq b hw (i + 1) i _ (by omega) (by omega) hsrc
      have hw1 : (b.construct ((b.head_ + (i + 1)) % b.capacity_) xs[i]).Wf :=
        ⟨hw.cap_pos, hw.head_lt, hw.size_le, hw.cap_le⟩
      obtain ⟨b2, h2, hh, hs, hc, hd2⟩ := insertLoop_spec ind xs i
        (b.construct ((b.head_ + (i + 1)) % b.capacity_) xs[i]) hw1 hl (by
          show i < b.size_
          omega) hlt (by
        intro j hj
        have hj1 : j ≤ b.size_ := hj
        show upd b.data ((b.head_ + (i + 1)) % b.capacity_) (some xs[i])
          ((b.head_ + j) % b.capacity_) = _
        by_cases hji : j = i + 1
        · subst hji
          rw [upd_same, if_neg (by omega), Nat.add_sub_cancel,
            List.getElem?_eq_getElem (by omega)]
        · have hne := cell_ne b.head_ b.capacity_ j (i + 1) (by omega) (by omega) hji
          rw [upd_other _ _ _ _ hne, hd j hj1]
          by_cases hle : j ≤ i
          · rw [if_pos (by omega), if_pos hle]
          · rw [if_neg (by omega), if_neg hle])
      refine ⟨b2, ?_, hh, hs, hc, ?_⟩
      · simp only [insertLoop, if_pos h, hcopy, Option.some_bind, h2]
      · intro j hj
        have := hd2 j hj
        have e : min (i + 1) ind = min i ind := by
          rw [Nat.min_eq_right (by omega), Nat.min_eq_right (by omega)]
        rw [e]
        exact this
    · refine ⟨b, ?_, rfl, rfl, rfl, ?_⟩
      · simp only [insertLoop, if_neg h]
      · intro j hj
        rw [Nat.min_eq_left (by omega)]
        exact hd j hj

theorem insert_shift_holds (b : CircularBuffer T) (xs : List T) (v : T) (ind : Nat)
    (hw : b.Wf) (hh : b.Holds xs) (hne : 0 < b.size_) (hlt : b.size_ < b.capacity_)
    (hi : ind ≤ b.size_) :
    ∃ b1, b.insert_shift ind v = some b1 ∧ b1.Wf ∧ b1.capacity_ = b.capacity_ ∧
      b1.Holds (xs.take ind ++ v :: xs.drop ind) := by
  obtain ⟨hl, hd⟩ := hh
  have hcp := hw.cap_pos
  have hhl := hw.head_lt
  have hcl := hw.cap_le
  have hdec : dec64 b.size_ = b.size_ - 1 := by
    unfold dec64
    rw [if_neg (by omega)]
  obtain ⟨x, hx⟩ : ∃ x, xs[b.size_ - 1]? = some x :=
    ⟨_, List.getElem?_eq_getElem (by omega)⟩
  have hsrc := hd (b.size_ - 1) (by omega)
  rw [hx] at hsrc
  have hcopy := copy_cell_eq b hw b.size_ (b.size_ - 1) x (by omega) (by omega) hsrc
  obtain ⟨c, hc⟩ : ∃ c, c = b.construct ((b.head_ + b.size_) % b.capacity_) x := ⟨_, rfl⟩
  rw [← hc] at hcopy
  have hch : c.head_ = b.head_ := by rw [hc]; rfl
  have hcs : c.size_ = b.size_ := by rw [hc]; rfl
  have hcc : c.capacity_ = b.capacity_ := by rw [hc]; rfl
  have hcd : c.data = upd b.data ((b.head_ + b.size_) % b.capacity_) (some x) := by
    rw [hc]; rfl
  have hw1 : c.Wf := ⟨by omega, by omega, by have := hw.size_le; omega, by omega⟩
  obtain ⟨b2, h2, hh2, hs2, hc2, hd2⟩ := insertLoop_spec ind xs (b.size_ - 1) c hw1
    (by omega) (by omega) (by omega) (by
    intro j hj
    rw [hch, hcc, hcd]
    by_cases hjs : j = b.size_
    · subst hjs
      rw [upd_same, if_neg (by omega), hx]
    · have hn := cell_ne b.head_ b.capacity_ j b.size_ (by omega) (by omega) hjs
      rw [upd_other _ _ _ _ hn, hd j (by omega), if_pos (by omega)])
  rw [hch, hcs, hcc] at hd2
  have hw2 : b2.Wf := ⟨by omega, by omega, by omega, by omega⟩
  have hg := getIndex_eq b2 hw2 ind (by omega)
  rw [hh2, hc2, hch, hcc] at hg
  have e : (b.size_ + 1) % 2 ^ 64 = b.size_ + 1 := Nat.mod_eq_of_lt (by omega)
  refine ⟨{ b2 with data := upd b2.data ((b.head_ + ind) % b.capacity_) (some v),
                    size_ := b.size_ + 1 }, ?_, ?_, by rw [← hcc, ← hc2], ?_⟩
  · simp only [insert_shift, hdec, hcopy, Option.some_bind, hcs, h2, get_ptr, hg,
      Option.map_some', construct, hs2, e]
  · exact ⟨by show 0 < b2.capacity_; omega, by show b2.head_ < b2.capacity_; omega,
      by show b.size_ + 1 ≤ b2.capacity_; omega, by show 3 * b2.capacity_ ≤ 2 ^ 64; omega⟩
  · refine ⟨by simp; omega, ?_⟩
    intro j hj
    have hj1 : j < b.size_ + 1 := hj
    show upd b2.data ((b.head_ + ind) % b.capacity_) (some v)
      ((b2.head_ + j) % b2.capacity_) = _
    rw [hh2, hc2, hch, hcc, nth_take_cons_drop xs v ind j (by omega)]
    by_cases hji : j = ind
    · subst hji
      rw [upd_same, if_neg (by omega), if_pos rfl]
    · have hn := cell_ne b.head_ b.capacity_ j ind (by omega) (by omega) hji
      rw [upd_other _ _ _ _ hn, hd2 j (by omega)]
      by_cases hlt2 : j < ind
      · rw [if_pos hlt2, if_pos (by
          rw [Nat.le_min]
          omega)]
      · rw [if_neg hlt2, if_neg hji, if_neg (by
          rw [Nat.le_min]
          omega)]

theorem insert_holds (b : CircularBuffer T) (xs : List T) (v : T) (i : Nat)
    (hw : b.Wf) (hh : b.Holds xs) (hi : i ≤ xs.length)
    (hc : 2 ≤ b.capacity_ ∨ xs.length < b.capacity_ ∨ i = 0) :
    ∃ b1, b.insert (iter_add b.begin_ i) v = some b1 ∧ b1.Wf ∧
      b1.capacity_ = b.capacity_ ∧
      b1.Holds (if xs.length < b.capacity_ then xs.take i ++ v :: xs.drop i
        else if 0 < i then (xs.take i).drop 1 ++ v :: xs.drop i else xs) := by
  have hl := hh.1
  have hcp := hw.cap_pos
  have hhl := hw.head_lt
  have hsl := hw.size_le
  have hcl := hw.cap_le
  have hit : iter_add b.begin_ i = i := by
    unfold iter_add begin_
    rw [Nat.zero_add, Nat.mod_eq_of_lt (by omega)]
  rw [hit]
  by_cases he : b.size_ = 0
  · have hemp : b.empty = true := by simp [empty, size, he]
    have hxs : xs = [] := List.length_eq_zero.mp (by omega)
    subst hxs
    have hi0 : i = 0 := by simpa using hi
    subst hi0
    have hw1 : Wf { b with size_ := 1 } := ⟨hcp, hhl, by show 1 ≤ b.capacity_; omega, hcl⟩
    have hg := getIndex_eq _ hw1 0 (Nat.zero_le _)
    refine ⟨{ b with size_ := 1, data := upd b.data b.head_ (some v) }, ?_, ?_, rfl, ?_⟩
    · simp only [insert, hemp, if_true, get_ptr, hg, Option.map_some', construct]
      simp [Nat.mod_eq_of_lt hhl]
    · exact ⟨hcp, hhl, by show 1 ≤ b.capacity_; omega, hcl⟩
    · rw [if_pos (by simpa using hcp)]
      refine ⟨rfl, ?_⟩
      intro j hj
      have hj0 : j = 0 := by
        have : j < 1 := hj
        omega
      subst hj0
      show upd b.data b.head_ (some v) ((b.head_ + 0) % b.capacity_) = _
      rw [Nat.add_zero, Nat.mod_eq_of_lt hhl, upd_same]
      rfl
  · have hemp : b.empty = false := by simp [empty, size, he]
    by_cases hf : b.size_ = b.capacity_
    · have hfull : b.full = true := by simp [full, size, capacity, hf]
      rw [if_neg (by omega)]
      by_cases hi0 : i = 0
      · subst hi0
        refine ⟨b, ?_, hw, rfl, ?_⟩
        · simp only [insert, hemp, hfull, if_true]
          simp
        · rw [if_neg (by omega)]
          exact hh
      · have hc2 : 2 ≤ b.capacity_ := by omega
        obtain ⟨b1, hp, hw1, hc1, hs1, hh1⟩ := pop_front_holds b xs hw hh (by omega)
        have hdec : dec64 i = i - 1 := by
          unfold dec64
          rw [if_neg hi0]
        have hl1 := hh1.1
        obtain ⟨b2, h2, hw2, hcap2, hh2⟩ := insert_shift_holds b1 xs.tail v (i - 1) hw1 hh1
          (by omega) (by omega) (by omega)
        refine ⟨b2, ?_, hw2, by omega, ?_⟩
        · simp only [insert, hemp, hfull, if_true, if_neg hi0, hp, Option.some_bind, hdec]
          simpa using h2
        · rw [if_pos (by omega)]
          have e1 : (xs.take i).drop 1 = xs.tail.take (i - 1) := by
            cases xs with
            | nil => simp
            | cons x xs =>
              obtain ⟨k, hk⟩ : ∃ k, i = k + 1 := ⟨i - 1, by omega⟩
              subst hk
              simp
          have e2 : xs.drop i = xs.tail.drop (i - 1) := by
            cases xs with
            | nil => simp
            | cons x xs =>
              obtain ⟨k, hk⟩ : ∃ k, i = k + 1 := ⟨i - 1, by omega⟩
              subst hk
              simp
          rw [e1, e2]
          exact hh2
    · have hfull : b.full = false := by simp [full, size, capacity, hf]
      obtain ⟨b2, h2, hw2, hcap2, hh2⟩ := insert_shift_holds b xs v i hw hh
        (by omega) (by omega) (by omega)
      refine ⟨b2, ?_, hw2, hcap2, ?_⟩
      · simp only [insert, hemp, hfull]
        simpa using h2
      · rw [if_pos (by omega)]
        exact hh2

theorem eraseLoop_spec (ind : Nat) (xs : List T) :
    ∀ (fuel k : Nat) (b : CircularBuffer T), b.Wf → xs.length = b.size_ → ind < k →
      k ≤ b.size_ → b.size_ - k ≤ fuel →
      (∀ j, j < b.size_ →
        b.data ((b.head_ + j) % b.capacity_) =
          if j < ind then xs[j]? else if j + 1 < k then xs[j + 1]? else xs[j]?) →
      ∃ b1, eraseLoop fuel k b = some b1 ∧ b1.head_ = b.head_ ∧ b1.size_ = b.size_ ∧
        b1.capacity_ = b.capacity_ ∧
        ∀ j, j < b.size_ →
          b1.data ((b.head_ + j) % b.capacity_) =
            if j < ind then xs[j]? else if j + 1 < b.size_ then xs[j + 1]? else xs[j]?
  | 0, k, b, _, _, _, hk, hf, hd => by
    have hks : k = b.size_ := by omega
    subst hks
    refine ⟨b, ?_, rfl, rfl, rfl, hd⟩
    simp only [eraseLoop, Nat.lt_irrefl, if_false]
  | fuel + 1, k, b, hw, hl, hik, hk, hf, hd => by
    by_cases h : k < b.size_
    · have hsl := hw.size_le
      have hcl := hw.cap_le
      have hcp := hw.cap_pos
      have hsrc := hd k h
      rw [if_neg (by omega), if_neg (by omega), List.getElem?_eq_getElem (by omega)] at hsrc
      have hdec : dec64 k = k - 1 := by
        unfold dec64
        rw [if_neg (by omega)]
      have hcopy := copy_cell_eq b hw (k - 1) k _ (by omega) (by omega) hsrc
      have hw1 : (b.construct ((b.head_ + (k - 1)) % b.capacity_) xs[k]).Wf :=
        ⟨hw.cap_pos, hw.head_lt, hw.size_le, hw.cap_le⟩
      have e : (k + 1) % 2 ^ 64 = k + 1 := Nat.mod_eq_of_lt (by omega)
      obtain ⟨b2, h2, hh, hs, hc, hd2⟩ := eraseLoop_spec ind xs fuel (k + 1)
        (b.construct ((b.head_ + (k - 1)) % b.capacity_) xs[k]) hw1 hl (by omega)
        (by
          show k + 1 ≤ b.size_
          omega)
        (by
          show b.size_ - (k + 1) ≤ fuel
          omega)
        (by
          intro j hj
          have hj1 : j < b.size_ := hj
          show upd b.data ((b.head_ + (k - 1)) % b.capacity_) (some xs[k])
            ((b.head_ + j) % b.capacity_) = _
          by_cases hjk : j = k - 1
          · subst hjk
            have e2 : k - 1 + 1 = k := by omega
            rw [upd_same, if_neg (by omega), if_pos (by omega), e2,
              List.getElem?_eq_getElem (by omega)]
          · have hne := cell_ne b.head_ b.capacity_ j (k - 1) (by omega) (by omega) hjk
            rw [upd_other _ _ _ _ hne, hd j hj1]
            by_cases hji : j < ind
            · rw [if_pos hji, if_pos hji]
            · rw [if_neg hji, if_neg hji]
              by_cases hjk2 : j + 1 < k
              · rw [if_pos hjk2, if_pos (by omega)]
              · rw [if_neg hjk2, if_neg (by omega)])
      refine ⟨b2, ?_, hh, hs, hc, hd2⟩
      simp only [eraseLoop, if_pos h, hdec, hcopy, Option.some_bind, e, h2]
    · have hks : k = b.size_ := by omega
      subst hks
      refine ⟨b, ?_, rfl, rfl, rfl, hd⟩
      simp only [eraseLoop, Nat.lt_irrefl, if_false]

theorem erase_holds (b : CircularBuffer T) (xs : List T) (i : Nat) (hw : b.Wf)
    (hh : b.Holds xs) (hi : i < 2 ^ 64) :
    ∃ b1, b.erase (iter_add b.begin_ i) = some b1 ∧ b1.Wf ∧
      b1.capacity_ = b.capacity_ ∧
      (i < xs.length → b1.size_ + 1 = b.size_ ∧ b1.Holds (xs.take i ++ xs.drop (i + 1))) ∧
      (xs.length ≤ i → b1 = b) := by
  obtain ⟨hl, hd⟩ := hh
  have hcp := hw.cap_pos
  have hhl := hw.head_lt
  have hsl := hw.size_le
  have hcl := hw.cap_le
  have hit : iter_add b.begin_ i = i := by
    unfold iter_add begin_
    rw [Nat.zero_add, Nat.mod_eq_of_lt hi]
  rw [hit]
  by_cases hge : i ≥ b.size_
  · refine ⟨b, ?_, hw, rfl, fun h => absurd h (by omega), fun _ => rfl⟩
    simp only [erase, if_pos hge]
  · have e : (i + 1) % 2 ^ 64 = i + 1 := Nat.mod_eq_of_lt (by omega)
    obtain ⟨b1, h1, hh1, hs1, hc1, hd1⟩ := eraseLoop_spec i xs b.size_ (i + 1) b hw hl
      (by omega) (by omega) (by omega) (by
        intro j hj
        rw [hd j hj]
        by_cases hji : j < i
        · rw [if_pos hji]
        · rw [if_neg hji, if_neg (by omega)])
    have hdec : dec64 b1.size_ = b.size_ - 1 := by
      unfold dec64
      rw [if_neg (by omega), hs1]
    have hw2 : Wf { b1 with size_ := b.size_ - 1 } :=
      ⟨by show 0 < b1.capacity_; omega, by show b1.head_ < b1.capacity_; omega,
        by show b.size_ - 1 ≤ b1.capacity_; omega, by show 3 * b1.capacity_ ≤ 2 ^ 64; omega⟩
    have hg := getIndex_eq _ hw2 (b.size_ - 1) (by show b.size_ - 1 ≤ b1.capacity_; omega)
    have hg2 : getIndex { b1 with size_ := b.size_ - 1 } (b.size_ - 1) =
        some ((b.head_ + (b.size_ - 1)) % b.capacity_) := by
      rw [hg]
      show some ((b1.head_ + (b.size_ - 1)) % b1.capacity_) = _
      rw [hh1, hc1]
    have hlast := hd1 (b.size_ - 1) (by omega)
    rw [if_neg (by omega), if_neg (by omega), List.getElem?_eq_getElem (by omega)] at hlast
    refine ⟨{ b1 with size_ := b.size_ - 1,
                      data := upd b1.data ((b.head_ + (b.size_ - 1)) % b.capacity_) none },
      ?_, ?_, hc1, ?_, fun h => absurd h (by omega)⟩
    · simp only [erase, if_neg hge, e, h1, Option.some_bind, hdec, get_ptr, hg2, destroy]
      rw [show ({ b1 with size_ := b.size_ - 1 } : CircularBuffer T).data = b1.data from rfl,
        hlast]
    · exact ⟨by show 0 < b1.capacity_; omega, by show b1.head_ < b1.capacity_; omega,
        by show b.size_ - 1 ≤ b1.capacity_; omega, by show 3 * b1.capacity_ ≤ 2 ^ 64; omega⟩
    · intro _
      refine ⟨by show b.size_ - 1 + 1 = b.size_; omega, by simp; omega, ?_⟩
      intro j hj
      have hj1 : j < b.size_ - 1 := hj
      show upd b1.data ((b.head_ + (b.size_ - 1)) % b.capacity_) none
        ((b1.head_ + j) % b1.capacity_) = _
      have hn := cell_ne b.head_ b.capacity_ j (b.size_ - 1) (by omega) (by omega) (by omega)
      rw [hh1, hc1, upd_other _ _ _ _ hn, hd1 j (by omega),
        nth_take_drop_succ xs i j (by omega)]
      by_cases hji : j < i
      · rw [if_pos hji, if_pos hji]
      · rw [if_neg hji, if_neg hji, if_pos (by omega)]

end CircularBuffer

/-! ## The claims C22 to C26 on the circular buffer -/

namespace CircularBuffer

variable {T : Type}

theorem wf_buf2345 : buf2345.Wf := ⟨by decide, by decide, by decide, by decide⟩

theorem wf_buf12 : buf12.Wf := ⟨by decide, by decide, by decide, by decide⟩

theorem wf_buf7 : buf7.Wf := ⟨by decide, by decide, by decide, by decide⟩

/-- The general case of `insert`: for a buffer with capacity at least 2 (or one that is not
full, or the position 0), contents `xs` and a position `i ≤ |xs|`, `insert(begin() + i, v)`
completes, keeps the capacity and the invariant (so `size() ≤ capacity()`), and leaves
`xs[0..i) ++ [v] ++ xs[i..)` when the buffer was not full, `xs[1..i) ++ [v] ++ xs[i..)` when
it was full and `i > 0`, and `xs` when it was full and `i = 0`. -/
theorem insert_contents (b : CircularBuffer T) (xs : List T) (v : T) (i : Nat)
    (hw : b.Wf) (hc : b.contents = some xs) (hi : i ≤ xs.length)
    (h2 : 2 ≤ b.capacity ∨ xs.length < b.capacity ∨ i = 0) :
    ∃ b1, b.insert (iter_add b.begin_ i) v = some b1 ∧ b1.Wf ∧
      b1.capacity = b.capacity ∧
      b1.contents = some (if xs.length < b.capacity then xs.take i ++ v :: xs.drop i
        else if 0 < i then (xs.take i).drop 1 ++ v :: xs.drop i else xs) := by
  obtain ⟨b1, h1, hw1, hc1, hh1⟩ :=
    insert_holds b xs v i hw ((contents_iff b hw xs).mp hc) hi h2
  exact ⟨b1, h1, hw1, hc1, (contents_iff b1 hw1 _).mpr hh1⟩

/-- Claim C22: for a buffer with capacity `c ≥ 1` in a state of the class invariant
(`head_ < c`, `size() ≤ c`, `3 * c ≤ 2^64`) whose contents `buffer[0], ...,
buffer[size() - 1]` are `xs`, `push_back(v)` completes, leaves the capacity unchanged and
leaves the contents `xs ++ [v]` when `|xs| < c` and `tail(xs) ++ [v]` when `|xs| = c`. -/
theorem push_back_contents (b : CircularBuffer T) (xs : List T) (v : T) (hw : b.Wf)
    (hc : b.contents = some xs) :
    ∃ b1, b.push_back v = some b1 ∧ b1.capacity = b.capacity ∧
      b1.contents = some (if xs.length < b.capacity then xs ++ [v] else xs.tail ++ [v]) := by
  obtain ⟨b1, h1, hw1, hc1, hh1⟩ :=
    push_back_holds b xs v hw ((contents_iff b hw xs).mp hc)
  exact ⟨b1, h1, hc1, (contents_iff b1 hw1 _).mpr hh1⟩

/-- Claim C22 at the full buffer of capacity 4 with contents `2, 3, 4, 5`: `push_back(6)`
leaves `3, 4, 5, 6`. -/
theorem push_back_contents_witness :
    buf2345.Wf ∧ buf2345.contents = some [2, 3, 4, 5] ∧
      ∃ b1, buf2345.push_back 6 = some b1 ∧ b1.capacity = buf2345.capacity ∧
        b1.contents = some (if ([2, 3, 4, 5] : List Nat).length < buf2345.capacity
          then [2, 3, 4, 5] ++ [6] else ([2, 3, 4, 5] : List Nat).tail ++ [6]) :=
  ⟨wf_buf2345, by decide, push_back_contents buf2345 [2, 3, 4, 5] 6 wf_buf2345 (by decide)⟩

/-- Claim C23: for a buffer with capacity `c ≥ 1` in a state of the class invariant whose
contents are `xs`, `push_front(v)` completes, leaves the capacity unchanged and leaves the
contents `[v] ++ xs` when `|xs| < c` and `[v] ++ xs` without its last element when
`|xs| = c`. -/
theorem push_front_contents (b : CircularBuffer T) (xs : List T) (v : T) (hw : b.Wf)
    (hc : b.contents = some xs) :
    ∃ b1, b.push_front v = some b1 ∧ b1.capacity = b.capacity ∧
      b1.contents = some (if xs.length < b.capacity then [v] ++ xs
        else [v] ++ xs.dropLast) := by
  obtain ⟨b1, h1, hw1, hc1, hh1⟩ :=
    push_front_holds b xs v hw ((contents_iff b hw xs).mp hc)
  exact ⟨b1, h1, hc1, (contents_iff b1 hw1 _).mpr hh1⟩

/-- Claim C23 at the full buffer of capacity 4 with contents `2, 3, 4, 5`: `push_front(1)`
leaves `1, 2, 3, 4`. -/
theorem push_front_contents_witness :
    buf2345.Wf ∧ buf2345.contents = some [2, 3, 4, 5] ∧
      ∃ b1, buf2345.push_front 1 = some b1 ∧ b1.capacity = buf2345.capacity ∧
        b1.contents = some (if ([2, 3, 4, 5] : List Nat).length < buf2345.capacity
          then [1] ++ [2, 3, 4, 5] else [1] ++ ([2, 3, 4, 5] : List Nat).dropLast) :=
  ⟨wf_buf2345, by decide, push_front_contents buf2345 [2, 3, 4, 5] 1 wf_buf2345 (by decide)⟩

/-- Claim C24, evaluated on the code: the buffer of capacity 1 after `push_back(7)` is in a
state of the class invariant, is full and has the contents `7`.  The call
`insert(begin() + 1, 9)` does not complete: after `pop_front()` the size is 0, and line 359
reads `*get_ptr(size_ - 1)`, the cell of the element just destroyed.  (With capacity 4 and
contents `2, 3, 4, 5` the call `insert(begin() + 2, 9)` leaves `3, 9, 4, 5`.) -/
theorem insert_full_capacity_one :
    buf7.Wf ∧ buf7.capacity = 1 ∧ buf7.full = true ∧ buf7.contents = some [7] ∧
      (buf7.pop_front).map (fun b => (b.size, b.read neg1)) = some (0, none) ∧
      (buf7.insert (iter_add buf7.begin_ 1) 9).isNone = true ∧
      (buf2345.insert (iter_add buf2345.begin_ 2) 9).bind contents = some [3, 9, 4, 5] :=
  ⟨wf_buf7, by decide, by decide, by decide, by decide, by decide, by decide⟩

/-- Claim C25: for a buffer whose contents are `xs` and a position `i` (a `size_t` value):
if `i < |xs|` and the buffer is in a state of the class invariant, `erase(begin() + i)`
completes, leaves the contents `xs[0..i) ++ xs[i+1..)`, the size `|xs| - 1` and the same
capacity; if `i ≥ |xs|` it leaves the buffer as it was. -/
theorem erase_contents (b : CircularBuffer T) (xs : List T) (i : Nat)
    (hc : b.contents = some xs) (hi : i < 2 ^ 64) :
    (i < xs.length → b.Wf →
      ∃ b1, b.erase (iter_add b.begin_ i) = some b1 ∧
        b1.contents = some (xs.take i ++ xs.drop (i + 1)) ∧
        b1.size = xs.length - 1 ∧ b1.capacity = b.capacity) ∧
    (xs.length ≤ i → b.erase (iter_add b.begin_ i) = some b) := by
  have hl : xs.length = b.size_ := ((contentsFrom_iff b b.size_ 0 xs).mp hc).1
  constructor
  · intro hlt hw
    obtain ⟨b1, h1, hw1, hc1, hh1, _⟩ :=
      erase_holds b xs i hw ((contents_iff b hw xs).mp hc) hi
    obtain ⟨hs, hh⟩ := hh1 hlt
    refine ⟨b1, h1, (contents_iff b1 hw1 _).mpr hh, ?_, hc1⟩
    show b1.size_ = xs.length - 1
    omega
  · intro hge
    have hit : iter_add b.begin_ i = i := by
      unfold iter_add begin_
      rw [Nat.zero_add, Nat.mod_eq_of_lt hi]
    rw [hit]
    unfold erase
    rw [if_pos (by omega)]

/-- Claim C25 at the buffer of capacity 4 with contents `2, 3, 4, 5`:
`erase(begin() + 1)` leaves `2, 4, 5`. -/
theorem erase_contents_witness :
    buf2345.contents = some [2, 3, 4, 5] ∧ 1 < 2 ^ 64 ∧
      1 < ([2, 3, 4, 5] : List Nat).length ∧ buf2345.Wf ∧
      ∃ b1, buf2345.erase (iter_add buf2345.begin_ 1) = some b1 ∧
        b1.contents = some (([2, 3, 4, 5] : List Nat).take 1 ++
          ([2, 3, 4, 5] : List Nat).drop (1 + 1)) ∧
        b1.size = ([2, 3, 4, 5] : List Nat).length - 1 ∧ b1.capacity = buf2345.capacity :=
  ⟨by decide, by decide, by decide, wf_buf2345,
    (erase_contents buf2345 [2, 3, 4, 5] 1 (by decide) (by decide)).1 (by decide)
      wf_buf2345⟩

/-- Claim C26: for every buffer and index `i`, `at(i)` (lines 316-321) ends with
`std::out_of_range` exactly when `i ≥ size()`, and it leaves the buffer as it was in either
case; when `i < size()` (capacity at least 1) it returns the reference to the cell that
`operator[](i)` returns. -/
theorem at_throws_iff (b : CircularBuffer T) (i : Nat) :
    ((∃ b1, b.at_ i = some (b1, At.out_of_range)) ↔ i ≥ b.size) ∧
    (∀ b1 r, b.at_ i = some (b1, r) → b1 = b) ∧
    (i < b.size → 0 < b.capacity →
      ∃ cell, b.index i = some cell ∧ b.at_ i = some (b, At.ref cell)) := by
  refine ⟨⟨?_, ?_⟩, ?_, ?_⟩
  · rintro ⟨b1, h⟩
    by_contra hlt
    have hlt2 : ¬ i ≥ b.size_ := hlt
    unfold at_ at h
    rw [if_neg hlt2] at h
    simp only [Option.map_eq_some', Prod.mk.injEq] at h
    obtain ⟨_, _, _, h3⟩ := h
    cases h3
  · intro hge
    have hge2 : i ≥ b.size_ := hge
    exact ⟨b, by unfold at_; rw [if_pos hge2]⟩
  · intro b1 r h
    unfold at_ at h
    by_cases hge : i ≥ b.size_
    · rw [if_pos hge] at h
      simp only [Option.some.injEq, Prod.mk.injEq] at h
      exact h.1.symm
    · rw [if_neg hge] at h
      simp only [Option.map_eq_some', Prod.mk.injEq] at h
      obtain ⟨_, _, h2, _⟩ := h
      exact h2.symm
  · intro hlt hcap
    have hne : b.capacity ≠ 0 := by omega
    refine ⟨(b.head_ + i + b.capacity) % 2 ^ 64 % b.capacity, ?_, ?_⟩
    · unfold index get_ptr getIndex
      rw [if_neg hne]
    · unfold at_
      rw [if_neg (by
        show ¬ i ≥ b.size_
        have : i < b.size_ := hlt
        omega)]
      unfold index get_ptr getIndex
      rw [if_neg hne]
      rfl

/-- Claim C26 at the buffer of capacity 4 with contents `1, 2`: `at(1)` returns the cell of
`operator[](1)`. -/
theorem at_throws_iff_witness :
    1 < buf12.size ∧ 0 < buf12.capacity ∧
      ∃ cell, buf12.index 1 = some cell ∧ buf12.at_ 1 = some (buf12, At.ref cell) :=
  ⟨by decide, by decide, (at_throws_iff buf12 1).2.2 (by decide) (by decide)⟩

end CircularBuffer

/-! ## The claims C31 to C35, C37 and C38 on the map -/

namespace UnorderedMap

variable {Key Value : Type}

theorem rehashLoop_first (hash : Key → Nat) (l : LList (Key × Value)) (bc : Nat) :
    ∀ (ys : List (Nat × (Key × Value))) (a fuel : Nat) (B : Nat → Bucket),
      Seg l.next l.prev a (ys.map Prod.fst) endNode →
      (∀ e ∈ ys, e.1 ≠ endNode ∧ l.value e.1 = some e.2) → ys.length ≤ fuel →
      ∃ B1, rehashLoop hash l bc fuel (l.next a) B = some B1 ∧
        ∀ i, (B1 i).it_ =
          if (B i).size_ = 0 then
            ((ys.find? (fun e => idxOf hash bc e == i)).map Prod.fst).getD (B i).it_
          else (B i).it_
  | [], a, fuel, B, hs, _, _ => by
    have : l.next a = 0 := hs.1
    rw [this, rehashLoop_zero]
    exact ⟨B, rfl, by simp⟩
  | (q, d) :: ys, a, fuel, B, hs, hv, hf => by
    obtain ⟨h1, _, h3⟩ := hs
    have hq := hv (q, d) (List.mem_cons_self _ _)
    obtain ⟨f, rfl⟩ : ∃ f, fuel = f + 1 := ⟨fuel - 1, by
      simp only [List.length_cons] at hf; omega⟩
    obtain ⟨q1, rfl⟩ : ∃ q1, q = q1 + 1 := ⟨q - 1, by
      have := hq.1; unfold endNode at this; simp only at this; omega⟩
    have hq2 : l.value (q1 + 1) = some d := hq.2
    have h1a : l.next a = q1 + 1 := h1
    rw [h1a]
    simp only [rehashLoop, hq2]
    obtain ⟨B1, hB1, hc⟩ := rehashLoop_first hash l bc ys (q1 + 1) f
      (upd B (hash d.1 % bc)
        ⟨if (B (hash d.1 % bc)).size_ = 0 then q1 + 1 else (B (hash d.1 % bc)).it_,
          (B (hash d.1 % bc)).size_ + 1⟩) h3
      (fun e he => hv e (List.mem_cons_of_mem _ he))
      (by simp only [List.length_cons] at hf; omega)
    refine ⟨B1, hB1, ?_⟩
    intro i
    rw [hc i]
    by_cases hi : i = hash d.1 % bc
    · subst hi
      have e1 : idxOf hash bc (q1 + 1, d) = hash d.1 % bc := rfl
      simp only [upd, if_true, Nat.add_one_ne_zero, if_false, List.find?_cons, e1, beq_self_eq_true,
        Option.map_some', Option.getD_some]
    · have hi2 : ¬ (hash d.1 % bc = i) := fun e => hi e.symm
      have e1 : (idxOf hash bc (q1 + 1, d) == i) = false := by
        simp only [idxOf, beq_eq_false_iff_ne, ne_eq]
        exact hi2
      simp only [upd, if_neg hi, List.find?_cons, e1]

/-- Claim C31: in every state reached from a map constructed with `b0 ≥ 1` buckets by
completed calls, with `es` the node sequence, `rehash(n)` with `n > bucket_count()`
completes, leaves `bucket_count() == n` and the node sequence `es`, and for every bucket
index `i < n` the `size_` of bucket `i` is the number of entries of `es` with
`hash(key) % n == i` and, when it is positive, `it_` is the first such node of `es`. -/
theorem rehash_rebuilds_index (hash : Key → Nat) (equal : Key → Key → Bool) (dflt : Value)
    (b0 : Nat) (hb : 1 ≤ b0) (m : UnorderedMap Key Value)
    (hm : Reachable hash equal dflt anyOp b0 m) (es : List (Nat × (Key × Value)))
    (hitems : m.items = some es) (n : Nat) (hn : m.bucket_count < n) :
    ∃ m1, rehash hash m n = some m1 ∧ m1.bucket_count = n ∧ m1.items = some es ∧
      ∀ i, i < n →
        (m1.buckets_ i).size_ = es.countP (fun e => hash e.2.1 % n == i) ∧
        (0 < (m1.buckets_ i).size_ →
          some (m1.buckets_ i).it_ =
            (es.find? (fun e => hash e.2.1 % n == i)).map Prod.fst) := by
  obtain ⟨es0, hI⟩ := reachable_inv hash equal dflt anyOp b0 hb m hm
  have hes : es0 = es := by
    have := inv_items hash m es0 hI
    rw [hitems] at this
    exact (Option.some.inj this).symm
  subst hes
  have hn2 : ¬ n ≤ m.bucket_count_ := by
    have : m.bucket_count_ < n := hn
    omega
  obtain ⟨m1, h1, hI1, hnodes, _, hbc⟩ := rehash_spec hash m es0 n hI
  rw [if_neg hn2] at hbc
  obtain ⟨B1, hB1, hit⟩ := rehashLoop_first hash m.nodes_ n es0 endNode m.nodes_.alloc
    (fun _ => ⟨m.nodes_.end_, 0⟩) hI.repr.seg
    (fun e he => ⟨fun h => hI.repr.nz (h ▸ List.mem_map_of_mem _ he),
      (hI.repr.live e.1 e.2).mpr he⟩)
    (Nat.le_of_lt hI.repr.len_lt)
  have hm1 : m1 = { m.allocate_buckets n with buckets_ := B1 } := by
    have h2 : rehash hash m n = some { m.allocate_buckets n with buckets_ := B1 } := by
      unfold rehash
      rw [if_neg hn2]
      simp only [allocate_buckets, LList.begin_]
      rw [hB1]
    rw [h1] at h2
    exact Option.some.inj h2
  refine ⟨m1, h1, hbc, inv_items hash m1 es0 hI1, ?_⟩
  intro i hi
  have hcount : (m1.buckets_ i).size_ = es0.countP (fun e => hash e.2.1 % n == i) := by
    have := hI1.counts i (by rw [hbc]; exact hi)
    rw [this, hbc, List.count_eq_countP, List.countP_map]
    rfl
  refine ⟨hcount, ?_⟩
  intro hpos
  rw [hcount] at hpos
  have hfirst : (m1.buckets_ i).it_ =
      ((es0.find? (fun e => idxOf hash n e == i)).map Prod.fst).getD m.nodes_.end_ := by
    rw [hm1]
    have := hit i
    simpa using this
  rw [hfirst]
  obtain ⟨e, he, hp⟩ := List.countP_pos_iff.mp hpos
  cases hf : es0.find? (fun e => idxOf hash n e == i) with
  | none =>
    have := List.find?_eq_none.mp hf e he
    exact absurd hp this
  | some x =>
    have e2 : es0.find? (fun e => hash e.2.1 % n == i) = some x := hf
    rw [e2]
    rfl

/-- Claim C31 at the map with 4 buckets after `emplace(1, 10)` and `emplace(2, 20)`:
`rehash(6)`. -/
theorem rehash_rebuilds_index_witness :
    Reachable hashId equalNat 0 anyOp 4 map12 ∧
      map12.items = some [(1, (1, 10)), (2, (2, 20))] ∧ map12.bucket_count < 6 ∧
      ∃ m1, rehash hashId map12 6 = some m1 ∧ m1.bucket_count = 6 ∧
        m1.items = some [(1, (1, 10)), (2, (2, 20))] ∧
        ∀ i, i < 6 →
          (m1.buckets_ i).size_ =
            ([(1, (1, 10)), (2, (2, 20))] : List (Nat × (Nat × Nat))).countP
              (fun e => hashId e.2.1 % 6 == i) ∧
          (0 < (m1.buckets_ i).size_ →
            some (m1.buckets_ i).it_ =
              (([(1, (1, 10)), (2, (2, 20))] : List (Nat × (Nat × Nat))).find?
                (fun e => hashId e.2.1 % 6 == i)).map Prod.fst) :=
  ⟨map12_reachable anyOp (fun _ _ _ => trivial), by decide!, by decide!,
    rehash_rebuilds_index hashId equalNat 0 4 (by decide) map12
      (map12_reachable anyOp (fun _ _ _ => trivial)) _ (by decide!) 6 (by decide!)⟩

/-- Claim C32, evaluated on the code: the map with 4 buckets and `hash(k) = k` after
`emplace` of the keys `1`, `2`, `7` has the node sequence `1, 2, 3` (keys `1, 2, 7`), one
node per bucket, and satisfies the contiguity invariant.  `rehash(6)` completes and keeps
the sequence; afterwards bucket `1` has `it_` at node `1` and `size_ = 2` (keys `1` and `7`),
but the successor of node `1` is node `2` with key `2`: the contiguity invariant does not
hold for 6 buckets. -/
theorem rehash_breaks_contiguity :
    map127.items = some [(1, (1, 10)), (2, (2, 20)), (3, (7, 70))] ∧
    map127.bucket_count = 4 ∧
    WellFormedIndex hashId map127 [(1, (1, 10)), (2, (2, 20)), (3, (7, 70))] ∧
    ∃ m1, rehash hashId map127 6 = some m1 ∧ m1.bucket_count = 6 ∧
      m1.items = some [(1, (1, 10)), (2, (2, 20)), (3, (7, 70))] ∧
      m1.buckets_ 1 = ⟨1, 2⟩ ∧ m1.nodes_.next 1 = 2 ∧
      ¬ WellFormedIndex hashId m1 [(1, (1, 10)), (2, (2, 20)), (3, (7, 70))] := by
  have hbc : map127.bucket_count_ = 4 := by decide!
  refine ⟨by decide!, by decide!, ?_, ?_⟩
  · intro i hi hpos
    rw [hbc] at hi
    have h0 : (map127.buckets_ 0).size_ = 0 := by decide!
    have h1 : map127.buckets_ 1 = ⟨1, 1⟩ := by decide!
    have h2 : map127.buckets_ 2 = ⟨2, 1⟩ := by decide!
    have h3 : map127.buckets_ 3 = ⟨3, 1⟩ := by decide!
    rw [hbc]
    have hcases : i = 0 ∨ i = 1 ∨ i = 2 ∨ i = 3 := by omega
    rcases hcases with rfl | rfl | rfl | rfl
    · omega
    · exact ⟨[], [(1, (1, 10))], [(2, (2, 20)), (3, (7, 70))], rfl, by rw [h1]; rfl, by rw [h1]; rfl,
        by decide, by decide⟩
    · exact ⟨[(1, (1, 10))], [(2, (2, 20))], [(3, (7, 70))], rfl, by rw [h2]; rfl, by rw [h2]; rfl,
        by decide, by decide⟩
    · exact ⟨[(1, (1, 10)), (2, (2, 20))], [(3, (7, 70))], [], rfl, by rw [h3]; rfl, by rw [h3]; rfl,
        by decide, by decide⟩
  · have hr : (rehash hashId map127 6).isSome = true := by decide!
    refine ⟨(rehash hashId map127 6).getD map127, eq_some_getD _ hr, by decide!, by decide!,
      by decide!, by decide!, ?_⟩
    intro hw
    have hb6 : ((rehash hashId map127 6).getD map127).bucket_count_ = 6 := by decide!
    have hb1 : ((rehash hashId map127 6).getD map127).buckets_ 1 = ⟨1, 2⟩ := by decide!
    obtain ⟨pre, run, post, hes, hlen, _, hrun, hout⟩ :=
      hw 1 (by rw [hb6]; decide) (by rw [hb1]; decide)
    rw [hb6] at hrun hout
    rw [hb1] at hlen
    cases pre with
    | nil =>
      match run, hlen with
      | [a, b], _ =>
        simp only [List.nil_append, List.cons_append, List.cons.injEq] at hes
        have hb : b = (2, (2, 20)) := hes.2.1.symm
        have := hrun b (by simp)
        rw [hb] at this
        revert this
        decide
    | cons p pre =>
      simp only [List.cons_append, List.cons.injEq] at hes
      have hp : p = (1, (1, 10)) := hes.1.symm
      have := hout p (by simp)
      rw [hp] at this
      revert this
      decide

theorem rehash_bucket_count_le (hash : Key → Nat) (m m1 : UnorderedMap Key Value) (n : Nat)
    (h : rehash hash m n = some m1) : m.bucket_count_ ≤ m1.bucket_count_ := by
  unfold rehash at h
  by_cases hn : n ≤ m.bucket_count_
  · rw [if_pos hn] at h
    rw [← Option.some.inj h]
  · rw [if_neg hn] at h
    simp only [allocate_buckets] at h
    split at h
    · simp at h
    · rw [← Option.some.inj h]
      show m.bucket_count_ ≤ n
      omega

theorem emplace_bucket_count_le (hash : Key → Nat) (equal : Key → Key → Bool)
    (m m1 : UnorderedMap Key Value) (key : Key) (val : Value) (r : Nat × Bool)
    (h : emplace hash equal m key val = some (m1, r)) :
    m.bucket_count_ ≤ m1.bucket_count_ := by
  unfold emplace at h
  by_cases hz : m.bucket_count_ = 0
  · rw [if_pos hz] at h
    simp at h
  · rw [if_neg hz] at h
    simp only at h
    split at h
    · simp at h
    · simp only [Option.some.injEq, Prod.mk.injEq] at h
      rw [← h.1]
    · simp only [Option.map_eq_some', Prod.mk.injEq] at h
      obtain ⟨m4, h4, h5, _⟩ := h
      subst h5
      have hl : (emplace_link m (hash key % m.bucket_count_) key val).bucket_count_ =
          m.bucket_count_ := by
        unfold emplace_link
        simp only
        split <;> rfl
      split at h4
      · have := rehash_bucket_count_le hash _ _ _ h4
        rw [hl] at this
        exact this
      · rw [← Option.some.inj h4, hl]

theorem step_bucket_count_le (hash : Key → Nat) (equal : Key → Key → Bool) (dflt : Value)
    (m m1 : UnorderedMap Key Value) (op : Op Key Value)
    (h : step hash equal dflt m op = some m1) : m.bucket_count_ ≤ m1.bucket_count_ := by
  cases op with
  | emplace key val =>
    simp only [step, Option.map_eq_some'] at h
    obtain ⟨⟨m2, r⟩, h2, rfl⟩ := h
    exact emplace_bucket_count_le hash equal m m2 key val r h2
  | insert value =>
    simp only [step, Option.map_eq_some'] at h
    obtain ⟨⟨m2, r⟩, h2, rfl⟩ := h
    exact emplace_bucket_count_le hash equal m m2 value.1 value.2 r h2
  | index key =>
    simp only [step, Option.map_eq_some'] at h
    obtain ⟨⟨m2, r⟩, h2, rfl⟩ := h
    rcases index_spec hash equal dflt m m2 key r h2 with rfl | ⟨r1, h3⟩
    · exact Nat.le_refl _
    · exact emplace_bucket_count_le hash equal m m2 key dflt r1 h3
  | erase pos =>
    simp only [step, Option.map_eq_some'] at h
    obtain ⟨⟨m2, r⟩, h2, rfl⟩ := h
    unfold erase remove_node at h2
    split at h2
    · simp at h2
    · split at h2
      · simp at h2
      · simp only [Option.some.injEq, Prod.mk.injEq] at h2
        rw [← h2.1]
  | clear =>
    simp only [step, clear] at h
    split at h
    · simp at h
    · rw [← Option.some.inj h]
  | reserve n =>
    simp only [step, reserve] at h
    split at h
    · simp at h
    · exact rehash_bucket_count_le hash _ _ _ h
  | max_load_factor mf =>
    simp only [step, set_max_load_factor] at h
    split at h
    · have := rehash_bucket_count_le hash { m with max_load_factor_ := mf } m1 _ h
      exact this
    · rw [← Option.some.inj h]

/-- Claim C33: `rehash(n)` with `n ≤ bucket_count()` returns the map unchanged, and for
every map state `m` and every sequence of `emplace`, `insert`, `operator[]`, `erase`,
`clear`, `reserve` and threshold-setter calls that completes, leaving `m1`,
`bucket_count()` of `m` is at most `bucket_count()` of `m1`. -/
theorem bucket_count_never_shrinks (hash : Key → Nat) (equal : Key → Key → Bool)
    (dflt : Value) :
    (∀ (m : UnorderedMap Key Value) (n : Nat), n ≤ m.bucket_count → rehash hash m n = some m) ∧
    (∀ (ops : List (Op Key Value)) (m m1 : UnorderedMap Key Value),
      runOps hash equal dflt m ops = some m1 → m.bucket_count ≤ m1.bucket_count) := by
  constructor
  · intro m n hn
    have hn2 : n ≤ m.bucket_count_ := hn
    unfold rehash
    rw [if_pos hn2]
  · intro ops
    induction ops with
    | nil =>
      intro m m1 h
      simp only [runOps, Option.some.injEq] at h
      rw [h]
    | cons op ops ih =>
      intro m m1 h
      simp only [runOps] at h
      cases hs : step hash equal dflt m op with
      | none => rw [hs] at h; simp at h
      | some m2 =>
        rw [hs] at h
        exact Nat.le_trans (step_bucket_count_le hash equal dflt m m2 op hs) (ih m2 m1 h)

/-- Claim C33 at the freshly constructed map with 4 buckets: `rehash(3)` changes nothing,
and the calls `emplace(1, 10)`, `emplace(2, 20)` do not lower the bucket count. -/
theorem bucket_count_never_shrinks_witness :
    rehash hashId (mk_empty 4 : UnorderedMap Nat Nat) 3 = some (mk_empty 4) ∧
      (mk_empty 4 : UnorderedMap Nat Nat).bucket_count ≤ map12.bucket_count :=
  ⟨(bucket_count_never_shrinks hashId equalNat 0).1 (mk_empty 4) 3 (by decide),
    (bucket_count_never_shrinks hashId equalNat 0).2 _ (mk_empty 4) map12 map12_run⟩

/-- Claim C34 as stated fails on the code.  The map with 10 buckets and the seven keys `0`
to `6`: `size() > 0.7f * 10` holds in exact arithmetic (`0.7f` is less than `7/10`), but
`load_factor()` is `7.0f / 10`, which rounds to `0.7f`, the comparison
`load_factor() > 0.7f` is false, and `max_load_factor(0.7f)` leaves 10 buckets. -/
theorem setter_compares_rounded_quotient :
    (map7of10.size, map7of10.bucket_count) = (7, 10) ∧
    decide ((map7of10.size : ℚ) > f07.value * map7of10.bucket_count) = true ∧
    map7of10.load_factor = f07 ∧
    F32.gt map7of10.load_factor f07 = false ∧
    (set_max_load_factor hashId map7of10 f07).map
      (fun m => (m.bucket_count, m.max_load_factor, m.size)) = some (10, f07, 7) := by
  refine ⟨by decide!, by decide!, by decide!, by decide!, by decide!⟩

/-- Claim C34, amended: in every state reached from a map constructed with `b0 ≥ 1` buckets
by completed calls, for every threshold `t` the call `max_load_factor(t)` completes, stores
the threshold `t`, leaves `bucket_count()` at `2 * b` when `load_factor() > t` held before
the call in `float` arithmetic (`b` the bucket count before) and at `b` otherwise, and keeps
the node sequence and `size()`.  For a finite threshold `t` and counters that are values of
`size_t`, the bucket count is `2 * b` when `size() * (1 - 2 ^ (-22)) > t * b` and `b` when
`size() * (1 + 2 ^ (-22)) ≤ t * b`. -/
theorem max_load_factor_setter (hash : Key → Nat) (equal : Key → Key → Bool) (dflt : Value)
    (b0 : Nat) (hb : 1 ≤ b0) (m : UnorderedMap Key Value)
    (hm : Reachable hash equal dflt anyOp b0 m) (t : F32) :
    ∃ m1, set_max_load_factor hash m t = some m1 ∧ m1.max_load_factor = t ∧
      m1.bucket_count =
        (if F32.gt m.load_factor t then 2 * m.bucket_count else m.bucket_count) ∧
      m1.items = m.items ∧ m1.size = m.size ∧
      ∀ q : ℚ, t = F32.finite q → m.size < 2 ^ 64 → m.bucket_count < 2 ^ 64 →
        ((m.size : ℚ) * (1 - 1 / 2 ^ 22) > q * m.bucket_count →
          m1.bucket_count = 2 * m.bucket_count) ∧
        ((m.size : ℚ) * (1 + 1 / 2 ^ 22) ≤ q * m.bucket_count →
          m1.bucket_count = m.bucket_count) := by
  obtain ⟨es, hI⟩ := reachable_inv hash equal dflt anyOp b0 hb m hm
  obtain ⟨m1, h1, _, hn, hl, hbc⟩ := set_max_load_factor_spec hash m es t hI
  have hlf : m.load_factor = loadOf m.nodes_.size_ m.bucket_count_ := rfl
  have hcount : m1.bucket_count =
      (if F32.gt m.load_factor t then 2 * m.bucket_count else m.bucket_count) := by
    show m1.bucket_count_ = _
    rw [hbc, hlf]
    by_cases hgt : F32.gt (loadOf m.nodes_.size_ m.bucket_count_) t = true
    · rw [if_pos hgt, if_pos hgt]
      show m.bucket_count_ * 2 = 2 * m.bucket_count_
      omega
    · rw [if_neg hgt, if_neg hgt]
      rfl
  refine ⟨m1, h1, hl, hcount, by unfold items; rw [hn], by unfold size; rw [hn], ?_⟩
  intro q hq hs64 hb64
  have hs2 : m.nodes_.size_ < 2 ^ 64 := hs64
  have hb2 : m.bucket_count_ < 2 ^ 64 := hb64
  obtain ⟨hfin, _⟩ := loadOf_finite m.nodes_.size_ m.bucket_count_ hs2 hI.bc_pos hb2
  obtain ⟨hlow, hup⟩ := loadOf_bounds m.nodes_.size_ m.bucket_count_ hs2 hI.bc_pos hb2
  have hbq : (0 : ℚ) < (m.bucket_count_ : ℚ) := by exact_mod_cast hI.bc_pos
  have hgtiff : F32.gt m.load_factor t = true ↔
      (loadOf m.nodes_.size_ m.bucket_count_).value > q := by
    rw [hlf, hfin, hq]
    simp [F32.gt, F32.value]
  constructor
  · intro h
    have h2 : (m.nodes_.size_ : ℚ) * (1 - 1 / 2 ^ 22) > q * m.bucket_count_ := h
    have hv : (loadOf m.nodes_.size_ m.bucket_count_).value > q := by
      by_contra hc
      have := mul_le_mul_of_nonneg_right (not_lt.mp hc) (le_of_lt hbq)
      linarith
    rw [hcount, if_pos (hgtiff.mpr hv)]
  · intro h
    have h2 : (m.nodes_.size_ : ℚ) * (1 + 1 / 2 ^ 22) ≤ q * m.bucket_count_ := h
    have hv : ¬ (loadOf m.nodes_.size_ m.bucket_count_).value > q := by
      intro hc
      have := mul_lt_mul_of_pos_right hc hbq
      linarith
    have hng : ¬ F32.gt m.load_factor t = true := fun hg => hv (hgtiff.mp hg)
    rw [hcount, if_neg hng]

/-- Claim C34, amended, at the map with 10 buckets and the seven keys `0` to `6` and the
threshold `0.7f`. -/
theorem max_load_factor_setter_witness :
    Reachable hashId equalNat 0 anyOp 10 map7of10 ∧
      ∃ m1, set_max_load_factor hashId map7of10 f07 = some m1 ∧
        m1.max_load_factor = f07 ∧
        m1.bucket_count =
          (if F32.gt map7of10.load_factor f07 then 2 * map7of10.bucket_count
           else map7of10.bucket_count) ∧
        m1.items = map7of10.items ∧ m1.size = map7of10.size ∧
        ∀ q : ℚ, f07 = F32.finite q → map7of10.size < 2 ^ 64 →
          map7of10.bucket_count < 2 ^ 64 →
          ((map7of10.size : ℚ) * (1 - 1 / 2 ^ 22) > q * map7of10.bucket_count →
            m1.bucket_count = 2 * map7of10.bucket_count) ∧
          ((map7of10.size : ℚ) * (1 + 1 / 2 ^ 22) ≤ q * map7of10.bucket_count →
            m1.bucket_count = map7of10.bucket_count) :=
  have hr : Reachable hashId equalNat 0 anyOp 10 map7of10 :=
    reachable_runOps hashId equalNat 0 anyOp 10 _ _ _ (fun _ _ _ => trivial)
      Reachable.init (eq_some_getD _ (by decide!))
  ⟨hr, max_load_factor_setter hashId equalNat 0 10 (by decide) map7of10 hr f07⟩

/-- Claim C35, evaluated on the code with an allocator whose `allocate` throws.  On the map
with 4 buckets after `emplace(1, 10)` and `emplace(2, 20)`, `reserve(6)` ends with the
exception and leaves `bucket_count() == 6` with the old bucket array and the old entries.
On the map with 1 bucket after `emplace(0, 0)` (size 1), `emplace(1, 10)` ends with the
exception and leaves `bucket_count() == 2`, `size() == 2` and the new entry in the
sequence.  `max_load_factor(0.25f)` on the first map, a `noexcept` function, ends in
`std::terminate`. -/
theorem rehash_bad_alloc_not_atomic :
    map12.bucket_count = 4 ∧ map12.size = 2 ∧
    ((reserve_alloc false hashId map12 6).bind Signalled.thrown).map
      (fun m => (m.bucket_count, m.size)) = some (6, 2) ∧
    ((reserve_alloc false hashId map12 6).bind Signalled.thrown).map
      (fun m => (m.buckets_ 1, m.buckets_ 2, m.entries)) =
      some (map12.buckets_ 1, map12.buckets_ 2, map12.entries) ∧
    map0.bucket_count = 1 ∧ map0.size = 1 ∧ map0.entries = some [(0, 0)] ∧
    ((emplace_alloc false hashId equalNat map0 1 10).bind Signalled.thrown).map
      (fun m => (m.bucket_count, m.size)) = some (2, 2) ∧
    ((emplace_alloc false hashId equalNat map0 1 10).bind Signalled.thrown).bind
      (fun m => m.entries) = some [(1, 10), (0, 0)] ∧
    (set_max_load_factor_alloc false hashId map12 (F32.finite (1 / 4))).map
        Signalled.terminated =
      some true := by
  refine ⟨by decide!, by decide!, by decide!, by decide!, by decide!, by decide!, by decide!,
    by decide!, by decide!, by decide!⟩

/-- Claim C37, evaluated on the code: with 4 buckets and `hash(k) = k`, the calls
`emplace(1, 10)`, `emplace(5, 50)`, `emplace(2, 20)` create the nodes `1`, `2`, `3`; then
`erase` of node `1` moves `it_` of bucket `1` to its successor, node `3` (key `2`), and
`erase` of node `3` destroys that node.  The map then holds the entry `(5, 50)`, bucket `1`
has `size_ = 1` and `it_` at node `3`, which is no live node, and `find(5)`,
`emplace(5, 55)` and `emplace(9, 90)` read the payload of the destroyed node. -/
theorem bucket_start_dangles :
    (runOps hashId equalNat 0 (mk_empty 4)
      [Op.emplace 1 10, Op.emplace 5 50, Op.emplace 2 20, Op.erase 1, Op.erase 3]).isSome =
      true ∧
    Reachable hashId equalNat 0 emplaceEraseOp 4 map5 ∧
    map5.items = some [(2, (5, 50))] ∧ map5.size = 1 ∧
    map5.buckets_ 1 = ⟨3, 1⟩ ∧ map5.nodes_.value 3 = none ∧
    find hashId equalNat map5 5 = none ∧
    (emplace hashId equalNat map5 5 55).isNone = true ∧
    (emplace hashId equalNat map5 9 90).isNone = true := by
  have hrun : (runOps hashId equalNat 0 (mk_empty 4)
      [Op.emplace 1 10, Op.emplace 5 50, Op.emplace 2 20, Op.erase 1, Op.erase 3]).isSome =
      true := by decide!
  refine ⟨hrun, ?_, by decide!, by decide!, by decide!, by decide!, by decide!, by decide!,
    by decide!⟩
  refine reachable_runOps hashId equalNat 0 emplaceEraseOp 4 _ _ _ ?_ Reachable.init
    (eq_some_getD _ hrun)
  intro op hop s
  simp only [List.mem_cons, List.mem_singleton, List.not_mem_nil, or_false] at hop
  rcases hop with rfl | rfl | rfl | rfl | rfl <;> trivial

/-- Claim C38: for every map `A`, after `B` is move-constructed from `A` the map `A` has
`bucket_count_ == 0` (and `buckets_ == nullptr`), so for every key `k` the index
computation `hash(k) % bucket_count_` of `A.find(k)` and of `A.emplace(k, v)` divides by
zero: neither call is defined, and `A.find(k)` does not return `A.end()`. -/
theorem moved_from_map_divides_by_zero (hash : Key → Nat) (equal : Key → Key → Bool)
    (A : UnorderedMap Key Value) (k : Key) (v : Value) :
    A.move_construct.moved_from.bucket_count = 0 ∧
      find hash equal A.move_construct.moved_from k = none ∧
      emplace hash equal A.move_construct.moved_from k v = none ∧
      find hash equal A.move_construct.moved_from k ≠
        some A.move_construct.moved_from.end_ := by
  have h0 : A.move_construct.moved_from.bucket_count_ = 0 := rfl
  have hf : find hash equal A.move_construct.moved_from k = none := by
    unfold find
    rw [if_pos h0]
  refine ⟨h0, hf, ?_, ?_⟩
  · unfold emplace
    rw [if_pos h0]
  · rw [hf]
    simp

end UnorderedMap

/-! ## The claim C36 on the links of the list -/

section SegBack

theorem seg_reverse {nx pv : Nat → Nat} :
    ∀ (ps : List Nat) (a b : Nat), Seg nx pv a ps b → Seg pv nx b ps.reverse a
  | [], a, b, h => ⟨h.2, h.1⟩
  | p :: ps, a, b, h => by
    obtain ⟨h1, h2, h3⟩ := h
    have ih := seg_reverse ps p b h3
    rw [List.reverse_cons]
    exact (@seg_append pv nx ps.reverse b p [] a).mpr ⟨ih, h2, h1⟩

theorem seg_links {nx pv : Nat → Nat} :
    ∀ (ps : List Nat) (a b : Nat), Seg nx pv a ps b →
      (∀ n, n ∈ a :: ps → pv (nx n) = n) ∧ (∀ n, n ∈ ps ++ [b] → nx (pv n) = n)
  | [], a, b, h => by
    obtain ⟨h1, h2⟩ := h
    constructor
    · intro n hn
      simp only [List.mem_singleton] at hn
      subst hn
      rw [h1, h2]
    · intro n hn
      simp only [List.nil_append, List.mem_singleton] at hn
      subst hn
      rw [h2, h1]
  | p :: ps, a, b, h => by
    obtain ⟨h1, h2, h3⟩ := h
    obtain ⟨i1, i2⟩ := seg_links ps p b h3
    constructor
    · intro n hn
      rcases List.mem_cons.mp hn with rfl | hn
      · rw [h1, h2]
      · exact i1 n hn
    · intro n hn
      rcases List.mem_cons.mp hn with rfl | hn
      · rw [h2, h1]
      · exact i2 n hn

end SegBack

namespace LList

variable {T : Type}

theorem walkBack_eq_walk (l : LList T) :
    ∀ (fuel it : Nat), l.walkBack fuel it =
      ({ l with next := l.prev, prev := l.next } : LList T).walk fuel it
  | 0, 0 => rfl
  | 0, _ + 1 => rfl
  | _ + 1, 0 => rfl
  | fuel + 1, it + 1 => by
    simp only [walkBack, walk]
    cases l.value (it + 1) with
    | none => rfl
    | some v =>
      simp only
      rw [walkBack_eq_walk l fuel]

theorem reprIn_items_back (l : LList T) (es : List (Nat × T))
    (hr : l.ReprIn endNode es [] []) : l.items_back = some es.reverse := by
  unfold items_back
  rw [walkBack_eq_walk]
  have hs := seg_reverse _ _ _ hr.seg
  rw [← List.map_reverse] at hs
  refine walk_seg ({ l with next := l.prev, prev := l.next } : LList T) es.reverse endNode
    l.alloc hs ?_ (by rw [List.length_reverse]; exact Nat.le_of_lt hr.len_lt)
  intro x hx
  have hx2 : x ∈ es := List.mem_reverse.mp hx
  refine ⟨fun h => hr.e_not (h ▸ List.mem_map_of_mem _ hx2), ?_⟩
  exact (hr.live x.1 x.2).mpr (Or.inl hx2)

theorem reprIn_erase_any_size (l : LList T) (e : Nat) (es : List (Nat × T))
    (sent : List Nat) (rest : List (Nat × T)) (iter : Nat) (hr : l.ReprIn e es sent rest)
    (hi : iter ∈ e :: es.map Prod.fst) (hsz : l.size_ = es.length) :
    ∃ es1, (erase_at e l iter).1.ReprIn e es1 sent rest ∧
      (erase_at e l iter).1.size_ = es1.length := by
  rcases List.mem_cons.mp hi with h | h
  · subst h
    have : erase_at iter l iter = (l, iter) := by simp [erase_at]
    rw [this]
    exact ⟨es, hr, hsz⟩
  · obtain ⟨⟨h1, d⟩, hm, rfl⟩ := List.mem_map.mp h
    obtain ⟨xs, ys, rfl⟩ := List.append_of_mem hm
    obtain ⟨r1, _, _, r4, _⟩ := reprIn_erase l e xs ys sent rest h1 d hr
    refine ⟨xs ++ ys, r1, ?_⟩
    rw [r4, hsz]
    unfold dec64
    simp only [List.length_append, List.length_cons]
    rw [if_neg (by omega)]
    omega

theorem stepAt_size (l : LList T) (e : Nat) (es : List (Nat × T)) (sent : List Nat)
    (rest : List (Nat × T)) (op : LOp T) (hr : l.ReprIn e es sent rest)
    (hv : validAt e l op) (hop : linkOp op) (hsz : l.size_ = es.length) :
    ∃ l1 es1, stepAt e l op = some l1 ∧ l1.ReprIn e es1 sent rest ∧
      l1.size_ = es1.length := by
  have hnext : l.next e = (es.map Prod.fst).headD e := by
    rw [seg_next_eq _ _ _ hr.seg]
    cases es <;> simp
  cases op with
  | push_back val =>
    obtain ⟨r1, _, r3, _⟩ := reprIn_insert l e es [] sent rest e val (by simpa using hr)
      (by simp)
    refine ⟨_, _, rfl, r1, ?_⟩
    rw [r3, hsz]
    simp
  | push_front val =>
    have hpe : l.prev (l.next e) = e := by
      have hs := hr.seg
      cases es with
      | nil => exact hs.1.symm ▸ hs.2
      | cons x xs => exact hs.1.symm ▸ hs.2.1
    have hne : l.next e ≠ l.alloc := by
      have hm : l.next e ∈ e :: es.map Prod.fst := by
        rw [hnext]; cases es <;> simp
      exact fun h => absurd (hr.lt_alloc _ (Or.inl hm)) (by omega)
    have heq : (l.create val).1.insertNextTo (l.create val).2 e =
        (l.insert (l.next e) val).1 := by
      simp only [insert, create, upd, if_neg hne, hpe]
    obtain ⟨r1, _, r3, _⟩ := reprIn_insert l e [] es sent rest (l.next e) val
      (by simpa using hr) hnext
    refine ⟨_, _, rfl, heq ▸ r1, ?_⟩
    rw [heq, r3, hsz]
    simp
  | pop_back =>
    have hm : l.prev e ∈ e :: es.map Prod.fst := (seg_prev_mem _ _ _ hr.seg).1
    obtain ⟨es1, r1, r2⟩ := reprIn_erase_any_size l e es sent rest _ hr hm hsz
    exact ⟨_, es1, rfl, r1, r2⟩
  | pop_front =>
    have hm : l.next e ∈ e :: es.map Prod.fst := by
      rw [hnext]; cases es <;> simp
    obtain ⟨es1, r1, r2⟩ := reprIn_erase_any_size l e es sent rest _ hr hm hsz
    exact ⟨_, es1, rfl, r1, r2⟩
  | insert iter val =>
    have hm := mem_of_valid l e es sent rest iter hr hv
    have hsplit : ∃ xs ys, es = xs ++ ys ∧ iter = (ys.map Prod.fst).headD e := by
      rcases List.mem_cons.mp hm with h | h
      · exact ⟨es, [], by simp, by simp [h]⟩
      · obtain ⟨⟨h1, d⟩, hmem, rfl⟩ := List.mem_map.mp h
        obtain ⟨xs, ys, rfl⟩ := List.append_of_mem hmem
        exact ⟨xs, (h1, d) :: ys, rfl, by simp⟩
    obtain ⟨xs, ys, rfl, hit⟩ := hsplit
    obtain ⟨r1, _, r3, _⟩ := reprIn_insert l e xs ys sent rest iter val hr hit
    refine ⟨_, _, rfl, r1, ?_⟩
    rw [r3, hsz]
    simp only [List.length_append, List.length_cons]
    omega
  | erase iter =>
    have hm := mem_of_valid l e es sent rest iter hr hv
    obtain ⟨es1, r1, r2⟩ := reprIn_erase_any_size l e es sent rest _ hr hm hsz
    exact ⟨_, es1, rfl, r1, r2⟩
  | clear => exact absurd hop (fun h => h)

theorem reachableLinks_reprIn (l : LList T) (hl : ReachableLinks l) :
    ∃ es, l.ReprIn endNode es [] [] ∧ l.size_ = es.length := by
  induction hl with
  | init => exact ⟨[], reprIn_empty, rfl⟩
  | step l op l1 _ hop hv hs ih =>
    obtain ⟨es, hr, hsz⟩ := ih
    obtain ⟨l2, es1, h2, hr2, hsz2⟩ := stepAt_size l endNode es [] [] op hr hv hop hsz
    rw [h2] at hs
    cases hs
    exact ⟨es1, hr2, hsz2⟩

/-- Claim C36: for every List reached from the empty list by `push_back`, `push_front`,
`insert`, `erase`, `pop_back` and `pop_front` (iterators of the list itself), with `es` the
nodes met following `next` from `begin()` until the sentinel: the traversal completes,
meets `size()` nodes, no node twice, and the nodes it meets are exactly the live nodes;
following `prev` from the sentinel meets the same nodes in the reverse order; and every
node `n` of the list, the sentinel included, has `n.next.prev == n` and
`n.prev.next == n`. -/
theorem list_link_invariant (l : LList T) (hl : ReachableLinks l) :
    ∃ es, l.items = some es ∧ es.length = l.size ∧ (es.map Prod.fst).Nodup ∧
      endNode ∉ es.map Prod.fst ∧
      (∀ a v, l.value a = some v ↔ (a, v) ∈ es) ∧
      l.items_back = some es.reverse ∧
      ∀ n, n ∈ endNode :: es.map Prod.fst →
        l.prev (l.next n) = n ∧ l.next (l.prev n) = n := by
  obtain ⟨es, hr, hsz⟩ := reachableLinks_reprIn l hl
  refine ⟨es, ?_, hsz.symm, hr.nodup, hr.e_not, ?_, reprIn_items_back l es hr, ?_⟩
  · rw [items_eq_items_at]
    exact reprIn_items l endNode es [] [] hr
  · intro a v
    rw [hr.live a v]
    simp
  · obtain ⟨h1, h2⟩ := seg_links _ _ _ hr.seg
    intro n hn
    refine ⟨h1 n hn, h2 n ?_⟩
    rcases List.mem_cons.mp hn with rfl | hn
    · simp
    · simp [hn]

theorem list579_reachable : ReachableLinks list579 := by
  have h1 : ReachableLinks ((LList.empty : LList Nat).push_back 7) :=
    ReachableLinks.step _ (LOp.push_back 7) _ ReachableLinks.init trivial trivial rfl
  have h2 := ReachableLinks.step _ (LOp.push_front 5) _ h1 trivial trivial rfl
  exact ReachableLinks.step _ (LOp.push_back 9) _ h2 trivial trivial rfl

/-- Claim C36 at the list after `push_back(7)`, `push_front(5)`, `push_back(9)`. -/
theorem list_link_invariant_witness :
    ReachableLinks list579 ∧
      ∃ es, list579.items = some es ∧ es.length = list579.size ∧ (es.map Prod.fst).Nodup ∧
        endNode ∉ es.map Prod.fst ∧
        (∀ a v, list579.value a = some v ↔ (a, v) ∈ es) ∧
        list579.items_back = some es.reverse ∧
        ∀ n, n ∈ endNode :: es.map Prod.fst →
          list579.prev (list579.next n) = n ∧ list579.next (list579.prev n) = n :=
  ⟨list579_reachable, list_link_invariant list579 list579_reachable⟩

end LList

/-! ## The claim C40 on `BigInteger`: the decimal round trip -/

namespace BigInteger

/-- The call `x == 0` of the source, through `operator==` and `operator<`, is `eq_zero`. -/
theorem eq_zero_spec (x : BigInteger) : eq x zero = eq_zero x := by
  unfold eq lt eq_zero
  have hz : zero.is_negative_ = false := rfl
  cases hx : x.is_negative_ <;> simp [hz]

/-- The unary minus of a negative value clears the sign flag. -/
theorem neg_of_negative (x : BigInteger) (hx : x.is_negative_ = true) :
    (neg x).is_negative_ = false := by
  have hz : zero.is_negative_ = false := rfl
  have he : eq_zero x = false := by
    unfold eq_zero
    simp [hx, hz]
  unfold neg
  simp [he, hx]

/-- For two negative operands `operator<` compares `-(second)` and `-(first)` by
`CompareByModul`. -/
theorem lt_of_negative (a b : BigInteger) (ha : a.is_negative_ = true)
    (hb : b.is_negative_ = true) : lt a b = CompareByModul (neg b) (neg a) := by
  unfold lt
  simp [ha, hb, neg_of_negative a ha, neg_of_negative b hb]

theorem digit_of_isDigit (c : Char) (h : c.isDigit = true) :
    ∃ d : Nat, d < 10 ∧ c = digitChar d ∧ charVal c = (d : Int) := by
  have h1 : 48 ≤ c.toNat ∧ c.toNat ≤ 57 := by
    simp only [Char.isDigit, Bool.and_eq_true, decide_eq_true_eq] at h
    exact ⟨h.1, h.2⟩
  refine ⟨c.toNat - 48, by omega, ?_, ?_⟩
  · unfold digitChar
    have : 48 + (c.toNat - 48) = c.toNat := by omega
    rw [this, Char.ofNat_toNat]
  · unfold charVal
    omega

theorem digitChar_zero : digitChar 0 = '0' := by decide

theorem digitChar_ne_zero : ∀ d, d < 10 → d ≠ 0 → digitChar d ≠ '0' := by decide

theorem digitChar_ne_minus : ∀ d, d < 10 → digitChar d ≠ '-' := by decide

theorem padded_length : ∀ (k n : Nat), (padded k n).length = k
  | 0, _ => rfl
  | k + 1, n => by simp [padded, padded_length k]

theorem padded_zero : ∀ k : Nat, padded k 0 = List.replicate k '0'
  | 0 => rfl
  | k + 1 => by
    rw [padded, Nat.zero_div, Nat.zero_mod, padded_zero k, digitChar_zero,
      List.replicate_succ']

/-- Reading one more digit in front: the loop step `temp += (s[i] - '0') * len`. -/
theorem padded_cons : ∀ (j t d : Nat), d < 10 → t < 10 ^ j →
    padded (j + 1) (t + d * 10 ^ j) = digitChar d :: padded j t
  | 0, t, d, hd, ht => by
    have ht0 : t = 0 := by simpa using ht
    subst ht0
    simp [padded, Nat.div_eq_of_lt hd, Nat.mod_eq_of_lt hd]
  | j + 1, t, d, hd, ht => by
    have e : d * 10 ^ (j + 1) = d * 10 ^ j * 10 := by
      rw [Nat.pow_succ, Nat.mul_assoc]
    have h1 : (t + d * 10 ^ (j + 1)) / 10 = t / 10 + d * 10 ^ j := by
      rw [e, Nat.add_mul_div_right _ _ (by omega)]
    have h2 : (t + d * 10 ^ (j + 1)) % 10 = t % 10 := by
      rw [e, Nat.add_mul_mod_self_right]
    have h3 : t / 10 < 10 ^ j := by
      rw [Nat.pow_succ] at ht
      omega
    rw [padded, h1, h2, padded_cons j (t / 10) d hd h3]
    rfl

theorem showFuel_padded : ∀ (j fuel n : Nat), 1 ≤ j → j ≤ fuel → n < 10 ^ j →
    (showFuel fuel n).length ≤ j ∧ 1 ≤ (showFuel fuel n).length ∧
      padded j n = List.replicate (j - (showFuel fuel n).length) '0' ++ showFuel fuel n
  | 0, _, _, h, _, _ => absurd h (by omega)
  | j + 1, 0, _, _, h, _ => absurd h (by omega)
  | j + 1, fuel + 1, n, _, hf, hn => by
    by_cases h10 : n < 10
    · have hs : showFuel (fuel + 1) n = [digitChar n] := by simp [showFuel, h10]
      rw [hs]
      refine ⟨by simp, by simp, ?_⟩
      rw [padded, Nat.div_eq_of_lt h10, Nat.mod_eq_of_lt h10, padded_zero]
      simp
    · have hs : showFuel (fuel + 1) n = showFuel fuel (n / 10) ++ [digitChar (n % 10)] := by
        simp [showFuel, h10]
      have hj : 1 ≤ j := by
        rcases Nat.eq_zero_or_pos j with h | h
        · subst h
          simp at hn
          omega
        · exact h
      have hn2 : n / 10 < 10 ^ j := by
        rw [Nat.pow_succ] at hn
        omega
      obtain ⟨i1, i2, i3⟩ := showFuel_padded j fuel (n / 10) hj (by omega) hn2
      rw [hs]
      refine ⟨by simp; omega, by simp, ?_⟩
      rw [padded, i3]
      simp only [List.length_append, List.length_singleton, List.append_assoc]
      have : j + 1 - ((showFuel fuel (n / 10)).length + 1) =
          j - (showFuel fuel (n / 10)).length := by omega
      rw [this]

theorem show64_natCast (n : Nat) : show64 (n : Int) = showFuel 20 n := by
  unfold show64
  rw [if_neg (by omega)]
  simp

/-- A limb below `10^8` printed under `setw(8)` and `setfill('0')`. -/
theorem setw8_show64 (n : Nat) (hn : n < 10 ^ 8) : setw8 (show64 (n : Int)) = padded 8 n := by
  obtain ⟨_, _, h3⟩ := showFuel_padded 8 20 n (by omega) (by omega) hn
  rw [show64_natCast, h3]
  rfl

/-- The most significant limb printed without padding. -/
theorem show64_top (j n : Nat) (hj1 : 1 ≤ j) (hj : j ≤ 8) (hn : n < 10 ^ j)
    (hh : (padded j n).head? ≠ some '0' ∨ j = 1) : show64 (n : Int) = padded j n := by
  obtain ⟨h1, h2, h3⟩ := showFuel_padded j 20 n hj1 (by omega) hn
  rw [show64_natCast]
  have hz : j - (showFuel 20 n).length = 0 := by
    rcases hh with hh | hh
    · by_contra hne
      obtain ⟨k, hk⟩ : ∃ k, j - (showFuel 20 n).length = k + 1 :=
        ⟨j - (showFuel 20 n).length - 1, by omega⟩
      rw [h3, hk] at hh
      exact hh (by simp [List.replicate_succ])
    · omega
  rw [h3, hz]
  rfl

theorem render_snoc (ds : List Int) (t : Nat) (ht : t < 10 ^ 8) :
    render (ds ++ [(t : Int)]) = padded 8 t ++ render ds := by
  unfold render
  rw [List.reverse_append]
  simp only [List.reverse_cons, List.reverse_nil, List.nil_append, List.singleton_append,
    List.flatMap_cons]
  rw [setw8_show64 t ht]

/-- The reading loop: from the state after `j` characters of the current limb
(`len = 10^j`, `temp = t`), reading the characters `cs` leaves the limbs `ds1` and the
value `t1` of the last, unfinished limb of `j1` characters. -/
theorem parseLoop_spec : ∀ (cs : List Char) (j t : Nat) (ds : List Int),
    (∀ c ∈ cs, c.isDigit = true) → j ≤ 8 → t < 10 ^ j →
    ∃ (ds1 : List Int) (j1 t1 : Nat),
      parseLoop cs ((10 ^ j : Nat) : Int) (t : Int) ds = (ds1, (t1 : Int)) ∧
      j1 ≤ 8 ∧ (1 ≤ j ∨ cs ≠ [] → 1 ≤ j1) ∧ t1 < 10 ^ j1 ∧
      padded j1 t1 ++ render ds1 = cs.reverse ++ (padded j t ++ render ds)
  | [], j, t, ds, _, hj, ht => by
    refine ⟨ds, j, t, rfl, hj, ?_, ht, by simp⟩
    intro h
    rcases h with h | h
    · exact h
    · exact absurd rfl h
  | c :: cs, j, t, ds, hc, hj, ht => by
    obtain ⟨d, hd, hcd, hcv⟩ := digit_of_isDigit c (hc c (List.mem_cons_self _ _))
    have hcs : ∀ x ∈ cs, x.isDigit = true := fun x hx => hc x (List.mem_cons_of_mem _ hx)
    by_cases h8 : j = 8
    · subst h8
      have hb : ((10 ^ 8 : Nat) : Int) = base_ := by decide
      obtain ⟨ds1, j1, t1, h1, h2, h3, h4, h5⟩ :=
        parseLoop_spec cs 1 d (ds ++ [(t : Int)]) hcs (by omega) (by simpa using hd)
      refine ⟨ds1, j1, t1, ?_, h2, fun _ => h3 (Or.inl (Nat.le_refl _)), h4, ?_⟩
      · rw [parseLoop, if_pos hb, hcv]
        have e1 : (1 : Int) * 10 = ((10 ^ 1 : Nat) : Int) := by decide
        have e2 : (0 : Int) + (d : Int) * 1 = (d : Int) := by omega
        rw [e1, e2]
        exact h1
      · rw [h5, render_snoc ds t ht]
        have : padded 1 d = [c] := by
          rw [hcd]
          simp [padded, Nat.div_eq_of_lt hd, Nat.mod_eq_of_lt hd]
        rw [this]
        simp
    · have hj2 : j < 8 := by omega
      have hb : ¬ ((10 ^ j : Nat) : Int) = base_ := by
        intro h
        have h2 : ((10 ^ j : Nat) : Int) = ((10 ^ 8 : Nat) : Int) := by
          rw [h]
          decide
        have h3 : 10 ^ j = 10 ^ 8 := by exact_mod_cast h2
        have := Nat.pow_right_injective (by omega : 2 ≤ 10) h3
        omega
      have ht2 : t + d * 10 ^ j < 10 ^ (j + 1) := by
        rw [Nat.pow_succ]
        have : d * 10 ^ j ≤ 9 * 10 ^ j := Nat.mul_le_mul_right _ (by omega)
        omega
      obtain ⟨ds1, j1, t1, h1, h2, h3, h4, h5⟩ :=
        parseLoop_spec cs (j + 1) (t + d * 10 ^ j) ds hcs (by omega) ht2
      refine ⟨ds1, j1, t1, ?_, h2, fun _ => h3 (Or.inl (by omega)), h4, ?_⟩
      · rw [parseLoop, if_neg hb, hcv]
        have e1 : ((10 ^ j : Nat) : Int) * 10 = ((10 ^ (j + 1) : Nat) : Int) := by
          push_cast
          ring
        have e2 : (t : Int) + (d : Int) * ((10 ^ j : Nat) : Int) =
            ((t + d * 10 ^ j : Nat) : Int) := by
          push_cast
          ring
        rw [e1, e2]
        exact h1
      · rw [h5, padded_cons j t d hd ht, hcd]
        simp

theorem padded_head_ne_zero (j t : Nat)
    (hh : (padded j t).head? ≠ some '0') (hj : 1 ≤ j) : t ≠ 0 := by
  intro h0
  subst h0
  rw [padded_zero] at hh
  obtain ⟨k, rfl⟩ : ∃ k, j = k + 1 := ⟨j - 1, by omega⟩
  exact hh (by simp [List.replicate_succ])

theorem popZeros_top (d : Int) (ds : List Int) (h : d ≠ 0) :
    popZeros (d :: ds) = d :: ds := by
  cases ds with
  | nil => rfl
  | cons d2 ds => simp [popZeros, h]

/-- The constructor on the digits `body` (not starting with `'0'`) with the sign `minus`:
the object it stores, and `toString()` of it. -/
theorem ofString_body (body : List Char) (minus : Bool) (hne : body ≠ [])
    (hd : ∀ c ∈ body, c.isDigit = true) (hh : body.head? ≠ some '0') :
    ∃ (ds1 : List Int) (t1 : Int), t1 ≠ 0 ∧
      ofString ((if minus then ['-'] else []) ++ body) =
        { digits_ := ds1 ++ [t1], is_negative_ := minus } ∧
      toString { digits_ := ds1 ++ [t1], is_negative_ := minus } =
        (if minus then ['-'] else []) ++ body := by
  obtain ⟨ds1, j1, t1, h1, h2, h3, h4, h5⟩ :=
    parseLoop_spec body.reverse 0 0 [] (fun c hc => hd c (List.mem_reverse.mp hc))
      (by omega) (by simp)
  have hj1 : 1 ≤ j1 := h3 (Or.inr (by simpa using hne))
  simp only [List.reverse_reverse, padded, render, List.reverse_nil, List.flatMap_nil,
    List.append_nil, List.nil_append] at h5
  have h5b : padded j1 t1 ++ render ds1 = body := h5
  obtain ⟨c0, rest, hb⟩ : ∃ c0 rest, body = c0 :: rest := by
    cases body with
    | nil => exact absurd rfl hne
    | cons c0 rest => exact ⟨c0, rest, rfl⟩
  have hc0 : c0.isDigit = true := hd c0 (by rw [hb]; exact List.mem_cons_self _ _)
  obtain ⟨d0, hd0, hcd0, _⟩ := digit_of_isDigit c0 hc0
  have hc0m : c0 ≠ '-' := hcd0 ▸ digitChar_ne_minus d0 hd0
  have hph : (padded j1 t1).head? = body.head? := by
    rw [← h5b]
    have hl := padded_length j1 t1
    cases hp : padded j1 t1 with
    | nil => rw [hp] at hl; simp at hl; omega
    | cons x xs => simp
  have hpz : (padded j1 t1).head? ≠ some '0' := hph ▸ hh
  have ht1 : t1 ≠ 0 := padded_head_ne_zero j1 t1 hpz hj1
  have ht1i : (t1 : Int) ≠ 0 := by exact_mod_cast ht1
  refine ⟨ds1, (t1 : Int), ht1i, ?_, ?_⟩
  · have hstart : (((if minus then ['-'] else []) ++ body).drop (if minus then 1 else 0)) =
        body := by
      cases minus <;> simp
    have hminus :
        decide ((((if minus then ['-'] else []) ++ body).head?) = some '-') = minus := by
      cases minus with
      | true => simp
      | false =>
        rw [hb]
        simp only [Bool.false_eq_true, if_false, List.nil_append, List.head?_cons,
          Option.some.injEq, decide_eq_false_iff_not]
        exact hc0m
    have hlen : ((if minus then ['-'] else []) ++ body).length ≠ 0 := by
      rw [hb]
      cases minus <;> simp
    have hneg : (if minus = true then
        (if ((if minus then ['-'] else []) ++ body).getD (if minus = true then 1 else 0)
              (Char.ofNat 0) = '0' ∧
            ((if minus then ['-'] else []) ++ body).length -
              (if minus = true then 1 else 0) = 1
          then false else true)
        else false) = minus := by
      cases minus with
      | false => rfl
      | true =>
        simp only [if_true]
        rw [if_neg]
        rintro ⟨hz, _⟩
        apply hh
        rw [hb] at hz ⊢
        simp at hz
        simp [hz]
    have hp : parseLoop body.reverse 1 0 [] = (ds1, (t1 : Int)) := by
      have e1 : ((10 ^ 0 : Nat) : Int) = 1 := by decide
      have e2 : ((0 : Nat) : Int) = 0 := rfl
      rw [e1, e2] at h1
      exact h1
    unfold ofString
    rw [if_neg hlen]
    simp only [hminus, hstart, hneg, hp]
    unfold removeLeadingZeros
    simp only [List.reverse_append, List.reverse_cons, List.reverse_nil, List.nil_append,
      List.singleton_append]
    rw [popZeros_top _ _ ht1i]
    simp only [List.reverse_cons, List.reverse_reverse]
    unfold CheckForZero
    rw [if_neg]
    rintro (h | h)
    · simp at h
    · have hds : ds1 = [] := by
        cases ds1 with
        | nil => rfl
        | cons x xs =>
          have := congrArg List.length h
          simp at this
      rw [hds] at h
      simp only [List.nil_append, List.cons.injEq, and_true] at h
      exact ht1i h
  · unfold toString
    rw [if_neg (by simp)]
    have hl : (ds1 ++ [(t1 : Int)]).getLastD 0 = (t1 : Int) := List.getLastD_concat _ _ _
    have hdl : (ds1 ++ [(t1 : Int)]).dropLast = ds1 := by simp
    simp only [hl, hdl]
    rw [show64_top j1 t1 hj1 h2 h4 (Or.inl hpz)]
    have hr : (ds1.reverse.flatMap fun d => setw8 (show64 d)) = render ds1 := rfl
    rw [hr, List.append_assoc, h5b]

end BigInteger

namespace BigInteger

/-- Claim C40: for every canonical decimal string `s`, `BigInteger(s).toString()` is `s`;
the stored limbs are not empty, the most significant one is not zero when there are
several, and the sign flag is false when the limbs are `[0]`. -/
theorem decimal_round_trip (s : List Char) (hs : Canonical s) :
    toString (ofString s) = s ∧ (ofString s).digits_ ≠ [] ∧
      (1 < (ofString s).digits_.length → (ofString s).digits_.getLastD 0 ≠ 0) ∧
      ((ofString s).digits_ = [0] → (ofString s).is_negative_ = false) := by
  rcases hs with rfl | ⟨body, hsb, hne, hd, hh⟩
  · refine ⟨by decide, by decide, by decide, by decide⟩
  · have key : ∀ minus : Bool, s = (if minus then ['-'] else []) ++ body →
        toString (ofString s) = s ∧ (ofString s).digits_ ≠ [] ∧
          (1 < (ofString s).digits_.length → (ofString s).digits_.getLastD 0 ≠ 0) ∧
          ((ofString s).digits_ = [0] → (ofString s).is_negative_ = false) := by
      intro minus hsm
      obtain ⟨ds1, t1, ht1, hobj, hstr⟩ := ofString_body body minus hne hd hh
      rw [hsm, hobj]
      refine ⟨hstr, by simp, ?_, ?_⟩
      · intro _
        show (ds1 ++ [t1]).getLastD 0 ≠ 0
        rw [List.getLastD_concat]
        exact ht1
      · intro h
        exfalso
        have h2 : ds1 ++ [t1] = [0] := h
        have hds : ds1 = [] := by
          cases ds1 with
          | nil => rfl
          | cons x xs =>
            have := congrArg List.length h2
            simp at this
        rw [hds] at h2
        simp only [List.nil_append, List.cons.injEq, and_true] at h2
        exact ht1 h2
    rcases hsb with h | h
    · exact key false (by simpa using h)
    · exact key true (by simpa using h)

/-- Claim C40 at the string `"-1234567890123456789"` (three limbs). -/
theorem decimal_round_trip_witness :
    Canonical ['-', '1', '2', '3', '4', '5', '6', '7', '8', '9', '0', '1', '2', '3', '4', '5',
        '6', '7', '8', '9'] ∧
      toString (ofString ['-', '1', '2', '3', '4', '5', '6', '7', '8', '9', '0', '1', '2', '3',
        '4', '5', '6', '7', '8', '9']) =
        ['-', '1', '2', '3', '4', '5', '6', '7', '8', '9', '0', '1', '2', '3', '4', '5', '6',
          '7', '8', '9'] :=
  ⟨Or.inr ⟨_, Or.inr rfl, by decide, by decide, by decide⟩,
    (decimal_round_trip _ (Or.inr ⟨_, Or.inr rfl, by decide, by decide, by decide⟩)).1⟩

/-- Claim C39, evaluated on the code.  For the least `int64_t` value `-2^63` the constructor
`BigInteger(int64_t)` calls `std::abs(x)`, which has no defined result.  Where `std::abs`
returns its argument unchanged, `x` stays negative, the loop pushes no limb, and the object
has no limbs and a set sign flag; for this `a` and `b = 1`, `a / b` and `a % b` are both
`0`, not the quotient and the remainder of `-2^63` by `1`.  For `-7` and `2` the code
yields the quotient `-3` and the remainder `-1`, for `10^16` and `99999999` the quotient
`100000001` and the remainder `1`, and division by `0` throws. -/
theorem divide_least_int64 :
    ofInt64 (-(2 ^ 63)) = none ∧
    ofInt64_wrapping (-(2 ^ 63)) = { digits_ := [], is_negative_ := true } ∧
    div (ofInt64_wrapping (-(2 ^ 63))) (ofInt64_defined 1) = some zero ∧
    mod (ofInt64_wrapping (-(2 ^ 63))) (ofInt64_defined 1) = some zero ∧
    ((ofInt64 (-7)).bind fun a => (ofInt64 2).bind fun b => (div a b).map toInt) =
      some (-3) ∧
    ((ofInt64 (-7)).bind fun a => (ofInt64 2).bind fun b => (mod a b).map toInt) =
      some (-1) ∧
    ((ofInt64 10000000000000000).bind fun a => (ofInt64 99999999).bind fun b =>
      (div a b).map toInt) = some 100000001 ∧
    ((ofInt64 10000000000000000).bind fun a => (ofInt64 99999999).bind fun b =>
      (mod a b).map toInt) = some 1 ∧
    ((ofInt64 5).bind fun a => div a zero) = none ∧
    ((ofInt64 5).bind fun a => mod a zero) = none := by
  refine ⟨by decide, by decide, by decide, by decide, by decide, by decide, by decide,
    by decide, by decide, by decide⟩

end BigInteger
